import Mathlib

/-!
# Priority Matrix: classification pipeline

A shallow embedding of the classification engine of `PriorityMatrix.jsx`
(`extractFrontmatterValue`, `extractTagValue`, `cachedParseDate`,
`getCachedTaskDate`, `isOverdue`, `isToday`, `isThisWeek`,
`createSortComparator` and `sectionData`), followed by theorems about it.

Conventions of the embedding

* JavaScript values are the type `JSVal`; numbers are the integer-valued ones
  plus `NaN`, objects are reduced to the three properties the code reads
  (`value`, `raw`, `tag`), an absent property reading as `undefined`.
* Built-ins whose result depends on the locale, the time zone, the clock or the
  engine's date grammar are fields of `Host`.
* Exceptions are `Except String`; a `try`/`catch` is a `match` on the result.
* Double precision arithmetic (the proportional cap) is computed exactly on
  natural numbers: a double is a fraction whose denominator is a power of two.
-/

namespace PriorityMatrix

/-! ## JavaScript values -/

/-- JavaScript values as far as the pipeline inspects them. `obj value raw tag`
is an object (or array) whose properties `value`, `raw` and `tag` read as given;
a missing property reads as `undefined`. -/
inductive JSVal where
  | undefined
  | null
  | bool (b : Bool)
  | num (n : Int)
  | nan
  | str (s : String)
  | obj (value raw tag : JSVal)
  deriving DecidableEq, Repr

/-- ToBoolean: `undefined`, `null`, `false`, `0`, `NaN` and the empty string are falsy. -/
def JSVal.truthy : JSVal → Bool
  | .undefined => false
  | .null => false
  | .bool b => b
  | .num n => n != 0
  | .nan => false
  | .str s => s != ""
  | .obj _ _ _ => true

/-- The operator `a || b`. -/
def jsOr (a b : JSVal) : JSVal := if a.truthy then a else b

/-- The operator `a === b`. Two objects are equal only when they are the same
reference; the operands compared by the pipeline (a rule's value against a value
read from an item) are never the same object, so objects compare unequal.
`NaN` is unequal to itself. -/
def strictEq : JSVal → JSVal → Bool
  | .undefined, .undefined => true
  | .null, .null => true
  | .bool a, .bool b => a == b
  | .num a, .num b => a == b
  | .str a, .str b => a == b
  | _, _ => false

/-- The conversion `String(v)`; objects are plain objects. -/
def toJSString : JSVal → String
  | .undefined => "undefined"
  | .null => "null"
  | .bool true => "true"
  | .bool false => "false"
  | .num n => toString n
  | .nan => "NaN"
  | .str s => s
  | .obj _ _ _ => "[object Object]"

/-- `extractFrontmatterValue(value)`, lines 506-512. -/
def extractFrontmatterValue (value : JSVal) : JSVal :=
  if !value.truthy then value
  else
    match value with
    | .obj v r _ => jsOr v (jsOr r value)
    | _ => value

/-- `extractTagValue(tag)`, lines 515-523. -/
def extractTagValue (tag : JSVal) : String :=
  if !tag.truthy then ""
  else
    let actualTag :=
      match tag with
      | .obj v r t => jsOr v (jsOr r (jsOr t tag))
      | _ => tag
    match actualTag with
    | .str s =>
      match s.data with
      | '#' :: rest => String.mk rest
      | _ => s
    | _ => ""

/-! ## Strings and regular expressions -/

/-- White space and line terminators of ECMAScript (`trim`, `\s`). -/
def isJSSpace (c : Char) : Bool :=
  let n := c.toNat
  n == 9 || n == 10 || n == 11 || n == 12 || n == 13 || n == 32 || n == 160 ||
  n == 5760 || (8192 ≤ n && n ≤ 8202) || n == 8232 || n == 8233 || n == 8239 ||
  n == 8287 || n == 12288 || n == 65279

/-- `String.prototype.trim`. -/
def jsTrim (s : String) : String :=
  String.mk ((s.data.dropWhile isJSSpace).reverse.dropWhile isJSSpace).reverse

/-- Whether `pat` occurs at the head of `cs`. -/
def startsWithChars : List Char → List Char → Bool
  | [], _ => true
  | _ :: _, [] => false
  | p :: ps, c :: cs => p == c && startsWithChars ps cs

/-- `String.prototype.includes` on character lists. -/
def includesChars (pat : List Char) : List Char → Bool
  | [] => pat.isEmpty
  | c :: cs => startsWithChars pat (c :: cs) || includesChars pat cs

/-- Regular expressions, the fragment used by the date patterns: a character
class, concatenation, alternation, the greedy `?`, the greedy `*` over a class,
the empty pattern and the single capturing group. -/
inductive Re where
  | cls (p : Char → Bool)
  | seq (a b : Re)
  | alt (a b : Re)
  | opt (a : Re)
  | star (p : Char → Bool)
  | eps
  | cap (a : Re)

/-- Greedy `*` over a character class with backtracking into the continuation. -/
def starRun {β : Type} (p : Char → Bool) :
    List Char → (List Char → Option β) → Option β
  | [], k => k []
  | c :: cs, k =>
    if p c then
      match starRun p cs k with
      | some r => some r
      | none => k (c :: cs)
    else k (c :: cs)

/-- Backtracking matcher: runs `r` at the head of the input, threading the text
captured by the group, and calls the continuation on what is left. Alternatives
are tried left to right and `?`, `*` are greedy, as in ECMAScript. -/
def Re.run {β : Type} : Re → List Char → Option (List Char) →
    (List Char → Option (List Char) → Option β) → Option β
  | .cls p, cs, g, k =>
    match cs with
    | c :: rest => if p c then k rest g else none
    | [] => none
  | .seq a b, cs, g, k => a.run cs g (fun rest g1 => b.run rest g1 k)
  | .alt a b, cs, g, k =>
    match a.run cs g k with
    | some r => some r
    | none => b.run cs g k
  | .opt a, cs, g, k =>
    match a.run cs g k with
    | some r => some r
    | none => k cs g
  | .star p, cs, g, k => starRun p cs (fun rest => k rest g)
  | .eps, cs, g, k => k cs g
  | .cap a, cs, _, k =>
    a.run cs none (fun rest _ => k rest (some (cs.take (cs.length - rest.length))))

/-- The capture of the first (leftmost) match of `r` in the text, as
`text.match(r)[1]`; `none` when there is no match. -/
def Re.search (r : Re) : List Char → Option (List Char)
  | [] => r.run [] none (fun _ g => some (g.getD []))
  | c :: cs =>
    match r.run (c :: cs) none (fun _ g => some (g.getD [])) with
    | some m => some m
    | none => Re.search r cs

/-- Concatenation of a list of patterns. -/
def Re.cat : List Re → Re
  | [] => .eps
  | [a] => a
  | a :: rest => .seq a (Re.cat rest)

/-- The literal character `c`. -/
def Re.chr (c : Char) : Re := .cls (fun x => x == c)

/-- The class `\d`. -/
def Re.digit : Re := .cls Char.isDigit

/-- The quantified class `\d{1,2}`. -/
def Re.digit12 : Re := .seq Re.digit (.opt Re.digit)

/-- The quantified class `\d{2}`. -/
def Re.digit2 : Re := .seq Re.digit Re.digit

/-- The quantified class `\d{4}`. -/
def Re.digit4 : Re := .seq Re.digit2 Re.digit2

/-- The optional marker `(?:📅\s*|🗓️\s*)?` that opens each date pattern. -/
def Re.calendarMark : Re :=
  .opt (.alt (.seq (Re.chr (Char.ofNat 0x1F4C5)) (.star isJSSpace))
    (Re.cat [Re.chr (Char.ofNat 0x1F5D3), Re.chr (Char.ofNat 0xFE0F), .star isJSSpace]))

/-- The tail `(?:\s+\d{1,2}:\d{2}(?::\d{2})?(?:\s*[AP]M)?)?` of the slash and
dash patterns (flag `i`). -/
def Re.clockTail : Re :=
  .opt (Re.cat [.cls isJSSpace, .star isJSSpace, Re.digit12, Re.chr ':', Re.digit2,
    .opt (.seq (Re.chr ':') Re.digit2),
    .opt (Re.cat [.star isJSSpace, .cls (fun c => c == 'A' || c == 'P' || c == 'a' || c == 'p'),
      .cls (fun c => c == 'M' || c == 'm')])])

/-- `COMMON_CONSTANTS.DATE_PATTERNS`, lines 57-61: ISO, slash date, dash date. -/
def DATE_PATTERNS : List Re :=
  [ .seq Re.calendarMark (.cap (Re.cat [Re.digit4, Re.chr '-', Re.digit2, Re.chr '-', Re.digit2,
      .opt (Re.cat [.cls (fun c => c == 'T' || c == ' '), Re.digit2, Re.chr ':', Re.digit2,
        .opt (.seq (Re.chr ':') Re.digit2)])])),
    .seq Re.calendarMark (.cap (Re.cat [Re.digit12, Re.chr '/', Re.digit12, Re.chr '/',
      Re.digit4, Re.clockTail])),
    .seq Re.calendarMark (.cap (Re.cat [Re.digit12, Re.chr '-', Re.digit12, Re.chr '-',
      Re.digit4, Re.clockTail])) ]

/-- The anchored test `/^.../.test(text)`. -/
def Re.test (r : Re) (cs : List Char) : Bool :=
  (r.run cs none (fun _ _ => some ())).isSome

/-- The head `^\d{4}-\d{2}-\d{2}` tested by `cachedParseDate`. -/
def isoHead : Re := Re.cat [Re.digit4, Re.chr '-', Re.digit2, Re.chr '-', Re.digit2]

/-- The head `^\d{1,2}[\/\-]\d{1,2}[\/\-]\d{4}` tested by `cachedParseDate`. -/
def slashHead : Re :=
  Re.cat [Re.digit12, .cls (fun c => c == '/' || c == '-'), Re.digit12,
    .cls (fun c => c == '/' || c == '-'), Re.digit4]

/-- The call `text.split(/[\/\-]/)`. -/
def splitDateSeparators : List Char → List (List Char)
  | [] => [[]]
  | c :: rest =>
    if c == '/' || c == '-' then [] :: splitDateSeparators rest
    else
      match splitDateSeparators rest with
      | p :: ps => (c :: p) :: ps
      | [] => [[c]]

/-- The call `parseInt(text, 10)`: leading white space, an optional sign, then the
longest run of digits; `none` stands for `NaN`. -/
def parseInt10 (cs : List Char) : Option Int :=
  let body := cs.dropWhile isJSSpace
  let signed : Bool × List Char :=
    match body with
    | '-' :: r => (true, r)
    | '+' :: r => (false, r)
    | _ => (false, body)
  let ds := signed.2.takeWhile Char.isDigit
  if ds.isEmpty then none
  else
    let v : Int := ds.foldl (fun acc c => acc * 10 + ((c.toNat - 48 : Nat) : Int)) 0
    some (if signed.1 then -v else v)

/-! ## The host: clock, time zone, locale -/

/-- Built-ins of the JavaScript host that the pipeline calls. Instants are
milliseconds since the epoch; `none` is an invalid date. -/
structure Host where
  /-- The clock, `new Date().getTime()`. -/
  now : Int
  /-- The constructor `new Date(text)`, `none` when the text is not a date. -/
  dateParse : String → Option Int
  /-- The constructor `new Date(year, monthIndex, day)` in local time. -/
  dateLocal : Int → Int → Int → Option Int
  /-- The call `d.setHours(0, 0, 0, 0)`. -/
  setHoursZero : Int → Int
  /-- The call `d.setHours(23, 59, 59, 999)`. -/
  setHoursEnd : Int → Int
  /-- The call `d.getDay()`. -/
  getDay : Int → Int
  /-- The call `d.getDate()`. -/
  getDate : Int → Int
  /-- The call `d.setDate(n)`. -/
  setDate : Int → Int → Int
  /-- The call `d.toDateString()`. -/
  toDateString : Int → String
  /-- The call `s.toLowerCase()`. -/
  toLowerCase : String → String
  /-- The call `a.localeCompare(b)`. -/
  localeCompare : String → String → Int

/-! ## Date parsing -/

/-- The body of the `try` block of `cachedParseDate` (lines 547-576): the value
stored under `cacheKey`. -/
def parseDateCompute (h : Host) (cacheKey : String) : Option Int :=
  let cleanInput := jsTrim cacheKey
  if isoHead.test cleanInput.data then h.dateParse cleanInput
  else if slashHead.test cleanInput.data then
    match splitDateSeparators cleanInput.data with
    | [p0, p1, p2] =>
      match parseInt10 p0, parseInt10 p1, parseInt10 p2 with
      | some month, some day, some year =>
        if month > 12 && day ≤ 12 then h.dateLocal year (day - 1) month
        else h.dateLocal year (month - 1) day
      | _, _, _ => none
    | _ => none
  else h.dateParse cleanInput

/-- The memo table `parseDateCache`: a `Map` in insertion order. -/
abbrev ParseDateCache := List (String × Option Int)

/-- `COMMON_CONSTANTS.CACHE_LIMITS.parseDate`. -/
def CACHE_LIMIT_parseDate : Nat := 1000

/-- `COMMON_CONSTANTS.CACHE_LIMITS.taskDate`. -/
def CACHE_LIMIT_taskDate : Nat := 500

/-- `cachedParseDate(dateInput)`, lines 540-589, with the memo table passed in
and out. -/
def cachedParseDate (h : Host) (cache : ParseDateCache) (dateInput : JSVal) :
    Option Int × ParseDateCache :=
  if !dateInput.truthy then (none, cache)
  else
    let cacheKey := toJSString dateInput
    match cache.lookup cacheKey with
    | some v => (v, cache)
    | none =>
      let result := parseDateCompute h cacheKey
      let stored := cache ++ [(cacheKey, result)]
      (result, if stored.length > CACHE_LIMIT_parseDate then stored.tail else stored)

/-- `parseDate(dateInput)`, line 1182: the value `cachedParseDate` returns. The
memo table holds, under each key, the value computed from that key, so the
returned value does not depend on the table (`cachedParseDate_fst`). -/
def parseDate (h : Host) (dateInput : JSVal) : Option Int :=
  if !dateInput.truthy then none else parseDateCompute h (toJSString dateInput)

/-- Every entry of the memo table is the value computed from its key. -/
def ParseDateCache.Sound (h : Host) (cache : ParseDateCache) : Prop :=
  ∀ kv ∈ cache, kv.2 = parseDateCompute h kv.1

/-- `isOverdue(dateInput)`, lines 1190-1198. -/
def isOverdue (h : Host) (dateInput : JSVal) : Bool :=
  match parseDate h dateInput with
  | none => false
  | some date => decide (h.setHoursZero date < h.setHoursZero h.now)

/-- `isToday(dateInput)`, lines 1200-1205. -/
def isToday (h : Host) (dateInput : JSVal) : Bool :=
  match parseDate h dateInput with
  | none => false
  | some date => h.toDateString date == h.toDateString h.now

/-- `isThisWeek(dateInput)`, lines 1207-1225. -/
def isThisWeek (h : Host) (dateInput : JSVal) : Bool :=
  match parseDate h dateInput with
  | none => false
  | some date =>
    let today := h.now
    let dayOfWeek := h.getDay today
    let weekStart := h.setHoursZero (h.setDate today (h.getDate today - dayOfWeek))
    let weekEnd := h.setHoursEnd (h.setDate today (h.getDate today - dayOfWeek + 6))
    decide (weekStart ≤ date) && decide (date ≤ weekEnd)

/-! ## Task dates -/

/-- The loop over `DATE_PATTERNS` in `getCachedTaskDate` (lines 1132-1139). -/
def taskDateScan (text : String) : Option String :=
  (DATE_PATTERNS.findSome? (fun pattern => pattern.search text.data)).map String.mk

/-- The memo table `taskDateCache`. -/
abbrev TaskDateCache := List (String × Option String)

/-- Every entry of the task-date memo table is the value scanned from its key. -/
def TaskDateCache.Sound (cache : TaskDateCache) : Prop :=
  ∀ kv ∈ cache, kv.2 = taskDateScan kv.1

/-- `getCachedTaskDate(taskText)`, lines 1124-1143, with the memo table passed
in and out. `taskText.match` is a `TypeError` on a truthy value that is not a
string. -/
def getCachedTaskDate (cache : TaskDateCache) (taskText : JSVal) :
    Except String (Option String × TaskDateCache) :=
  if !taskText.truthy then .ok (none, cache)
  else
    match taskText with
    | .str text =>
      match cache.lookup text with
      | some v => .ok (v, cache)
      | none =>
        let result := taskDateScan text
        .ok (result, cache ++ [(text, result)])
    | _ => .error "TypeError: taskText.match is not a function"

/-- `extractTaskDate(taskText)`, lines 1228-1230: the value `getCachedTaskDate`
returns, which does not depend on the memo table (`getCachedTaskDate_fst`). -/
def extractTaskDate (taskText : JSVal) : Except String (Option String) :=
  if !taskText.truthy then .ok none
  else
    match taskText with
    | .str text => .ok (taskDateScan text)
    | _ => .error "TypeError: taskText.match is not a function"

/-- A string or `null` as a JavaScript value. -/
def optStr : Option String → JSVal
  | some s => .str s
  | none => .null

/-! ## Double precision arithmetic of the cap -/

/-- A non-negative double, held exactly as `num / den` with `den` a power of two. -/
structure Dbl where
  num : Nat
  den : Nat
  deriving DecidableEq, Repr

/-- The nearest natural number to `n / d`, ties to the even one. -/
def roundHalfEven (n d : Nat) : Nat :=
  if 2 * (n % d) < d then n / d
  else if d < 2 * (n % d) then n / d + 1
  else if n / d % 2 = 0 then n / d
  else n / d + 1

/-- Auxiliary for `floorLog2`, by halving, with fuel. -/
def log2Aux : Nat → Nat → Nat
  | 0, _ => 0
  | fuel + 1, n => if n < 2 then 0 else log2Aux fuel (n / 2) + 1

/-- The position of the leading bit of `n`: `2 ^ floorLog2 n ≤ n < 2 ^ (floorLog2 n + 1)`. -/
def floorLog2 (n : Nat) : Nat := log2Aux n n

/-- The power of two by which `a / b` is scaled into `[2^52, 2^53)`, plus the
position of the leading bit of `a`: `52 - e + floorLog2 a`, where `e` is the
exponent of the quotient. -/
def flShift (a b : Nat) : Nat :=
  52 + floorLog2 b + (if b * 2 ^ floorLog2 a ≤ a * 2 ^ floorLog2 b then 0 else 1)

/-- The double nearest to the positive rational `a / b` (round to nearest, ties
to even, 53 significant bits). The quotient is scaled by a power of two into
`[2^52, 2^53)`, rounded to a natural number and scaled back. -/
def fl (a b : Nat) : Dbl :=
  if a = 0 then ⟨0, 1⟩
  else
    ⟨roundHalfEven (a * 2 ^ (flShift a b - floorLog2 a)) (b * 2 ^ (floorLog2 a - flShift a b)) *
        2 ^ (floorLog2 a - flShift a b),
      2 ^ (flShift a b - floorLog2 a)⟩

/-- The quotient `a / b` of two array lengths (exact integers) as a double. -/
def fdiv (a b : Nat) : Dbl := fl a b

/-- The product `m * y` of an integer and a double, as a double. -/
def fmul (m : Nat) (y : Dbl) : Dbl := fl (m * y.num) y.den

/-- `Math.round(y)`: the integer `floor(y + 1/2)`. -/
def mathRound (y : Dbl) : Nat := (2 * y.num + y.den) / (2 * y.den)

/-- The value of a double as a rational number. -/
def Dbl.val (y : Dbl) : ℚ := (y.num : ℚ) / (y.den : ℚ)

/-! ## Items and configuration -/

/-- A note of the vault: `$path`, `$name`, `$frontmatter`. A note without
frontmatter (or a hole in the collection) has `frontmatter = none`. -/
structure Note where
  path : String
  name : JSVal
  frontmatter : Option (List (String × JSVal))
  deriving DecidableEq, Repr

/-- A task of the vault: `$file`, `$line`, `$text`, `$tags`, `$completed`.
`tags = none` when `$tags` is missing or is not an array. -/
structure Task where
  file : String
  line : Nat
  text : JSVal
  tags : Option (List JSVal)
  completed : Bool
  deriving DecidableEq, Repr

/-- The read `bag[key]` of a property bag. -/
def getProp (bag : List (String × JSVal)) (key : String) : JSVal :=
  (bag.lookup key).getD .undefined

/-- The read `note.$frontmatter?.[key]`. -/
def Note.prop (note : Note) (key : String) : JSVal :=
  match note.frontmatter with
  | some bag => getProp bag key
  | none => .undefined

/-- A category's `propertyRules`. -/
structure PropertyRules where
  enabled : Bool
  propertyName : String
  propertyValue : JSVal
  deriving DecidableEq, Repr

/-- A category's `taskRules`. -/
structure TaskRules where
  enabled : Bool
  tagName : JSVal
  deriving DecidableEq, Repr

/-- A category (`config.sections[key]`); either rule may be missing. -/
structure SectionConfig where
  title : String
  subtitle : String
  propertyRules : Option PropertyRules
  taskRules : Option TaskRules
  deriving DecidableEq, Repr

/-- `config.display`, the fields read by the pipeline. -/
structure Display where
  showTasks : Bool
  showNotes : Bool
  showCompleted : Bool
  sortBy : String
  filterBy : String
  maxItemsPerSection : Int
  deriving DecidableEq, Repr

/-- The configuration read by `sectionData`. -/
structure Config where
  sections : List (String × SectionConfig)
  display : Display
  searchQuery : String
  datePropertyName : String
  deriving DecidableEq, Repr

/-- The default category `doFirst`, lines 607-615. -/
def sectionDoFirst : SectionConfig :=
  ⟨"🔥 Do First", "Urgent & Important",
    some ⟨true, "eisenhower_status", .str "urgent_important"⟩,
    some ⟨true, .str "urgent-important"⟩⟩

/-- The default category `schedule`, lines 616-624. -/
def sectionSchedule : SectionConfig :=
  ⟨"📅 Schedule", "Not Urgent & Important",
    some ⟨true, "eisenhower_status", .str "not_urgent_important"⟩,
    some ⟨true, .str "schedule"⟩⟩

/-- The default category `delegate`, lines 625-633. -/
def sectionDelegate : SectionConfig :=
  ⟨"👥 Delegate", "Urgent & Not Important",
    some ⟨true, "eisenhower_status", .str "urgent_not_important"⟩,
    some ⟨true, .str "delegate"⟩⟩

/-- The default category `eliminate`, lines 634-642. -/
def sectionEliminate : SectionConfig :=
  ⟨"🗑️ Don't Do", "Not Urgent & Not Important",
    some ⟨true, "eisenhower_status", .str "not_urgent_not_important"⟩,
    some ⟨true, .str "eliminate"⟩⟩

/-- The default `config.sections`, lines 606-643. -/
def defaultSections : List (String × SectionConfig) :=
  [("doFirst", sectionDoFirst), ("schedule", sectionSchedule), ("delegate", sectionDelegate),
    ("eliminate", sectionEliminate)]

/-- The default `config.display`, lines 644-656. -/
def defaultDisplay : Display :=
  ⟨true, true, true, "priority", "all", 10⟩

/-- The default configuration, lines 605-677. -/
def defaultConfig : Config :=
  ⟨defaultSections, defaultDisplay, "", "due_date"⟩

/-! ## Sorting -/

/-- How `createSortComparator(type)` reads an item of the given type: its name
(`$name` or `$text`) and its date (the date property of the frontmatter, or the
date found in the task text). -/
structure ItemKind (α : Type) where
  nameOf : α → JSVal
  dateOf : α → Except String JSVal

/-- The type `'note'`. -/
def noteKind (cfg : Config) : ItemKind Note :=
  ⟨fun a => a.name, fun a => .ok (extractFrontmatterValue (a.prop cfg.datePropertyName))⟩

/-- The type `'task'`. -/
def taskKind : ItemKind Task :=
  ⟨fun a => a.text, fun a =>
    match extractTaskDate a.text with
    | .ok d => .ok (optStr d)
    | .error e => .error e⟩

/-- The `'name'` comparator, lines 1246-1250. `nameA.localeCompare` is a
`TypeError` unless `nameA` is a string; the argument is converted to a string. -/
def compareName {α : Type} (h : Host) (kind : ItemKind α) (a b : α) : Except String Int :=
  match kind.nameOf a with
  | .str nameA => .ok (h.localeCompare nameA (toJSString (kind.nameOf b)))
  | _ => .error "TypeError: nameA.localeCompare is not a function"

/-- The instant `cachedParseDate(date)?.getTime() || 0` of the `'date'` comparator. -/
def dateInstant (h : Host) (date : JSVal) : Int := (parseDate h date).getD 0

/-- The `'date'` comparator, lines 1253-1266. -/
def compareDate {α : Type} (h : Host) (kind : ItemKind α) (a b : α) : Except String Int :=
  match kind.dateOf a with
  | .error e => .error e
  | .ok dateA =>
    match kind.dateOf b with
    | .error e => .error e
    | .ok dateB =>
      if !dateA.truthy && !dateB.truthy then .ok 0
      else if !dateA.truthy then .ok 1
      else if !dateB.truthy then .ok (-1)
      else .ok (dateInstant h dateA - dateInstant h dateB)

/-- The `'priority'` comparator, lines 1270-1283. -/
def comparePriority {α : Type} (h : Host) (kind : ItemKind α) (a b : α) : Except String Int :=
  match kind.dateOf a with
  | .error e => .error e
  | .ok dateA =>
    match kind.dateOf b with
    | .error e => .error e
    | .ok dateB =>
      let isOverdueA := isOverdue h dateA
      let isOverdueB := isOverdue h dateB
      if isOverdueA && !isOverdueB then .ok (-1)
      else if !isOverdueA && isOverdueB then .ok 1
      else .ok 0

/-- `createSortComparator(type)`, lines 1243-1285. -/
def createSortComparator {α : Type} (h : Host) (cfg : Config) (kind : ItemKind α) :
    α → α → Except String Int :=
  if cfg.display.sortBy = "name" then compareName h kind
  else if cfg.display.sortBy = "date" then compareDate h kind
  else comparePriority h kind

/-- The binary search of a binary insertion: the window `w` of the sorted run
starts at position `k`; the element in its middle, `w[w.length / 2]`, is
compared with the pivot, the pivot first; a negative order keeps the part of
the window before the middle, any other order the part after it. -/
def bsearch {α : Type} (cmp : α → α → Except String Int) (pivot : α) :
    Nat → Nat → List α → Except String Nat
  | 0, k, _ => .ok k
  | fuel + 1, k, w =>
    match w.drop (w.length / 2) with
    | [] => .ok k
    | e :: rest =>
      match cmp pivot e with
      | .error err => .error err
      | .ok order =>
        if order < 0 then bsearch cmp pivot fuel k (w.take (w.length / 2))
        else bsearch cmp pivot fuel (k + w.length / 2 + 1) rest

/-- Binary insertion of the pivot `a`, the next element of the array, into the
sorted run `s` of the elements before it. -/
def insertE {α : Type} (cmp : α → α → Except String Int) (a : α) (s : List α) :
    Except String (List α) :=
  match bsearch cmp a s.length 0 s with
  | .error e => .error e
  | .ok k => .ok (s.take k ++ a :: s.drop k)

/-- The rest of the leading run: the elements after `prev` that go on
descending strictly (`desc`) or not descending, each compared with the one
before it, the later element first; and what follows the run. -/
def takeRun {α : Type} (cmp : α → α → Except String Int) (desc : Bool) :
    α → List α → Except String (List α × List α)
  | _, [] => .ok ([], [])
  | prev, cur :: rest =>
    match cmp cur prev with
    | .error e => .error e
    | .ok order =>
      if decide (order < 0) = desc then
        match takeRun cmp desc cur rest with
        | .error e => .error e
        | .ok (run, tail) => .ok (cur :: run, tail)
      else .ok ([], cur :: rest)

/-- Binary insertion, one after the other, of the elements that follow the run. -/
def insertAll {α : Type} (cmp : α → α → Except String Int) :
    List α → List α → Except String (List α)
  | s, [] => .ok s
  | s, a :: rest =>
    match insertE cmp a s with
    | .error e => .error e
    | .ok s2 => insertAll cmp s2 rest

/-- `Array.prototype.sort(cmp)` as V8 runs it on an array of fewer than 64
elements, which is one run of its merge sort: the leading run is found and,
when it descends strictly, reversed; every later element is then placed by
binary insertion. The comparator is always called with the later element of
the array first, and an exception of the comparator leaves the sort. (Longer
arrays are cut into runs sorted this way and merged, the later element first
as well; with a consistent comparator every stable sort returns the same
list.) -/
def sortE {α : Type} (cmp : α → α → Except String Int) : List α → Except String (List α)
  | [] => .ok []
  | [a] => .ok [a]
  | a0 :: a1 :: rest =>
    match cmp a1 a0 with
    | .error e => .error e
    | .ok order =>
      match takeRun cmp (decide (order < 0)) a1 rest with
      | .error e => .error e
      | .ok (run, tail) =>
        insertAll cmp
          (if order < 0 then (a0 :: a1 :: run).reverse else a0 :: a1 :: run) tail

/-! ## The classification pass -/

/-- The search query `config.ui.searchQuery?.toLowerCase() || ''`, line 1236. -/
def searchQueryOf (h : Host) (cfg : Config) : String := h.toLowerCase cfg.searchQuery

/-- The search test `!(hasSearch && !field?.toLowerCase().includes(query))` on
`$name` or `$text`: `true` when the item passes. Without a query the field is
not read; `undefined` and `null` stop the optional chain and fail the test; a
value that is not a string has no `toLowerCase`. -/
def searchPass (h : Host) (query : String) (field : JSVal) : Except String Bool :=
  if query = "" then .ok true
  else
    match field with
    | .undefined => .ok false
    | .null => .ok false
    | .str s => .ok (includesChars query.data (h.toLowerCase s).data)
    | _ => .error "TypeError: toLowerCase is not a function"

/-- The advanced filter of the note loop, lines 1308-1319: `true` when the note passes. -/
def noteFilterPass (h : Host) (cfg : Config) (note : Note) : Bool :=
  if cfg.display.filterBy ≠ "all" then
    let date := extractFrontmatterValue (note.prop cfg.datePropertyName)
    if cfg.display.filterBy = "overdue" then isOverdue h date
    else if cfg.display.filterBy = "today" then isToday h date
    else if cfg.display.filterBy = "week" then isThisWeek h date
    else true
  else true

/-- One iteration of the note loop, lines 1296-1322: `true` when the note is
pushed, `false` on `continue`, an error when the iteration throws. -/
def noteStep (h : Host) (cfg : Config) (rule : PropertyRules) (note : Note) :
    Except String Bool :=
  match note.frontmatter with
  | none => .ok false
  | some bag =>
    let actualValue := extractFrontmatterValue (getProp bag rule.propertyName)
    if !strictEq actualValue rule.propertyValue then .ok false
    else
      match searchPass h (searchQueryOf h cfg) note.name with
      | .error e => .error e
      | .ok false => .ok false
      | .ok true => .ok (noteFilterPass h cfg note)

/-- The tag test `task.$tags.some(tag => extractTagValue(tag) === tagName)`. -/
def hasTag (tags : List JSVal) (tagName : JSVal) : Bool :=
  tags.any (fun tag => strictEq (.str (extractTagValue tag)) tagName)

/-- The advanced filter of the task loop, lines 1351-1361. The date is extracted
before the `switch`, whatever the filter. -/
def taskFilterPass (h : Host) (cfg : Config) (task : Task) : Except String Bool :=
  if cfg.display.filterBy ≠ "all" then
    match extractTaskDate task.text with
    | .error e => .error e
    | .ok d =>
      let date := optStr d
      if cfg.display.filterBy = "overdue" then .ok (isOverdue h date)
      else if cfg.display.filterBy = "today" then .ok (isToday h date)
      else if cfg.display.filterBy = "week" then .ok (isThisWeek h date)
      else if cfg.display.filterBy = "completed" then .ok task.completed
      else if cfg.display.filterBy = "pending" then .ok (!task.completed)
      else .ok true
  else .ok true

/-- One iteration of the task loop, lines 1336-1364. -/
def taskStep (h : Host) (cfg : Config) (rule : TaskRules) (task : Task) :
    Except String Bool :=
  match task.tags with
  | none => .ok false
  | some tags =>
    if !cfg.display.showCompleted && task.completed then .ok false
    else if !hasTag tags rule.tagName then .ok false
    else
      match searchPass h (searchQueryOf h cfg) task.text with
      | .error e => .error e
      | .ok false => .ok false
      | .ok true => taskFilterPass h cfg task

/-- A `for ... of` loop that pushes the items accepted by `step` onto `acc`; an
exception leaves the loop with what was pushed so far. -/
def collect {α : Type} (step : α → Except String Bool) :
    List α → List α → List α × Option String
  | [], acc => (acc, none)
  | x :: xs, acc =>
    match step x with
    | .error e => (acc, some e)
    | .ok true => collect step xs (acc ++ [x])
    | .ok false => collect step xs acc

/-- The body of a `try` block of `sectionData`: the loop, then the sort in
place. The array is declared outside the block and the `catch` only logs, so
after an exception it holds what the loop had pushed; a sort that throws leaves
the array as it was. The second component is the logged exception. -/
def runTry {α : Type} (step : α → Except String Bool) (cmp : α → α → Except String Int)
    (xs : List α) : List α × Option String :=
  match collect step xs [] with
  | (acc, some e) => (acc, some e)
  | (acc, none) =>
    match sortE cmp acc with
    | .ok sorted => (sorted, none)
    | .error e => (acc, some e)

/-- The notes of a category before the cap, lines 1291-1329, and the exception
logged by the `catch`, if any. -/
def processNotes (h : Host) (cfg : Config) (sect : SectionConfig) (notes : List Note) :
    List Note × Option String :=
  match sect.propertyRules with
  | some rule =>
    if cfg.display.showNotes && rule.enabled then
      runTry (noteStep h cfg rule) (createSortComparator h cfg (noteKind cfg)) notes
    else ([], none)
  | none => ([], none)

/-- The tasks of a category before the cap, lines 1331-1371, and the exception
logged by the `catch`, if any. -/
def processTasks (h : Host) (cfg : Config) (sect : SectionConfig) (tasks : List Task) :
    List Task × Option String :=
  match sect.taskRules with
  | some rule =>
    if cfg.display.showTasks && rule.enabled then
      runTry (taskStep h cfg rule) (createSortComparator h cfg taskKind) tasks
    else ([], none)
  | none => ([], none)

/-- The share of the notes, `Math.round(maxItems * noteRatio)` with
`noteRatio = n / (n + t)`, lines 1380-1381, in double precision. -/
def proportionalShare (maxItems n t : Nat) : Nat :=
  mathRound (fmul maxItems (fdiv n (n + t)))

/-- The number of notes kept by the proportional cap when both kinds are
present, `Math.max(1, Math.round(maxItems * noteRatio))`, line 1381. -/
def notesLimit (maxItems n t : Nat) : Nat :=
  max 1 (proportionalShare maxItems n t)

/-- The number of tasks kept by the proportional cap,
`Math.max(1, maxItems - notesLimit)`, line 1382. -/
def tasksLimit (maxItems n t : Nat) : Nat :=
  (max 1 ((maxItems : Int) - (notesLimit maxItems n t : Int))).toNat

/-- The combined limit, lines 1373-1394; `arr.length = k` keeps the first `k`
elements. -/
def applyLimit {α β : Type} (maxItems : Int) (ns : List α) (ts : List β) :
    List α × List β :=
  if maxItems > 0 then
    if ((ns.length + ts.length : Nat) : Int) > maxItems then
      if ns.length > 0 && ts.length > 0 then
        (ns.take (min ns.length (notesLimit maxItems.toNat ns.length ts.length)),
         ts.take (min ts.length (tasksLimit maxItems.toNat ns.length ts.length)))
      else if ns.length > 0 then (ns.take (min ns.length maxItems.toNat), ts)
      else if ts.length > 0 then (ns, ts.take (min ts.length maxItems.toNat))
      else (ns, ts)
    else (ns, ts)
  else (ns, ts)

/-- An entry `result[sectionKey]` of the classification result. -/
structure SectionData where
  sect : SectionConfig
  notes : List Note
  tasks : List Task
  deriving DecidableEq, Repr

/-- The body of the `forEach` of `sectionData` for one category, lines 1287-1401. -/
def processSection (h : Host) (cfg : Config) (notes : List Note) (tasks : List Task)
    (sect : SectionConfig) : SectionData :=
  let capped := applyLimit cfg.display.maxItemsPerSection
    (processNotes h cfg sect notes).1 (processTasks h cfg sect tasks).1
  ⟨sect, capped.1, capped.2⟩

/-- `sectionData`, lines 1233-1404: the classification result, one entry per
category in the order of `config.sections`. -/
def sectionData (h : Host) (cfg : Config) (notes : List Note) (tasks : List Task) :
    List (String × SectionData) :=
  cfg.sections.map (fun entry => (entry.1, processSection h cfg notes tasks entry.2))

/-! ## A concrete host -/

/-- Days since the epoch of the civil date `y-m-d` (proleptic Gregorian). -/
def daysFromCivil (y m d : Int) : Int :=
  let y1 := if m ≤ 2 then y - 1 else y
  let era := y1 / 400
  let yoe := y1 - era * 400
  let doy := (153 * (if m > 2 then m - 3 else m + 9) + 2) / 5 + d - 1
  let doe := yoe * 365 + yoe / 4 - yoe / 100 + doy
  era * 146097 + doe - 719468

/-- The day of the month of the day number `z`. -/
def dayOfMonth (z : Int) : Int :=
  let z1 := z + 719468
  let era := z1 / 146097
  let doe := z1 - era * 146097
  let yoe := (doe - doe / 1460 + doe / 36524 - doe / 146096) / 365
  let doy := doe - (365 * yoe + yoe / 4 - yoe / 100)
  let mp := (5 * doy + 2) / 153
  doy - (153 * mp + 2) / 5 + 1

/-- Milliseconds in a day. -/
def msPerDay : Int := 86400000

/-- The value of a run of decimal digits. -/
def digitsVal (cs : List Char) : Int :=
  cs.foldl (fun acc c => acc * 10 + ((c.toNat - 48 : Nat) : Int)) 0

/-- A date parser that accepts exactly the date-only form `YYYY-MM-DD`, read as
midnight UTC. -/
def isoDateOnly (s : String) : Option Int :=
  match s.data with
  | [y1, y2, y3, y4, '-', m1, m2, '-', d1, d2] =>
    if [y1, y2, y3, y4, m1, m2, d1, d2].all Char.isDigit then
      let m := digitsVal [m1, m2]
      let d := digitsVal [d1, d2]
      if 1 ≤ m && m ≤ 12 && 1 ≤ d && d ≤ 31 then
        some (daysFromCivil (digitsVal [y1, y2, y3, y4]) m d * msPerDay)
      else none
    else none
  | _ => none

/-- Three-way comparison of character lists by code point. -/
def compareChars : List Char → List Char → Int
  | [], [] => 0
  | [], _ :: _ => -1
  | _ :: _, [] => 1
  | a :: as, b :: bs => if a < b then -1 else if b < a then 1 else compareChars as bs

/-- A host in the UTC time zone whose clock reads `now`: dates are parsed from
the date-only ISO form, lower case is the ASCII one, strings compare by code
point and `toDateString` prints the day number. -/
def utcHost (now : Int) : Host where
  now := now
  dateParse := isoDateOnly
  dateLocal := fun y mi d =>
    let months := (if 0 ≤ y && y ≤ 99 then 1900 + y else y) * 12 + mi
    some ((daysFromCivil (months / 12) (months % 12 + 1) 1 + (d - 1)) * msPerDay)
  setHoursZero := fun t => t - t % msPerDay
  setHoursEnd := fun t => t - t % msPerDay + 86399999
  getDay := fun t => (t / msPerDay + 4) % 7
  getDate := fun t => dayOfMonth (t / msPerDay)
  setDate := fun t n => t + (n - dayOfMonth (t / msPerDay)) * msPerDay
  toDateString := fun t => toString (t / msPerDay)
  toLowerCase := fun s => String.mk (s.data.map Char.toLower)
  localeCompare := fun a b => compareChars a.data b.data

/-! ## Vocabulary of the statements -/

/-- A `$name` or `$text` as the host delivers it: a string, or absent. -/
def JSVal.isText : JSVal → Bool
  | .str _ => true
  | .undefined => true
  | .null => true
  | _ => false

/-- The iteration on `x` ends without an exception. -/
def stepOk {α : Type} (step : α → Except String Bool) (x : α) : Bool :=
  match step x with
  | .ok _ => true
  | .error _ => false

/-- The iteration on `x` pushes `x`. -/
def accepts {α : Type} (step : α → Except String Bool) (x : α) : Bool :=
  match step x with
  | .ok b => b
  | .error _ => false

/-- The date an item is sorted by, `undefined` when reading it throws. -/
def dateOfD {α : Type} (kind : ItemKind α) (a : α) : JSVal :=
  match kind.dateOf a with
  | .ok d => d
  | .error _ => .undefined

/-- The order of the `'date'` comparator on dates: `dateLE h da db` holds when
the comparator's result on `da`, `db` is not positive. -/
def dateLE (h : Host) (da db : JSVal) : Prop :=
  if !da.truthy && !db.truthy then True
  else if !da.truthy then False
  else if !db.truthy then True
  else dateInstant h da ≤ dateInstant h db

instance (h : Host) (da db : JSVal) : Decidable (dateLE h da db) := by
  unfold dateLE; infer_instance

/-- Ascending order of two dates as the specification words it: a dateless item
is only followed by dateless items, and of two dated items the earlier resolved
instant comes first. -/
def DateOrdered (h : Host) (da db : JSVal) : Prop :=
  (da.truthy = false → db.truthy = false) ∧
    (da.truthy = true → db.truthy = true → dateInstant h da ≤ dateInstant h db)

/-- Insertion of `x` behind the elements that precede it or tie with it in the
order `r`: the place a stable sort gives to an element that came later. -/
def insertAfter {α : Type} (r : α → α → Prop) [DecidableRel r] (x : α) (s : List α) : List α :=
  s.takeWhile (fun e => decide (r e x)) ++ x :: s.dropWhile (fun e => decide (r e x))

/-- The stable sort of a list by the order `r`. -/
def stableSort {α : Type} (r : α → α → Prop) [DecidableRel r] (l : List α) : List α :=
  l.foldl (fun s x => insertAfter r x s) []

/-- The share of the notes as the specification words it: the exact quotient
`maxItems * n / (n + t)` rounded to the nearest integer, halves up. -/
def exactShare (maxItems n t : Nat) : Nat :=
  (2 * maxItems * n + (n + t)) / (2 * (n + t))

/-- The notes a category matches, in the order of the input collection. -/
def matchedNotes (h : Host) (cfg : Config) (sect : SectionConfig) (notes : List Note) :
    List Note :=
  match sect.propertyRules with
  | some rule =>
    if cfg.display.showNotes && rule.enabled then notes.filter (accepts (noteStep h cfg rule))
    else []
  | none => []

/-- The tasks a category matches, in the order of the input collection. -/
def matchedTasks (h : Host) (cfg : Config) (sect : SectionConfig) (tasks : List Task) :
    List Task :=
  match sect.taskRules with
  | some rule =>
    if cfg.display.showTasks && rule.enabled then tasks.filter (accepts (taskStep h cfg rule))
    else []
  | none => []

/-- Whether the note's date is overdue. -/
def noteOverdue (h : Host) (cfg : Config) (a : Note) : Bool :=
  isOverdue h (dateOfD (noteKind cfg) a)

/-- Whether the date found in the task's text is overdue. -/
def taskOverdue (h : Host) (a : Task) : Bool :=
  isOverdue h (dateOfD taskKind a)

/-- The tag names of the task rules of a list of categories. -/
def ruleTagNames (sections : List (String × SectionConfig)) : List JSVal :=
  sections.filterMap (fun entry => entry.2.taskRules.map (fun rule => rule.tagName))

/-! ## Example inputs -/

/-- A host in UTC on 15 June 2025, one hour after midnight. -/
def exHost : Host := utcHost (daysFromCivil 2025 6 15 * msPerDay + 3600000)

/-- A note whose status is `urgent_important`. -/
def noteUrgent : Note :=
  ⟨"Projects/launch.md", .str "Launch", some [("eisenhower_status", .str "urgent_important")]⟩

/-- A note whose status is `not_urgent_important`. -/
def noteLater : Note :=
  ⟨"Projects/plan.md", .str "Plan", some [("eisenhower_status", .str "not_urgent_important")]⟩

/-- The task of the specification's scenario. -/
def taskReport : Task :=
  ⟨"Projects/launch.md", 12, .str "Finish report #urgent-important 2024-12-25",
    some [.str "#urgent-important"], false⟩

/-- A task whose tag differs from the rule's tag name by case only. -/
def taskUpper : Task :=
  ⟨"Projects/launch.md", 13, .str "Review #Urgent-Important", some [.str "#Urgent-Important"],
    false⟩

/-- A completed task tagged for the first category. -/
def taskDone : Task :=
  ⟨"Projects/launch.md", 14, .str "Book venue #urgent-important", some [.str "#urgent-important"],
    true⟩

/-- A task that carries the tags of two categories. -/
def taskTwoTags : Task :=
  ⟨"Inbox.md", 3, .str "Call the bank #schedule #delegate",
    some [.str "#schedule", .str "#delegate"], false⟩

/-- The default configuration with "show completed" off. -/
def configHideCompleted : Config :=
  ⟨defaultSections, ⟨true, true, false, "priority", "all", 10⟩, "", "due_date"⟩

/-- The default configuration with the search query `la`. -/
def configSearch : Config :=
  ⟨defaultSections, defaultDisplay, "la", "due_date"⟩

/-- The default configuration sorted by date. -/
def configByDate : Config :=
  ⟨defaultSections, ⟨true, true, true, "date", "all", 10⟩, "", "due_date"⟩

/-- The default configuration sorted by name. -/
def configByName : Config :=
  ⟨defaultSections, ⟨true, true, true, "name", "all", 10⟩, "", "due_date"⟩

/-- The default configuration with at most one item per category. -/
def configMaxOne : Config :=
  ⟨defaultSections, ⟨true, true, true, "priority", "all", 1⟩, "", "due_date"⟩

/-- A note of the first category whose `$name` is a number. -/
def noteBadName : Note :=
  ⟨"Projects/odd.md", .num 5, some [("eisenhower_status", .str "urgent_important")]⟩

/-- A note of the first category due on 5 January 2030. -/
def noteDue2030 : Note :=
  ⟨"Projects/later.md", .str "Later",
    some [("eisenhower_status", .str "urgent_important"), ("due_date", .str "2030-01-05")]⟩

/-- A note of the first category due on 5 January 2024, wrapped in a value object. -/
def noteDue2024 : Note :=
  ⟨"Projects/late.md", .str "Late",
    some [("eisenhower_status", .str "urgent_important"),
      ("due_date", .obj (.str "2024-01-05") .undefined .undefined)]⟩

/-- A task of the first category due on 1 March 2031. -/
def taskDue2031 : Task :=
  ⟨"Projects/launch.md", 20, .str "Renew domain #urgent-important 📅 2031-03-01",
    some [.str "#urgent-important"], false⟩

/-- The default configuration with at most eleven items per category. -/
def configMaxEleven : Config :=
  ⟨defaultSections, ⟨true, true, true, "priority", "all", 11⟩, "", "due_date"⟩

/-- An undated task of the first category. -/
def taskPlain : Task :=
  ⟨"Inbox.md", 7, .str "Pay rent #urgent-important", some [.str "#urgent-important"], false⟩

/-- The cleanup of `parseDateCache` by the interval timer, lines 1158-1165: above
the limit only the last `CACHE_LIMITS.taskDate` entries are kept. -/
def cleanParseDateCache (cache : ParseDateCache) : ParseDateCache :=
  if cache.length > CACHE_LIMIT_parseDate then cache.drop (cache.length - CACHE_LIMIT_taskDate)
  else cache

/-- What happens to `parseDateCache`: a call of `cachedParseDate`, or a tick of
the cleanup timer. -/
inductive ParseDateEvent where
  | call (dateInput : JSVal)
  | cleanup

/-- The memo table after one event. -/
def ParseDateEvent.run (h : Host) (cache : ParseDateCache) : ParseDateEvent → ParseDateCache
  | .call dateInput => (cachedParseDate h cache dateInput).2
  | .cleanup => cleanParseDateCache cache

/-- The memo table after a sequence of events, starting from the empty table of
module load (line 539). -/
def parseDateCacheAfter (h : Host) (events : List ParseDateEvent) : ParseDateCache :=
  events.foldl (ParseDateEvent.run h) []

/-- The task-date memo table after `getCachedTaskDate` has been called on each
of the texts in turn, starting from the empty table (a call that throws leaves
the table as it was). -/
def taskDateCacheAfter (texts : List JSVal) : TaskDateCache :=
  texts.foldl (fun cache text =>
    match getCachedTaskDate cache text with
    | .ok r => r.2
    | .error _ => cache) []

/-- The 501 task texts `x`, `xx`, `xxx`, ... -/
def manyTaskTexts : List JSVal :=
  (List.range 501).map (fun i => JSVal.str (String.mk (List.replicate (i + 1) 'x')))

/-- Whether `y` is a leap year of the Gregorian calendar. -/
def isLeapYear (y : Int) : Bool :=
  (y % 4 == 0 && y % 100 != 0) || y % 400 == 0

/-- The number of days of month `m` of year `y`. -/
def daysInMonth (y m : Int) : Int :=
  if m == 2 then (if isLeapYear y then 29 else 28)
  else if m == 4 || m == 6 || m == 9 || m == 11 then 30
  else 31

/-- The text `YYYY-MM-DD` written with the given eight characters. -/
def isoText (y1 y2 y3 y4 m1 m2 d1 d2 : Char) : String :=
  String.mk [y1, y2, y3, y4, '-', m1, m2, '-', d1, d2]

/-- A host whose local time is UTC plus `offset` milliseconds and whose clock
reads `now`. Date-only ISO texts are read as midnight UTC and the local
constructor, `setHours`, `getDay`, `getDate`, `setDate` and `toDateString` work
on local time, as ECMAScript prescribes. -/
def zoneHost (offset now : Int) : Host where
  now := now
  dateParse := isoDateOnly
  dateLocal := fun y mi d =>
    let months := (if 0 ≤ y && y ≤ 99 then 1900 + y else y) * 12 + mi
    some ((daysFromCivil (months / 12) (months % 12 + 1) 1 + (d - 1)) * msPerDay - offset)
  setHoursZero := fun t => t - (t + offset) % msPerDay
  setHoursEnd := fun t => t - (t + offset) % msPerDay + 86399999
  getDay := fun t => ((t + offset) / msPerDay + 4) % 7
  getDate := fun t => dayOfMonth ((t + offset) / msPerDay)
  setDate := fun t n => t + (n - dayOfMonth ((t + offset) / msPerDay)) * msPerDay
  toDateString := fun t => toString ((t + offset) / msPerDay)
  toLowerCase := fun s => String.mk (s.data.map Char.toLower)
  localeCompare := fun a b => compareChars a.data b.data

/-- A host five hours west of UTC whose clock reads 15 June 2025, 10:00 local
time (15:00 UTC). -/
def westHost : Host := zoneHost (-18000000) (daysFromCivil 2025 6 15 * msPerDay + 54000000)

/-- The text captured when the group `G` matches at the head of the text, as in
`Re.search` (`none` when it does not match there). -/
def groupAt (G : Re) (cs : List Char) : Option (List Char) :=
  (Re.cap G).run cs none (fun _ g => some (g.getD []))

/-- The capturing group of the ISO pattern. -/
def Re.isoDate : Re :=
  Re.cat [Re.digit4, Re.chr '-', Re.digit2, Re.chr '-', Re.digit2,
    .opt (Re.cat [.cls (fun c => c == 'T' || c == ' '), Re.digit2, Re.chr ':', Re.digit2,
      .opt (.seq (Re.chr ':') Re.digit2)])]

/-- The capturing group of the slash-date pattern. -/
def Re.slashDate : Re :=
  Re.cat [Re.digit12, Re.chr '/', Re.digit12, Re.chr '/', Re.digit4, Re.clockTail]

/-- The capturing group of the dash-date pattern. -/
def Re.dashDate : Re :=
  Re.cat [Re.digit12, Re.chr '-', Re.digit12, Re.chr '-', Re.digit4, Re.clockTail]

/-- A date that is present (truthy) and that `parseDate` cannot read. -/
def unparseable (h : Host) (d : JSVal) : Bool :=
  d.truthy && (parseDate h d).isNone

/-- A note of the first category whose due date is the text `soon`. -/
def noteDueSoon : Note :=
  ⟨"Projects/vague.md", .str "Vague",
    some [("eisenhower_status", .str "urgent_important"), ("due_date", .str "soon")]⟩

/-- What is left of the text when `r` matches at its head, `none` when it does
not match there. -/
def Re.matchRest (r : Re) (cs : List Char) : Option (List Char) :=
  r.run cs none (fun rest _ => some rest)

/-- The call `text.replace(r, '')` for a pattern with the flag `g`, on character
lists: every match, found from left to right, is removed; a match of length
zero removes nothing and the scan moves on by one character. The first
argument bounds the number of steps; the length of the text is enough
(`removeAll_fuel`). -/
def Re.removeAll (r : Re) : Nat → List Char → List Char
  | 0, cs => cs
  | _ + 1, [] => []
  | fuel + 1, c :: cs =>
    match r.matchRest (c :: cs) with
    | some rest =>
      if rest.length < (c :: cs).length then Re.removeAll r fuel rest
      else c :: Re.removeAll r fuel cs
    | none => c :: Re.removeAll r fuel cs

/-- The call `text.replace(r, '')` for a pattern with the flag `g`. -/
def jsRemoveAll (r : Re) (s : String) : String :=
  String.mk (r.removeAll s.data.length s.data)

/-- The capturing group `\d{1,2}[\/\-]\d{1,2}[\/\-]\d{4}` with the optional
clock tail, of the second `replace` of `HoverableTaskItem` (flags `gi`). -/
def Re.anyDate : Re :=
  Re.cat [Re.digit12, .cls (fun c => c == '/' || c == '-'), Re.digit12,
    .cls (fun c => c == '/' || c == '-'), Re.digit4, Re.clockTail]

/-- The title `OptimizedItem` shows for a task, lines 163 and 189-197: the
`$text`, and when it holds an ISO date, the `$text` with every ISO date (and
its calendar mark) removed, trimmed. `$text.match` is a `TypeError` on a truthy
value that is not a string. -/
def optimizedItemTaskTitle (text : JSVal) : Except String JSVal :=
  if !text.truthy then .ok text
  else
    match text with
    | .str s =>
      if ((Re.cap isoHead).search s.data).isSome then
        .ok (.str (jsTrim (jsRemoveAll (.seq Re.calendarMark (.cap isoHead)) s)))
      else .ok text
    | _ => .error "TypeError: item.$text.match is not a function"

/-- The text `cleanedTaskText` of `HoverableTaskItem`, lines 407-412: the
`$text` with the ISO dates, then the slash and dash dates removed, trimmed.
`$text.replace` is a `TypeError` unless `$text` is a string. -/
def cleanedTaskText (text : JSVal) : Except String String :=
  match text with
  | .str s =>
    .ok (jsTrim (jsRemoveAll (.seq Re.calendarMark (.cap Re.anyDate))
      (jsRemoveAll (.seq Re.calendarMark (.cap Re.isoDate)) s)))
  | _ => .error "TypeError: task.$text.replace is not a function"

/-- A JavaScript number: `NaN`, an infinity, or a finite double held exactly as
`num / den` with `den` a power of two. Zero is unsigned, and overflow and
underflow are left out: the statistics stay far from both. -/
inductive JSNum where
  | nan
  | inf (negative : Bool)
  | fin (num : Int) (den : Nat)
  deriving DecidableEq, Repr

/-- A count (an array length or a sum of array lengths) as a number. -/
def JSNum.ofNat (n : Nat) : JSNum := .fin n 1

/-- The double nearest to the rational `num / den`. -/
def JSNum.round (num : Int) (den : Nat) : JSNum :=
  if num < 0 then .fin (-((fl num.natAbs den).num : Int)) (fl num.natAbs den).den
  else .fin (fl num.natAbs den).num (fl num.natAbs den).den

/-- The sum `x + y`. -/
def JSNum.add : JSNum → JSNum → JSNum
  | .fin a p, .fin b q => JSNum.round (a * q + b * p) (p * q)
  | .inf s, .inf t => if s = t then .inf s else .nan
  | .inf s, .fin _ _ => .inf s
  | .fin _ _, .inf t => .inf t
  | _, _ => .nan

/-- The negation `-x`. -/
def JSNum.neg : JSNum → JSNum
  | .fin a p => .fin (-a) p
  | .inf s => .inf (!s)
  | .nan => .nan

/-- The difference `x - y`. -/
def JSNum.sub (x y : JSNum) : JSNum := x.add y.neg

/-- `Math.abs(x)`. -/
def JSNum.abs : JSNum → JSNum
  | .fin a p => .fin a.natAbs p
  | .inf _ => .inf false
  | .nan => .nan

/-- The product `x * y`. -/
def JSNum.mul : JSNum → JSNum → JSNum
  | .fin a p, .fin b q => JSNum.round (a * b) (p * q)
  | .inf s, .fin b _ => if b = 0 then .nan else .inf (s != decide (b < 0))
  | .fin a _, .inf t => if a = 0 then .nan else .inf (decide (a < 0) != t)
  | .inf s, .inf t => .inf (s != t)
  | _, _ => .nan

/-- The quotient `x / y`: `0 / 0` is `NaN` and any other finite number over
zero is an infinity. -/
def JSNum.div : JSNum → JSNum → JSNum
  | .fin a p, .fin b q =>
    if b = 0 then (if a = 0 then .nan else .inf (decide (a < 0)))
    else JSNum.round (if b < 0 then -(a * q) else a * q) (p * b.natAbs)
  | .fin _ _, .inf _ => .fin 0 1
  | .inf s, .fin b _ => .inf (s != decide (b < 0))
  | _, _ => .nan

/-- `Math.round(x)`: the integer `floor(x + 1/2)`. -/
def JSNum.mathRound : JSNum → JSNum
  | .fin a p => .fin ((2 * a + p) / (2 * p)) 1
  | x => x

/-- The comparison `x < y`; false when either side is `NaN`. -/
def JSNum.lt : JSNum → JSNum → Bool
  | .fin a p, .fin b q => decide (a * q < b * p)
  | .fin _ _, .inf t => !t
  | .inf s, .fin _ _ => s
  | .inf s, .inf t => s && !t
  | _, _ => false

/-- The comparison `x <= y`; false when either side is `NaN`. -/
def JSNum.le : JSNum → JSNum → Bool
  | .fin a p, .fin b q => decide (a * q ≤ b * p)
  | .fin _ _, .inf t => !t
  | .inf s, .fin _ _ => s
  | .inf s, .inf t => s || !t
  | _, _ => false

/-- `Number.isFinite(x)`. -/
def JSNum.isFinite : JSNum → Bool
  | .fin _ _ => true
  | _ => false

/-- `x.toFixed(digits)` for `|x| < 10^21`: the nearest decimal with `digits`
decimals, halves away from zero, with its sign. -/
def JSNum.toFixed (digits : Nat) : JSNum → String
  | .nan => "NaN"
  | .inf s => if s then "-Infinity" else "Infinity"
  | .fin a p =>
    String.mk ((if a < 0 then ['-'] else []) ++
      ((List.replicate
            (digits + 1 - (toString ((2 * a.natAbs * 10 ^ digits + p) / (2 * p))).data.length) '0' ++
          (toString ((2 * a.natAbs * 10 ^ digits + p) / (2 * p))).data).reverse.drop digits).reverse ++
      (if digits = 0 then [] else
        '.' :: ((List.replicate
            (digits + 1 - (toString ((2 * a.natAbs * 10 ^ digits + p) / (2 * p))).data.length) '0' ++
          (toString ((2 * a.natAbs * 10 ^ digits + p) / (2 * p))).data).reverse.take
            digits).reverse))

/-- The counters of one category in `calculatedStats`, lines 1438-1443. -/
structure SectionCounts where
  completed : Nat
  overdue : Nat
  today : Nat
  week : Nat
  unscheduled : Nat
  deriving DecidableEq, Repr

/-- The body of `section.tasks.forEach`, lines 1446-1468. `getCachedTaskDate`
throws on a `$text` that is truthy and not a string. -/
def countTask (h : Host) (c : SectionCounts) (task : Task) : Except String SectionCounts :=
  match extractTaskDate task.text with
  | .error e => .error e
  | .ok taskDate =>
    if (optStr taskDate).truthy then
      .ok ⟨c.completed + task.completed.toNat,
        c.overdue + (isOverdue h (optStr taskDate)).toNat,
        c.today + (isToday h (optStr taskDate)).toNat,
        c.week + (isThisWeek h (optStr taskDate)).toNat,
        c.unscheduled⟩
    else
      .ok ⟨c.completed + task.completed.toNat, c.overdue, c.today, c.week,
        c.unscheduled + (!task.completed).toNat⟩

/-- The loop `section.tasks.forEach`. -/
def countTasks (h : Host) : SectionCounts → List Task → Except String SectionCounts
  | c, [] => .ok c
  | c, task :: rest =>
    match countTask h c task with
    | .error e => .error e
    | .ok c1 => countTasks h c1 rest

/-- The body of `section.notes.forEach`, lines 1471-1492 (the recurring
counter is left out). -/
def countNote (h : Host) (cfg : Config) (c : SectionCounts) (note : Note) : SectionCounts :=
  if (extractFrontmatterValue (note.prop cfg.datePropertyName)).truthy then
    ⟨c.completed,
      c.overdue + (isOverdue h (extractFrontmatterValue (note.prop cfg.datePropertyName))).toNat,
      c.today + (isToday h (extractFrontmatterValue (note.prop cfg.datePropertyName))).toNat,
      c.week + (isThisWeek h (extractFrontmatterValue (note.prop cfg.datePropertyName))).toNat,
      c.unscheduled⟩
  else ⟨c.completed, c.overdue, c.today, c.week, c.unscheduled + 1⟩

/-- The counters of one category: its tasks, then its notes. -/
def sectionCounts (h : Host) (cfg : Config) (sd : SectionData) : Except String SectionCounts :=
  match countTasks h ⟨0, 0, 0, 0, 0⟩ sd.tasks with
  | .error e => .error e
  | .ok c => .ok (sd.notes.foldl (countNote h cfg) c)

/-- The totals accumulated over the categories, lines 1409-1416. -/
structure Totals where
  totalItems : Nat
  totalNotes : Nat
  totalTasks : Nat
  completedTasks : Nat
  overdueTasks : Nat
  todayTasks : Nat
  weekTasks : Nat
  unscheduledItems : Nat
  deriving DecidableEq, Repr

/-- The loop `Object.entries(sectionData).forEach`, lines 1428-1512. -/
def statsLoop (h : Host) (cfg : Config) : Totals → List (String × SectionData) →
    Except String Totals
  | t, [] => .ok t
  | t, entry :: rest =>
    match sectionCounts h cfg entry.2 with
    | .error e => .error e
    | .ok c =>
      statsLoop h cfg
        ⟨t.totalItems + (entry.2.notes.length + entry.2.tasks.length),
          t.totalNotes + entry.2.notes.length,
          t.totalTasks + entry.2.tasks.length,
          t.completedTasks + c.completed,
          t.overdueTasks + c.overdue,
          t.todayTasks + c.today,
          t.weekTasks + c.week,
          t.unscheduledItems + c.unscheduled⟩ rest

/-- The object `quadrantBalance`, line 1435: the item count of every category,
under its section key. -/
def quadrantBalance (data : List (String × SectionData)) : List (String × Nat) :=
  data.map (fun entry => (entry.1, entry.2.notes.length + entry.2.tasks.length))

/-- The constant `workloadBalance`, lines 1527-1531: the sum of the distances of
the category sizes from their mean, over twice the number of items. -/
def workloadBalance (quadrantValues : List Nat) (totalItems : Nat) : JSNum :=
  JSNum.div
    (quadrantValues.foldl (fun acc val =>
      JSNum.add acc (JSNum.abs (JSNum.sub (.ofNat val)
        (JSNum.div (.ofNat totalItems) (.ofNat quadrantValues.length))))) (.ofNat 0))
    (.ofNat (2 * totalItems))

/-- The table `quadrantPriorities`, line 1549. -/
def quadrantPriorities : List (String × JSNum) :=
  [("urgent_important", .ofNat 4), ("not_urgent_important", .ofNat 3),
    ("urgent_not_important", .ofNat 2), ("not_urgent_not_important", .ofNat 1)]

/-- The constant `focusScore`, lines 1550-1553: every category's count times
`quadrantPriorities[quad] || 2.5`, where `quad` is the section key, summed and
divided by `Math.max(totalItems, 1)`. -/
def focusScore (balance : List (String × Nat)) (totalItems : Nat) : JSNum :=
  JSNum.div
    (balance.foldl (fun score entry =>
      JSNum.add score (JSNum.mul ((quadrantPriorities.lookup entry.1).getD (.fin 5 2))
        (.ofNat entry.2))) (.ofNat 0))
    (.ofNat (max totalItems 1))

/-- The constant `urgencyIndex`, line 1546. -/
def urgencyIndex (overdueTasks todayTasks totalItems : Nat) : JSNum :=
  JSNum.mathRound (JSNum.mul
    (JSNum.div (.ofNat (overdueTasks + todayTasks)) (.ofNat (max totalItems 1))) (.ofNat 100))

/-- The field `productivityScore`, line 1596. -/
def productivityScore (overdueTasks totalTasks : Nat) : JSNum :=
  JSNum.mathRound (JSNum.sub (.ofNat 100)
    (JSNum.mul (JSNum.div (.ofNat overdueTasks) (.ofNat (max totalTasks 1))) (.ofNat 100)))

/-- The fields of `newStats.summary` (lines 1585-1612) that do not depend on
completion dates. -/
structure Summary where
  totals : Totals
  productivityScore : JSNum
  workloadBalance : String
  urgencyIndex : JSNum
  focusScore : String
  deriving DecidableEq, Repr

/-- `calculatedStats`, lines 1407-1615: the summary of a classification
result. An exception of `getCachedTaskDate` is not caught. -/
def calculatedStats (h : Host) (cfg : Config) (data : List (String × SectionData)) :
    Except String Summary :=
  match statsLoop h cfg ⟨0, 0, 0, 0, 0, 0, 0, 0⟩ data with
  | .error e => .error e
  | .ok t =>
    .ok ⟨t, productivityScore t.overdueTasks t.totalTasks,
      JSNum.toFixed 2 (JSNum.sub (.ofNat 1)
        (workloadBalance ((quadrantBalance data).map Prod.snd) t.totalItems)),
      urgencyIndex t.overdueTasks t.todayTasks t.totalItems,
      JSNum.toFixed 2 (focusScore (quadrantBalance data) t.totalItems)⟩

/-- A note of the first category due on 9 September 2023. -/
def noteDue2023 : Note :=
  ⟨"Projects/stale.md", .str "Stale",
    some [("eisenhower_status", .str "urgent_important"), ("due_date", .str "2023-09-09")]⟩

/-- A note whose status is `not_urgent_not_important`. -/
def noteTrivia : Note :=
  ⟨"Inbox/trivia.md", .str "Trivia",
    some [("eisenhower_status", .str "not_urgent_not_important")]⟩

/-- The host law that `isOverdue` and `isToday` rely on, at the date `d`: an
instant with the date string of the clock has the local midnight of the clock
(`toDateString` and `setHours(0, 0, 0, 0)` read the same local calendar day). -/
def sameDayLaw (h : Host) (d : JSVal) : Bool :=
  match parseDate h d with
  | none => true
  | some t =>
    !(h.toDateString t == h.toDateString h.now) ||
      decide (h.setHoursZero t = h.setHoursZero h.now)

/-- The host law at the date of a task. -/
def taskDayLaw (h : Host) (task : Task) : Bool :=
  match extractTaskDate task.text with
  | .ok d => sameDayLaw h (optStr d)
  | .error _ => true

/-- The host law at the date of a note. -/
def noteDayLaw (h : Host) (cfg : Config) (note : Note) : Bool :=
  sameDayLaw h (extractFrontmatterValue (note.prop cfg.datePropertyName))

/-- The class `\w` of a pattern without the flag `u`. -/
def isWordChar (c : Char) : Bool :=
  c.isAlphanum || c == '_'

/-- Equality of two characters under the flag `i`, for a pattern character that
is ASCII: a character outside ASCII only matches itself. -/
def sameLetter (a b : Char) : Bool :=
  a.toUpper == b.toUpper

/-- What is left of the text when it opens with the characters of `pat`, letter
case ignored; `none` when it does not. -/
def dropLetters : List Char → List Char → Option (List Char)
  | [], cs => some cs
  | _ :: _, [] => none
  | p :: ps, c :: cs => if sameLetter p c then dropLetters ps cs else none

/-- The assertion `\b` between the character `before` and the rest of the text. -/
def wordBoundary (before : Char) (rest : List Char) : Bool :=
  isWordChar before !=
    (match rest with
    | c :: _ => isWordChar c
    | [] => false)

/-- Whether `new RegExp(pat + "\\b", "gi")` matches at the head of the text, for
a `pat` that is not empty and holds no metacharacter of regular expressions. -/
def tagMatchAt (pat : List Char) (cs : List Char) : Bool :=
  match dropLetters pat cs with
  | some rest => wordBoundary ((cs.take pat.length).getLast?.getD '#') rest
  | none => false

/-- The scan of `line.replace(new RegExp(pat + "\\b", "gi"), '')`: `skip` counts
the characters of the current match still to be dropped. -/
def removeTagAux (pat : List Char) : Nat → List Char → List Char
  | _, [] => []
  | skip + 1, _ :: cs => removeTagAux pat skip cs
  | 0, c :: cs =>
    if tagMatchAt pat (c :: cs) then removeTagAux pat (pat.length - 1) cs
    else c :: removeTagAux pat 0 cs

/-- The statement `taskLine.replace(new RegExp("#" + tagToRemove + "\\b", "gi"), '')`,
line 1943, for a tag name without metacharacters of regular expressions. -/
def removeTag (tagToRemove : String) (taskLine : List Char) : List Char :=
  removeTagAux ('#' :: tagToRemove.data) 0 taskLine

/-- The tag names that `updateTaskTag` removes: those of the categories whose
task rule is enabled, in the order of `config.sections`. -/
def enabledTagNames (cfg : Config) : List String :=
  cfg.sections.filterMap (fun entry =>
    match entry.2.taskRules with
    | some rule => if rule.enabled then some (toJSString rule.tagName) else none
    | none => none)

/-- The new task line, lines 1937-1948: the tags of the enabled task rules are
removed, the line is trimmed and the new tag is appended. -/
def retagLine (cfg : Config) (newTag : JSVal) (taskLine : String) : String :=
  jsTrim (String.mk ((enabledTagNames cfg).foldl (fun line tag => removeTag tag line)
    taskLine.data)) ++ " #" ++ toJSString newTag

/-- The text `tagStr` that a tag is searched by, line 1930. Reading a property
of `null` is a `TypeError`. -/
def tagSearchText (tag : JSVal) : Except String JSVal :=
  match tag with
  | .null => .error "TypeError: Cannot read properties of null (reading 'value')"
  | .obj v r t => .ok (jsOr v (jsOr r (jsOr t tag)))
  | _ => .ok tag

/-- The call `task.$tags.some(tag => line.includes(tagStr))`, lines 1929-1932. -/
def lineHasSomeTag (line : String) : List JSVal → Except String Bool
  | [] => .ok false
  | tag :: rest =>
    match tagSearchText tag with
    | .error e => .error e
    | .ok t =>
      if includesChars (toJSString t).data line.data then .ok true
      else lineHasSomeTag line rest

/-- The predicate of `lines.findIndex`, lines 1927-1933. -/
def isTaskLine (task : Task) (line : String) : Except String Bool :=
  if includesChars (toJSString task.text).data line.data then
    match task.tags with
    | none => .ok false
    | some [] => .ok true
    | some tags => lineHasSomeTag line tags
  else .ok false

/-- The call `lines.findIndex(...)`: the index of the first line that the
predicate accepts, counted from `i`. -/
def findTaskLine (task : Task) : List String → Nat → Except String (Option Nat)
  | [], _ => .ok none
  | line :: rest, i =>
    match isTaskLine task line with
    | .error e => .error e
    | .ok true => .ok (some i)
    | .ok false => findTaskLine task rest (i + 1)

/-- The call `content.split('\n')` on character lists. -/
def splitNewline : List Char → List (List Char)
  | [] => [[]]
  | c :: rest =>
    if c == '\n' then [] :: splitNewline rest
    else
      match splitNewline rest with
      | l :: ls => (c :: l) :: ls
      | [] => [[c]]

/-- The call `content.split('\n')`. -/
def splitLines (content : String) : List String :=
  (splitNewline content.data).map String.mk

/-- The call `lines.join('\n')`. -/
def joinLines (lines : List String) : String :=
  String.mk (List.intercalate ['\n'] (lines.map String.data))

/-- `updateTaskTag(task, newTag)`, lines 1919-1952: the content handed to
`app.vault.modify`, `none` when nothing is written. `content` is the content of
the file at `task.$file`, `none` when there is no such file. -/
def updateTaskTag (cfg : Config) (content : Option String) (task : Task) (newTag : JSVal) :
    Except String (Option String) :=
  match content with
  | none => .ok none
  | some text =>
    match findTaskLine task (splitLines text) 0 with
    | .error e => .error e
    | .ok none => .ok none
    | .ok (some i) =>
      .ok (some (joinLines ((splitLines text).set i
        (retagLine cfg newTag ((splitLines text).getD i "")))))

/-- The default configuration with the task rule of `schedule` switched off. -/
def configScheduleOff : Config :=
  ⟨[("doFirst", sectionDoFirst),
      ("schedule", ⟨"📅 Schedule", "Not Urgent & Important",
        some ⟨true, "eisenhower_status", .str "not_urgent_important"⟩,
        some ⟨false, .str "schedule"⟩⟩),
      ("delegate", sectionDelegate), ("eliminate", sectionEliminate)],
    defaultDisplay, "", "due_date"⟩

/-- A nested task of the category `delegate`, as Datacore reads it from an
indented line. -/
def taskNested : Task :=
  ⟨"Projects/launch.md", 2, .str "Order flyers #delegate", some [.str "#delegate"], false⟩

/-- A task that carries a tag of the user, `#delegate-team`, next to the tag of
the first category. -/
def taskTeam : Task :=
  ⟨"Inbox.md", 1, .str "Pay #delegate-team #urgent-important",
    some [.str "#delegate-team", .str "#urgent-important"], false⟩

/-- A tag name without metacharacters of regular expressions: ASCII letters,
digits, `_`, `-` and `/`. -/
def plainTagName (s : String) : Bool :=
  s.data.all (fun c => c.isAlphanum || c == '_' || c == '-' || c == '/')

/-- The number `x` is the quotient `m / k` of two naturals, held exactly. -/
def JSNum.IsQuot (x : JSNum) (m k : Nat) : Prop :=
  ∃ N D : Nat, x = .fin N D ∧ 0 < D ∧ N * k = m * D

/-- The sum of the distances of the category sizes from their mean, scaled by
the number `k` of categories: the sum of `|v * k - total|`. -/
def spread (k total : Nat) (vals : List Nat) : Nat :=
  (vals.map (fun v => Int.natAbs ((v : Int) * k - total))).sum

/-- One item moves out of a category of size `x` into another category, of size
`y` with `x <= y`. -/
def IsSkewingMove (vals vals2 : List Nat) : Prop :=
  ∃ (l1 l2 l3 : List Nat) (x y : Nat), 1 ≤ x ∧ x ≤ y ∧
    ((vals = l1 ++ x :: (l2 ++ y :: l3) ∧ vals2 = l1 ++ (x - 1) :: (l2 ++ (y + 1) :: l3)) ∨
      (vals = l1 ++ y :: (l2 ++ x :: l3) ∧ vals2 = l1 ++ (y + 1) :: (l2 ++ (x - 1) :: l3)))

/-- Whether the text opens with the whole tag `#tag`: a `#`, the characters of
the tag, then a blank or the end of the text. -/
def opensWithTag (tag : List Char) (cs : List Char) : Bool :=
  startsWithChars ('#' :: tag) cs &&
    (match cs.drop (tag.length + 1) with
    | [] => true
    | c :: _ => isJSSpace c)

/-- Whether the text carries the whole tag `#tag` somewhere. -/
def carriesTag (tag : String) : List Char → Bool
  | [] => false
  | c :: cs => opensWithTag tag.data (c :: cs) || carriesTag tag cs

/-- Whether the tags of the text are set apart by blanks: every `#` is at the
start of the text or behind a blank. `start` tells whether the text begins at
the start of the line or behind a blank. -/
def hashesApart : Bool → List Char → Bool
  | _, [] => true
  | start, c :: cs => (c != '#' || start) && hashesApart (isJSSpace c) cs

/-- A tag name that the pattern `#tagName\b` matches as a whole tag: without
metacharacters of regular expressions, and ending in a letter, a digit or `_`. -/
def wholeTagName (s : String) : Bool :=
  plainTagName s &&
    (match s.data.getLast? with
    | some c => isWordChar c
    | none => false)

/-- The end of a whole tag: the end of the text, or a blank. -/
def TagEnd (tail : List Char) : Prop :=
  tail = [] ∨ ∃ s r, tail = s :: r ∧ isJSSpace s = true

/-- The number of places where the text carries the whole tag `#tag`. -/
def countTag (tag : String) : List Char → Nat
  | [] => 0
  | c :: cs => (if opensWithTag tag.data (c :: cs) then 1 else 0) + countTag tag cs

/-! ## Lemmas: loops and sorting -/

theorem collect_fst {α : Type} (step : α → Except String Bool) (xs acc : List α) :
    (collect step xs acc).1 = acc ++ (xs.takeWhile (stepOk step)).filter (accepts step) := by
  induction xs generalizing acc with
  | nil => simp [collect]
  | cons x xs ih =>
    unfold collect
    cases hx : step x with
    | error e => simp [List.takeWhile, stepOk, hx]
    | ok b =>
      cases b with
      | true => simp [ih, List.takeWhile, stepOk, accepts, hx]
      | false => simp [ih, List.takeWhile, stepOk, accepts, hx]

theorem collect_snd_none {α : Type} (step : α → Except String Bool) (xs acc : List α) :
    (collect step xs acc).2 = none ↔ ∀ x ∈ xs, stepOk step x = true := by
  induction xs generalizing acc with
  | nil => simp [collect]
  | cons x xs ih =>
    unfold collect
    cases hx : step x with
    | error e => simp [stepOk, hx]
    | ok b =>
      cases b with
      | true => simp [ih, stepOk, hx]
      | false => simp [ih, stepOk, hx]

theorem takeWhile_eq_self_of_all {α : Type} (p : α → Bool) (xs : List α)
    (hp : ∀ x ∈ xs, p x = true) : xs.takeWhile p = xs := by
  induction xs with
  | nil => rfl
  | cons x xs ih =>
    have hx : p x = true := hp x (List.mem_cons_self _ _)
    simp [List.takeWhile, hx, ih (fun y hy => hp y (List.mem_cons_of_mem _ hy))]

theorem bsearch_le {α : Type} (cmp : α → α → Except String Int) (x : α) :
    ∀ (fuel k : Nat) (w : List α) (i : Nat), bsearch cmp x fuel k w = .ok i →
      k ≤ i ∧ i ≤ k + w.length := by
  intro fuel
  induction fuel with
  | zero =>
    intro k w i hi
    simp only [bsearch, Except.ok.injEq] at hi
    omega
  | succ fuel ih =>
    intro k w i hi
    unfold bsearch at hi
    have hmid : w.length / 2 ≤ w.length := Nat.div_le_self _ _
    cases hd : w.drop (w.length / 2) with
    | nil =>
      simp only [hd, Except.ok.injEq] at hi
      omega
    | cons e rest =>
      simp only [hd] at hi
      have hlen : (w.drop (w.length / 2)).length = rest.length + 1 := by rw [hd]; rfl
      rw [List.length_drop] at hlen
      cases hc : cmp x e with
      | error err => simp [hc] at hi
      | ok order =>
        simp only [hc] at hi
        by_cases ho : order < 0
        · simp only [ho, if_true] at hi
          have := ih _ _ _ hi
          rw [List.length_take] at this
          omega
        · simp only [ho, if_false] at hi
          have := ih _ _ _ hi
          omega

theorem insertE_perm {α : Type} (cmp : α → α → Except String Int) (a : α) (l r : List α)
    (hr : insertE cmp a l = .ok r) : r.Perm (a :: l) := by
  unfold insertE at hr
  cases hk : bsearch cmp a l.length 0 l with
  | error e => simp [hk] at hr
  | ok k =>
    simp only [hk, Except.ok.injEq] at hr
    subst hr
    have h1 : (l.take k ++ a :: l.drop k).Perm (a :: (l.take k ++ l.drop k)) := List.perm_middle
    rw [List.take_append_drop] at h1
    exact h1

theorem takeRun_append {α : Type} (cmp : α → α → Except String Int) (desc : Bool) :
    ∀ (rest : List α) (prev : α) (run tail : List α),
      takeRun cmp desc prev rest = .ok (run, tail) → run ++ tail = rest := by
  intro rest
  induction rest with
  | nil =>
    intro prev run tail h
    simp only [takeRun, Except.ok.injEq, Prod.mk.injEq] at h
    rw [← h.1, ← h.2]
    rfl
  | cons cur rest ih =>
    intro prev run tail h
    unfold takeRun at h
    cases hc : cmp cur prev with
    | error e => simp [hc] at h
    | ok order =>
      simp only [hc] at h
      by_cases hd : decide (order < 0) = desc
      · simp only [hd, if_true] at h
        cases ht : takeRun cmp desc cur rest with
        | error e => simp [ht] at h
        | ok p =>
          obtain ⟨run1, tail1⟩ := p
          simp only [ht, Except.ok.injEq, Prod.mk.injEq] at h
          rw [← h.1, ← h.2, List.cons_append, ih cur run1 tail1 ht]
      · simp only [hd, if_false, Except.ok.injEq, Prod.mk.injEq] at h
        rw [← h.1, ← h.2]
        rfl

theorem insertAll_perm {α : Type} (cmp : α → α → Except String Int) :
    ∀ (tail s r : List α), insertAll cmp s tail = .ok r → r.Perm (s ++ tail) := by
  intro tail
  induction tail with
  | nil =>
    intro s r h
    simp only [insertAll, Except.ok.injEq] at h
    subst h
    simp
  | cons a rest ih =>
    intro s r h
    unfold insertAll at h
    cases hi : insertE cmp a s with
    | error e => simp [hi] at h
    | ok s2 =>
      simp only [hi] at h
      have h1 := ih s2 r h
      have h2 := insertE_perm cmp a s s2 hi
      have h3 : (s2 ++ rest).Perm ((a :: s) ++ rest) := h2.append_right rest
      have h4 : ((a :: s) ++ rest).Perm (s ++ a :: rest) := by
        simpa using (List.perm_middle : (s ++ a :: rest).Perm (a :: (s ++ rest))).symm
      exact h1.trans (h3.trans h4)

theorem sortE_perm {α : Type} (cmp : α → α → Except String Int) :
    ∀ (l s : List α), sortE cmp l = .ok s → s.Perm l := by
  intro l s hs
  match l, hs with
  | [], hs =>
    simp only [sortE, Except.ok.injEq] at hs
    subst hs
    exact List.Perm.refl _
  | [a], hs =>
    simp only [sortE, Except.ok.injEq] at hs
    subst hs
    exact List.Perm.refl _
  | a0 :: a1 :: rest, hs =>
    unfold sortE at hs
    cases hc : cmp a1 a0 with
    | error e => simp [hc] at hs
    | ok order =>
      simp only [hc] at hs
      cases ht : takeRun cmp (decide (order < 0)) a1 rest with
      | error e => simp [ht] at hs
      | ok p =>
        obtain ⟨run, tail⟩ := p
        simp only [ht] at hs
        have happ := takeRun_append cmp _ rest a1 run tail ht
        have h1 := insertAll_perm cmp tail _ s hs
        have h2 : (if order < 0 then (a0 :: a1 :: run).reverse else a0 :: a1 :: run).Perm
            (a0 :: a1 :: run) := by
          split_ifs
          · exact List.reverse_perm _
          · exact List.Perm.refl _
        have h3 := h1.trans (h2.append_right tail)
        rw [← happ]
        simpa using h3

/-- The list left by a `try` block is a permutation of the items pushed by the
loop, whatever happened. -/
theorem runTry_perm {α : Type} (step : α → Except String Bool)
    (cmp : α → α → Except String Int) (xs : List α) :
    (runTry step cmp xs).1.Perm ((xs.takeWhile (stepOk step)).filter (accepts step)) := by
  have hfst := collect_fst step xs []
  unfold runTry
  rcases hcol : collect step xs [] with ⟨acc, err⟩
  rw [hcol] at hfst
  simp only [List.nil_append] at hfst
  cases err with
  | some e => simp [hfst]
  | none =>
    simp only
    cases hs : sortE cmp acc with
    | error e => simp [hfst]
    | ok sorted =>
      simp only
      rw [← hfst]
      exact sortE_perm cmp acc sorted hs

/-- After an exception the list holds the items pushed before it, in input order. -/
theorem runTry_error {α : Type} (step : α → Except String Bool)
    (cmp : α → α → Except String Int) (xs : List α) (e : String)
    (he : (runTry step cmp xs).2 = some e) :
    (runTry step cmp xs).1 = (xs.takeWhile (stepOk step)).filter (accepts step) := by
  have hfst := collect_fst step xs []
  unfold runTry at he ⊢
  rcases hcol : collect step xs [] with ⟨acc, err⟩
  rw [hcol] at hfst
  simp only [List.nil_append] at hfst
  rw [hcol] at he
  cases err with
  | some e1 => simp [hfst]
  | none =>
    simp only at he ⊢
    cases hs : sortE cmp acc with
    | error e1 => simp [hfst]
    | ok sorted => simp [hs] at he

/-- Without an exception the list is the sorted list of the matched items. -/
theorem runTry_ok {α : Type} (step : α → Except String Bool)
    (cmp : α → α → Except String Int) (xs : List α)
    (he : (runTry step cmp xs).2 = none) :
    sortE cmp (xs.filter (accepts step)) = .ok (runTry step cmp xs).1 := by
  have hfst := collect_fst step xs []
  have hsnd := collect_snd_none step xs []
  unfold runTry at he ⊢
  rcases hcol : collect step xs [] with ⟨acc, err⟩
  rw [hcol] at hfst hsnd he
  simp only [List.nil_append] at hfst
  cases err with
  | some e1 => simp at he
  | none =>
    simp only at he hsnd ⊢
    rw [takeWhile_eq_self_of_all _ _ (hsnd.mp trivial)] at hfst
    cases hs : sortE cmp acc with
    | error e1 => simp [hs] at he
    | ok sorted =>
      simp only
      rw [← hfst, hs]

theorem mem_runTry {α : Type} (step : α → Except String Bool)
    (cmp : α → α → Except String Int) (xs : List α) (y : α)
    (hy : y ∈ (runTry step cmp xs).1) : y ∈ xs ∧ step y = .ok true := by
  have hp := (runTry_perm step cmp xs).mem_iff.mp hy
  rw [List.mem_filter] at hp
  refine ⟨(List.takeWhile_sublist _).subset hp.1, ?_⟩
  have h2 := hp.2
  unfold accepts at h2
  cases hs : step y with
  | error e => simp [hs] at h2
  | ok b =>
    simp [hs] at h2
    simp [h2]

theorem insertE_compares {α : Type} (cmp : α → α → Except String Int) (a : α) (s r : List α)
    (hne : s ≠ []) (h : insertE cmp a s = .ok r) : ∃ e c, cmp a e = .ok c := by
  unfold insertE at h
  cases s with
  | nil => exact absurd rfl hne
  | cons b s1 =>
    have hlt : (b :: s1).length / 2 < (b :: s1).length :=
      Nat.div_lt_self (by simp) (by decide)
    simp only [List.length_cons] at h hlt
    unfold bsearch at h
    simp only [List.length_cons] at h
    cases hd : (b :: s1).drop ((s1.length + 1) / 2) with
    | nil =>
      have := congrArg List.length hd
      simp only [List.length_drop, List.length_cons, List.length_nil] at this
      omega
    | cons e rest =>
      simp only [hd] at h
      cases hc : cmp a e with
      | error err => simp [hc] at h
      | ok c => exact ⟨e, c, hc⟩

theorem insertE_ne_nil {α : Type} (cmp : α → α → Except String Int) (a : α) (s r : List α)
    (h : insertE cmp a s = .ok r) : r ≠ [] := by
  intro hnil
  have := (insertE_perm cmp a s r h).length_eq
  rw [hnil] at this
  simp at this

theorem takeRun_compares {α : Type} (cmp : α → α → Except String Int) (desc : Bool) :
    ∀ (rest : List α) (prev : α) (run tail : List α),
      takeRun cmp desc prev rest = .ok (run, tail) → ∀ x ∈ run, ∃ e c, cmp x e = .ok c := by
  intro rest
  induction rest with
  | nil =>
    intro prev run tail h x hx
    simp only [takeRun, Except.ok.injEq, Prod.mk.injEq] at h
    rw [← h.1] at hx
    cases hx
  | cons cur rest ih =>
    intro prev run tail h x hx
    unfold takeRun at h
    cases hc : cmp cur prev with
    | error e => simp [hc] at h
    | ok order =>
      simp only [hc] at h
      by_cases hd : decide (order < 0) = desc
      · simp only [hd, if_true] at h
        cases ht : takeRun cmp desc cur rest with
        | error e => simp [ht] at h
        | ok p =>
          obtain ⟨run1, tail1⟩ := p
          simp only [ht, Except.ok.injEq, Prod.mk.injEq] at h
          rw [← h.1] at hx
          rcases List.mem_cons.mp hx with hxc | hxr
          · subst hxc
            exact ⟨prev, order, hc⟩
          · exact ih cur run1 tail1 ht x hxr
      · simp only [hd, if_false, Except.ok.injEq, Prod.mk.injEq] at h
        rw [← h.1] at hx
        cases hx

theorem insertAll_compares {α : Type} (cmp : α → α → Except String Int) :
    ∀ (tail s r : List α), s ≠ [] → insertAll cmp s tail = .ok r →
      ∀ x ∈ tail, ∃ e c, cmp x e = .ok c := by
  intro tail
  induction tail with
  | nil => intro s r _ _ x hx; cases hx
  | cons a rest ih =>
    intro s r hne h x hx
    unfold insertAll at h
    cases hi : insertE cmp a s with
    | error e => simp [hi] at h
    | ok s2 =>
      simp only [hi] at h
      rcases List.mem_cons.mp hx with hxa | hxr
      · subst hxa
        exact insertE_compares cmp x s s2 hne hi
      · exact ih s2 r (insertE_ne_nil cmp a s s2 hi) h x hxr

/-- A sort of two or more elements that ends without an exception has called
the comparator on every element. -/
theorem sortE_good {α : Type} (cmp : α → α → Except String Int) (good : α → Prop)
    (hg : ∀ a b c, cmp a b = .ok c → good a ∧ good b) :
    ∀ (l s : List α), sortE cmp l = .ok s → 2 ≤ l.length → ∀ a ∈ l, good a := by
  intro l s hs hlen x hx
  match l, hs, hlen, hx with
  | [], _, hlen, _ => simp at hlen
  | [_], _, hlen, _ => simp at hlen
  | a0 :: a1 :: rest, hs, _, hx =>
    unfold sortE at hs
    cases hc : cmp a1 a0 with
    | error e => simp [hc] at hs
    | ok order =>
      simp only [hc] at hs
      have h01 := hg a1 a0 order hc
      cases ht : takeRun cmp (decide (order < 0)) a1 rest with
      | error e => simp [ht] at hs
      | ok p =>
        obtain ⟨run, tail⟩ := p
        simp only [ht] at hs
        have happ := takeRun_append cmp _ rest a1 run tail ht
        rcases List.mem_cons.mp hx with h0 | hx1
        · rw [h0]; exact h01.2
        rcases List.mem_cons.mp hx1 with h1 | hx2
        · rw [h1]; exact h01.1
        rw [← happ] at hx2
        rcases List.mem_append.mp hx2 with hrun | htail
        · obtain ⟨e, c, hec⟩ := takeRun_compares cmp _ rest a1 run tail ht x hrun
          exact (hg x e c hec).1
        · have hne : (if order < 0 then (a0 :: a1 :: run).reverse else a0 :: a1 :: run) ≠ [] := by
            split_ifs <;> simp
          obtain ⟨e, c, hec⟩ := insertAll_compares cmp tail _ s hne hs x htail
          exact (hg x e c hec).1

/-- The binary search ends where the part of the window that the pivot does not
precede ends. -/
theorem bsearch_split {α : Type} (cmp : α → α → Except String Int) (x : α) :
    ∀ (fuel k : Nat) (w1 w2 : List α), (w1 ++ w2).length ≤ fuel →
      (∀ e ∈ w1, ∃ c, cmp x e = .ok c ∧ ¬ c < 0) →
      (∀ e ∈ w2, ∃ c, cmp x e = .ok c ∧ c < 0) →
      bsearch cmp x fuel k (w1 ++ w2) = .ok (k + w1.length) := by
  intro fuel
  induction fuel with
  | zero =>
    intro k w1 w2 hlen _ _
    have h1 : w1 = [] := by
      cases w1 with
      | nil => rfl
      | cons a t => simp at hlen
    subst h1
    simp [bsearch]
  | succ fuel ih =>
    intro k w1 w2 hlen h1 h2
    have hla : (w1 ++ w2).length = w1.length + w2.length := List.length_append _ _
    unfold bsearch
    cases hd : (w1 ++ w2).drop ((w1 ++ w2).length / 2) with
    | nil =>
      have hl := congrArg List.length hd
      simp only [List.length_drop, List.length_nil] at hl
      have h0 : (w1 ++ w2).length = 0 := by omega
      have hw1 : w1 = [] := by
        cases w1 with
        | nil => rfl
        | cons a t => simp at h0
      subst hw1
      simp
    | cons e rest =>
      simp only
      have hl := congrArg List.length hd
      simp only [List.length_drop, List.length_cons] at hl
      rw [List.drop_append_eq_append_drop] at hd
      by_cases hm : (w1 ++ w2).length / 2 < w1.length
      · -- the middle lies in the first part
        have hz : (w1 ++ w2).length / 2 - w1.length = 0 := by omega
        rw [hz, List.drop_zero] at hd
        cases hd1 : w1.drop ((w1 ++ w2).length / 2) with
        | nil =>
          have := congrArg List.length hd1
          simp only [List.length_drop, List.length_nil] at this
          omega
        | cons e1 rest1 =>
          rw [hd1, List.cons_append] at hd
          obtain ⟨he, hrest⟩ := List.cons.inj hd
          have he1 : e1 ∈ w1 := List.mem_of_mem_drop (by rw [hd1]; exact List.mem_cons_self _ _)
          obtain ⟨c, hc, hcn⟩ := h1 e1 he1
          rw [← he, hc]
          simp only [hcn, if_false]
          rw [← hrest]
          have hl1 := congrArg List.length hd1
          simp only [List.length_drop, List.length_cons] at hl1
          rw [ih _ rest1 w2 (by simp only [List.length_append] at hlen hl ⊢; omega)
            (fun y hy => h1 y (List.mem_of_mem_drop (by rw [hd1]; exact List.mem_cons_of_mem _ hy)))
            h2]
          congr 1
          omega
      · -- the middle lies in the second part
        have hfull : w1.drop ((w1 ++ w2).length / 2) = [] :=
          List.drop_of_length_le (by omega)
        rw [hfull, List.nil_append] at hd
        have he2 : e ∈ w2 := List.mem_of_mem_drop (by rw [hd]; exact List.mem_cons_self _ _)
        obtain ⟨c, hc, hcn⟩ := h2 e he2
        rw [hc]
        simp only [hcn, if_true]
        rw [List.take_append_eq_append_take, List.take_of_length_le (by omega)]
        apply ih
        · simp only [List.length_append, List.length_take] at hlen hl ⊢
          omega
        · exact h1
        · exact fun y hy => h2 y (List.mem_of_mem_take hy)

theorem dropWhile_all_not {α : Type} (r : α → α → Prop) [DecidableRel r]
    (htrans : ∀ a b c, r a b → r b c → r a c) (x : α) :
    ∀ (s : List α), s.Pairwise r → ∀ e ∈ s.dropWhile (fun e => decide (r e x)), ¬ r e x := by
  intro s
  induction s with
  | nil => intro _ e he; cases he
  | cons b s ih =>
    intro hs e he
    rw [List.pairwise_cons] at hs
    by_cases hb : r b x
    · simp only [List.dropWhile_cons, hb, decide_True, if_true] at he
      exact ih hs.2 e he
    · simp only [List.dropWhile_cons, hb, decide_False] at he
      rcases List.mem_cons.mp he with h | h
      · rw [h]; exact hb
      · exact fun hex => hb (htrans _ _ _ (hs.1 e h) hex)

theorem insertAfter_perm {α : Type} (r : α → α → Prop) [DecidableRel r] (x : α) (s : List α) :
    (insertAfter r x s).Perm (x :: s) := by
  unfold insertAfter
  have h1 : (s.takeWhile (fun e => decide (r e x)) ++
      x :: s.dropWhile (fun e => decide (r e x))).Perm
      (x :: (s.takeWhile (fun e => decide (r e x)) ++
        s.dropWhile (fun e => decide (r e x)))) := List.perm_middle
  rw [List.takeWhile_append_dropWhile] at h1
  exact h1

theorem insertAfter_sorted {α : Type} (r : α → α → Prop) [DecidableRel r]
    (htotal : ∀ a b, r a b ∨ r b a) (htrans : ∀ a b c, r a b → r b c → r a c)
    (x : α) (s : List α) (hs : s.Pairwise r) : (insertAfter r x s).Pairwise r := by
  have hnot := dropWhile_all_not r htrans x s hs
  have hsplit := List.takeWhile_append_dropWhile (fun e => decide (r e x)) s
  unfold insertAfter
  rw [← hsplit] at hs
  rw [List.pairwise_append] at hs ⊢
  refine ⟨hs.1, ?_, ?_⟩
  · rw [List.pairwise_cons]
    refine ⟨fun e he => ?_, hs.2.1⟩
    rcases htotal x e with h | h
    · exact h
    · exact absurd h (hnot e he)
  · intro a ha b hb
    rcases List.mem_cons.mp hb with h | h
    · rw [h]
      have := List.mem_takeWhile_imp ha
      simpa using this
    · exact hs.2.2 a ha b h

theorem take_drop_split {α : Type} (x : α) (w1 w2 s : List α) (hs : w1 ++ w2 = s) :
    s.take w1.length ++ x :: s.drop w1.length = w1 ++ x :: w2 := by
  subst hs
  simp

/-- On a sorted run, binary insertion with a comparator that agrees with the
order `r` is the insertion behind the elements that precede or tie. -/
theorem insertE_eq_insertAfter {α : Type} (cmp : α → α → Except String Int)
    (r : α → α → Prop) [DecidableRel r] (htrans : ∀ a b c, r a b → r b c → r a c)
    (x : α) (s : List α) (hs : s.Pairwise r)
    (hc : ∀ e ∈ s, ∃ c, cmp x e = .ok c ∧ (c < 0 ↔ ¬ r e x)) :
    insertE cmp x s = .ok (insertAfter r x s) := by
  have hnot := dropWhile_all_not r htrans x s hs
  have hsplit := List.takeWhile_append_dropWhile (fun e => decide (r e x)) s
  have hk := bsearch_split cmp x s.length 0 (s.takeWhile (fun e => decide (r e x)))
    (s.dropWhile (fun e => decide (r e x))) (by rw [hsplit])
    (fun e he => by
      obtain ⟨c, hce, hiff⟩ := hc e ((List.takeWhile_sublist _).subset he)
      have hre : r e x := by simpa using List.mem_takeWhile_imp he
      exact ⟨c, hce, fun hlt => (hiff.mp hlt) hre⟩)
    (fun e he => by
      obtain ⟨c, hce, hiff⟩ := hc e ((List.dropWhile_sublist _).subset he)
      exact ⟨c, hce, hiff.mpr (hnot e he)⟩)
  rw [hsplit, Nat.zero_add] at hk
  unfold insertE insertAfter
  rw [hk]
  simp only
  congr 1
  exact take_drop_split x _ _ s hsplit

theorem foldl_insertAfter_perm {α : Type} (r : α → α → Prop) [DecidableRel r] :
    ∀ (l s : List α), (l.foldl (fun s x => insertAfter r x s) s).Perm (s ++ l) := by
  intro l
  induction l with
  | nil => intro s; simp
  | cons x l ih =>
    intro s
    simp only [List.foldl_cons]
    have h1 := ih (insertAfter r x s)
    have h2 : (insertAfter r x s ++ l).Perm ((x :: s) ++ l) :=
      (insertAfter_perm r x s).append_right l
    have h3 : ((x :: s) ++ l).Perm (s ++ x :: l) := by
      simpa using (List.perm_middle : (s ++ x :: l).Perm (x :: (s ++ l))).symm
    exact h1.trans (h2.trans h3)

theorem foldl_insertAfter_sorted {α : Type} (r : α → α → Prop) [DecidableRel r]
    (htotal : ∀ a b, r a b ∨ r b a) (htrans : ∀ a b c, r a b → r b c → r a c) :
    ∀ (l s : List α), s.Pairwise r → (l.foldl (fun s x => insertAfter r x s) s).Pairwise r := by
  intro l
  induction l with
  | nil => intro s hs; exact hs
  | cons x l ih =>
    intro s hs
    simp only [List.foldl_cons]
    exact ih _ (insertAfter_sorted r htotal htrans x s hs)

/-- The stable sort returns a sorted list. -/
theorem stableSort_sorted {α : Type} (r : α → α → Prop) [DecidableRel r]
    (htotal : ∀ a b, r a b ∨ r b a) (htrans : ∀ a b c, r a b → r b c → r a c) (l : List α) :
    (stableSort r l).Pairwise r :=
  foldl_insertAfter_sorted r htotal htrans l [] List.Pairwise.nil

theorem stableSort_perm {α : Type} (r : α → α → Prop) [DecidableRel r] (l : List α) :
    (stableSort r l).Perm l := by
  simpa using foldl_insertAfter_perm r l []

/-- Elements that do not descend are left where they are. -/
theorem foldl_insertAfter_ascending {α : Type} (r : α → α → Prop) [DecidableRel r] :
    ∀ (l s : List α), (s ++ l).Pairwise r →
      l.foldl (fun s x => insertAfter r x s) s = s ++ l := by
  intro l
  induction l with
  | nil => intro s _; simp
  | cons x l ih =>
    intro s hs
    simp only [List.foldl_cons]
    have hall : ∀ e ∈ s, r e x := by
      intro e he
      rw [List.pairwise_append] at hs
      exact hs.2.2 e he x (List.mem_cons_self _ _)
    have hins : insertAfter r x s = s ++ [x] := by
      unfold insertAfter
      have h1 : s.takeWhile (fun e => decide (r e x)) = s :=
        List.takeWhile_eq_self_iff.mpr (fun e he => by simpa using hall e he)
      have h2 : s.dropWhile (fun e => decide (r e x)) = [] :=
        List.dropWhile_eq_nil_iff.mpr (fun e he => by simpa using hall e he)
      rw [h1, h2]
    rw [hins, ih (s ++ [x]) (by simpa using hs)]
    simp

/-- Elements that descend strictly end up in reverse order. -/
theorem foldl_insertAfter_descending {α : Type} (r : α → α → Prop) [DecidableRel r] :
    ∀ (l : List α) (top : α) (s : List α), List.Chain (fun p c => ¬ r p c) top l →
      l.foldl (fun s x => insertAfter r x s) (top :: s) = l.reverse ++ top :: s := by
  intro l
  induction l with
  | nil => intro top s _; simp
  | cons x l ih =>
    intro top s hch
    rw [List.chain_cons] at hch
    simp only [List.foldl_cons]
    have hins : insertAfter r x (top :: s) = x :: top :: s := by
      unfold insertAfter
      simp [List.takeWhile_cons, List.dropWhile_cons, hch.1]
    rw [hins, ih x (top :: s) hch.2]
    simp

/-- Under a comparator that agrees with the order `r`, the rest of the leading
run is a chain of the order, or of its strict converse. -/
theorem takeRun_chain {α : Type} (cmp : α → α → Except String Int)
    (r : α → α → Prop) [DecidableRel r] (desc : Bool) :
    ∀ (rest : List α) (prev : α),
      (∀ a ∈ prev :: rest, ∀ b ∈ prev :: rest, ∃ c, cmp a b = .ok c ∧ (c < 0 ↔ ¬ r b a)) →
      ∃ run tail, takeRun cmp desc prev rest = .ok (run, tail) ∧ run ++ tail = rest ∧
        List.Chain (fun p c => decide (¬ r p c) = desc) prev run := by
  intro rest
  induction rest with
  | nil => intro prev _; exact ⟨[], [], rfl, rfl, List.Chain.nil⟩
  | cons cur rest ih =>
    intro prev hc
    obtain ⟨c, hcmp, hiff⟩ := hc cur (by simp) prev (by simp)
    unfold takeRun
    rw [hcmp]
    simp only
    by_cases hd : decide (c < 0) = desc
    · simp only [hd, if_true]
      obtain ⟨run, tail, hrun, happ, hch⟩ := ih cur (fun a ha b hb =>
        hc a (List.mem_cons_of_mem _ ha) b (List.mem_cons_of_mem _ hb))
      rw [hrun]
      refine ⟨cur :: run, tail, rfl, by rw [List.cons_append, happ], ?_⟩
      refine List.Chain.cons ?_ hch
      rw [← hd]
      simp only [decide_eq_decide]
      exact hiff.symm
    · simp only [hd, if_false]
      exact ⟨[], cur :: rest, rfl, rfl, List.Chain.nil⟩

theorem insertAll_eq_foldl {α : Type} (cmp : α → α → Except String Int)
    (r : α → α → Prop) [DecidableRel r]
    (htotal : ∀ a b, r a b ∨ r b a) (htrans : ∀ a b c, r a b → r b c → r a c) :
    ∀ (tail s : List α), s.Pairwise r →
      (∀ a ∈ s ++ tail, ∀ b ∈ s ++ tail, ∃ c, cmp a b = .ok c ∧ (c < 0 ↔ ¬ r b a)) →
      insertAll cmp s tail = .ok (tail.foldl (fun s x => insertAfter r x s) s) := by
  intro tail
  induction tail with
  | nil => intro s _ _; rfl
  | cons x tail ih =>
    intro s hs hc
    unfold insertAll
    rw [insertE_eq_insertAfter cmp r htrans x s hs
      (fun e he => hc x (by simp) e (List.mem_append_left _ he))]
    simp only [List.foldl_cons]
    apply ih _ (insertAfter_sorted r htotal htrans x s hs)
    intro a ha b hb
    have hmem : ∀ y, y ∈ insertAfter r x s ++ tail → y ∈ s ++ x :: tail := by
      intro y hy
      rcases List.mem_append.mp hy with h | h
      · have := (insertAfter_perm r x s).mem_iff.mp h
        rcases List.mem_cons.mp this with h1 | h1
        · rw [h1]; simp
        · exact List.mem_append_left _ h1
      · exact List.mem_append_right _ (List.mem_cons_of_mem _ h)
    exact hc a (hmem a ha) b (hmem b hb)

/-- With a comparator that is defined on the elements of the list and agrees
with the total preorder `r`, the sort returns the stable sort by `r`. -/
theorem sortE_eq_stableSort {α : Type} (cmp : α → α → Except String Int)
    (r : α → α → Prop) [DecidableRel r]
    (htotal : ∀ a b, r a b ∨ r b a) (htrans : ∀ a b c, r a b → r b c → r a c) (l : List α)
    (hc : ∀ a ∈ l, ∀ b ∈ l, ∃ c, cmp a b = .ok c ∧ (c < 0 ↔ ¬ r b a)) :
    sortE cmp l = .ok (stableSort r l) := by
  match l, hc with
  | [], _ => rfl
  | [a], _ => simp [sortE, stableSort, insertAfter]
  | a0 :: a1 :: rest, hc =>
    obtain ⟨c, hcmp, hiff⟩ := hc a1 (by simp) a0 (by simp)
    obtain ⟨run, tail, hrun, happ, hch⟩ := takeRun_chain cmp r (decide (c < 0)) rest a1
      (fun a ha b hb => hc a (List.mem_cons_of_mem _ ha) b (List.mem_cons_of_mem _ hb))
    simp only [sortE, hcmp, hrun]
    have hfirst : (if c < 0 then (a0 :: a1 :: run).reverse else a0 :: a1 :: run) =
        stableSort r (a0 :: a1 :: run) := by
      unfold stableSort
      have hstart : (a0 :: a1 :: run).foldl (fun s x => insertAfter r x s) [] =
          (a1 :: run).foldl (fun s x => insertAfter r x s) [a0] := by
        simp [List.foldl_cons, insertAfter]
      rw [hstart]
      by_cases hlt : c < 0
      · simp only [hlt, if_true]
        have hch2 : List.Chain (fun p c => ¬ r p c) a0 (a1 :: run) := by
          refine List.Chain.cons (hiff.mp hlt) ?_
          refine List.Chain.imp (fun p q hpq => ?_) hch
          simpa [hlt] using hpq
        rw [foldl_insertAfter_descending r (a1 :: run) a0 [] hch2]
        simp
      · simp only [hlt, if_false]
        have hch2 : List.Chain r a0 (a1 :: run) := by
          refine List.Chain.cons (not_not.mp (fun h => hlt (hiff.mpr h))) ?_
          refine List.Chain.imp (fun p q hpq => ?_) hch
          simpa [hlt] using hpq
        haveI : IsTrans α r := ⟨htrans⟩
        have hpw : (a0 :: a1 :: run).Pairwise r := List.chain_iff_pairwise.mp hch2
        have := foldl_insertAfter_ascending r (a1 :: run) [a0] (by simpa using hpw)
        rw [this]
        simp
    rw [hfirst]
    have hall := insertAll_eq_foldl cmp r htotal htrans tail (stableSort r (a0 :: a1 :: run))
      (stableSort_sorted r htotal htrans _)
      (fun a ha b hb => by
        have hmem : ∀ y, y ∈ stableSort r (a0 :: a1 :: run) ++ tail → y ∈ a0 :: a1 :: rest := by
          intro y hy
          rw [← happ]
          rcases List.mem_append.mp hy with h | h
          · have := (stableSort_perm r (a0 :: a1 :: run)).mem_iff.mp h
            simp only [List.mem_cons, List.mem_append] at this ⊢
            tauto
          · simp only [List.mem_cons, List.mem_append]
            tauto
        exact hc a (hmem a ha) b (hmem b hb))
    rw [hall]
    congr 1
    unfold stableSort
    rw [← List.foldl_append, ← happ]
    simp

/-- A sort that ends without an exception returns the stable sorted list, when
the comparator is defined and agrees with the total preorder `r` on the
elements it can read. -/
theorem sortE_keyed {α : Type} (cmp : α → α → Except String Int)
    (r : α → α → Prop) [DecidableRel r] (good : α → Prop)
    (htotal : ∀ a b, r a b ∨ r b a) (htrans : ∀ a b c, r a b → r b c → r a c)
    (hg : ∀ a b c, cmp a b = .ok c → good a ∧ good b)
    (hr : ∀ a b, good a → good b → ∃ c, cmp a b = .ok c ∧ (c < 0 ↔ ¬ r b a))
    (l s : List α) (hs : sortE cmp l = .ok s) : s = stableSort r l := by
  by_cases h2 : 2 ≤ l.length
  · have hall := sortE_good cmp good hg l s hs h2
    have := sortE_eq_stableSort cmp r htotal htrans l
      (fun a ha b hb => hr a b (hall a ha) (hall b hb))
    rw [this] at hs
    exact (Except.ok.inj hs).symm
  · match l, hs, h2 with
    | [], hs, _ =>
      simp only [sortE, Except.ok.injEq] at hs
      rw [← hs]
      rfl
    | [x], hs, _ =>
      simp only [sortE, Except.ok.injEq] at hs
      rw [← hs]
      simp [stableSort, insertAfter]
    | _ :: _ :: _, _, h2 => simp at h2

theorem takeWhile_dropWhile_split {α : Type} (q : α → Bool) :
    ∀ (front back : List α), (∀ y ∈ front, q y = true) → (∀ y ∈ back, q y = false) →
      (front ++ back).takeWhile q = front ∧ (front ++ back).dropWhile q = back := by
  intro front
  induction front with
  | nil =>
    intro back _ hb
    cases back with
    | nil => exact ⟨rfl, rfl⟩
    | cons b back =>
      have hqb : q b = false := hb b (List.mem_cons_self _ _)
      simp [List.takeWhile_cons, List.dropWhile_cons, hqb]
  | cons f front ih =>
    intro back hf hb
    have hqf : q f = true := hf f (List.mem_cons_self _ _)
    obtain ⟨h1, h2⟩ := ih back (fun y hy => hf y (List.mem_cons_of_mem _ hy)) hb
    simp only [List.cons_append, List.takeWhile_cons, List.dropWhile_cons, hqf, if_true]
    exact ⟨by rw [h1], h2⟩

theorem insertAfter_split {α : Type} (r : α → α → Prop) [DecidableRel r] (x : α)
    (front back : List α) (hf : ∀ y ∈ front, r y x) (hb : ∀ y ∈ back, ¬ r y x) :
    insertAfter r x (front ++ back) = front ++ x :: back := by
  obtain ⟨h1, h2⟩ := takeWhile_dropWhile_split (fun e => decide (r e x)) front back
    (fun y hy => by simpa using hf y hy) (fun y hy => by simpa using hb y hy)
  unfold insertAfter
  rw [h1, h2]

/-- The stable sort by "flagged first" is the stable partition. -/
theorem stableSort_flag {α : Type} (p : α → Bool) (l : List α) :
    stableSort (fun a b => ¬ (p a = false ∧ p b = true)) l =
      l.filter p ++ l.filter (fun a => !p a) := by
  have key : ∀ (x : α) (front back : List α), (∀ y ∈ front, p y = true) →
      (∀ y ∈ back, p y = false) →
      insertAfter (fun a b => ¬ (p a = false ∧ p b = true)) x (front ++ back) =
        if p x then front ++ x :: back else front ++ back ++ [x] := by
    intro x front back hf hb
    cases hpx : p x with
    | false =>
      have := insertAfter_split (fun a b => ¬ (p a = false ∧ p b = true)) x (front ++ back) []
        (fun y _ => by simp [hpx]) (fun y hy => by cases hy)
      simpa using this
    | true =>
      have := insertAfter_split (fun a b => ¬ (p a = false ∧ p b = true)) x front back
        (fun y hy => by simp [hf y hy]) (fun y hy => by simp [hb y hy, hpx])
      simpa using this
  have gen : ∀ (l pre : List α),
      l.foldl (fun s x => insertAfter (fun a b => ¬ (p a = false ∧ p b = true)) x s)
        (pre.filter p ++ pre.filter (fun a => !p a)) =
      (pre ++ l).filter p ++ (pre ++ l).filter (fun a => !p a) := by
    intro l
    induction l with
    | nil => intro pre; simp
    | cons x l ih =>
      intro pre
      simp only [List.foldl_cons]
      rw [key x _ _ (fun y hy => (List.mem_filter.mp hy).2)
        (fun y hy => by simpa using (List.mem_filter.mp hy).2)]
      have hstep : (if p x = true then pre.filter p ++ x :: pre.filter (fun a => !p a)
          else pre.filter p ++ pre.filter (fun a => !p a) ++ [x]) =
          (pre ++ [x]).filter p ++ (pre ++ [x]).filter (fun a => !p a) := by
        cases hpx : p x <;> simp [List.filter_append, List.filter_cons, hpx]
      rw [hstep, ih (pre ++ [x])]
      simp
  have := gen l []
  simpa [stableSort] using this

/-! ## Lemmas: the memo tables -/

theorem mem_of_lookup_eq_some {β : Type} (l : List (String × β)) (k : String) (v : β)
    (hl : l.lookup k = some v) : (k, v) ∈ l := by
  obtain ⟨l1, l2, heq, _⟩ := List.lookup_eq_some_iff.mp hl
  rw [heq]
  simp

/-- On a sound memo table `cachedParseDate` returns the value of `parseDate`. -/
theorem cachedParseDate_fst (h : Host) (cache : ParseDateCache) (dateInput : JSVal)
    (hs : cache.Sound h) : (cachedParseDate h cache dateInput).1 = parseDate h dateInput := by
  unfold cachedParseDate parseDate
  by_cases ht : dateInput.truthy = true
  · simp only [ht, Bool.not_true, Bool.false_eq_true, if_false]
    cases hl : List.lookup (toJSString dateInput) cache with
    | none => rfl
    | some v => exact hs _ (mem_of_lookup_eq_some cache _ v hl)
  · simp [ht]

/-- `cachedParseDate` keeps the memo table sound. -/
theorem cachedParseDate_sound (h : Host) (cache : ParseDateCache) (dateInput : JSVal)
    (hs : cache.Sound h) : (cachedParseDate h cache dateInput).2.Sound h := by
  unfold cachedParseDate
  by_cases ht : dateInput.truthy = true
  · simp only [ht, Bool.not_true, Bool.false_eq_true, if_false]
    cases hl : List.lookup (toJSString dateInput) cache with
    | some v => exact hs
    | none =>
      have hstored : ParseDateCache.Sound h
          (cache ++ [(toJSString dateInput, parseDateCompute h (toJSString dateInput))]) := by
        intro kv hkv
        rcases List.mem_append.mp hkv with hin | hin
        · exact hs kv hin
        · have : kv = (toJSString dateInput, parseDateCompute h (toJSString dateInput)) := by
            simpa using hin
          rw [this]
      simp only
      split_ifs
      · intro kv hkv
        exact hstored kv (List.mem_of_mem_tail hkv)
      · exact hstored
  · simp only [ht, Bool.not_false, if_true]
    exact hs

/-- On a sound memo table `getCachedTaskDate` returns the value of
`extractTaskDate`, or throws as it does. -/
theorem getCachedTaskDate_fst (cache : TaskDateCache) (taskText : JSVal) (hs : cache.Sound) :
    (match getCachedTaskDate cache taskText with
      | .ok r => Except.ok r.1
      | .error e => Except.error e) = extractTaskDate taskText := by
  unfold getCachedTaskDate extractTaskDate
  by_cases ht : taskText.truthy = true
  · simp only [ht, Bool.not_true, Bool.false_eq_true, if_false]
    cases taskText with
    | str text =>
      simp only
      cases hl : List.lookup text cache with
      | none => rfl
      | some v =>
        have hv : v = taskDateScan text := hs _ (mem_of_lookup_eq_some cache _ v hl)
        simp only
        rw [hv]
    | _ => rfl
  · simp [ht]

/-! ## Lemmas: the cap and the pass -/

theorem applyLimit_no_cap {α β : Type} (maxItems : Int) (ns : List α) (ts : List β)
    (hcap : maxItems ≤ 0 ∨ ((ns.length + ts.length : Nat) : Int) ≤ maxItems) :
    applyLimit maxItems ns ts = (ns, ts) := by
  unfold applyLimit
  by_cases hpos : maxItems > 0
  · have hng : ¬ (((ns.length + ts.length : Nat) : Int) > maxItems) := by
      rcases hcap with h0 | h1
      · omega
      · omega
    rw [if_pos hpos, if_neg hng]
  · rw [if_neg hpos]

theorem applyLimit_fst_take {α β : Type} (maxItems : Int) (ns : List α) (ts : List β) :
    ∃ k, (applyLimit maxItems ns ts).1 = ns.take k := by
  unfold applyLimit
  split_ifs
  · exact ⟨_, rfl⟩
  · exact ⟨_, rfl⟩
  all_goals exact ⟨ns.length, by simp⟩

theorem applyLimit_snd_take {α β : Type} (maxItems : Int) (ns : List α) (ts : List β) :
    ∃ k, (applyLimit maxItems ns ts).2 = ts.take k := by
  unfold applyLimit
  split_ifs
  · exact ⟨_, rfl⟩
  · exact ⟨ts.length, by simp⟩
  · exact ⟨_, rfl⟩
  all_goals exact ⟨ts.length, by simp⟩

theorem mem_applyLimit_fst {α β : Type} (maxItems : Int) (ns : List α) (ts : List β) (x : α)
    (hx : x ∈ (applyLimit maxItems ns ts).1) : x ∈ ns := by
  obtain ⟨k, hk⟩ := applyLimit_fst_take maxItems ns ts
  rw [hk] at hx
  exact List.mem_of_mem_take hx

theorem mem_applyLimit_snd {α β : Type} (maxItems : Int) (ns : List α) (ts : List β) (x : β)
    (hx : x ∈ (applyLimit maxItems ns ts).2) : x ∈ ts := by
  obtain ⟨k, hk⟩ := applyLimit_snd_take maxItems ns ts
  rw [hk] at hx
  exact List.mem_of_mem_take hx

/-- Every entry of the result is the category's own section processed alone. -/
theorem sectionData_entry (h : Host) (cfg : Config) (notes : List Note) (tasks : List Task)
    (key : String) (d : SectionData) (hd : (key, d) ∈ sectionData h cfg notes tasks) :
    (key, d.sect) ∈ cfg.sections ∧ d = processSection h cfg notes tasks d.sect := by
  unfold sectionData at hd
  obtain ⟨entry, hmem, heq⟩ := List.mem_map.mp hd
  have h1 : entry.1 = key := congrArg Prod.fst heq
  have h2 : processSection h cfg notes tasks entry.2 = d := congrArg Prod.snd heq
  have h3 : d.sect = entry.2 := by rw [← h2]; rfl
  refine ⟨?_, ?_⟩
  · rw [h3, ← h1]; exact hmem
  · rw [h3]; exact h2.symm

/-- A note kept for a category was pushed by the category's note loop. -/
theorem mem_notes_step (h : Host) (cfg : Config) (notes : List Note) (tasks : List Task)
    (sect : SectionConfig) (x : Note)
    (hx : x ∈ (processSection h cfg notes tasks sect).notes) :
    ∃ rule, sect.propertyRules = some rule ∧ cfg.display.showNotes = true ∧
      rule.enabled = true ∧ x ∈ notes ∧ noteStep h cfg rule x = .ok true := by
  have h1 : x ∈ (processNotes h cfg sect notes).1 := mem_applyLimit_fst _ _ _ x hx
  unfold processNotes at h1
  cases hr : sect.propertyRules with
  | none => simp [hr] at h1
  | some rule =>
    simp only [hr] at h1
    by_cases hc : (cfg.display.showNotes && rule.enabled) = true
    · simp only [hc, if_true] at h1
      have h2 := mem_runTry _ _ _ x h1
      simp only [Bool.and_eq_true] at hc
      exact ⟨rule, rfl, hc.1, hc.2, h2.1, h2.2⟩
    · simp [hc] at h1

/-- A task kept for a category was pushed by the category's task loop. -/
theorem mem_tasks_step (h : Host) (cfg : Config) (notes : List Note) (tasks : List Task)
    (sect : SectionConfig) (x : Task)
    (hx : x ∈ (processSection h cfg notes tasks sect).tasks) :
    ∃ rule, sect.taskRules = some rule ∧ cfg.display.showTasks = true ∧
      rule.enabled = true ∧ x ∈ tasks ∧ taskStep h cfg rule x = .ok true := by
  have h1 : x ∈ (processTasks h cfg sect tasks).1 := mem_applyLimit_snd _ _ _ x hx
  unfold processTasks at h1
  cases hr : sect.taskRules with
  | none => simp [hr] at h1
  | some rule =>
    simp only [hr] at h1
    by_cases hc : (cfg.display.showTasks && rule.enabled) = true
    · simp only [hc, if_true] at h1
      have h2 := mem_runTry _ _ _ x h1
      simp only [Bool.and_eq_true] at hc
      exact ⟨rule, rfl, hc.1, hc.2, h2.1, h2.2⟩
    · simp [hc] at h1

/-- With no query and filter `'all'` the note loop cannot throw: it pushes the
notes that have frontmatter and whose unwrapped property equals the rule's value. -/
theorem noteStep_plain (h : Host) (cfg : Config) (rule : PropertyRules) (x : Note)
    (hq : searchQueryOf h cfg = "") (hf : cfg.display.filterBy = "all") :
    noteStep h cfg rule x = .ok (match x.frontmatter with
      | none => false
      | some bag =>
        strictEq (extractFrontmatterValue (getProp bag rule.propertyName)) rule.propertyValue) := by
  unfold noteStep
  cases x.frontmatter with
  | none => rfl
  | some bag =>
    simp only [hq, searchPass, noteFilterPass, hf]
    cases strictEq (extractFrontmatterValue (getProp bag rule.propertyName)) rule.propertyValue <;>
      simp

/-- With show-completed on, no query and filter `'all'` the task loop cannot
throw: it pushes the tasks that have a tag array holding the rule's tag. -/
theorem taskStep_plain (h : Host) (cfg : Config) (rule : TaskRules) (x : Task)
    (hc : cfg.display.showCompleted = true)
    (hq : searchQueryOf h cfg = "") (hf : cfg.display.filterBy = "all") :
    taskStep h cfg rule x = .ok (match x.tags with
      | none => false
      | some tags => hasTag tags rule.tagName) := by
  unfold taskStep
  cases x.tags with
  | none => rfl
  | some tags =>
    simp only [hq, searchPass, taskFilterPass, hf, hc]
    cases hasTag tags rule.tagName <;> simp

theorem strictEq_str_iff (s : String) (v : JSVal) : strictEq (.str s) v = true ↔ JSVal.str s = v := by
  cases v <;> simp [strictEq]

theorem hasTag_iff (tags : List JSVal) (tagName : JSVal) :
    hasTag tags tagName = true ↔ ∃ tag ∈ tags, JSVal.str (extractTagValue tag) = tagName := by
  unfold hasTag
  simp [List.any_eq_true, strictEq_str_iff]

/-- The list left by a `try` block whose loop cannot throw has the members of
the filtered input. -/
theorem mem_runTry_iff {α : Type} (step : α → Except String Bool)
    (cmp : α → α → Except String Int) (xs : List α) (f : α → Bool)
    (hstep : ∀ x, step x = .ok (f x)) (y : α) :
    y ∈ (runTry step cmp xs).1 ↔ y ∈ xs ∧ f y = true := by
  have hall : ∀ x ∈ xs, stepOk step x = true := by
    intro x _
    simp [stepOk, hstep x]
  rw [(runTry_perm step cmp xs).mem_iff, takeWhile_eq_self_of_all _ _ hall, List.mem_filter]
  simp [accepts, hstep y]

theorem strictEq_to_str_iff (x : JSVal) (s : String) : strictEq x (.str s) = true ↔ x = .str s := by
  cases x <;> simp [strictEq]

theorem noteStep_true (h : Host) (cfg : Config) (rule : PropertyRules) (x : Note)
    (hx : noteStep h cfg rule x = .ok true) :
    ∃ bag, x.frontmatter = some bag ∧
      strictEq (extractFrontmatterValue (getProp bag rule.propertyName)) rule.propertyValue
        = true := by
  unfold noteStep at hx
  cases hfm : x.frontmatter with
  | none => simp [hfm] at hx
  | some bag =>
    refine ⟨bag, rfl, ?_⟩
    simp only [hfm] at hx
    by_contra hne
    simp [hne] at hx

theorem taskStep_true (h : Host) (cfg : Config) (rule : TaskRules) (x : Task)
    (hx : taskStep h cfg rule x = .ok true) :
    ∃ tags, x.tags = some tags ∧ hasTag tags rule.tagName = true ∧
      (cfg.display.showCompleted = false → x.completed = false) := by
  unfold taskStep at hx
  cases htags : x.tags with
  | none => simp [htags] at hx
  | some tags =>
    simp only [htags] at hx
    refine ⟨tags, rfl, ?_, ?_⟩
    · by_contra hne
      by_cases hc : (!cfg.display.showCompleted && x.completed) = true
      · simp [hc] at hx
      · simp [hc, hne] at hx
    · intro hsc
      by_contra hcomp
      have : x.completed = true := by simpa using hcomp
      simp [hsc, this] at hx

/-! ## Lemmas: the comparators -/

theorem dateOfD_of_ok {α : Type} (kind : ItemKind α) (a : α) (d : JSVal)
    (hd : kind.dateOf a = .ok d) : dateOfD kind a = d := by
  simp [dateOfD, hd]

theorem compareDate_reads {α : Type} (h : Host) (kind : ItemKind α) (a b : α) (c : Int)
    (hc : compareDate h kind a b = .ok c) :
    (∃ d, kind.dateOf a = .ok d) ∧ (∃ d, kind.dateOf b = .ok d) := by
  unfold compareDate at hc
  cases ha : kind.dateOf a with
  | error e => simp [ha] at hc
  | ok da =>
    cases hb : kind.dateOf b with
    | error e => simp [ha, hb] at hc
    | ok db => exact ⟨⟨da, rfl⟩, ⟨db, rfl⟩⟩

theorem compareDate_order {α : Type} (h : Host) (kind : ItemKind α) (a b : α)
    (ha : ∃ d, kind.dateOf a = .ok d) (hb : ∃ d, kind.dateOf b = .ok d) :
    ∃ c, compareDate h kind a b = .ok c ∧
      (c ≤ 0 ↔ dateLE h (dateOfD kind a) (dateOfD kind b)) := by
  obtain ⟨da, hda⟩ := ha
  obtain ⟨db, hdb⟩ := hb
  rw [dateOfD_of_ok kind a da hda, dateOfD_of_ok kind b db hdb]
  unfold compareDate dateLE
  simp only [hda, hdb]
  cases hta : da.truthy <;> cases htb : db.truthy <;> simp

theorem comparePriority_reads {α : Type} (h : Host) (kind : ItemKind α) (a b : α) (c : Int)
    (hc : comparePriority h kind a b = .ok c) :
    (∃ d, kind.dateOf a = .ok d) ∧ (∃ d, kind.dateOf b = .ok d) := by
  unfold comparePriority at hc
  cases ha : kind.dateOf a with
  | error e => simp [ha] at hc
  | ok da =>
    cases hb : kind.dateOf b with
    | error e => simp [ha, hb] at hc
    | ok db => exact ⟨⟨da, rfl⟩, ⟨db, rfl⟩⟩

theorem comparePriority_order {α : Type} (h : Host) (kind : ItemKind α) (a b : α)
    (ha : ∃ d, kind.dateOf a = .ok d) (hb : ∃ d, kind.dateOf b = .ok d) :
    ∃ c, comparePriority h kind a b = .ok c ∧
      (c ≤ 0 ↔ ¬ (isOverdue h (dateOfD kind a) = false ∧ isOverdue h (dateOfD kind b) = true)) := by
  obtain ⟨da, hda⟩ := ha
  obtain ⟨db, hdb⟩ := hb
  rw [dateOfD_of_ok kind a da hda, dateOfD_of_ok kind b db hdb]
  unfold comparePriority
  simp only [hda, hdb]
  cases hoa : isOverdue h da <;> cases hob : isOverdue h db <;> simp

theorem dateLE_total (h : Host) (da db : JSVal) : dateLE h da db ∨ dateLE h db da := by
  unfold dateLE
  cases hta : da.truthy <;> cases htb : db.truthy <;> simp
  exact le_total _ _

theorem dateLE_trans (h : Host) (da db dc : JSVal) (h1 : dateLE h da db) (h2 : dateLE h db dc) :
    dateLE h da dc := by
  unfold dateLE at *
  cases hta : da.truthy <;> cases htb : db.truthy <;> cases htc : dc.truthy <;>
    simp [hta, htb, htc] at h1 h2 ⊢
  exact le_trans h1 h2

theorem dateLE_ordered (h : Host) (da db : JSVal) (hle : dateLE h da db) :
    DateOrdered h da db := by
  unfold dateLE at hle
  unfold DateOrdered
  cases hta : da.truthy <;> cases htb : db.truthy <;> simp [hta, htb] at hle ⊢
  exact hle

theorem compareDate_lt {α : Type} (h : Host) (kind : ItemKind α) (a b : α)
    (ha : ∃ d, kind.dateOf a = .ok d) (hb : ∃ d, kind.dateOf b = .ok d) :
    ∃ c, compareDate h kind a b = .ok c ∧
      (c < 0 ↔ ¬ dateLE h (dateOfD kind b) (dateOfD kind a)) := by
  obtain ⟨da, hda⟩ := ha
  obtain ⟨db, hdb⟩ := hb
  rw [dateOfD_of_ok kind a da hda, dateOfD_of_ok kind b db hdb]
  unfold compareDate dateLE
  simp only [hda, hdb]
  cases hta : da.truthy <;> cases htb : db.truthy <;> simp

theorem comparePriority_lt {α : Type} (h : Host) (kind : ItemKind α) (a b : α)
    (ha : ∃ d, kind.dateOf a = .ok d) (hb : ∃ d, kind.dateOf b = .ok d) :
    ∃ c, comparePriority h kind a b = .ok c ∧
      (c < 0 ↔ ¬ ¬ (isOverdue h (dateOfD kind b) = false ∧
        isOverdue h (dateOfD kind a) = true)) := by
  obtain ⟨da, hda⟩ := ha
  obtain ⟨db, hdb⟩ := hb
  rw [dateOfD_of_ok kind a da hda, dateOfD_of_ok kind b db hdb]
  unfold comparePriority
  simp only [hda, hdb]
  cases hoa : isOverdue h da <;> cases hob : isOverdue h db <;> simp

theorem flag_total {α : Type} (p : α → Bool) (a b : α) :
    ¬ (p a = false ∧ p b = true) ∨ ¬ (p b = false ∧ p a = true) := by
  cases p a <;> cases p b <;> simp

theorem flag_trans {α : Type} (p : α → Bool) (a b c : α)
    (h1 : ¬ (p a = false ∧ p b = true)) (h2 : ¬ (p b = false ∧ p c = true)) :
    ¬ (p a = false ∧ p c = true) := by
  cases hpa : p a <;> cases hpb : p b <;> cases hpc : p c <;> simp [hpa, hpb, hpc] at h1 h2 ⊢

/-- In sort mode `'date'` a sort that ends without an exception leaves the list
in the order of `DateOrdered`, as a permutation of its input. -/
theorem sortE_date_sorted {α : Type} (h : Host) (kind : ItemKind α) (l s : List α)
    (hs : sortE (compareDate h kind) l = .ok s) :
    s.Pairwise (fun a b => DateOrdered h (dateOfD kind a) (dateOfD kind b)) ∧ s.Perm l := by
  refine ⟨?_, sortE_perm _ l s hs⟩
  have heq := sortE_keyed (compareDate h kind)
    (fun a b => dateLE h (dateOfD kind a) (dateOfD kind b))
    (fun a => ∃ d, kind.dateOf a = .ok d)
    (fun a b => dateLE_total h _ _) (fun a b c => dateLE_trans h _ _ _)
    (fun a b c hc => compareDate_reads h kind a b c hc)
    (fun a b ha hb => compareDate_lt h kind a b ha hb) l s hs
  have hsorted := stableSort_sorted
    (fun a b => dateLE h (dateOfD kind a) (dateOfD kind b))
    (fun a b => dateLE_total h _ _) (fun a b c => dateLE_trans h _ _ _) l
  rw [← heq] at hsorted
  exact List.Pairwise.imp (fun hab => dateLE_ordered h _ _ hab) hsorted

/-- In sort mode `'priority'` a sort that ends without an exception returns the
overdue items followed by the others, each group in its input order. -/
theorem sortE_priority_partition {α : Type} (h : Host) (kind : ItemKind α) (l s : List α)
    (hs : sortE (comparePriority h kind) l = .ok s) :
    s = l.filter (fun a => isOverdue h (dateOfD kind a)) ++
      l.filter (fun a => !isOverdue h (dateOfD kind a)) := by
  have heq := sortE_keyed (comparePriority h kind)
    (fun a b => ¬ (isOverdue h (dateOfD kind a) = false ∧ isOverdue h (dateOfD kind b) = true))
    (fun a => ∃ d, kind.dateOf a = .ok d)
    (fun a b => flag_total (fun a => isOverdue h (dateOfD kind a)) a b)
    (fun a b c => flag_trans (fun a => isOverdue h (dateOfD kind a)) a b c)
    (fun a b c hc => comparePriority_reads h kind a b c hc)
    (fun a b ha hb => comparePriority_lt h kind a b ha hb) l s hs
  rw [heq]
  exact stableSort_flag (fun a => isOverdue h (dateOfD kind a)) l

theorem createSortComparator_date {α : Type} (h : Host) (cfg : Config) (kind : ItemKind α)
    (hs : cfg.display.sortBy = "date") : createSortComparator h cfg kind = compareDate h kind := by
  unfold createSortComparator
  rw [hs]
  simp

theorem createSortComparator_priority {α : Type} (h : Host) (cfg : Config) (kind : ItemKind α)
    (hn : cfg.display.sortBy ≠ "name") (hd : cfg.display.sortBy ≠ "date") :
    createSortComparator h cfg kind = comparePriority h kind := by
  unfold createSortComparator
  simp [hn, hd]

/-- The notes of a category before the cap, when no exception was caught: the
sorted list of the matched notes. -/
theorem processNotes_ok (h : Host) (cfg : Config) (sect : SectionConfig) (notes : List Note)
    (he : (processNotes h cfg sect notes).2 = none) :
    sortE (createSortComparator h cfg (noteKind cfg)) (matchedNotes h cfg sect notes) =
      .ok (processNotes h cfg sect notes).1 := by
  unfold processNotes matchedNotes at *
  cases hr : sect.propertyRules with
  | none => simp [sortE]
  | some rule =>
    simp only [hr] at he ⊢
    by_cases hc : (cfg.display.showNotes && rule.enabled) = true
    · simp only [hc, if_true] at he ⊢
      exact runTry_ok _ _ _ he
    · simp [hc, sortE]

/-- The tasks of a category before the cap, when no exception was caught: the
sorted list of the matched tasks. -/
theorem processTasks_ok (h : Host) (cfg : Config) (sect : SectionConfig) (tasks : List Task)
    (he : (processTasks h cfg sect tasks).2 = none) :
    sortE (createSortComparator h cfg taskKind) (matchedTasks h cfg sect tasks) =
      .ok (processTasks h cfg sect tasks).1 := by
  unfold processTasks matchedTasks at *
  cases hr : sect.taskRules with
  | none => simp [sortE]
  | some rule =>
    simp only [hr] at he ⊢
    by_cases hc : (cfg.display.showTasks && rule.enabled) = true
    · simp only [hc, if_true] at he ⊢
      exact runTry_ok _ _ _ he
    · simp [hc, sortE]

/-! ## Lemmas: passes without exception -/

theorem searchPass_ok (h : Host) (query : String) (field : JSVal) (hf : field.isText = true) :
    ∃ b, searchPass h query field = .ok b := by
  unfold searchPass
  by_cases hq : query = ""
  · exact ⟨true, by simp [hq]⟩
  · cases field <;> simp [hq, JSVal.isText] at hf ⊢

theorem extractTaskDate_ok (taskText : JSVal) (hf : taskText.isText = true) :
    ∃ d, extractTaskDate taskText = .ok d := by
  unfold extractTaskDate
  cases taskText <;> simp [JSVal.isText, JSVal.truthy] at hf ⊢
  split_ifs <;> simp

theorem noteStep_ok (h : Host) (cfg : Config) (rule : PropertyRules) (x : Note)
    (hx : x.name.isText = true) : stepOk (noteStep h cfg rule) x = true := by
  unfold stepOk noteStep
  cases x.frontmatter with
  | none => rfl
  | some bag =>
    simp only
    split_ifs
    · rfl
    · obtain ⟨b, hb⟩ := searchPass_ok h (searchQueryOf h cfg) x.name hx
      rw [hb]
      cases b <;> rfl

theorem taskStep_ok (h : Host) (cfg : Config) (rule : TaskRules) (x : Task)
    (hx : x.text.isText = true) : stepOk (taskStep h cfg rule) x = true := by
  unfold stepOk taskStep
  cases x.tags with
  | none => rfl
  | some tags =>
    simp only
    split_ifs
    · rfl
    · rfl
    · obtain ⟨b, hb⟩ := searchPass_ok h (searchQueryOf h cfg) x.text hx
      rw [hb]
      cases b with
      | false => rfl
      | true =>
        simp only
        unfold taskFilterPass
        obtain ⟨d, hd⟩ := extractTaskDate_ok x.text hx
        rw [hd]
        simp only
        split_ifs <;> rfl

theorem runTry_snd_none {α : Type} (step : α → Except String Bool)
    (cmp : α → α → Except String Int) (xs : List α)
    (hall : ∀ x ∈ xs, stepOk step x = true)
    (hsort : ∃ s, sortE cmp (xs.filter (accepts step)) = .ok s) :
    (runTry step cmp xs).2 = none := by
  have hfst := collect_fst step xs []
  have hsnd := (collect_snd_none step xs []).mpr hall
  unfold runTry
  rcases hcol : collect step xs [] with ⟨acc, err⟩
  rw [hcol] at hfst hsnd
  simp only [List.nil_append] at hfst hsnd
  subst hsnd
  rw [takeWhile_eq_self_of_all _ _ hall] at hfst
  obtain ⟨s, hs⟩ := hsort
  simp only
  rw [hfst, hs]

/-- A sort by date or by priority ends without an exception when every date can
be read. -/
theorem sortE_ok_of_dates {α : Type} (h : Host) (cfg : Config) (kind : ItemKind α)
    (hmode : cfg.display.sortBy ≠ "name") (l : List α)
    (hl : ∀ a ∈ l, ∃ d, kind.dateOf a = .ok d) :
    ∃ s, sortE (createSortComparator h cfg kind) l = .ok s := by
  by_cases hd : cfg.display.sortBy = "date"
  · rw [createSortComparator_date h cfg kind hd]
    exact ⟨_, sortE_eq_stableSort _
      (fun a b => dateLE h (dateOfD kind a) (dateOfD kind b))
      (fun a b => dateLE_total h _ _) (fun a b c => dateLE_trans h _ _ _) l
      (fun a ha b hb => compareDate_lt h kind a b (hl a ha) (hl b hb))⟩
  · rw [createSortComparator_priority h cfg kind hmode hd]
    exact ⟨_, sortE_eq_stableSort _
      (fun a b => ¬ (isOverdue h (dateOfD kind a) = false ∧ isOverdue h (dateOfD kind b) = true))
      (fun a b => flag_total (fun a => isOverdue h (dateOfD kind a)) a b)
      (fun a b c => flag_trans (fun a => isOverdue h (dateOfD kind a)) a b c) l
      (fun a ha b hb => comparePriority_lt h kind a b (hl a ha) (hl b hb))⟩

/-- Outside sort mode `'name'` no exception is caught while the notes of a
category are processed, when every `$name` is a string or absent. -/
theorem processNotes_no_exception (h : Host) (cfg : Config) (sect : SectionConfig)
    (notes : List Note) (hmode : cfg.display.sortBy ≠ "name")
    (htext : ∀ x ∈ notes, x.name.isText = true) :
    (processNotes h cfg sect notes).2 = none := by
  unfold processNotes
  split
  · split
    · apply runTry_snd_none
      · exact fun x hx => noteStep_ok h cfg _ x (htext x hx)
      · exact sortE_ok_of_dates h cfg _ hmode _ (fun a _ => ⟨_, rfl⟩)
    · rfl
  · rfl

/-- Outside sort mode `'name'` no exception is caught while the tasks of a
category are processed, when every `$text` is a string or absent. -/
theorem processTasks_no_exception (h : Host) (cfg : Config) (sect : SectionConfig)
    (tasks : List Task) (hmode : cfg.display.sortBy ≠ "name")
    (htext : ∀ x ∈ tasks, x.text.isText = true) :
    (processTasks h cfg sect tasks).2 = none := by
  unfold processTasks
  split
  · split
    · apply runTry_snd_none
      · exact fun x hx => taskStep_ok h cfg _ x (htext x hx)
      · apply sortE_ok_of_dates h cfg _ hmode
        intro a ha
        obtain ⟨d, hd⟩ := extractTaskDate_ok a.text (htext a (List.mem_of_mem_filter ha))
        exact ⟨optStr d, by simp [taskKind, hd]⟩
    · rfl
  · rfl

/-! ## Lemmas: double precision -/

theorem log2Aux_spec : ∀ (fuel n : Nat), n ≤ fuel → 0 < n →
    2 ^ log2Aux fuel n ≤ n ∧ n < 2 ^ (log2Aux fuel n + 1)
  | 0, n, hle, hpos => by omega
  | fuel + 1, n, hle, hpos => by
    unfold log2Aux
    by_cases h2 : n < 2
    · simp only [h2, if_true]
      constructor
      · simp; omega
      · simp; omega
    · simp only [h2, if_false]
      obtain ⟨hl, hu⟩ := log2Aux_spec fuel (n / 2) (by omega) (by omega)
      rw [pow_succ] at hu
      rw [pow_succ, pow_succ, pow_succ]
      generalize 2 ^ log2Aux fuel (n / 2) = p at hl hu ⊢
      constructor <;> omega

theorem floorLog2_spec (n : Nat) (hpos : 0 < n) :
    2 ^ floorLog2 n ≤ n ∧ n < 2 ^ (floorLog2 n + 1) :=
  log2Aux_spec n n (le_refl n) hpos

theorem roundHalfEven_spec (n d : Nat) (hd : 0 < d) :
    2 * (roundHalfEven n d * d) ≤ 2 * n + d ∧ 2 * n ≤ 2 * (roundHalfEven n d * d) + d := by
  have hdm := Nat.div_add_mod n d
  have hlt := Nat.mod_lt n hd
  have hmul : d * (n / d) = n / d * d := Nat.mul_comm _ _
  rw [hmul] at hdm
  unfold roundHalfEven
  split_ifs <;> (try simp only [Nat.add_mul, Nat.one_mul]) <;>
    generalize n / d * d = qd at hdm ⊢ <;> generalize n % d = r at * <;> constructor <;> omega

/-- The scaled quotient is at least `2^52`. -/
theorem fl_scaled (a b : Nat) (ha : 0 < a) (hb : 0 < b) :
    2 ^ 52 * (b * 2 ^ (floorLog2 a - flShift a b)) ≤ a * 2 ^ (flShift a b - floorLog2 a) := by
  obtain ⟨hla, hua⟩ := floorLog2_spec a ha
  obtain ⟨hlb, hub⟩ := floorLog2_spec b hb
  have hexp : (flShift a b - floorLog2 a) + floorLog2 a = (floorLog2 a - flShift a b) + flShift a b := by
    omega
  have hpow : 2 ^ (flShift a b - floorLog2 a) * 2 ^ floorLog2 a =
      2 ^ (floorLog2 a - flShift a b) * 2 ^ flShift a b := by
    rw [← pow_add, ← pow_add, hexp]
  have hkey : 2 ^ 52 * (b * 2 ^ floorLog2 a) ≤ a * 2 ^ flShift a b := by
    unfold flShift
    by_cases hge : b * 2 ^ floorLog2 a ≤ a * 2 ^ floorLog2 b
    · simp only [hge, if_true, Nat.add_zero, pow_add]
      calc 2 ^ 52 * (b * 2 ^ floorLog2 a) ≤ 2 ^ 52 * (a * 2 ^ floorLog2 b) :=
            Nat.mul_le_mul_left _ hge
        _ = a * (2 ^ 52 * 2 ^ floorLog2 b) := by ring
    · simp only [hge, if_false, pow_add, pow_one]
      have h1 : b * 2 ^ floorLog2 a ≤ 2 ^ (floorLog2 b + 1) * a :=
        Nat.mul_le_mul (le_of_lt hub) hla
      calc 2 ^ 52 * (b * 2 ^ floorLog2 a) ≤ 2 ^ 52 * (2 ^ (floorLog2 b + 1) * a) :=
            Nat.mul_le_mul_left _ h1
        _ = a * (2 ^ 52 * 2 ^ floorLog2 b * 2) := by ring
  have hpos : 0 < 2 ^ floorLog2 a := Nat.two_pow_pos _
  apply Nat.le_of_mul_le_mul_right _ hpos
  calc 2 ^ 52 * (b * 2 ^ (floorLog2 a - flShift a b)) * 2 ^ floorLog2 a
      = 2 ^ (floorLog2 a - flShift a b) * (2 ^ 52 * (b * 2 ^ floorLog2 a)) := by ring
    _ ≤ 2 ^ (floorLog2 a - flShift a b) * (a * 2 ^ flShift a b) := Nat.mul_le_mul_left _ hkey
    _ = a * (2 ^ (floorLog2 a - flShift a b) * 2 ^ flShift a b) := by ring
    _ = a * (2 ^ (flShift a b - floorLog2 a) * 2 ^ floorLog2 a) := by rw [hpow]
    _ = a * 2 ^ (flShift a b - floorLog2 a) * 2 ^ floorLog2 a := by ring



/-- The relative error of rounding to a double is at most `2^-53`. -/
theorem fl_bounds (a b : Nat) (ha : 0 < a) (hb : 0 < b) :
    0 < (fl a b).den ∧ ((a : ℚ) / b) * (1 - 1 / 2 ^ 53) ≤ (fl a b).val ∧
      (fl a b).val ≤ ((a : ℚ) / b) * (1 + 1 / 2 ^ 53) := by
  have hscale := fl_scaled a b ha hb
  have hane : a ≠ 0 := Nat.pos_iff_ne_zero.mp ha
  unfold fl Dbl.val
  simp only [hane, if_false]
  generalize flShift a b - floorLog2 a = up at hscale ⊢
  generalize floorLog2 a - flShift a b = dn at hscale ⊢
  have hP : 0 < 2 ^ up := Nat.two_pow_pos up
  have hQ : 0 < 2 ^ dn := Nat.two_pow_pos dn
  have hD : 0 < b * 2 ^ dn := Nat.mul_pos hb hQ
  obtain ⟨hr1, hr2⟩ := roundHalfEven_spec (a * 2 ^ up) (b * 2 ^ dn) hD
  generalize roundHalfEven (a * 2 ^ up) (b * 2 ^ dn) = M at hr1 hr2 ⊢
  generalize 2 ^ up = P at *
  generalize 2 ^ dn = Q at *
  have hbq : (0 : ℚ) < b := by exact_mod_cast hb
  have hPq : (0 : ℚ) < P := by exact_mod_cast hP
  have hU : M * (b * Q) * 2 ^ 53 ≤ a * P * (2 ^ 53 + 1) := by
    generalize M * (b * Q) = MD at *
    generalize a * P = N at *
    generalize b * Q = D at *
    omega
  have hL : a * P * (2 ^ 53 - 1) ≤ M * (b * Q) * 2 ^ 53 := by
    generalize M * (b * Q) = MD at *
    generalize a * P = N at *
    generalize b * Q = D at *
    omega
  have hUq : (M : ℚ) * (b * Q) * 2 ^ 53 ≤ a * P * (2 ^ 53 + 1) := by exact_mod_cast hU
  have hLq : (a : ℚ) * P * (2 ^ 53 - 1) ≤ M * (b * Q) * 2 ^ 53 := by
    have : ((a * P * (2 ^ 53 - 1) : ℕ) : ℚ) ≤ ((M * (b * Q) * 2 ^ 53 : ℕ) : ℚ) := by
      exact_mod_cast hL
    push_cast at this
    linarith
  refine ⟨hP, ?_, ?_⟩
  · push_cast
    rw [div_mul_eq_mul_div, div_le_div_iff₀ hbq hPq]
    have : (a : ℚ) * (1 - 1 / 2 ^ 53) * P * 2 ^ 53 ≤ M * Q * b * 2 ^ 53 := by
      have e1 : (a : ℚ) * (1 - 1 / 2 ^ 53) * P * 2 ^ 53 = a * P * (2 ^ 53 - 1) := by
        field_simp
        ring
      rw [e1]
      linarith
    have h53 : (0 : ℚ) < 2 ^ 53 := by norm_num
    exact le_of_mul_le_mul_right this h53
  · push_cast
    rw [div_mul_eq_mul_div, div_le_div_iff₀ hPq hbq]
    have : (M : ℚ) * Q * b * 2 ^ 53 ≤ a * (1 + 1 / 2 ^ 53) * P * 2 ^ 53 := by
      have e1 : (a : ℚ) * (1 + 1 / 2 ^ 53) * P * 2 ^ 53 = a * P * (2 ^ 53 + 1) := by
        field_simp
        ring
      rw [e1]
      linarith
    have h53 : (0 : ℚ) < 2 ^ 53 := by norm_num
    exact le_of_mul_le_mul_right this h53

theorem mathRound_le (y : Dbl) (K : Nat) (hden : 0 < y.den) (hy : y.val < (K : ℚ) + 1 / 2) :
    mathRound y ≤ K := by
  unfold mathRound
  apply Nat.le_of_lt_succ
  rw [Nat.div_lt_iff_lt_mul (by omega)]
  unfold Dbl.val at hy
  have hdq : (0 : ℚ) < y.den := by exact_mod_cast hden
  rw [div_lt_iff₀ hdq] at hy
  have : ((2 * y.num + y.den : ℕ) : ℚ) < ((K.succ * (2 * y.den) : ℕ) : ℚ) := by
    push_cast
    linarith
  exact_mod_cast this

theorem le_mathRound (y : Dbl) (K : Nat) (hden : 0 < y.den) (hy : (K : ℚ) - 1 / 2 ≤ y.val) :
    K ≤ mathRound y := by
  unfold mathRound
  rw [Nat.le_div_iff_mul_le (by omega)]
  unfold Dbl.val at hy
  have hdq : (0 : ℚ) < y.den := by exact_mod_cast hden
  rw [le_div_iff₀ hdq] at hy
  have : ((K * (2 * y.den) : ℕ) : ℚ) ≤ ((2 * y.num + y.den : ℕ) : ℚ) := by
    push_cast
    linarith
  exact_mod_cast this



/-- The double `maxItems * (n / (n + t))` of the cap is within two roundings of
the exact product. -/
theorem share_val (m n t : Nat) (hn : 0 < n) (hm : 0 < m) :
    0 < (fmul m (fdiv n (n + t))).den ∧
      (m : ℚ) * ((n : ℚ) / ((n : ℚ) + t)) * ((1 - 1 / 2 ^ 53) * (1 - 1 / 2 ^ 53)) ≤
        (fmul m (fdiv n (n + t))).val ∧
      (fmul m (fdiv n (n + t))).val ≤
        (m : ℚ) * ((n : ℚ) / ((n : ℚ) + t)) * ((1 + 1 / 2 ^ 53) * (1 + 1 / 2 ^ 53)) := by
  have hT : 0 < n + t := by omega
  obtain ⟨hd1, hl1, hu1⟩ := fl_bounds n (n + t) hn hT
  have hnq : (0 : ℚ) < n := by exact_mod_cast hn
  have hTq : (0 : ℚ) < ((n + t : ℕ) : ℚ) := by exact_mod_cast hT
  have hmq0 : (0 : ℚ) ≤ m := by exact_mod_cast Nat.zero_le m
  have hcast : ((n + t : ℕ) : ℚ) = (n : ℚ) + t := by push_cast; ring
  rw [hcast] at hl1 hu1 hTq
  unfold fdiv fmul
  generalize fl n (n + t) = y1 at hd1 hl1 hu1 ⊢
  have hxpos : (0 : ℚ) < (n : ℚ) / ((n : ℚ) + t) := div_pos hnq hTq
  generalize (n : ℚ) / ((n : ℚ) + t) = x at hl1 hu1 hxpos
  have hy1pos : 0 < y1.val := by
    have : 0 < x * (1 - 1 / 2 ^ 53) := mul_pos hxpos (by norm_num)
    linarith
  have hnum1 : 0 < y1.num := by
    unfold Dbl.val at hy1pos
    by_contra hzero
    have : y1.num = 0 := by omega
    rw [this] at hy1pos
    simp at hy1pos
  obtain ⟨hd2, hl2, hu2⟩ := fl_bounds (m * y1.num) y1.den (Nat.mul_pos hm hnum1) hd1
  have hval : ((m * y1.num : ℕ) : ℚ) / (y1.den : ℚ) = m * y1.val := by
    unfold Dbl.val; push_cast; ring
  rw [hval] at hl2 hu2
  generalize fl (m * y1.num) y1.den = y2 at hd2 hl2 hu2 ⊢
  generalize y1.val = v1 at *
  refine ⟨hd2, ?_, ?_⟩
  · have h1 : (m : ℚ) * (x * (1 - 1 / 2 ^ 53)) ≤ m * v1 := mul_le_mul_of_nonneg_left hl1 hmq0
    have h2 : (m : ℚ) * (x * (1 - 1 / 2 ^ 53)) * (1 - 1 / 2 ^ 53) ≤ m * v1 * (1 - 1 / 2 ^ 53) :=
      mul_le_mul_of_nonneg_right h1 (by norm_num)
    calc m * x * ((1 - 1 / 2 ^ 53) * (1 - 1 / 2 ^ 53))
        = m * (x * (1 - 1 / 2 ^ 53)) * (1 - 1 / 2 ^ 53) := by ring
      _ ≤ m * v1 * (1 - 1 / 2 ^ 53) := h2
      _ ≤ y2.val := hl2
  · have h1 : (m : ℚ) * v1 ≤ m * (x * (1 + 1 / 2 ^ 53)) := mul_le_mul_of_nonneg_left hu1 hmq0
    have h2 : (m : ℚ) * v1 * (1 + 1 / 2 ^ 53) ≤ m * (x * (1 + 1 / 2 ^ 53)) * (1 + 1 / 2 ^ 53) :=
      mul_le_mul_of_nonneg_right h1 (by norm_num)
    calc y2.val ≤ m * v1 * (1 + 1 / 2 ^ 53) := hu2
      _ ≤ m * (x * (1 + 1 / 2 ^ 53)) * (1 + 1 / 2 ^ 53) := h2
      _ = m * x * ((1 + 1 / 2 ^ 53) * (1 + 1 / 2 ^ 53)) := by ring

/-- The proportional share of the notes, `Math.round(maxItems * (n / (n + t)))`
in double precision, is at most `maxItems`, at most `n`, and leaves at most `t`
for the tasks. -/
theorem share_bounds (m n t : Nat) (hn : 0 < n) (ht : 0 < t) (hmT : m < n + t)
    (hm50 : m < 2 ^ 50) (hn50 : n < 2 ^ 50) :
    mathRound (fmul m (fdiv n (n + t))) ≤ m ∧ mathRound (fmul m (fdiv n (n + t))) ≤ n ∧
      m ≤ mathRound (fmul m (fdiv n (n + t))) + t := by
  by_cases hm0 : m = 0
  · subst hm0
    simp [fmul, fl, mathRound]
  have hmpos : 0 < m := Nat.pos_of_ne_zero hm0
  obtain ⟨hd2, hlo, hup⟩ := share_val m n t hn hmpos
  have hnq : (0 : ℚ) < n := by exact_mod_cast hn
  have htq : (0 : ℚ) < t := by exact_mod_cast ht
  have hTq : (0 : ℚ) < (n : ℚ) + t := by linarith
  have hmq0 : (0 : ℚ) ≤ m := by exact_mod_cast Nat.zero_le m
  have hmTq : (m : ℚ) < (n : ℚ) + t := by exact_mod_cast hmT
  have hm50q : (m : ℚ) < 2 ^ 50 := by exact_mod_cast hm50
  have hn50q : (n : ℚ) < 2 ^ 50 := by exact_mod_cast hn50
  have hxpos : (0 : ℚ) < (n : ℚ) / ((n : ℚ) + t) := div_pos hnq hTq
  have hxle : (n : ℚ) / ((n : ℚ) + t) ≤ 1 := by
    rw [div_le_one hTq]; linarith
  have hmx_le_m : (m : ℚ) * ((n : ℚ) / ((n : ℚ) + t)) ≤ m := by nlinarith
  have hmx_le_n : (m : ℚ) * ((n : ℚ) / ((n : ℚ) + t)) ≤ n := by
    rw [← mul_div_assoc, div_le_iff₀ hTq]
    nlinarith
  have hmx_ge : (m : ℚ) - t ≤ m * ((n : ℚ) / ((n : ℚ) + t)) := by
    rw [← mul_div_assoc, le_div_iff₀ hTq]
    nlinarith
  have hmx0 : (0 : ℚ) ≤ m * ((n : ℚ) / ((n : ℚ) + t)) := mul_nonneg hmq0 (le_of_lt hxpos)
  generalize (m : ℚ) * ((n : ℚ) / ((n : ℚ) + t)) = mx at *
  generalize fmul m (fdiv n (n + t)) = y2 at *
  norm_num at hup hlo
  refine ⟨?_, ?_, ?_⟩
  · apply mathRound_le _ _ hd2
    linarith
  · apply mathRound_le _ _ hd2
    linarith
  · by_cases hmt : m ≤ t
    · omega
    · have hK : m - t ≤ mathRound y2 := by
        apply le_mathRound _ _ hd2
        have : ((m - t : ℕ) : ℚ) = (m : ℚ) - t := by
          rw [Nat.cast_sub (by omega)]
        rw [this]
        linarith
      omega

/-- The share computed in double precision is the exact quotient
`maxItems * n / (n + t)` rounded half up, except that an exact tie may be
rounded down. -/
theorem share_exact (m n t : Nat) (hn : 0 < n) (hsmall : 6 * m * (n + t) < 2 ^ 53) :
    ((2 * m * n + (n + t)) % (2 * (n + t)) ≠ 0 →
        mathRound (fmul m (fdiv n (n + t))) = (2 * m * n + (n + t)) / (2 * (n + t))) ∧
      (mathRound (fmul m (fdiv n (n + t))) = (2 * m * n + (n + t)) / (2 * (n + t)) ∨
        mathRound (fmul m (fdiv n (n + t))) + 1 = (2 * m * n + (n + t)) / (2 * (n + t))) := by
  by_cases hm0 : m = 0
  · subst hm0
    have h1 : (n + t) / (2 * (n + t)) = 0 := Nat.div_eq_of_lt (by omega)
    simp [fmul, fl, mathRound, h1]
  have hmpos : 0 < m := Nat.pos_of_ne_zero hm0
  obtain ⟨hd2, hlo, hup⟩ := share_val m n t hn hmpos
  have hT : 0 < 2 * (n + t) := by omega
  have hdm := Nat.div_add_mod (2 * m * n + (n + t)) (2 * (n + t))
  have hlt := Nat.mod_lt (2 * m * n + (n + t)) hT
  generalize (2 * m * n + (n + t)) / (2 * (n + t)) = R at hdm ⊢
  generalize (2 * m * n + (n + t)) % (2 * (n + t)) = rem at hdm hlt ⊢
  have hnq : (0 : ℚ) < n := by exact_mod_cast hn
  have htq : (0 : ℚ) ≤ t := by exact_mod_cast Nat.zero_le t
  have hn1 : (1 : ℚ) ≤ n := by exact_mod_cast hn
  have hTq : (0 : ℚ) < (n : ℚ) + t := by linarith
  have hTne : (n : ℚ) + t ≠ 0 := ne_of_gt hTq
  have hmq0 : (0 : ℚ) < m := by exact_mod_cast hmpos
  have hsq : (6 : ℚ) * m * ((n : ℚ) + t) < 2 ^ 53 := by exact_mod_cast hsmall
  have hdmq : (2 : ℚ) * ((n : ℚ) + t) * R + rem = 2 * m * n + ((n : ℚ) + t) := by
    exact_mod_cast hdm
  have hremq : (0 : ℚ) ≤ rem := by exact_mod_cast Nat.zero_le rem
  have hrem1 : (rem : ℚ) + 1 ≤ 2 * ((n : ℚ) + t) := by
    have : rem + 1 ≤ 2 * (n + t) := by omega
    exact_mod_cast this
  have hmxT : (m : ℚ) * ((n : ℚ) / ((n : ℚ) + t)) * (2 * ((n : ℚ) + t)) = 2 * m * n := by
    field_simp
    ring
  have huT : (1 : ℚ) / (2 * ((n : ℚ) + t)) * (2 * ((n : ℚ) + t)) = 1 := by
    field_simp
  have hu0 : (0 : ℚ) < 1 / (2 * ((n : ℚ) + t)) := by positivity
  have hxle : (n : ℚ) / ((n : ℚ) + t) ≤ 1 := by
    rw [div_le_one hTq]; linarith
  have hxpos : (0 : ℚ) < (n : ℚ) / ((n : ℚ) + t) := div_pos hnq hTq
  have hmx_le_m : (m : ℚ) * ((n : ℚ) / ((n : ℚ) + t)) ≤ m := by nlinarith
  have hmx0 : (0 : ℚ) ≤ m * ((n : ℚ) / ((n : ℚ) + t)) := by positivity
  generalize (m : ℚ) * ((n : ℚ) / ((n : ℚ) + t)) = mx at *
  generalize (1 : ℚ) / (2 * ((n : ℚ) + t)) = u at *
  generalize fmul m (fdiv n (n + t)) = y2 at *
  have h2T : (0 : ℚ) < 2 * ((n : ℚ) + t) := by linarith
  have hx : mx + 1 / 2 = R + rem * u := by
    have hmul : (mx + 1 / 2) * (2 * ((n : ℚ) + t)) = (R + rem * u) * (2 * ((n : ℚ) + t)) := by
      linear_combination hmxT - hdmq - (rem : ℚ) * huT
    exact mul_right_cancel₀ (ne_of_gt h2T) hmul
  have hu_half : u ≤ 1 / 2 := by
    have : (0 : ℚ) ≤ (1 / 2 - u) * (2 * ((n : ℚ) + t)) := by
      have e : (1 / 2 - u) * (2 * ((n : ℚ) + t)) = (n : ℚ) + t - 1 := by
        linear_combination -huT
      rw [e]
      linarith
    have := nonneg_of_mul_nonneg_left this h2T
    linarith
  have hmu : (3 : ℚ) * m / 2 ^ 53 < u := by
    have : (0 : ℚ) < (u - 3 * m / 2 ^ 53) * (2 * ((n : ℚ) + t)) := by
      have e : (u - 3 * m / 2 ^ 53) * (2 * ((n : ℚ) + t)) =
          1 - 6 * m * ((n : ℚ) + t) / 2 ^ 53 := by
        linear_combination huT
      rw [e]
      have : 6 * (m : ℚ) * ((n : ℚ) + t) / 2 ^ 53 < 1 := by
        rw [div_lt_one (by norm_num)]
        exact hsq
      linarith
    have := pos_of_mul_pos_left this (le_of_lt h2T)
    linarith
  have hw_lo : rem ≠ 0 → u ≤ (rem : ℚ) * u := by
    intro hrem0
    have h1 : (1 : ℚ) ≤ rem := by exact_mod_cast Nat.one_le_iff_ne_zero.mpr hrem0
    nlinarith
  have hw_hi : (rem : ℚ) * u ≤ 1 - u := by
    have e : 1 - u - (rem : ℚ) * u = (2 * ((n : ℚ) + t) - 1 - rem) * u := by
      linear_combination (-1 : ℚ) * huT
    have : (0 : ℚ) ≤ (2 * ((n : ℚ) + t) - 1 - rem) * u :=
      mul_nonneg (by linarith) (le_of_lt hu0)
    linarith
  have hw0 : (0 : ℚ) ≤ (rem : ℚ) * u := mul_nonneg hremq (le_of_lt hu0)
  generalize hw : (rem : ℚ) * u = w at *
  norm_num at hup hlo hmu
  have hupper : mathRound y2 ≤ R := by
    apply mathRound_le _ _ hd2
    by_cases hrem0 : rem = 0
    · subst hrem0
      simp at hw
      linarith
    · linarith
  have hlower : rem ≠ 0 → R ≤ mathRound y2 := by
    intro hrem0
    apply le_mathRound _ _ hd2
    have := hw_lo hrem0
    linarith
  have hlower1 : R - 1 ≤ mathRound y2 := by
    by_cases hR0 : R = 0
    · omega
    · apply le_mathRound _ _ hd2
      have : ((R - 1 : ℕ) : ℚ) = (R : ℚ) - 1 := by
        rw [Nat.cast_sub (by omega)]
        simp
      rw [this]
      linarith
  constructor
  · intro hrem0
    exact le_antisymm hupper (hlower hrem0)
  · omega

/-! ## Lemmas: the lengths kept by the cap -/

theorem tasksLimit_eq (M n t : Nat) : tasksLimit M n t = max 1 (M - notesLimit M n t) := by
  unfold tasksLimit
  omega

theorem one_le_notesLimit (M n t : Nat) : 1 ≤ notesLimit M n t := by
  unfold notesLimit
  exact le_max_left _ _

theorem one_le_tasksLimit (M n t : Nat) : 1 ≤ tasksLimit M n t := by
  rw [tasksLimit_eq]
  exact le_max_left _ _

/-- The lists kept by the cap, case by case. -/
theorem applyLimit_cases {α β : Type} (maxItems : Int) (ns : List α) (ts : List β) :
    (maxItems ≤ 0 ∨ ((ns.length + ts.length : Nat) : Int) ≤ maxItems) ∧
        applyLimit maxItems ns ts = (ns, ts) ∨
      (0 < maxItems ∧ maxItems < ((ns.length + ts.length : Nat) : Int) ∧
        ((0 < ns.length ∧ 0 < ts.length ∧
            applyLimit maxItems ns ts =
              (ns.take (notesLimit maxItems.toNat ns.length ts.length),
                ts.take (tasksLimit maxItems.toNat ns.length ts.length))) ∨
          (0 < ns.length ∧ ts = [] ∧ applyLimit maxItems ns ts = (ns.take maxItems.toNat, ts)) ∨
          (ns = [] ∧ 0 < ts.length ∧
            applyLimit maxItems ns ts = (ns, ts.take maxItems.toNat)))) := by
  by_cases hcap : maxItems ≤ 0 ∨ ((ns.length + ts.length : Nat) : Int) ≤ maxItems
  · exact Or.inl ⟨hcap, applyLimit_no_cap maxItems ns ts hcap⟩
  · right
    have hpos : 0 < maxItems := by omega
    have hgt : maxItems < ((ns.length + ts.length : Nat) : Int) := by omega
    refine ⟨hpos, hgt, ?_⟩
    unfold applyLimit
    rw [if_pos hpos, if_pos hgt]
    by_cases hn : 0 < ns.length
    · by_cases ht : 0 < ts.length
      · left
        refine ⟨hn, ht, ?_⟩
        simp [hn, ht, List.take_take]
        exact ⟨Nat.min_comm _ _, Nat.min_comm _ _⟩
      · right; left
        have : ts = [] := List.length_eq_zero.mp (by omega)
        subst this
        refine ⟨hn, rfl, ?_⟩
        simp [hn, List.take_take]
        exact Nat.min_comm _ _
    · right; right
      have : ns = [] := List.length_eq_zero.mp (by omega)
      subst this
      have ht : 0 < ts.length := by
        simp at hgt
        omega
      refine ⟨rfl, ht, ?_⟩
      simp [ht, List.take_take]
      exact Nat.min_comm _ _



theorem runTry_length_le {α : Type} (step : α → Except String Bool)
    (cmp : α → α → Except String Int) (xs : List α) :
    (runTry step cmp xs).1.length ≤ xs.length := by
  rw [(runTry_perm step cmp xs).length_eq]
  exact le_trans (List.length_filter_le _ _) (List.takeWhile_sublist _).length_le

theorem processNotes_length_le (h : Host) (cfg : Config) (sect : SectionConfig)
    (notes : List Note) : (processNotes h cfg sect notes).1.length ≤ notes.length := by
  unfold processNotes
  split
  · split
    · exact runTry_length_le _ _ _
    · simp
  · simp

theorem processTasks_length_le (h : Host) (cfg : Config) (sect : SectionConfig)
    (tasks : List Task) : (processTasks h cfg sect tasks).1.length ≤ tasks.length := by
  unfold processTasks
  split
  · split
    · exact runTry_length_le _ _ _
    · simp
  · simp

/-- The lengths kept by the proportional cap when both kinds are present. -/
theorem proportional_lengths {α β : Type} (maxItems : Int) (ns : List α) (ts : List β)
    (hpos : 0 < maxItems) (hgt : maxItems < ((ns.length + ts.length : Nat) : Int))
    (hn : 0 < ns.length) (ht : 0 < ts.length)
    (hn32 : ns.length < 2 ^ 32) (ht32 : ts.length < 2 ^ 32) :
    mathRound (fmul maxItems.toNat (fdiv ns.length (ns.length + ts.length))) ≤ maxItems.toNat ∧
      mathRound (fmul maxItems.toNat (fdiv ns.length (ns.length + ts.length))) ≤ ns.length ∧
      maxItems.toNat ≤
        mathRound (fmul maxItems.toNat (fdiv ns.length (ns.length + ts.length))) + ts.length := by
  have hM : ((maxItems.toNat : Nat) : Int) = maxItems := Int.toNat_of_nonneg (le_of_lt hpos)
  have hlt : maxItems.toNat < ns.length + ts.length := by omega
  apply share_bounds _ _ _ hn ht hlt
  · have : (2 : Nat) ^ 32 + 2 ^ 32 ≤ 2 ^ 50 := by norm_num
    omega
  · have : (2 : Nat) ^ 32 ≤ 2 ^ 50 := by norm_num
    omega

/-! ## Lemmas: reachable memo tables -/

theorem cleanParseDateCache_sound (h : Host) (cache : ParseDateCache) (hs : cache.Sound h) :
    (cleanParseDateCache cache).Sound h := by
  unfold cleanParseDateCache
  split_ifs
  · intro kv hkv
    exact hs kv (List.mem_of_mem_drop hkv)
  · exact hs

theorem foldl_events_sound (h : Host) (events : List ParseDateEvent) :
    ∀ cache : ParseDateCache, cache.Sound h →
      ParseDateCache.Sound h (events.foldl (ParseDateEvent.run h) cache) := by
  induction events with
  | nil => intro cache hs; exact hs
  | cons e es ih =>
    intro cache hs
    simp only [List.foldl_cons]
    apply ih
    cases e with
    | call v => exact cachedParseDate_sound h cache v hs
    | cleanup => exact cleanParseDateCache_sound h cache hs

/-- Every reachable memo table is sound. -/
theorem parseDateCacheAfter_sound (h : Host) (events : List ParseDateEvent) :
    (parseDateCacheAfter h events).Sound h :=
  foldl_events_sound h events [] (fun _ hkv => absurd hkv (List.not_mem_nil _))

theorem cachedParseDate_length (h : Host) (cache : ParseDateCache) (dateInput : JSVal)
    (hl : cache.length ≤ CACHE_LIMIT_parseDate) :
    (cachedParseDate h cache dateInput).2.length ≤ CACHE_LIMIT_parseDate := by
  unfold cachedParseDate
  by_cases ht : dateInput.truthy = true
  · simp only [ht, Bool.not_true, Bool.false_eq_true, if_false]
    cases hlook : List.lookup (toJSString dateInput) cache with
    | some v => exact hl
    | none =>
      simp only
      split_ifs with hgt
      · simp only [List.length_tail, List.length_append, List.length_singleton]
        omega
      · omega
  · simp only [ht, Bool.not_false, if_true]
    exact hl

theorem cleanParseDateCache_length (cache : ParseDateCache)
    (hl : cache.length ≤ CACHE_LIMIT_parseDate) :
    (cleanParseDateCache cache).length ≤ CACHE_LIMIT_parseDate := by
  unfold cleanParseDateCache
  split_ifs
  · simp only [List.length_drop]
    omega
  · exact hl

theorem foldl_events_length (h : Host) (events : List ParseDateEvent) :
    ∀ cache : ParseDateCache, cache.length ≤ CACHE_LIMIT_parseDate →
      (events.foldl (ParseDateEvent.run h) cache).length ≤ CACHE_LIMIT_parseDate := by
  induction events with
  | nil => intro cache hl; exact hl
  | cons e es ih =>
    intro cache hl
    simp only [List.foldl_cons]
    apply ih
    cases e with
    | call v => exact cachedParseDate_length h cache v hl
    | cleanup => exact cleanParseDateCache_length cache hl

theorem lookup_none_of_not_mem_keys {β : Type} (l : List (String × β)) (k : String)
    (hk : k ∉ l.map Prod.fst) : l.lookup k = none := by
  rw [List.lookup_eq_none_iff]
  intro p hp
  have hne : k ≠ p.1 := fun heq => hk (heq ▸ List.mem_map_of_mem Prod.fst hp)
  simpa using hne

/-- `getCachedTaskDate` appends an entry for every text it has not seen,
whatever the size of the table. -/
theorem getCachedTaskDate_insert (cache : TaskDateCache) (text : String) (hne : text ≠ "")
    (hnew : text ∉ cache.map Prod.fst) :
    getCachedTaskDate cache (.str text) =
      .ok (taskDateScan text, cache ++ [(text, taskDateScan text)]) := by
  unfold getCachedTaskDate
  simp [JSVal.truthy, hne, lookup_none_of_not_mem_keys cache text hnew]

theorem foldl_taskDate_length (texts : List String) :
    ∀ cache : TaskDateCache, texts.Nodup → "" ∉ texts →
      (∀ t ∈ texts, t ∉ cache.map Prod.fst) →
      ((texts.map JSVal.str).foldl (fun cache text =>
        match getCachedTaskDate cache text with
        | .ok r => r.2
        | .error _ => cache) cache).length = cache.length + texts.length := by
  induction texts with
  | nil => intro cache _ _ _; simp
  | cons t ts ih =>
    intro cache hnd hne hnew
    have ht : t ≠ "" := fun h0 => hne (h0 ▸ List.mem_cons_self _ _)
    have htnew : t ∉ cache.map Prod.fst := hnew t (List.mem_cons_self _ _)
    simp only [List.map_cons, List.foldl_cons, getCachedTaskDate_insert cache t ht htnew]
    rw [ih]
    · simp only [List.length_append, List.length_cons, List.length_nil]
      omega
    · exact (List.nodup_cons.mp hnd).2
    · exact fun hmem => hne (List.mem_cons_of_mem _ hmem)
    · intro x hx
      simp only [List.map_append, List.map_cons, List.map_nil, List.mem_append,
        List.mem_singleton, not_or]
      refine ⟨hnew x (List.mem_cons_of_mem _ hx), ?_⟩
      intro hxt
      exact (List.nodup_cons.mp hnd).1 (hxt ▸ hx)

/-- After calls on pairwise distinct non-empty texts the task-date memo table
holds one entry per text: nothing bounds it. -/
theorem taskDateCacheAfter_length (texts : List String) (hnd : texts.Nodup)
    (hne : "" ∉ texts) : (taskDateCacheAfter (texts.map JSVal.str)).length = texts.length := by
  unfold taskDateCacheAfter
  rw [foldl_taskDate_length texts [] hnd hne (fun _ _ => by simp)]
  simp

/-! ## Lemmas: the branches of the date parser -/

theorem isoHead_chars (cs : List Char) (h : isoHead.test cs = true) :
    ∃ c1 c2 c3 rest, cs = c1 :: c2 :: c3 :: rest ∧ c2.isDigit = true ∧ c3.isDigit = true := by
  match cs, h with
  | [], h => simp [Re.test, isoHead, Re.cat, Re.digit4, Re.digit2, Re.digit, Re.run] at h
  | [_], h => simp [Re.test, isoHead, Re.cat, Re.digit4, Re.digit2, Re.digit, Re.run] at h
  | [_, _], h => simp [Re.test, isoHead, Re.cat, Re.digit4, Re.digit2, Re.digit, Re.run] at h
  | c1 :: c2 :: c3 :: rest, h =>
    refine ⟨c1, c2, c3, rest, rfl, ?_, ?_⟩
    · by_contra hc
      simp [Re.test, isoHead, Re.cat, Re.digit4, Re.digit2, Re.digit, Re.run, hc] at h
    · by_contra hc
      simp [Re.test, isoHead, Re.cat, Re.digit4, Re.digit2, Re.digit, Re.run, hc] at h

theorem digit_not_separator (c : Char) (hc : c.isDigit = true) :
    (c == '/' || c == '-') = false := by
  have h1 : c ≠ '/' := by
    intro heq
    subst heq
    revert hc
    decide
  have h2 : c ≠ '-' := by
    intro heq
    subst heq
    revert hc
    decide
  simp [h1, h2]

/-- A text that opens like a slash or dash date does not open like an ISO date. -/
theorem isoHead_false_of_slashHead (cs : List Char) (h : slashHead.test cs = true) :
    isoHead.test cs = false := by
  by_contra hiso
  have hiso1 : isoHead.test cs = true := by simpa using hiso
  obtain ⟨c1, c2, c3, rest, hcs, h2, h3⟩ := isoHead_chars cs hiso1
  subst hcs
  have s2 := digit_not_separator c2 h2
  have s3 := digit_not_separator c3 h3
  simp only [Bool.or_eq_false_iff] at s2 s3
  simp [Re.test, slashHead, Re.cat, Re.digit12, Re.digit4, Re.digit2, Re.digit, Re.run, h2, h3,
    s2.1, s2.2, s3.1, s3.2] at h

/-- The slash and dash branch of `cachedParseDate`, lines 555-570. -/
theorem parseDateCompute_slash (h : Host) (s : String) (a b c : List Char) (p1 p2 p3 : Int)
    (hhead : slashHead.test (jsTrim s).data = true)
    (hsplit : splitDateSeparators (jsTrim s).data = [a, b, c])
    (h1 : parseInt10 a = some p1) (h2 : parseInt10 b = some p2) (h3 : parseInt10 c = some p3) :
    parseDateCompute h s =
      if (decide (p1 > 12) && decide (p2 ≤ 12)) = true then h.dateLocal p3 (p2 - 1) p1
      else h.dateLocal p3 (p1 - 1) p2 := by
  unfold parseDateCompute
  simp only [isoHead_false_of_slashHead _ hhead, hhead, hsplit, h1, h2, h3, Bool.false_eq_true,
    if_false, if_true]

theorem ne_empty_of_slashHead (s : String) (hhead : slashHead.test (jsTrim s).data = true) :
    s ≠ "" := by
  intro h0
  subst h0
  revert hhead
  decide

/-! ## Lemmas: the ISO branch of the date parser -/

theorem digit_toNat (c : Char) (hc : c.isDigit = true) : 48 ≤ c.toNat ∧ c.toNat ≤ 57 := by
  simp only [Char.isDigit, Bool.and_eq_true, decide_eq_true_eq] at hc
  obtain ⟨h1, h2⟩ := hc
  constructor
  · exact h1
  · exact h2

theorem digit_not_space (c : Char) (hc : c.isDigit = true) : isJSSpace c = false := by
  obtain ⟨h1, h2⟩ := digit_toNat c hc
  unfold isJSSpace
  simp only [Bool.or_eq_false_iff, Bool.and_eq_false_iff, beq_eq_false_iff_ne, ne_eq,
    decide_eq_false_iff_not]
  omega

theorem daysInMonth_le (y m : Int) : daysInMonth y m ≤ 31 := by
  unfold daysInMonth
  split_ifs <;> omega

theorem jsTrim_isoText (y1 y2 y3 y4 m1 m2 d1 d2 : Char) (h1 : y1.isDigit = true)
    (h2 : d2.isDigit = true) :
    jsTrim (isoText y1 y2 y3 y4 m1 m2 d1 d2) = isoText y1 y2 y3 y4 m1 m2 d1 d2 := by
  simp [jsTrim, isoText, List.dropWhile, digit_not_space y1 h1, digit_not_space d2 h2]

theorem isoHead_isoText (y1 y2 y3 y4 m1 m2 d1 d2 : Char)
    (hdig : [y1, y2, y3, y4, m1, m2, d1, d2].all Char.isDigit = true) :
    isoHead.test (isoText y1 y2 y3 y4 m1 m2 d1 d2).data = true := by
  simp only [List.all_cons, List.all_nil, Bool.and_true, Bool.and_eq_true] at hdig
  obtain ⟨a1, a2, a3, a4, a5, a6, a7, a8⟩ := hdig
  simp [isoHead, isoText, Re.test, Re.cat, Re.digit4, Re.digit2, Re.digit, Re.chr, Re.run,
    a1, a2, a3, a4, a5, a6, a7, a8]

theorem isoDateOnly_isoText (y1 y2 y3 y4 m1 m2 d1 d2 : Char)
    (hdig : [y1, y2, y3, y4, m1, m2, d1, d2].all Char.isDigit = true)
    (hm : 1 ≤ digitsVal [m1, m2] ∧ digitsVal [m1, m2] ≤ 12)
    (hd : 1 ≤ digitsVal [d1, d2] ∧
      digitsVal [d1, d2] ≤ daysInMonth (digitsVal [y1, y2, y3, y4]) (digitsVal [m1, m2])) :
    isoDateOnly (isoText y1 y2 y3 y4 m1 m2 d1 d2) =
      some (daysFromCivil (digitsVal [y1, y2, y3, y4]) (digitsVal [m1, m2])
        (digitsVal [d1, d2]) * msPerDay) := by
  have h31 := daysInMonth_le (digitsVal [y1, y2, y3, y4]) (digitsVal [m1, m2])
  have hd31 : digitsVal [d1, d2] ≤ 31 := le_trans hd.2 h31
  simp only [isoDateOnly, isoText, hdig, if_true]
  simp [hm.1, hm.2, hd.1, hd31]

theorem parseDate_isoText (h : Host) (y1 y2 y3 y4 m1 m2 d1 d2 : Char)
    (hdig : [y1, y2, y3, y4, m1, m2, d1, d2].all Char.isDigit = true) :
    parseDate h (.str (isoText y1 y2 y3 y4 m1 m2 d1 d2)) =
      h.dateParse (isoText y1 y2 y3 y4 m1 m2 d1 d2) := by
  have hdig2 := hdig
  simp only [List.all_cons, List.all_nil, Bool.and_true, Bool.and_eq_true] at hdig2
  have htrim := jsTrim_isoText y1 y2 y3 y4 m1 m2 d1 d2 hdig2.1 hdig2.2.2.2.2.2.2.2
  have htruthy : (JSVal.str (isoText y1 y2 y3 y4 m1 m2 d1 d2)).truthy = true := by
    have hne : isoText y1 y2 y3 y4 m1 m2 d1 d2 ≠ "" := by
      intro hcontra
      have hlen := congrArg (fun s => s.data.length) hcontra
      simp [isoText] at hlen
    simp [JSVal.truthy, hne]
  unfold parseDate
  rw [htruthy]
  simp only [Bool.not_true, Bool.false_eq_true, if_false, toJSString]
  unfold parseDateCompute
  simp only [htrim, isoHead_isoText y1 y2 y3 y4 m1 m2 d1 d2 hdig, if_true]

/-! ## Lemmas: the patterns of the task-date extractor -/

theorem space_not_digit (c : Char) (hc : isJSSpace c = true) : c.isDigit = false := by
  cases hd : c.isDigit with
  | false => rfl
  | true => rw [digit_not_space c hd] at hc; cases hc

/-- The greedy `\s*` before a continuation that needs a digit skips all the
white space. -/
theorem starRun_spaces (K : List Char → Option (List Char))
    (hK : ∀ c r, c.isDigit = false → K (c :: r) = none) (cs : List Char) :
    starRun isJSSpace cs K = K (cs.dropWhile isJSSpace) := by
  induction cs with
  | nil => rfl
  | cons c cs ih =>
    unfold starRun
    by_cases hc : isJSSpace c = true
    · simp only [hc, if_true, List.dropWhile_cons_of_pos]
      rw [ih]
      cases hr : K (cs.dropWhile isJSSpace) with
      | some r => rfl
      | none => exact hK c cs (space_not_digit c hc)
    · simp [hc]

theorem search_cons_some (r : Re) (c : Char) (cs m : List Char)
    (h : r.run (c :: cs) none (fun _ g => some (g.getD [])) = some m) :
    r.search (c :: cs) = some m := by
  rw [Re.search, h]

theorem search_cons_none (r : Re) (c : Char) (cs : List Char)
    (h : r.run (c :: cs) none (fun _ g => some (g.getD [])) = none) :
    r.search (c :: cs) = r.search cs := by
  rw [Re.search, h]

/-- Searching for a group that opens with a digit skips a run of characters
that are not digits. -/
theorem search_skip (G : Re)
    (hG : ∀ c r, c.isDigit = false → groupAt G (c :: r) = none)
    (front r : List Char) (hfront : ∀ c ∈ front, c.isDigit = false) :
    (Re.cap G).search (front ++ r) = (Re.cap G).search r := by
  induction front with
  | nil => rfl
  | cons c front ih =>
    have hc : c.isDigit = false := hfront c (List.mem_cons_self _ _)
    have hrest : ∀ x ∈ front, x.isDigit = false := fun x hx =>
      hfront x (List.mem_cons_of_mem _ hx)
    show (Re.cap G).search (c :: (front ++ r)) = _
    rw [search_cons_none _ c (front ++ r) (hG c (front ++ r) hc)]
    exact ih hrest
theorem mark_run_cases (G : Re) (cs : List Char)
    (hG : ∀ c r, c.isDigit = false → groupAt G (c :: r) = none) :
    (Re.seq Re.calendarMark (.cap G)).run cs none (fun _ g => some (g.getD [])) = groupAt G cs ∨
    ∃ front r, cs = front ++ r ∧ (∀ c ∈ front, c.isDigit = false) ∧
      (Re.seq Re.calendarMark (.cap G)).run cs none (fun _ g => some (g.getD [])) = groupAt G r ∧
      groupAt G cs = none := by
  have key : ∀ rest, starRun isJSSpace rest (fun r => groupAt G r) =
      groupAt G (rest.dropWhile isJSSpace) := starRun_spaces _ hG
  have hga : ∀ rest, G.run rest none (fun rest_1 _ =>
      some ((some (List.take (rest.length - rest_1.length) rest)).getD [])) = groupAt G rest :=
    fun _ => rfl
  have hspaces : ∀ rest : List Char, ∀ c ∈ rest.takeWhile isJSSpace, c.isDigit = false :=
    fun rest c hc => space_not_digit c (List.mem_takeWhile_imp hc)
  simp only [Re.run, Re.calendarMark, Re.cat, Re.chr]
  simp only [hga, key]
  cases cs with
  | nil => left; rfl
  | cons c rest =>
    by_cases h1 : c = Char.ofNat 128197
    · subst h1
      have hnd : (Char.ofNat 128197).isDigit = false := by decide
      cases hv : groupAt G (rest.dropWhile isJSSpace) with
      | some v =>
        right
        refine ⟨Char.ofNat 128197 :: rest.takeWhile isJSSpace, rest.dropWhile isJSSpace, ?_, ?_, ?_, hG _ _ hnd⟩
        · simp
        · intro x hx
          rcases List.mem_cons.mp hx with hx | hx
          · rw [hx]; exact hnd
          · exact hspaces rest x hx
        · simp [hv]
      | none =>
        left
        simp [hv, hG _ rest hnd]
    · by_cases h2 : c = Char.ofNat 128467
      · subst h2
        have hnd : (Char.ofNat 128467).isDigit = false := by decide
        cases rest with
        | nil => left; simp
        | cons c2 rest2 =>
          by_cases h3 : c2 = Char.ofNat 65039
          · subst h3
            have hnd2 : (Char.ofNat 65039).isDigit = false := by decide
            cases hv : groupAt G (rest2.dropWhile isJSSpace) with
            | some v =>
              right
              refine ⟨Char.ofNat 128467 :: Char.ofNat 65039 :: rest2.takeWhile isJSSpace,
                rest2.dropWhile isJSSpace, ?_, ?_, ?_, hG _ _ hnd⟩
              · simp
              · intro x hx
                rcases List.mem_cons.mp hx with hx | hx
                · rw [hx]; exact hnd
                · rcases List.mem_cons.mp hx with hx | hx
                  · rw [hx]; exact hnd2
                  · exact hspaces rest2 x hx
              · simp [hv]
            | none =>
              left
              simp [hv, hG _ _ hnd]
          · left
            simp [h3]
      · left
        simp [h1, h2]

theorem search_of_groupAt (G : Re) (r m : List Char) (h : groupAt G r = some m) :
    (Re.cap G).search r = some m := by
  cases r with
  | nil => rw [Re.search]; exact h
  | cons c r => exact search_cons_some _ c r m h

/-- The optional calendar mark in front of a group that opens with a digit does
not change what a search captures. -/
theorem search_mark (G : Re) (hG : ∀ c r, c.isDigit = false → groupAt G (c :: r) = none)
    (cs : List Char) :
    (Re.seq Re.calendarMark (.cap G)).search cs = (Re.cap G).search cs := by
  induction cs with
  | nil =>
    rw [Re.search, Re.search]
    rcases mark_run_cases G [] hG with h | ⟨front, r, hcs, _, h, _⟩
    · exact h
    · have hr : r = [] := (List.append_eq_nil.mp hcs.symm).2
      rw [h, hr]
      rfl
  | cons c rest ih =>
    rcases mark_run_cases G (c :: rest) hG with h | ⟨front, r, hcs, hfront, h, hnone⟩
    · cases hv : groupAt G (c :: rest) with
      | some m =>
        rw [search_cons_some _ c rest m (h.trans hv), search_cons_some _ c rest m hv]
      | none =>
        rw [search_cons_none _ c rest (h.trans hv), search_cons_none _ c rest hv]
        exact ih
    · cases hv : groupAt G r with
      | some m =>
        rw [search_cons_some _ c rest m (h.trans hv), hcs,
          search_skip G hG front r hfront]
        exact (search_of_groupAt G r m hv).symm
      | none =>
        rw [search_cons_none _ c rest (h.trans hv), search_cons_none _ c rest hnone]
        exact ih

theorem isoDate_needs_digit (c : Char) (r : List Char) (hc : c.isDigit = false) :
    groupAt Re.isoDate (c :: r) = none := by
  simp [groupAt, Re.isoDate, Re.cat, Re.digit4, Re.digit2, Re.digit, Re.run, hc]

theorem slashDate_needs_digit (c : Char) (r : List Char) (hc : c.isDigit = false) :
    groupAt Re.slashDate (c :: r) = none := by
  simp [groupAt, Re.slashDate, Re.cat, Re.digit12, Re.digit, Re.run, hc]

theorem dashDate_needs_digit (c : Char) (r : List Char) (hc : c.isDigit = false) :
    groupAt Re.dashDate (c :: r) = none := by
  simp [groupAt, Re.dashDate, Re.cat, Re.digit12, Re.digit, Re.run, hc]

theorem getCachedTaskDate_sound (cache : TaskDateCache) (taskText : JSVal) (hs : cache.Sound) :
    TaskDateCache.Sound (match getCachedTaskDate cache taskText with
      | .ok r => r.2
      | .error _ => cache) := by
  unfold getCachedTaskDate
  by_cases ht : taskText.truthy = true
  · simp only [ht, Bool.not_true, Bool.false_eq_true, if_false]
    cases taskText with
    | str text =>
      simp only
      cases hl : List.lookup text cache with
      | some v => exact hs
      | none =>
        intro kv hkv
        rcases List.mem_append.mp hkv with hin | hin
        · exact hs kv hin
        · have : kv = (text, taskDateScan text) := by simpa using hin
          rw [this]
    | _ => exact hs
  · simp only [ht, Bool.not_false, if_true]
    exact hs

theorem foldl_taskDate_sound (texts : List JSVal) :
    ∀ cache : TaskDateCache, cache.Sound →
      TaskDateCache.Sound (texts.foldl (fun cache text =>
        match getCachedTaskDate cache text with
        | .ok r => r.2
        | .error _ => cache) cache) := by
  induction texts with
  | nil => intro cache hs; exact hs
  | cons t ts ih =>
    intro cache hs
    simp only [List.foldl_cons]
    exact ih _ (getCachedTaskDate_sound cache t hs)

/-- Every reachable task-date memo table is sound. -/
theorem taskDateCacheAfter_sound (texts : List JSVal) : (taskDateCacheAfter texts).Sound :=
  foldl_taskDate_sound texts [] (fun _ hkv => absurd hkv (List.not_mem_nil _))

/-- On a sound memo table `getCachedTaskDate` returns, for a non-empty text,
what the scan of the patterns finds. -/
theorem getCachedTaskDate_scan (cache : TaskDateCache) (text : String) (hne : text ≠ "")
    (hs : cache.Sound) :
    ∃ cache2, getCachedTaskDate cache (.str text) = .ok (taskDateScan text, cache2) := by
  unfold getCachedTaskDate
  have ht : (JSVal.str text).truthy = true := by simp [JSVal.truthy, hne]
  simp only [ht, Bool.not_true, Bool.false_eq_true, if_false]
  cases hl : List.lookup text cache with
  | some v =>
    have hmem := mem_of_lookup_eq_some cache text v hl
    have hv := hs _ hmem
    simp only at hv
    exact ⟨cache, by rw [hv]⟩
  | none => exact ⟨_, rfl⟩

theorem taskDateScan_eq (text : String) :
    taskDateScan text =
      (((Re.seq Re.calendarMark (.cap Re.isoDate)).search text.data).orElse (fun _ =>
        ((Re.seq Re.calendarMark (.cap Re.slashDate)).search text.data).orElse (fun _ =>
          (Re.seq Re.calendarMark (.cap Re.dashDate)).search text.data))).map String.mk := by
  have hp : DATE_PATTERNS = [.seq Re.calendarMark (.cap Re.isoDate),
      .seq Re.calendarMark (.cap Re.slashDate), .seq Re.calendarMark (.cap Re.dashDate)] := rfl
  unfold taskDateScan
  rw [hp]
  simp only [List.findSome?]
  cases (Re.seq Re.calendarMark (.cap Re.isoDate)).search text.data <;>
    cases (Re.seq Re.calendarMark (.cap Re.slashDate)).search text.data <;>
    cases (Re.seq Re.calendarMark (.cap Re.dashDate)).search text.data <;> rfl

/-! ## Lemmas: dates that cannot be parsed -/

theorem dateInstant_unparseable (h : Host) (d : JSVal) (hu : unparseable h d = true) :
    d.truthy = true ∧ dateInstant h d = 0 := by
  unfold unparseable at hu
  simp only [Bool.and_eq_true, Option.isNone_iff_eq_none] at hu
  exact ⟨hu.1, by simp [dateInstant, hu.2]⟩

/-- In a list in the order of the `'date'` comparator, whatever comes before an
item whose date cannot be parsed is dated and resolves to an instant that is
not after the epoch. -/
theorem dateOrdered_before_unparseable (h : Host) (da db : JSVal)
    (ho : DateOrdered h da db) (hu : unparseable h db = true) :
    da.truthy = true ∧ dateInstant h da ≤ 0 := by
  obtain ⟨htb, hib⟩ := dateInstant_unparseable h db hu
  have hta : da.truthy = true := by
    cases hta : da.truthy with
    | true => rfl
    | false => rw [ho.1 hta] at htb; cases htb
  exact ⟨hta, hib ▸ ho.2 hta htb⟩

theorem compareDate_antisymm {α : Type} (h : Host) (kind : ItemKind α) (a b : α) (cab cba : Int)
    (h1 : compareDate h kind a b = .ok cab) (h2 : compareDate h kind b a = .ok cba) :
    (cab < 0 ↔ 0 < cba) ∧ (cab = 0 ↔ cba = 0) := by
  obtain ⟨⟨da, hda⟩, ⟨db, hdb⟩⟩ := compareDate_reads h kind a b cab h1
  unfold compareDate at h1 h2
  simp only [hda, hdb] at h1 h2
  cases hta : da.truthy <;> cases htb : db.truthy <;>
    simp only [hta, htb, Bool.not_true, Bool.not_false, Bool.and_self, Bool.and_true,
      Bool.and_false, Bool.false_eq_true, if_true, if_false, Except.ok.injEq] at h1 h2 <;>
    omega

theorem compareDate_trans {α : Type} (h : Host) (kind : ItemKind α) (a b c : α) (cab cbc : Int)
    (h1 : compareDate h kind a b = .ok cab) (h2 : compareDate h kind b c = .ok cbc)
    (hab : cab ≤ 0) (hbc : cbc ≤ 0) :
    ∃ cac, compareDate h kind a c = .ok cac ∧ cac ≤ 0 := by
  obtain ⟨⟨da, hda⟩, ⟨db, hdb⟩⟩ := compareDate_reads h kind a b cab h1
  obtain ⟨_, ⟨dc, hdc⟩⟩ := compareDate_reads h kind b c cbc h2
  unfold compareDate at h1 h2 ⊢
  simp only [hda, hdb, hdc] at h1 h2 ⊢
  cases hta : da.truthy <;> cases htb : db.truthy <;> cases htc : dc.truthy <;>
    simp only [hta, htb, htc, Bool.not_true, Bool.not_false, Bool.and_self, Bool.and_true,
      Bool.and_false, Bool.false_eq_true, if_true, if_false, Except.ok.injEq] at h1 h2 ⊢ <;>
    first
    | omega
    | exact ⟨_, rfl, by omega⟩

/-! ## Lemmas: removing the matches of a pattern -/

/-- The scan of `Re.removeAll` ends within as many steps as the text has
characters: more fuel does not change the result. -/
theorem removeAll_fuel (r : Re) : ∀ (fuel : Nat) (cs : List Char), cs.length ≤ fuel →
    r.removeAll fuel cs = r.removeAll cs.length cs := by
  intro fuel
  induction fuel using Nat.strong_induction_on with
  | _ fuel ih =>
    intro cs hlen
    cases cs with
    | nil => cases fuel <;> simp [Re.removeAll]
    | cons c cs =>
      cases fuel with
      | zero => simp at hlen
      | succ fuel =>
        have hlen2 : cs.length ≤ fuel := by simpa using hlen
        simp only [Re.removeAll, List.length_cons]
        cases hm : r.matchRest (c :: cs) with
        | none =>
          simp only
          rw [ih fuel (Nat.lt_succ_self _) cs hlen2]
        | some rest =>
          simp only
          by_cases hr : rest.length < cs.length + 1
          · simp only [hr, if_true]
            rw [ih fuel (Nat.lt_succ_self _) rest (by omega),
              ih cs.length (by omega) rest (by omega)]
          · simp only [hr, if_false]
            rw [ih fuel (Nat.lt_succ_self _) cs hlen2]

/-! ## Lemmas: the arithmetic of the statistics -/

theorem roundHalfEven_mul (d q : Nat) (hd : 0 < d) : roundHalfEven (d * q) d = q := by
  unfold roundHalfEven
  have hmod : d * q % d = 0 := Nat.mul_mod_right d q
  have hdiv : d * q / d = q := Nat.mul_div_cancel_left q hd
  simp [hmod, hdiv, hd]

/-- A quotient that is an integer below `2^53` is not rounded. -/
theorem fl_exact (b c : Nat) (hb : 0 < b) (hc : 0 < c) (hc53 : c < 2 ^ 53) :
    (fl (b * c) b).num = c * (fl (b * c) b).den ∧ 0 < (fl (b * c) b).den := by
  have hscale := fl_scaled (b * c) b (Nat.mul_pos hb hc) hb
  have hane : b * c ≠ 0 := Nat.pos_iff_ne_zero.mp (Nat.mul_pos hb hc)
  unfold fl
  simp only [hane, if_false]
  by_cases hdn : floorLog2 (b * c) - flShift (b * c) b = 0
  · rw [hdn]
    simp only [pow_zero, Nat.mul_one]
    refine ⟨?_, Nat.two_pow_pos _⟩
    rw [Nat.mul_assoc, roundHalfEven_mul b _ hb]
  · exfalso
    have hup : flShift (b * c) b - floorLog2 (b * c) = 0 := by omega
    rw [hup] at hscale
    simp only [pow_zero, Nat.mul_one] at hscale
    have h2 : 2 ≤ 2 ^ (floorLog2 (b * c) - flShift (b * c) b) := by
      calc 2 = 2 ^ 1 := by norm_num
        _ ≤ 2 ^ (floorLog2 (b * c) - flShift (b * c) b) :=
          Nat.pow_le_pow_right (by norm_num) (by omega)
    have h3 : 2 ^ 52 * (b * 2) ≤ b * c :=
      le_trans (Nat.mul_le_mul_left _ (Nat.mul_le_mul_left _ h2)) hscale
    have h4 : b * 2 ^ 53 ≤ b * c := by
      calc b * 2 ^ 53 = 2 ^ 52 * (b * 2) := by ring
        _ ≤ b * c := h3
    have h5 := Nat.le_of_mul_le_mul_left h4 hb
    omega

theorem JSNum.round_zero (d : Nat) : JSNum.round 0 d = .fin 0 1 := by
  simp [JSNum.round, fl]

theorem JSNum.round_natCast (a d : Nat) :
    JSNum.round (a : Int) d = .fin (fl a d).num (fl a d).den := by
  have h : ¬ ((a : Int) < 0) := by omega
  simp [JSNum.round, h]

/-- The quotient of two counts, with a positive divisor. -/
theorem JSNum.div_ofNat (a b : Nat) (hb : 0 < b) :
    JSNum.div (.ofNat a) (.ofNat b) = .fin (fl a b).num (fl a b).den := by
  have hb0 : ¬ ((b : Int) = 0) := by omega
  have hbneg : ¬ ((b : Int) < 0) := by omega
  simp only [JSNum.div, JSNum.ofNat, hb0, hbneg, if_false, Nat.cast_one, Int.mul_one,
    Nat.one_mul, Int.natAbs_ofNat]
  exact JSNum.round_natCast a b

/-- The mean of categories of one size `c` is `c`, and `c` is at distance 0
from it. -/
theorem distance_from_equal_mean (k c : Nat) (hk : 0 < k) (hc53 : c < 2 ^ 53) :
    JSNum.abs (JSNum.sub (.ofNat c) (JSNum.div (.ofNat (k * c)) (.ofNat k))) = .fin 0 1 := by
  rw [JSNum.div_ofNat _ _ hk]
  by_cases hc : c = 0
  · subst hc
    simp [JSNum.sub, JSNum.neg, JSNum.add, JSNum.ofNat, JSNum.abs, fl, JSNum.round]
  · obtain ⟨hnum, hden⟩ := fl_exact k c hk (Nat.pos_of_ne_zero hc) hc53
    simp only [JSNum.sub, JSNum.neg, JSNum.add, JSNum.ofNat, hnum, Nat.cast_one]
    have hz : ((c : Int) * ((fl (k * c) k).den : Int) + -((c * (fl (k * c) k).den : Nat) : Int) * 1)
        = 0 := by
      push_cast
      ring
    rw [hz, JSNum.round_zero]
    rfl

/-- The sum of the distances from the mean is 0 when all categories have the
same size. -/
theorem foldl_distance_equal (k c n : Nat) (hk : 0 < k) (hc53 : c < 2 ^ 53) :
    (List.replicate n c).foldl (fun acc val =>
      JSNum.add acc (JSNum.abs (JSNum.sub (.ofNat val)
        (JSNum.div (.ofNat (k * c)) (.ofNat k))))) (.fin 0 1) = .fin 0 1 := by
  induction n with
  | zero => rfl
  | succ n ih =>
    rw [List.replicate_succ, List.foldl_cons, distance_from_equal_mean k c hk hc53]
    have hadd : JSNum.add (.fin 0 1) (.fin 0 1) = .fin 0 1 := by
      simp [JSNum.add, JSNum.round_zero]
    rw [hadd]
    exact ih

/-- The imbalance of `k >= 1` categories of one size `c`: `NaN` when `c = 0`,
and 0 otherwise. -/
theorem workloadBalance_equal (k c : Nat) (hk : 0 < k) (hc53 : c < 2 ^ 53) :
    workloadBalance (List.replicate k c) (k * c) = if c = 0 then .nan else .fin 0 1 := by
  unfold workloadBalance
  rw [List.length_replicate]
  have hfold := foldl_distance_equal k c k hk hc53
  simp only [JSNum.ofNat, Nat.cast_zero] at hfold ⊢
  rw [hfold]
  by_cases hc : c = 0
  · subst hc
    simp [JSNum.div]
  · have hpos : 0 < 2 * (k * c) := by
      have := Nat.mul_pos hk (Nat.pos_of_ne_zero hc)
      omega
    have hne : ¬ (((2 * (k * c) : Nat) : Int) = 0) := by omega
    have hnn : ¬ (((2 * (k * c) : Nat) : Int) < 0) := by omega
    simp only [hc, if_false, JSNum.div, hne, hnn, Int.zero_mul, JSNum.round_zero]

/-- The total counted by the statistics loop is the sum of the category sizes. -/
theorem statsLoop_totalItems (h : Host) (cfg : Config) :
    ∀ (data : List (String × SectionData)) (t t2 : Totals), statsLoop h cfg t data = .ok t2 →
      t2.totalItems = t.totalItems + ((quadrantBalance data).map Prod.snd).sum := by
  intro data
  induction data with
  | nil =>
    intro t t2 hrun
    simp only [statsLoop, Except.ok.injEq] at hrun
    simp [quadrantBalance, ← hrun]
  | cons entry rest ih =>
    intro t t2 hrun
    simp only [statsLoop] at hrun
    cases hc : sectionCounts h cfg entry.2 with
    | error e => simp [hc] at hrun
    | ok c =>
      simp only [hc] at hrun
      have := ih _ t2 hrun
      simp only [quadrantBalance, List.map_cons, List.map_map, List.sum_cons] at this ⊢
      omega

/-! ## Lemmas: the counters of the statistics -/

theorem overdue_today_le_one (h : Host) (d : JSVal) (hlaw : sameDayLaw h d = true) :
    (isOverdue h d).toNat + (isToday h d).toNat ≤ 1 := by
  unfold sameDayLaw at hlaw
  unfold isOverdue isToday
  cases hp : parseDate h d with
  | none => simp
  | some t =>
    simp only [hp, Bool.or_eq_true, Bool.not_eq_true', decide_eq_true_eq] at hlaw ⊢
    rcases hlaw with hne | heq
    · simp only [hne, Bool.toNat_false, Nat.add_zero]
      exact Bool.toNat_le _
    · have : ¬ (h.setHoursZero t < h.setHoursZero h.now) := by omega
      simp only [this, decide_False, Bool.toNat_false, Nat.zero_add]
      exact Bool.toNat_le _

theorem countTask_bound (h : Host) (c c2 : SectionCounts) (task : Task)
    (hlaw : taskDayLaw h task = true) (hrun : countTask h c task = .ok c2) :
    c2.overdue + c2.today ≤ c.overdue + c.today + 1 := by
  unfold countTask at hrun
  unfold taskDayLaw at hlaw
  cases hd : extractTaskDate task.text with
  | error e => simp [hd] at hrun
  | ok d =>
    simp only [hd] at hrun hlaw
    have hone := overdue_today_le_one h (optStr d) hlaw
    by_cases ht : (optStr d).truthy = true
    · simp only [ht, if_true, Except.ok.injEq] at hrun
      rw [← hrun]
      simp only
      omega
    · simp only [ht, Bool.false_eq_true, if_false, Except.ok.injEq] at hrun
      rw [← hrun]
      simp only
      omega

theorem countTasks_bound (h : Host) :
    ∀ (tasks : List Task) (c c2 : SectionCounts), (∀ task ∈ tasks, taskDayLaw h task = true) →
      countTasks h c tasks = .ok c2 →
      c2.overdue + c2.today ≤ c.overdue + c.today + tasks.length := by
  intro tasks
  induction tasks with
  | nil =>
    intro c c2 _ hrun
    simp only [countTasks, Except.ok.injEq] at hrun
    simp [← hrun]
  | cons task rest ih =>
    intro c c2 hlaw hrun
    simp only [countTasks] at hrun
    cases h1 : countTask h c task with
    | error e => simp [h1] at hrun
    | ok c1 =>
      simp only [h1] at hrun
      have hb1 := countTask_bound h c c1 task (hlaw task (List.mem_cons_self _ _)) h1
      have hb2 := ih c1 c2 (fun t ht => hlaw t (List.mem_cons_of_mem _ ht)) hrun
      simp only [List.length_cons]
      omega

theorem countNote_bound (h : Host) (cfg : Config) (c : SectionCounts) (note : Note)
    (hlaw : noteDayLaw h cfg note = true) :
    (countNote h cfg c note).overdue + (countNote h cfg c note).today ≤
      c.overdue + c.today + 1 := by
  unfold noteDayLaw at hlaw
  have hone := overdue_today_le_one h _ hlaw
  unfold countNote
  split_ifs
  · simp only
    omega
  · simp only
    omega

theorem countNotes_bound (h : Host) (cfg : Config) :
    ∀ (notes : List Note) (c : SectionCounts), (∀ note ∈ notes, noteDayLaw h cfg note = true) →
      (notes.foldl (countNote h cfg) c).overdue + (notes.foldl (countNote h cfg) c).today ≤
        c.overdue + c.today + notes.length := by
  intro notes
  induction notes with
  | nil => intro c _; simp
  | cons note rest ih =>
    intro c hlaw
    simp only [List.foldl_cons, List.length_cons]
    have hb1 := countNote_bound h cfg c note (hlaw note (List.mem_cons_self _ _))
    have hb2 := ih (countNote h cfg c note) (fun n hn => hlaw n (List.mem_cons_of_mem _ hn))
    omega

theorem sectionCounts_bound (h : Host) (cfg : Config) (sd : SectionData) (c : SectionCounts)
    (htasks : ∀ task ∈ sd.tasks, taskDayLaw h task = true)
    (hnotes : ∀ note ∈ sd.notes, noteDayLaw h cfg note = true)
    (hrun : sectionCounts h cfg sd = .ok c) :
    c.overdue + c.today ≤ sd.notes.length + sd.tasks.length := by
  unfold sectionCounts at hrun
  cases h1 : countTasks h ⟨0, 0, 0, 0, 0⟩ sd.tasks with
  | error e => simp [h1] at hrun
  | ok c1 =>
    simp only [h1, Except.ok.injEq] at hrun
    have hb1 := countTasks_bound h sd.tasks _ c1 htasks h1
    have hb2 := countNotes_bound h cfg sd.notes c1 hnotes
    rw [hrun] at hb2
    simp only at hb1
    omega

/-- Under the host law the statistics loop counts at most one of "overdue" and
"today" for every item. -/
theorem statsLoop_bound (h : Host) (cfg : Config) :
    ∀ (data : List (String × SectionData)) (t t2 : Totals),
      (∀ entry ∈ data, (∀ task ∈ entry.2.tasks, taskDayLaw h task = true) ∧
        (∀ note ∈ entry.2.notes, noteDayLaw h cfg note = true)) →
      statsLoop h cfg t data = .ok t2 →
      t2.overdueTasks + t2.todayTasks + t.totalItems ≤
        t.overdueTasks + t.todayTasks + t2.totalItems := by
  intro data
  induction data with
  | nil =>
    intro t t2 _ hrun
    simp only [statsLoop, Except.ok.injEq] at hrun
    rw [← hrun]
  | cons entry rest ih =>
    intro t t2 hlaw hrun
    simp only [statsLoop] at hrun
    cases hc : sectionCounts h cfg entry.2 with
    | error e => simp [hc] at hrun
    | ok c =>
      simp only [hc] at hrun
      obtain ⟨ht, hn⟩ := hlaw entry (List.mem_cons_self _ _)
      have hb1 := sectionCounts_bound h cfg entry.2 c ht hn hc
      have hb2 := ih _ t2 (fun e he => hlaw e (List.mem_cons_of_mem _ he)) hrun
      simp only at hb2
      omega

theorem countTasks_ok (h : Host) :
    ∀ (tasks : List Task) (c : SectionCounts), (∀ task ∈ tasks, task.text.isText = true) →
      ∃ c2, countTasks h c tasks = .ok c2 := by
  intro tasks
  induction tasks with
  | nil => intro c _; exact ⟨c, rfl⟩
  | cons task rest ih =>
    intro c htext
    obtain ⟨d, hd⟩ := extractTaskDate_ok task.text (htext task (List.mem_cons_self _ _))
    simp only [countTasks, countTask, hd]
    split_ifs
    · exact ih _ (fun t ht => htext t (List.mem_cons_of_mem _ ht))
    · exact ih _ (fun t ht => htext t (List.mem_cons_of_mem _ ht))

theorem statsLoop_ok (h : Host) (cfg : Config) :
    ∀ (data : List (String × SectionData)) (t : Totals),
      (∀ entry ∈ data, ∀ task ∈ entry.2.tasks, task.text.isText = true) →
      ∃ t2, statsLoop h cfg t data = .ok t2 := by
  intro data
  induction data with
  | nil => intro t _; exact ⟨t, rfl⟩
  | cons entry rest ih =>
    intro t htext
    obtain ⟨c, hc⟩ := countTasks_ok h entry.2.tasks ⟨0, 0, 0, 0, 0⟩
      (htext entry (List.mem_cons_self _ _))
    simp only [statsLoop, sectionCounts, hc]
    exact ih _ (fun e he => htext e (List.mem_cons_of_mem _ he))

/-- A percentage `Math.round(a / b * 100)` with `a <= b` is at most 100. -/
theorem percent_le (a b : Nat) (hb : 0 < b) (hab : a ≤ b) :
    ∃ n : Nat, JSNum.mathRound (JSNum.mul (JSNum.div (.ofNat a) (.ofNat b)) (.ofNat 100)) =
      .fin n 1 ∧ n ≤ 100 := by
  rw [JSNum.div_ofNat a b hb]
  have hmul : JSNum.mul (.fin (fl a b).num (fl a b).den) (.ofNat 100) =
      .fin (fmul 100 (fdiv a b)).num (fmul 100 (fdiv a b)).den := by
    simp only [JSNum.mul, JSNum.ofNat, Nat.mul_one, fmul, fdiv]
    have hcast : (((fl a b).num : Int) * ((100 : Nat) : Int)) = ((100 * (fl a b).num : Nat) : Int) := by
      push_cast
      ring
    rw [hcast]
    exact JSNum.round_natCast _ _
  rw [hmul]
  refine ⟨mathRound (fmul 100 (fdiv a b)), ?_, ?_⟩
  · simp only [JSNum.mathRound, mathRound]
    congr 1
  · by_cases ha : a = 0
    · subst ha
      simp [fmul, fdiv, fl, mathRound]
    · have hapos : 0 < a := Nat.pos_of_ne_zero ha
      obtain ⟨hden, _, hup⟩ := share_val 100 a (b - a) hapos (by norm_num)
      have hsum : a + (b - a) = b := by omega
      rw [hsum] at hden hup
      apply mathRound_le _ _ hden
      have hbq : (0 : ℚ) < b := by exact_mod_cast hb
      have hcast : ((a : ℚ) + ((b - a : Nat) : ℚ)) = (b : ℚ) := by
        have : ((a + (b - a) : Nat) : ℚ) = (b : ℚ) := by rw [hsum]
        push_cast at this
        linarith
      rw [hcast] at hup
      have hfrac : (a : ℚ) / b ≤ 1 := by
        rw [div_le_one hbq]
        exact_mod_cast hab
      have hfrac0 : (0 : ℚ) ≤ (a : ℚ) / b := by positivity
      have hprod : ((100 : Nat) : ℚ) * ((a : ℚ) / b) * ((1 + 1 / 2 ^ 53) * (1 + 1 / 2 ^ 53)) ≤
          100 * ((1 + 1 / 2 ^ 53) * (1 + 1 / 2 ^ 53)) := by
        apply mul_le_mul_of_nonneg_right _ (by norm_num)
        push_cast
        linarith
      have hconst : (100 : ℚ) * ((1 + 1 / 2 ^ 53) * (1 + 1 / 2 ^ 53)) < ((100 : Nat) : ℚ) + 1 / 2 := by
        norm_num
      linarith

/-! ## Lemmas: the rewriting of a task line -/

theorem toUpper_ne_hash (c : Char) (h : c.toUpper = '#') : c = '#' := by
  unfold Char.toUpper at h
  simp only [] at h
  by_cases hrange : c.toNat ≥ 97 ∧ c.toNat ≤ 122
  · exfalso
    rw [if_pos hrange] at h
    obtain ⟨h1, h2⟩ := hrange
    generalize c.toNat = n at h h1 h2
    interval_cases n <;> exact absurd h (by decide)
  · rw [if_neg hrange] at h
    exact h

theorem sameLetter_hash (c : Char) (h : sameLetter '#' c = true) : c = '#' := by
  unfold sameLetter at h
  have hup : '#'.toUpper = '#' := by decide
  rw [hup] at h
  exact toUpper_ne_hash c (beq_iff_eq.mp h).symm

/-- A pattern that opens with `#` only matches at a `#`. -/
theorem tagMatchAt_hash (pat cs : List Char) (c : Char) (hc : c ≠ '#') :
    tagMatchAt ('#' :: pat) (c :: cs) = false := by
  unfold tagMatchAt
  have hs : sameLetter '#' c = false := by
    cases hsl : sameLetter '#' c with
    | false => rfl
    | true => exact absurd (sameLetter_hash c hsl) hc
  simp [dropLetters, hs]

/-- The scan keeps a stretch of text without `#` as it is. -/
theorem removeTagAux_front (pat : List Char) :
    ∀ (front rest : List Char), (∀ c ∈ front, c ≠ '#') →
      removeTagAux ('#' :: pat) 0 (front ++ rest) = front ++ removeTagAux ('#' :: pat) 0 rest := by
  intro front
  induction front with
  | nil => intro rest _; rfl
  | cons c front ih =>
    intro rest hfront
    have hc : c ≠ '#' := hfront c (List.mem_cons_self _ _)
    simp only [List.cons_append, removeTagAux, tagMatchAt_hash pat _ c hc, Bool.false_eq_true,
      if_false, List.append_eq]
    rw [ih rest (fun x hx => hfront x (List.mem_cons_of_mem _ hx))]

theorem removeTag_no_hash (tag : String) (line : List Char) (hline : ∀ c ∈ line, c ≠ '#') :
    removeTag tag line = line := by
  unfold removeTag
  have := removeTagAux_front tag.data line [] hline
  simp only [List.append_nil] at this
  rw [this]
  simp [removeTagAux]

theorem foldl_removeTag_no_hash (tags : List String) (line : List Char)
    (hline : ∀ c ∈ line, c ≠ '#') :
    tags.foldl (fun line tag => removeTag tag line) line = line := by
  induction tags with
  | nil => rfl
  | cons tag rest ih =>
    rw [List.foldl_cons, removeTag_no_hash tag line hline]
    exact ih

theorem removeTagAux_sublist (pat : List Char) :
    ∀ (cs : List Char) (skip : Nat), (removeTagAux pat skip cs).Sublist cs := by
  intro cs
  induction cs with
  | nil => intro skip; cases skip <;> simp [removeTagAux]
  | cons c cs ih =>
    intro skip
    cases skip with
    | zero =>
      simp only [removeTagAux]
      split_ifs
      · exact List.Sublist.cons _ (ih _)
      · exact List.Sublist.cons₂ _ (ih _)
    | succ skip =>
      simp only [removeTagAux]
      exact List.Sublist.cons _ (ih _)

theorem foldl_removeTag_sublist (tags : List String) :
    ∀ line : List Char, (tags.foldl (fun line tag => removeTag tag line) line).Sublist line := by
  induction tags with
  | nil => intro line; exact List.Sublist.refl _
  | cons tag rest ih =>
    intro line
    rw [List.foldl_cons]
    exact (ih _).trans (removeTagAux_sublist _ _ _)

theorem jsTrim_sublist (s : String) : (jsTrim s).data.Sublist s.data := by
  unfold jsTrim
  simp only
  have h1 : ((s.data.dropWhile isJSSpace).reverse.dropWhile isJSSpace).Sublist
      (s.data.dropWhile isJSSpace).reverse := (List.dropWhile_suffix _).sublist
  have h2 := h1.reverse
  rw [List.reverse_reverse] at h2
  exact h2.trans (List.dropWhile_suffix _).sublist

/-- Trimming does not see a trailing blank. -/
theorem jsTrim_append_space (body : List Char) :
    jsTrim (String.mk (body ++ [' '])) = jsTrim (String.mk body) := by
  unfold jsTrim
  simp only
  congr 2
  have hsp : isJSSpace ' ' = true := by decide
  by_cases hall : ∀ c ∈ body, isJSSpace c = true
  · have h1 : body.dropWhile isJSSpace = [] := by
      rw [List.dropWhile_eq_nil_iff]
      exact hall
    have h2 : (body ++ [' ']).dropWhile isJSSpace = [] := by
      rw [List.dropWhile_eq_nil_iff]
      intro c hc
      rcases List.mem_append.mp hc with h | h
      · exact hall c h
      · simp at h
        rw [h]
        exact hsp
    rw [h1, h2]
  · have hne : body.dropWhile isJSSpace ≠ [] := by
      rw [Ne, List.dropWhile_eq_nil_iff]
      exact hall
    have h2 : (body ++ [' ']).dropWhile isJSSpace = body.dropWhile isJSSpace ++ [' '] := by
      induction body with
      | nil => simp at hall
      | cons c body ih =>
        by_cases hc : isJSSpace c = true
        · simp only [List.cons_append, List.dropWhile_cons_of_pos hc]
          apply ih
          · intro hall2
            apply hall
            intro x hx
            rcases List.mem_cons.mp hx with h | h
            · rw [h]; exact hc
            · exact hall2 x h
          · simpa [List.dropWhile_cons_of_pos hc] using hne
        · simp [List.dropWhile, hc]
    rw [h2, List.reverse_append]
    simp [List.dropWhile, hsp]

theorem removeTag_tail (tag : String) (body rest : List Char) (hbody : ∀ c ∈ body, c ≠ '#') :
    removeTag tag (body ++ ' ' :: rest) =
      body ++ ' ' :: removeTagAux ('#' :: tag.data) 0 rest := by
  unfold removeTag
  have hfront : ∀ c ∈ body ++ [' '], c ≠ '#' := by
    intro c hc
    rcases List.mem_append.mp hc with h | h
    · exact hbody c h
    · simp at h
      rw [h]
      decide
  have := removeTagAux_front tag.data (body ++ [' ']) rest hfront
  simpa using this

/-- A line `body #old` loses its tag to the rule that names it and is left
alone by the other rules. -/
theorem foldl_removeTag_tagged (body : List Char) (old : String)
    (hbody : ∀ c ∈ body, c ≠ '#') :
    ∀ tags : List String,
      (∀ t ∈ tags, removeTagAux ('#' :: t.data) 0 ('#' :: old.data) =
        if t = old then [] else '#' :: old.data) →
      tags.foldl (fun line tag => removeTag tag line) (body ++ ' ' :: '#' :: old.data) =
        if old ∈ tags then body ++ [' '] else body ++ ' ' :: '#' :: old.data := by
  intro tags
  induction tags with
  | nil => intro _; simp
  | cons t rest ih =>
    intro hf
    rw [List.foldl_cons, removeTag_tail t body _ hbody, hf t (List.mem_cons_self _ _)]
    by_cases ht : t = old
    · have hline : ∀ c ∈ body ++ [' '], c ≠ '#' := by
        intro c hc
        rcases List.mem_append.mp hc with h | h
        · exact hbody c h
        · simp at h
          rw [h]
          decide
      simp only [ht, if_true, List.mem_cons, true_or]
      exact foldl_removeTag_no_hash rest _ hline
    · simp only [ht, if_false]
      rw [ih (fun x hx => hf x (List.mem_cons_of_mem _ hx))]
      have hne : ¬ old = t := fun h => ht h.symm
      simp [List.mem_cons, hne]

theorem findTaskLine_some (task : Task) :
    ∀ (lines : List String) (k i : Nat), findTaskLine task lines k = .ok (some i) →
      k ≤ i ∧ ∃ line, lines[i - k]? = some line ∧ isTaskLine task line = .ok true := by
  intro lines
  induction lines with
  | nil => intro k i hrun; simp [findTaskLine] at hrun
  | cons line rest ih =>
    intro k i hrun
    simp only [findTaskLine] at hrun
    cases hp : isTaskLine task line with
    | error e => simp [hp] at hrun
    | ok b =>
      cases b with
      | true =>
        simp only [hp, Except.ok.injEq, Option.some.injEq] at hrun
        subst hrun
        exact ⟨le_refl _, line, by simp, hp⟩
      | false =>
        simp only [hp] at hrun
        obtain ⟨hle, l, hl, hpl⟩ := ih (k + 1) i hrun
        refine ⟨by omega, l, ?_, hpl⟩
        have hidx : i - k = (i - (k + 1)) + 1 := by omega
        rw [hidx, List.getElem?_cons_succ]
        exact hl

theorem eq_ok_of_toOption {α : Type} (e : Except String α) (a : α)
    (h : e.toOption = some a) : e = .ok a := by
  cases e with
  | error msg => simp [Except.toOption] at h
  | ok b =>
    simp only [Except.toOption, Option.some.injEq] at h
    rw [h]

/-! ## Lemmas: rounding to a double is monotone -/

/-- What it takes for the rounded quotient to reach `K`: the quotient is above
`K - 1/2`, or it is `K - 1/2` and `K` is even. -/
theorem roundHalfEven_ge_iff (n d K : Nat) (hd : 0 < d) (hK : 0 < K) :
    K ≤ roundHalfEven n d ↔
      ((2 * K - 1) * d < 2 * n ∨ ((2 * K - 1) * d = 2 * n ∧ K % 2 = 0)) := by
  have hdm := Nat.div_add_mod n d
  have hlt := Nat.mod_lt n hd
  have hmul : d * (n / d) = n / d * d := Nat.mul_comm _ _
  rw [hmul] at hdm
  have hexp : (2 * K - 1) * d = 2 * (K * d) - d := by
    rw [Nat.sub_mul, Nat.one_mul, Nat.mul_assoc]
  have hKd : d ≤ K * d := Nat.le_mul_of_pos_left d hK
  rw [hexp]
  have key1 : K ≤ n / d → K * d ≤ n / d * d := fun h => Nat.mul_le_mul_right d h
  have key2 : n / d + 1 ≤ K → n / d * d + d ≤ K * d := fun h => by
    have := Nat.mul_le_mul_right d h
    rw [Nat.add_mul, Nat.one_mul] at this
    exact this
  have key3 : n / d + 2 ≤ K → n / d * d + 2 * d ≤ K * d := fun h => by
    have := Nat.mul_le_mul_right d h
    rw [Nat.add_mul] at this
    exact this
  unfold roundHalfEven
  rcases Nat.lt_or_ge K (n / d + 1) with hcase | hcase
  · have h1 := key1 (by omega)
    generalize K * d = Kd at *
    generalize n / d * d = qd at *
    generalize n % d = r at *
    split_ifs <;> constructor <;> intro _ <;> omega
  · rcases Nat.eq_or_lt_of_le hcase with heq | hgt
    · have h2 := key2 (by omega)
      have h1 : K * d ≤ n / d * d + d := by
        rw [← heq, Nat.add_mul, Nat.one_mul]
      generalize K * d = Kd at *
      generalize n / d * d = qd at *
      generalize n % d = r at *
      generalize n / d = q at *
      split_ifs <;> constructor <;> intro _ <;> omega
    · have h3 := key3 (by omega)
      generalize K * d = Kd at *
      generalize n / d * d = qd at *
      generalize n % d = r at *
      generalize n / d = q at *
      split_ifs <;> constructor <;> intro _ <;> omega

/-- Rounding half to even is monotone in the quotient. -/
theorem roundHalfEven_mono (n d n2 d2 : Nat) (hd : 0 < d) (hd2 : 0 < d2)
    (hle : n * d2 ≤ n2 * d) : roundHalfEven n d ≤ roundHalfEven n2 d2 := by
  by_cases hK : roundHalfEven n d = 0
  · rw [hK]
    exact Nat.zero_le _
  · have hpos : 0 < roundHalfEven n d := Nat.pos_of_ne_zero hK
    rw [roundHalfEven_ge_iff n2 d2 _ hd2 hpos]
    have hself := (roundHalfEven_ge_iff n d _ hd hpos).mp (le_refl _)
    generalize roundHalfEven n d = K at *
    generalize hc : 2 * K - 1 = c at *
    -- c * d < 2 * n or c * d = 2 * n; and n * d2 ≤ n2 * d
    have hmain : c * d ≤ 2 * n → c * d2 ≤ 2 * n2 := by
      intro h
      have h1 : c * d * d2 ≤ 2 * n * d2 := Nat.mul_le_mul_right d2 h
      have h2 : 2 * n * d2 ≤ 2 * n2 * d := by
        calc 2 * n * d2 = 2 * (n * d2) := by ring
          _ ≤ 2 * (n2 * d) := Nat.mul_le_mul_left 2 hle
          _ = 2 * n2 * d := by ring
      have h3 : c * d2 * d ≤ 2 * n2 * d := by
        calc c * d2 * d = c * d * d2 := by ring
          _ ≤ 2 * n * d2 := h1
          _ ≤ 2 * n2 * d := h2
      exact Nat.le_of_mul_le_mul_right h3 hd
    have hstrict : c * d < 2 * n → c * d2 < 2 * n2 := by
      intro h
      have h1 : c * d * d2 < 2 * n * d2 := Nat.mul_lt_mul_of_pos_right h hd2
      have h2 : 2 * n * d2 ≤ 2 * n2 * d := by
        calc 2 * n * d2 = 2 * (n * d2) := by ring
          _ ≤ 2 * (n2 * d) := Nat.mul_le_mul_left 2 hle
          _ = 2 * n2 * d := by ring
      have h3 : c * d2 * d < 2 * n2 * d := by
        calc c * d2 * d = c * d * d2 := by ring
          _ < 2 * n * d2 := h1
          _ ≤ 2 * n2 * d := h2
      exact Nat.lt_of_mul_lt_mul_right h3
    rcases hself with hlt | ⟨heq, hev⟩
    · exact Or.inl (hstrict hlt)
    · have h := hmain (le_of_eq heq)
      rcases Nat.eq_or_lt_of_le h with h1 | h1
      · exact Or.inr ⟨h1, hev⟩
      · exact Or.inl h1

theorem roundHalfEven_le_of_lt (n d B : Nat) (hd : 0 < d) (h : n < B * d) :
    roundHalfEven n d ≤ B := by
  obtain ⟨h1, _⟩ := roundHalfEven_spec n d hd
  by_contra hcon
  have hge : (B + 1) * d ≤ roundHalfEven n d * d := Nat.mul_le_mul_right d (by omega)
  rw [Nat.add_mul, Nat.one_mul] at hge
  generalize roundHalfEven n d * d = Rd at *
  generalize B * d = Bd at *
  omega

theorem le_roundHalfEven_of_le (n d B : Nat) (hd : 0 < d) (h : B * d ≤ n) :
    B ≤ roundHalfEven n d := by
  obtain ⟨_, h2⟩ := roundHalfEven_spec n d hd
  by_contra hcon
  have hge : (roundHalfEven n d + 1) * d ≤ B * d := Nat.mul_le_mul_right d (by omega)
  rw [Nat.add_mul, Nat.one_mul] at hge
  generalize roundHalfEven n d * d = Rd at *
  generalize B * d = Bd at *
  omega

/-- The scaled quotient is below `2^53`. -/
theorem fl_scaled_upper (a b : Nat) (ha : 0 < a) (hb : 0 < b) :
    a * 2 ^ (flShift a b - floorLog2 a) < 2 ^ 53 * (b * 2 ^ (floorLog2 a - flShift a b)) := by
  obtain ⟨hla, hua⟩ := floorLog2_spec a ha
  obtain ⟨hlb, hub⟩ := floorLog2_spec b hb
  have hexp : (flShift a b - floorLog2 a) + floorLog2 a =
      (floorLog2 a - flShift a b) + flShift a b := by omega
  have hpow : 2 ^ (flShift a b - floorLog2 a) * 2 ^ floorLog2 a =
      2 ^ (floorLog2 a - flShift a b) * 2 ^ flShift a b := by
    rw [← pow_add, ← pow_add, hexp]
  have hkey : a * 2 ^ flShift a b < 2 ^ 53 * (b * 2 ^ floorLog2 a) := by
    unfold flShift
    by_cases hge : b * 2 ^ floorLog2 a ≤ a * 2 ^ floorLog2 b
    · simp only [hge, if_true, Nat.add_zero, pow_add]
      have h1 : a * 2 ^ floorLog2 b < 2 ^ (floorLog2 a + 1) * b :=
        Nat.mul_lt_mul_of_lt_of_le hua hlb hb
      calc a * (2 ^ 52 * 2 ^ floorLog2 b) = 2 ^ 52 * (a * 2 ^ floorLog2 b) := by ring
        _ < 2 ^ 52 * (2 ^ (floorLog2 a + 1) * b) :=
          Nat.mul_lt_mul_of_pos_left h1 (Nat.two_pow_pos _)
        _ = 2 ^ 53 * (b * 2 ^ floorLog2 a) := by rw [pow_succ]; ring
    · simp only [hge, if_false, pow_add, pow_one]
      have h1 : a * 2 ^ floorLog2 b < b * 2 ^ floorLog2 a := Nat.lt_of_not_le hge
      calc a * (2 ^ 52 * 2 ^ floorLog2 b * 2) = 2 ^ 53 * (a * 2 ^ floorLog2 b) := by ring
        _ < 2 ^ 53 * (b * 2 ^ floorLog2 a) :=
          Nat.mul_lt_mul_of_pos_left h1 (Nat.two_pow_pos _)
  have hpos : 0 < 2 ^ floorLog2 a := Nat.two_pow_pos _
  apply Nat.lt_of_mul_lt_mul_right (a := 2 ^ floorLog2 a)
  calc a * 2 ^ (flShift a b - floorLog2 a) * 2 ^ floorLog2 a
      = a * (2 ^ (flShift a b - floorLog2 a) * 2 ^ floorLog2 a) := by ring
    _ = a * (2 ^ (floorLog2 a - flShift a b) * 2 ^ flShift a b) := by rw [hpow]
    _ = 2 ^ (floorLog2 a - flShift a b) * (a * 2 ^ flShift a b) := by ring
    _ < 2 ^ (floorLog2 a - flShift a b) * (2 ^ 53 * (b * 2 ^ floorLog2 a)) :=
      Nat.mul_lt_mul_of_pos_left hkey (Nat.two_pow_pos _)
    _ = 2 ^ 53 * (b * 2 ^ (floorLog2 a - flShift a b)) * 2 ^ floorLog2 a := by ring

/-- Rounding to a double is monotone: a smaller quotient rounds to a double
that is not larger. -/
theorem fl_mono (a b a2 b2 : Nat) (hb : 0 < b) (hb2 : 0 < b2) (hle : a * b2 ≤ a2 * b) :
    (fl a b).num * (fl a2 b2).den ≤ (fl a2 b2).num * (fl a b).den := by
  by_cases ha0 : a = 0
  · subst ha0
    simp [fl]
  have ha : 0 < a := Nat.pos_of_ne_zero ha0
  have ha2 : 0 < a2 := by
    by_contra hcon
    have h0 : a2 = 0 := by omega
    rw [h0, Nat.zero_mul] at hle
    have := Nat.mul_pos ha hb2
    omega
  have ha20 : a2 ≠ 0 := by omega
  have hS1 := fl_scaled a b ha hb
  have hU1 := fl_scaled_upper a b ha hb
  have hS2 := fl_scaled a2 b2 ha2 hb2
  have hU2 := fl_scaled_upper a2 b2 ha2 hb2
  unfold fl
  simp only [ha0, ha20, if_false]
  have hz1 : flShift a b - floorLog2 a = 0 ∨ floorLog2 a - flShift a b = 0 := by omega
  have hz2 : flShift a2 b2 - floorLog2 a2 = 0 ∨ floorLog2 a2 - flShift a2 b2 = 0 := by omega
  generalize flShift a b - floorLog2 a = up at *
  generalize floorLog2 a - flShift a b = dn at *
  generalize flShift a2 b2 - floorLog2 a2 = up2 at *
  generalize floorLog2 a2 - flShift a2 b2 = dn2 at *
  have hP : 0 < 2 ^ up := Nat.two_pow_pos _
  have hQ : 0 < 2 ^ dn := Nat.two_pow_pos _
  have hP2 : 0 < 2 ^ up2 := Nat.two_pow_pos _
  have hQ2 : 0 < 2 ^ dn2 := Nat.two_pow_pos _
  have hd1 : 0 < b * 2 ^ dn := Nat.mul_pos hb hQ
  have hd2 : 0 < b2 * 2 ^ dn2 := Nat.mul_pos hb2 hQ2
  have hM1 : roundHalfEven (a * 2 ^ up) (b * 2 ^ dn) ≤ 2 ^ 53 :=
    roundHalfEven_le_of_lt _ _ _ hd1 hU1
  have hM2 : 2 ^ 52 ≤ roundHalfEven (a2 * 2 ^ up2) (b2 * 2 ^ dn2) :=
    le_roundHalfEven_of_le _ _ _ hd2 hS2
  rcases Nat.lt_trichotomy (up + dn2) (up2 + dn) with hlt | heq | hgt
  · -- the first quotient would lie in a higher binade than the second
    exfalso
    have hexp : 2 * (2 ^ up * 2 ^ dn2) ≤ 2 ^ dn * 2 ^ up2 := by
      rw [← pow_add, ← pow_add, ← pow_succ']
      exact Nat.pow_le_pow_right (by norm_num) (by omega)
    generalize 2 ^ up = P at *
    generalize 2 ^ dn = Q at *
    generalize 2 ^ up2 = P2 at *
    generalize 2 ^ dn2 = Q2 at *
    have h1 : 2 ^ 52 * (b * Q) * (b2 * P2) ≤ a * P * (b2 * P2) :=
      Nat.mul_le_mul_right _ hS1
    have h2 : a * P * (b2 * P2) ≤ a2 * b * (P * P2) := by
      calc a * P * (b2 * P2) = a * b2 * (P * P2) := by ring
        _ ≤ a2 * b * (P * P2) := Nat.mul_le_mul_right _ hle
    have h3 : a2 * b * (P * P2) < 2 ^ 53 * (b2 * Q2) * (b * P) := by
      calc a2 * b * (P * P2) = a2 * P2 * (b * P) := by ring
        _ < 2 ^ 53 * (b2 * Q2) * (b * P) :=
          Nat.mul_lt_mul_of_pos_right hU2 (Nat.mul_pos hb hP)
    have h4 : 2 ^ 53 * (b2 * Q2) * (b * P) ≤ 2 ^ 52 * (b * Q) * (b2 * P2) := by
      calc 2 ^ 53 * (b2 * Q2) * (b * P) = 2 ^ 52 * (b * b2) * (2 * (P * Q2)) := by ring
        _ ≤ 2 ^ 52 * (b * b2) * (Q * P2) := Nat.mul_le_mul_left _ hexp
        _ = 2 ^ 52 * (b * Q) * (b2 * P2) := by ring
    omega
  · have hup : up = up2 := by omega
    have hdn : dn = dn2 := by omega
    subst hup hdn
    have hmono : roundHalfEven (a * 2 ^ up) (b * 2 ^ dn) ≤
        roundHalfEven (a2 * 2 ^ up) (b2 * 2 ^ dn) := by
      apply roundHalfEven_mono _ _ _ _ hd1 hd2
      calc a * 2 ^ up * (b2 * 2 ^ dn) = a * b2 * (2 ^ up * 2 ^ dn) := by ring
        _ ≤ a2 * b * (2 ^ up * 2 ^ dn) := Nat.mul_le_mul_right _ hle
        _ = a2 * 2 ^ up * (b * 2 ^ dn) := by ring
    exact Nat.mul_le_mul_right _ (Nat.mul_le_mul_right _ hmono)
  · have hexp : 2 * (2 ^ dn * 2 ^ up2) ≤ 2 ^ up * 2 ^ dn2 := by
      rw [← pow_add, ← pow_add, ← pow_succ']
      exact Nat.pow_le_pow_right (by norm_num) (by omega)
    generalize roundHalfEven (a * 2 ^ up) (b * 2 ^ dn) = M at *
    generalize roundHalfEven (a2 * 2 ^ up2) (b2 * 2 ^ dn2) = M2 at *
    generalize 2 ^ up = P at *
    generalize 2 ^ dn = Q at *
    generalize 2 ^ up2 = P2 at *
    generalize 2 ^ dn2 = Q2 at *
    calc M * Q * P2 ≤ 2 ^ 53 * Q * P2 := Nat.mul_le_mul_right _ (Nat.mul_le_mul_right _ hM1)
      _ = 2 ^ 52 * (2 * (Q * P2)) := by ring
      _ ≤ 2 ^ 52 * (P * Q2) := Nat.mul_le_mul_left _ hexp
      _ ≤ M2 * (P * Q2) := Nat.mul_le_mul_right _ hM2
      _ = M2 * Q2 * P := by ring

/-- A quotient that is a dyadic number `m / 2^e` with `m < 2^53` is not rounded. -/
theorem fl_dyadic (a b m e : Nat) (ha : 0 < a) (hb : 0 < b) (hval : a * 2 ^ e = m * b)
    (hm : m < 2 ^ 53) :
    (fl a b).num * 2 ^ e = m * (fl a b).den ∧ 0 < (fl a b).den := by
  have hS := fl_scaled a b ha hb
  have ha0 : a ≠ 0 := by omega
  unfold fl
  simp only [ha0, if_false]
  have hz : flShift a b - floorLog2 a = 0 ∨ floorLog2 a - flShift a b = 0 := by omega
  generalize flShift a b - floorLog2 a = up at *
  generalize floorLog2 a - flShift a b = dn at *
  refine ⟨?_, Nat.two_pow_pos _⟩
  -- the exponents: dn + e ≤ up
  have hexp : dn + e ≤ up := by
    by_contra hcon
    have h1 : 2 * 2 ^ up ≤ 2 ^ (dn + e) := by
      rw [← pow_succ']
      exact Nat.pow_le_pow_right (by norm_num) (by omega)
    have h2 : 2 ^ 52 * (b * 2 ^ dn) * 2 ^ e ≤ a * 2 ^ up * 2 ^ e := Nat.mul_le_mul_right _ hS
    have h3 : a * 2 ^ up * 2 ^ e = m * 2 ^ up * b := by
      calc a * 2 ^ up * 2 ^ e = a * 2 ^ e * 2 ^ up := by ring
        _ = m * b * 2 ^ up := by rw [hval]
        _ = m * 2 ^ up * b := by ring
    have h4 : 2 ^ 52 * (b * 2 ^ dn) * 2 ^ e = 2 ^ 52 * 2 ^ (dn + e) * b := by
      rw [pow_add]
      ring
    rw [h3, h4] at h2
    have h5 := Nat.le_of_mul_le_mul_right h2 hb
    have h6 : 2 ^ 52 * (2 * 2 ^ up) ≤ m * 2 ^ up := le_trans (Nat.mul_le_mul_left _ h1) h5
    have h7 : 2 ^ 53 * 2 ^ up ≤ m * 2 ^ up := by
      calc 2 ^ 53 * 2 ^ up = 2 ^ 52 * (2 * 2 ^ up) := by ring
        _ ≤ m * 2 ^ up := h6
    have h8 := Nat.le_of_mul_le_mul_right h7 (Nat.two_pow_pos up)
    omega
  obtain ⟨g, hg⟩ : ∃ g, up = dn + e + g := ⟨up - (dn + e), by omega⟩
  subst hg
  have hn : a * 2 ^ (dn + e + g) = b * 2 ^ dn * (m * 2 ^ g) := by
    calc a * 2 ^ (dn + e + g) = a * 2 ^ e * (2 ^ dn * 2 ^ g) := by
          rw [pow_add, pow_add]
          ring
      _ = m * b * (2 ^ dn * 2 ^ g) := by rw [hval]
      _ = b * 2 ^ dn * (m * 2 ^ g) := by ring
  rw [hn, roundHalfEven_mul _ _ (Nat.mul_pos hb (Nat.two_pow_pos _))]
  rw [pow_add, pow_add]
  ring

theorem JSNum.abs_round (x : Int) (d : Nat) :
    JSNum.abs (JSNum.round x d) = .fin (fl x.natAbs d).num (fl x.natAbs d).den := by
  unfold JSNum.round
  split_ifs <;> simp [JSNum.abs]

theorem JSNum.isQuot_zero (k : Nat) : JSNum.IsQuot (.ofNat 0) 0 k :=
  ⟨0, 1, rfl, by norm_num, by simp⟩

/-- The mean of the sizes of `2^j` categories is exact. -/
theorem JSNum.isQuot_mean (total j : Nat) (h53 : total < 2 ^ 53) :
    JSNum.IsQuot (JSNum.div (.ofNat total) (.ofNat (2 ^ j))) total (2 ^ j) := by
  rw [JSNum.div_ofNat _ _ (Nat.two_pow_pos j)]
  by_cases h0 : total = 0
  · subst h0
    exact ⟨0, 1, by simp [fl], by norm_num, by simp⟩
  · obtain ⟨hv, hd⟩ := fl_dyadic total (2 ^ j) total j (Nat.pos_of_ne_zero h0)
      (Nat.two_pow_pos j) rfl h53
    exact ⟨_, _, rfl, hd, hv⟩

/-- The distance of a size from the exact mean is exact. -/
theorem JSNum.isQuot_distance (avg : JSNum) (v total j : Nat)
    (havg : JSNum.IsQuot avg total (2 ^ j))
    (h53 : Int.natAbs ((v : Int) * (2 ^ j : Nat) - total) < 2 ^ 53) :
    JSNum.IsQuot (JSNum.abs (JSNum.sub (.ofNat v) avg))
      (Int.natAbs ((v : Int) * (2 ^ j : Nat) - total)) (2 ^ j) := by
  obtain ⟨N, D, hx, hD, hval⟩ := havg
  subst hx
  simp only [JSNum.sub, JSNum.neg, JSNum.add, JSNum.ofNat, Nat.cast_one, Int.mul_one,
    Nat.one_mul]
  rw [JSNum.abs_round]
  have hkey : Int.natAbs ((v : Int) * (D : Int) + -(N : Int)) * 2 ^ j =
      Int.natAbs ((v : Int) * (2 ^ j : Nat) - total) * D := by
    have hvalZ : (N : Int) * ((2 ^ j : Nat) : Int) = (total : Int) * (D : Int) := by
      exact_mod_cast hval
    have h1 : ((v : Int) * (D : Int) + -(N : Int)) * ((2 ^ j : Nat) : Int) =
        ((v : Int) * ((2 ^ j : Nat) : Int) - total) * (D : Int) := by
      have : ((v : Int) * (D : Int) + -(N : Int)) * ((2 ^ j : Nat) : Int) =
          (v : Int) * ((2 ^ j : Nat) : Int) * D - (N : Int) * ((2 ^ j : Nat) : Int) := by ring
      rw [this, hvalZ]
      ring
    have h2 := congrArg Int.natAbs h1
    rw [Int.natAbs_mul, Int.natAbs_mul, Int.natAbs_ofNat, Int.natAbs_ofNat] at h2
    exact h2
  generalize Int.natAbs ((v : Int) * (D : Int) + -(N : Int)) = a at hkey ⊢
  generalize Int.natAbs ((v : Int) * (2 ^ j : Nat) - total) = w at hkey h53 ⊢
  by_cases ha : a = 0
  · subst ha
    have hw : w = 0 := by
      rw [Nat.zero_mul] at hkey
      rcases Nat.mul_eq_zero.mp hkey.symm with h | h
      · exact h
      · omega
    subst hw
    exact ⟨0, 1, by simp [fl], by norm_num, by simp⟩
  · obtain ⟨hv, hd⟩ := fl_dyadic a D w j (Nat.pos_of_ne_zero ha) hD hkey h53
    exact ⟨_, _, rfl, hd, hv⟩

/-- The sum of two exact quotients is exact while it stays below `2^53`. -/
theorem JSNum.isQuot_add (x y : JSNum) (s t j : Nat) (hx : JSNum.IsQuot x s (2 ^ j))
    (hy : JSNum.IsQuot y t (2 ^ j)) (h53 : s + t < 2 ^ 53) :
    JSNum.IsQuot (JSNum.add x y) (s + t) (2 ^ j) := by
  obtain ⟨A, P, hx, hP, hvx⟩ := hx
  obtain ⟨B, Q, hy, hQ, hvy⟩ := hy
  subst hx hy
  simp only [JSNum.add]
  have hcast : ((A : Int) * (Q : Int) + (B : Int) * (P : Int)) = ((A * Q + B * P : Nat) : Int) := by
    push_cast
    ring
  rw [hcast, JSNum.round_natCast]
  have hkey : (A * Q + B * P) * 2 ^ j = (s + t) * (P * Q) := by
    calc (A * Q + B * P) * 2 ^ j = A * 2 ^ j * Q + B * 2 ^ j * P := by ring
      _ = s * P * Q + t * Q * P := by rw [hvx, hvy]
      _ = (s + t) * (P * Q) := by ring
  by_cases ha : A * Q + B * P = 0
  · rw [ha] at hkey ⊢
    have hst : s + t = 0 := by
      rw [Nat.zero_mul] at hkey
      rcases Nat.mul_eq_zero.mp hkey.symm with h | h
      · exact h
      · have := Nat.mul_pos hP hQ
        omega
    rw [hst]
    exact ⟨0, 1, by simp [fl], by norm_num, by simp⟩
  · obtain ⟨hv, hd⟩ := fl_dyadic (A * Q + B * P) (P * Q) (s + t) j (Nat.pos_of_ne_zero ha)
      (Nat.mul_pos hP hQ) hkey h53
    exact ⟨_, _, rfl, hd, hv⟩

theorem spread_cons (k total v : Nat) (vals : List Nat) :
    spread k total (v :: vals) = Int.natAbs ((v : Int) * k - total) + spread k total vals := by
  simp [spread]

/-- The sum of the distances that the code accumulates is exact for `2^j`
categories, while the scaled sum stays below `2^53`. -/
theorem JSNum.isQuot_fold (avg : JSNum) (total j : Nat) (havg : JSNum.IsQuot avg total (2 ^ j)) :
    ∀ (vals : List Nat) (acc : JSNum) (s : Nat), JSNum.IsQuot acc s (2 ^ j) →
      s + spread (2 ^ j) total vals < 2 ^ 53 →
      JSNum.IsQuot (vals.foldl (fun acc val =>
        JSNum.add acc (JSNum.abs (JSNum.sub (.ofNat val) avg))) acc)
        (s + spread (2 ^ j) total vals) (2 ^ j) := by
  intro vals
  induction vals with
  | nil =>
    intro acc s hacc _
    simpa [spread] using hacc
  | cons v rest ih =>
    intro acc s hacc h53
    rw [spread_cons] at h53 ⊢
    rw [List.foldl_cons]
    have hdist := JSNum.isQuot_distance avg v total j havg (by omega)
    have hsum := JSNum.isQuot_add _ _ _ _ j hacc hdist (by omega)
    have := ih _ _ hsum (by omega)
    rw [Nat.add_assoc] at this
    exact this

theorem spread_append (k total : Nat) (l1 l2 : List Nat) :
    spread k total (l1 ++ l2) = spread k total l1 + spread k total l2 := by
  simp [spread]

/-- A move of one item from a category to a larger one does not lower the sum
of the distances from the mean, and keeps the total and the number of
categories. -/
theorem spread_move (k total : Nat) (vals vals2 : List Nat) (hmove : IsSkewingMove vals vals2) :
    spread k total vals ≤ spread k total vals2 ∧ vals2.sum = vals.sum ∧
      vals2.length = vals.length := by
  obtain ⟨l1, l2, l3, x, y, hx, hxy, hcase⟩ := hmove
  have hX : ((x - 1 : Nat) : Int) * (k : Int) = (x : Int) * k - k := by
    have : ((x - 1 : Nat) : Int) = (x : Int) - 1 := by omega
    rw [this]
    ring
  have hY : ((y + 1 : Nat) : Int) * (k : Int) = (y : Int) * k + k := by
    push_cast
    ring
  have hXY : (x : Int) * k ≤ (y : Int) * k :=
    Int.mul_le_mul_of_nonneg_right (by omega) (by omega)
  have hk : (0 : Int) ≤ k := by omega
  rcases hcase with ⟨h1, h2⟩ | ⟨h1, h2⟩
  · subst h1 h2
    refine ⟨?_, ?_, ?_⟩
    · simp only [spread_append, spread_cons, hX, hY]
      generalize (x : Int) * k = X at *
      generalize (y : Int) * k = Y at *
      omega
    · simp only [List.sum_append, List.sum_cons]
      omega
    · simp
  · subst h1 h2
    refine ⟨?_, ?_, ?_⟩
    · simp only [spread_append, spread_cons, hX, hY]
      generalize (x : Int) * k = X at *
      generalize (y : Int) * k = Y at *
      omega
    · simp only [List.sum_append, List.sum_cons]
      omega
    · simp

theorem spread_le (k total : Nat) (vals : List Nat) :
    spread k total vals ≤ k * vals.sum + vals.length * total := by
  induction vals with
  | nil => simp [spread]
  | cons v rest ih =>
    rw [spread_cons, List.sum_cons, List.length_cons]
    have h1 : Int.natAbs ((v : Int) * k - total) ≤ k * v + total := by
      have : (v : Int) * k = ((k * v : Nat) : Int) := by
        push_cast
        ring
      rw [this]
      generalize k * v = kv
      omega
    have h2 : k * (v + rest.sum) = k * v + k * rest.sum := Nat.mul_add _ _ _
    have h3 : (rest.length + 1) * total = rest.length * total + total := by ring
    omega

theorem spread_mem_le (k total : Nat) (vals : List Nat) (v : Nat) (hv : v ∈ vals) :
    Int.natAbs ((v : Int) * k - total) ≤ spread k total vals := by
  induction vals with
  | nil => cases hv
  | cons w rest ih =>
    rw [spread_cons]
    rcases List.mem_cons.mp hv with h | h
    · subst h
      omega
    · have := ih h
      omega

/-- Sizes that are not all equal lie at a positive distance from their mean. -/
theorem spread_pos (k total : Nat) (vals : List Nat) (hk : 0 < k)
    (hne : ∃ a ∈ vals, ∃ b ∈ vals, a ≠ b) : 0 < spread k total vals := by
  obtain ⟨a, ha, b, hb, hab⟩ := hne
  by_contra hzero
  have h0 : spread k total vals = 0 := by omega
  have hall : ∀ v ∈ vals, Int.natAbs ((v : Int) * k - total) = 0 := by
    intro v hv
    have hle := spread_mem_le k total vals v hv
    omega
  have h1 := hall a ha
  have h2 := hall b hb
  have h3 : (a : Int) * k = (b : Int) * k := by omega
  have h4 : (a : Int) = b := by
    have hk0 : (k : Int) ≠ 0 := by omega
    exact Int.eq_of_mul_eq_mul_right hk0 h3
  exact hab (by exact_mod_cast h4)

/-- The imbalance of `2^j` categories is the double nearest to the exact value
`spread / (2^j * 2 * total)`. -/
theorem workloadBalance_form (j total : Nat) (vals : List Nat) (hlen : vals.length = 2 ^ j)
    (hpos : 0 < total) (h53 : total < 2 ^ 53)
    (hs53 : spread (2 ^ j) total vals < 2 ^ 53) :
    ∃ A P : Nat, 0 < P ∧ A * 2 ^ j = spread (2 ^ j) total vals * P ∧
      workloadBalance vals total =
        .fin (fl A (P * (2 * total))).num (fl A (P * (2 * total))).den := by
  unfold workloadBalance
  rw [hlen]
  have havg := JSNum.isQuot_mean total j h53
  have hfold := JSNum.isQuot_fold _ total j havg vals (.ofNat 0) 0 (JSNum.isQuot_zero _)
    (by omega)
  rw [Nat.zero_add] at hfold
  obtain ⟨A, P, hx, hP, hval⟩ := hfold
  rw [hx]
  refine ⟨A, P, hP, hval, ?_⟩
  have hne : ¬ (((2 * total : Nat) : Int) = 0) := by omega
  have hnn : ¬ (((2 * total : Nat) : Int) < 0) := by omega
  simp only [JSNum.div, JSNum.ofNat, hne, hnn, if_false, Nat.cast_one, Int.mul_one,
    Int.natAbs_ofNat]
  exact JSNum.round_natCast _ _

/-- The balance `1 - x` of an imbalance `x = N / D` that is at most 1. -/
theorem balance_form (N D : Nat) (hle : N ≤ D) :
    JSNum.sub (.ofNat 1) (.fin N D) = .fin (fl (D - N) D).num (fl (D - N) D).den := by
  simp only [JSNum.sub, JSNum.neg, JSNum.add, JSNum.ofNat, Nat.cast_one, Int.mul_one,
    Int.one_mul, Nat.one_mul]
  have hcast : ((D : Int) + -(N : Int)) = ((D - N : Nat) : Int) := by omega
  rw [hcast]
  exact JSNum.round_natCast _ _

theorem fl_den_pos (a b : Nat) : 0 < (fl a b).den := by
  unfold fl
  split
  · exact Nat.one_pos
  · exact Nat.two_pow_pos _

/-- A quotient of at most 1 rounds to a double of at most 1. -/
theorem fl_le_one (a b : Nat) (hb : 0 < b) (hle : a ≤ b) : (fl a b).num ≤ (fl a b).den := by
  have hmono := fl_mono a b 1 1 hb Nat.one_pos (by omega)
  obtain ⟨hone, hpos⟩ := fl_dyadic 1 1 1 0 Nat.one_pos Nat.one_pos (by decide) (by decide)
  have hnum : (fl 1 1).num = (fl 1 1).den := by omega
  rw [hnum, Nat.mul_comm (fl 1 1).den] at hmono
  exact Nat.le_of_mul_le_mul_right hmono hpos

/-- A quotient of at least `2^-53` rounds to a double of at least `2^-53`. -/
theorem fl_ge_tiny (a b : Nat) (hb : 0 < b) (hle : b ≤ a * 2 ^ 53) :
    (fl a b).den ≤ (fl a b).num * 2 ^ 53 := by
  have hmono := fl_mono 1 (2 ^ 53) a b (by decide) hb (by omega)
  obtain ⟨htiny, hpos⟩ := fl_dyadic 1 (2 ^ 53) 1 53 Nat.one_pos (by decide) (by decide)
    (by decide)
  rw [Nat.one_mul] at htiny
  rw [← htiny] at hmono
  have hnum : 0 < (fl 1 (2 ^ 53)).num := by
    rcases Nat.eq_zero_or_pos (fl 1 (2 ^ 53)).num with h | h
    · rw [h] at htiny
      omega
    · exact h
  have hre : (fl a b).num * ((fl 1 (2 ^ 53)).num * 2 ^ 53) =
      (fl 1 (2 ^ 53)).num * ((fl a b).num * 2 ^ 53) := by ring
  rw [hre] at hmono
  exact Nat.le_of_mul_le_mul_left hmono hnum

/-- The balance `1 - x` does not rise when the exact imbalance does not fall. -/
theorem balance_le_of_cross (A B A2 B2 : Nat) (hB : 0 < B) (hB2 : 0 < B2) (hA : A ≤ B)
    (hA2 : A2 ≤ B2) (hle : A * B2 ≤ A2 * B) :
    JSNum.le (JSNum.sub (.ofNat 1) (.fin (fl A2 B2).num (fl A2 B2).den))
      (JSNum.sub (.ofNat 1) (.fin (fl A B).num (fl A B).den)) = true := by
  have hN := fl_le_one A B hB hA
  have hN2 := fl_le_one A2 B2 hB2 hA2
  have hD := fl_den_pos A B
  have hD2 := fl_den_pos A2 B2
  have hcross := fl_mono A B A2 B2 hB hB2 hle
  rw [balance_form _ _ hN, balance_form _ _ hN2]
  generalize (fl A B).num = N at *
  generalize (fl A B).den = D at *
  generalize (fl A2 B2).num = N2 at *
  generalize (fl A2 B2).den = D2 at *
  have hmono := fl_mono (D2 - N2) D2 (D - N) D hD2 hD (by
    rw [Nat.sub_mul, Nat.sub_mul]
    have h1 : N * D2 ≤ D * D2 := Nat.mul_le_mul_right _ hN
    have h2 : D2 * D = D * D2 := Nat.mul_comm _ _
    omega)
  simp only [JSNum.le, decide_eq_true_eq]
  exact_mod_cast hmono

/-- The double nearest to `1 - 2^-53` is below 1. -/
theorem fl_pred_one : (fl (2 ^ 53 - 1) (2 ^ 53)).num < (fl (2 ^ 53 - 1) (2 ^ 53)).den := by
  obtain ⟨hc, hcpos⟩ := fl_dyadic (2 ^ 53 - 1) (2 ^ 53) (2 ^ 53 - 1) 53 (by norm_num)
    (Nat.two_pow_pos _) rfl (by norm_num)
  omega

/-- A quotient of at most `1 - 2^-53` rounds to a double below 1. -/
theorem fl_lt_one (a b : Nat) (hb : 0 < b) (hle : a * 2 ^ 53 ≤ (2 ^ 53 - 1) * b) :
    (fl a b).num < (fl a b).den := by
  have hmono := fl_mono a b (2 ^ 53 - 1) (2 ^ 53) hb (Nat.two_pow_pos _) hle
  have hlt := fl_pred_one
  have hDb := fl_den_pos a b
  have h1 : (fl a b).num * (fl (2 ^ 53 - 1) (2 ^ 53)).den <
      (fl (2 ^ 53 - 1) (2 ^ 53)).den * (fl a b).den :=
    Nat.lt_of_le_of_lt hmono (Nat.mul_lt_mul_of_pos_right hlt hDb)
  rw [Nat.mul_comm (fl a b).num] at h1
  exact Nat.lt_of_mul_lt_mul_left h1

/-- The balance `1 - x` of an imbalance of at least `2^-53` is below 1. -/
theorem balance_lt_one (A B : Nat) (hB : 0 < B) (hA : A ≤ B) (htiny : B ≤ A * 2 ^ 53) :
    JSNum.lt (JSNum.sub (.ofNat 1) (.fin (fl A B).num (fl A B).den)) (.ofNat 1) = true := by
  have hN := fl_le_one A B hB hA
  have hD := fl_den_pos A B
  have hlow := fl_ge_tiny A B hB htiny
  rw [balance_form _ _ hN]
  have hle : ((fl A B).den - (fl A B).num) * 2 ^ 53 ≤ (2 ^ 53 - 1) * (fl A B).den := by
    have e1 : ((fl A B).den - (fl A B).num) * 2 ^ 53 =
        (fl A B).den * 2 ^ 53 - (fl A B).num * 2 ^ 53 := Nat.sub_mul _ _ _
    have e2 : (2 ^ 53 - 1) * (fl A B).den = (fl A B).den * 2 ^ 53 - (fl A B).den := by
      rw [Nat.sub_mul, Nat.one_mul, Nat.mul_comm]
    rw [e1, e2]
    exact Nat.sub_le_sub_left hlow _
  have hlt := fl_lt_one _ _ hD hle
  simp only [JSNum.lt, JSNum.ofNat, decide_eq_true_eq, Nat.cast_one, Int.mul_one, Int.one_mul]
  exact_mod_cast hlt

/-- The imbalance of `2^j` categories that hold `total` items is the double
nearest to `spread / (2^j * 2 * total)`, a quotient of at most 1. -/
theorem balance_of_spread (j total : Nat) (vals : List Nat) (hlen : vals.length = 2 ^ j)
    (hsum : vals.sum = total) (hpos : 0 < total) (hsmall : 2 ^ j * total < 2 ^ 52) :
    ∃ A B : Nat, 0 < B ∧ A ≤ B ∧
      A * (2 ^ j * (2 * total)) = spread (2 ^ j) total vals * B ∧
      workloadBalance vals total = .fin (fl A B).num (fl A B).den := by
  have hpow : 0 < 2 ^ j := Nat.two_pow_pos _
  have htot : total ≤ 2 ^ j * total := Nat.le_mul_of_pos_left _ hpow
  have hspread := spread_le (2 ^ j) total vals
  rw [hsum, hlen] at hspread
  obtain ⟨A, P, hP, hval, hform⟩ := workloadBalance_form j total vals hlen hpos (by omega)
    (by omega)
  refine ⟨A, P * (2 * total), Nat.mul_pos hP (by omega), ?_, ?_, hform⟩
  · have hK : 0 < 2 ^ j * (2 * total) := Nat.mul_pos hpow (by omega)
    apply Nat.le_of_mul_le_mul_right _ hK
    have h1 : A * (2 ^ j * (2 * total)) = spread (2 ^ j) total vals * P * (2 * total) := by
      rw [← hval]
      ring
    have h2 : P * (2 * total) * (2 ^ j * (2 * total)) =
        (2 ^ j * total + 2 ^ j * total) * P * (2 * total) := by ring
    rw [h1, h2]
    exact Nat.mul_le_mul_right _ (Nat.mul_le_mul_right _ hspread)
  · rw [← Nat.mul_assoc, ← Nat.mul_assoc, hval]
    ring

/-! ## Lemmas: unequal sizes lie below a balance of 1 -/

/-- A quotient of at least one half rounds to a double of at least one half. -/
theorem fl_ge_half (a b : Nat) (hb : 0 < b) (hle : b ≤ 2 * a) :
    (fl a b).den ≤ 2 * (fl a b).num := by
  have hmono := fl_mono 1 2 a b (by decide) hb (by omega)
  obtain ⟨hhalf, hpos⟩ := fl_dyadic 1 2 1 1 Nat.one_pos (by decide) (by decide) (by decide)
  rw [Nat.one_mul, Nat.pow_one] at hhalf
  rw [← hhalf] at hmono
  have hnum : 0 < (fl 1 2).num := by omega
  have hre : (fl a b).num * ((fl 1 2).num * 2) = (fl 1 2).num * (2 * (fl a b).num) := by ring
  rw [hre] at hmono
  exact Nat.le_of_mul_le_mul_left hmono hnum

/-- The rounded distance `|v - avg|` of a size from a non-negative number. -/
theorem distance_form (v p q : Nat) :
    JSNum.abs (JSNum.sub (.ofNat v) (.fin p q)) =
      .fin (fl (Int.natAbs ((v : Int) * q - p)) q).num
        (fl (Int.natAbs ((v : Int) * q - p)) q).den := by
  simp only [JSNum.sub, JSNum.neg, JSNum.add, JSNum.ofNat, Nat.cast_one, Int.mul_one,
    Nat.one_mul]
  rw [JSNum.abs_round]
  have : (v : Int) * (q : Int) + -(p : Int) = (v : Int) * q - p := by ring
  rw [this]

/-- Of two different sizes, one lies at a rounded distance of at least one half
from any number. -/
theorem distance_half (a b p q : Nat) (hq : 0 < q) (hab : a ≠ b) :
    q ≤ 2 * Int.natAbs ((a : Int) * q - p) ∨ q ≤ 2 * Int.natAbs ((b : Int) * q - p) := by
  have hq1 : (1 : Int) ≤ q := by omega
  rcases Nat.lt_or_gt_of_ne hab with hlt | hgt
  · have h1 : (a : Int) + 1 ≤ b := by omega
    have h2 : ((a : Int) + 1) * q ≤ (b : Int) * q := Int.mul_le_mul_of_nonneg_right h1 (by omega)
    have h3 : ((a : Int) + 1) * q = (a : Int) * q + q := by ring
    generalize (a : Int) * q = A at *
    generalize (b : Int) * q = B at *
    omega
  · have h1 : (b : Int) + 1 ≤ a := by omega
    have h2 : ((b : Int) + 1) * q ≤ (a : Int) * q := Int.mul_le_mul_of_nonneg_right h1 (by omega)
    have h3 : ((b : Int) + 1) * q = (b : Int) * q + q := by ring
    generalize (a : Int) * q = A at *
    generalize (b : Int) * q = B at *
    omega

/-- The sum of two non-negative doubles, one of them at least one half, is a
non-negative double of at least one half. -/
theorem add_ge_half (N D M E : Nat) (hD : 0 < D) (hE : 0 < E)
    (hhalf : D ≤ 2 * N ∨ E ≤ 2 * M) :
    ∃ N2 D2 : Nat, JSNum.add (.fin N D) (.fin M E) = .fin N2 D2 ∧ 0 < D2 ∧ D2 ≤ 2 * N2 := by
  refine ⟨(fl (N * E + M * D) (D * E)).num, (fl (N * E + M * D) (D * E)).den, ?_,
    fl_den_pos _ _, ?_⟩
  · simp only [JSNum.add]
    have : (N : Int) * (E : Int) + (M : Int) * (D : Int) = ((N * E + M * D : Nat) : Int) := by
      push_cast
      ring
    rw [this]
    exact JSNum.round_natCast _ _
  · apply fl_ge_half _ _ (Nat.mul_pos hD hE)
    rcases hhalf with h | h
    · have h1 : D * E ≤ 2 * N * E := Nat.mul_le_mul_right _ h
      have h2 : 2 * (N * E + M * D) = 2 * N * E + 2 * (M * D) := by ring
      omega
    · have h1 : D * E ≤ D * (2 * M) := Nat.mul_le_mul_left _ h
      have h2 : 2 * (N * E + M * D) = 2 * (N * E) + D * (2 * M) := by ring
      omega

/-- The sum of two non-negative doubles is a non-negative double. -/
theorem add_nonneg (N D M E : Nat) :
    ∃ N2 D2 : Nat, JSNum.add (.fin N D) (.fin M E) = .fin N2 D2 ∧ 0 < D2 := by
  refine ⟨(fl (N * E + M * D) (D * E)).num, (fl (N * E + M * D) (D * E)).den, ?_,
    fl_den_pos _ _⟩
  simp only [JSNum.add]
  have : (N : Int) * (E : Int) + (M : Int) * (D : Int) = ((N * E + M * D : Nat) : Int) := by
    push_cast
    ring
  rw [this]
  exact JSNum.round_natCast _ _

/-- Once the running sum of the distances is at least one half it stays so. -/
theorem fold_keeps_half (p q : Nat) : ∀ (vals : List Nat) (N D : Nat), 0 < D → D ≤ 2 * N →
    ∃ N2 D2 : Nat, vals.foldl (fun acc val =>
        JSNum.add acc (JSNum.abs (JSNum.sub (.ofNat val) (.fin p q)))) (.fin N D) =
      .fin N2 D2 ∧ 0 < D2 ∧ D2 ≤ 2 * N2 := by
  intro vals
  induction vals with
  | nil => intro N D hD hN; exact ⟨N, D, rfl, hD, hN⟩
  | cons v rest ih =>
    intro N D hD hN
    simp only [List.foldl_cons]
    rw [distance_form]
    obtain ⟨N1, D1, h1, hD1, hN1⟩ := add_ge_half N D _ _ hD (fl_den_pos _ _) (Or.inl hN)
    rw [h1]
    exact ih N1 D1 hD1 hN1

/-- The sum of the distances reaches one half at a size whose distance does. -/
theorem fold_reaches_half (p q : Nat) (hq : 0 < q) : ∀ (vals : List Nat) (N D : Nat), 0 < D →
    (∃ v ∈ vals, q ≤ 2 * Int.natAbs ((v : Int) * q - p)) →
    ∃ N2 D2 : Nat, vals.foldl (fun acc val =>
        JSNum.add acc (JSNum.abs (JSNum.sub (.ofNat val) (.fin p q)))) (.fin N D) =
      .fin N2 D2 ∧ 0 < D2 ∧ D2 ≤ 2 * N2 := by
  intro vals
  induction vals with
  | nil => intro N D _ hex; obtain ⟨v, hv, _⟩ := hex; cases hv
  | cons w rest ih =>
    intro N D hD hex
    simp only [List.foldl_cons]
    rw [distance_form]
    by_cases hw : q ≤ 2 * Int.natAbs ((w : Int) * q - p)
    · obtain ⟨N1, D1, h1, hD1, hN1⟩ := add_ge_half N D _ _ hD (fl_den_pos _ _)
        (Or.inr (fl_ge_half _ _ hq hw))
      rw [h1]
      exact fold_keeps_half p q rest N1 D1 hD1 hN1
    · obtain ⟨N1, D1, h1, hD1⟩ := add_nonneg N D
        (fl (Int.natAbs ((w : Int) * q - p)) q).num (fl (Int.natAbs ((w : Int) * q - p)) q).den
      rw [h1]
      apply ih N1 D1 hD1
      obtain ⟨v, hv, hvh⟩ := hex
      rcases List.mem_cons.mp hv with h | h
      · subst h; exact absurd hvh hw
      · exact ⟨v, h, hvh⟩

/-- The balance `1 - x` of a double `x` of at least `2^-53` is below 1. -/
theorem one_sub_lt_one (N D : Nat) (hD : 0 < D) (hlow : D ≤ N * 2 ^ 53) :
    JSNum.lt (JSNum.sub (.ofNat 1) (.fin N D)) (.ofNat 1) = true := by
  by_cases hN : N ≤ D
  · rw [balance_form _ _ hN]
    have hle : (D - N) * 2 ^ 53 ≤ (2 ^ 53 - 1) * D := by
      have e1 : (D - N) * 2 ^ 53 = D * 2 ^ 53 - N * 2 ^ 53 := Nat.sub_mul _ _ _
      have e2 : (2 ^ 53 - 1) * D = D * 2 ^ 53 - D := by
        rw [Nat.sub_mul, Nat.one_mul, Nat.mul_comm]
      rw [e1, e2]
      exact Nat.sub_le_sub_left hlow _
    have hlt := fl_lt_one _ _ hD hle
    simp only [JSNum.lt, JSNum.ofNat, decide_eq_true_eq, Nat.cast_one, Int.mul_one, Int.one_mul]
    exact_mod_cast hlt
  · have hneg : ((D : Int) + -(N : Int)) < 0 := by omega
    have hpos := fl_den_pos (Int.natAbs ((D : Int) + -(N : Int))) D
    simp only [JSNum.sub, JSNum.neg, JSNum.add, JSNum.ofNat, Nat.cast_one, Int.mul_one,
      Int.one_mul, Nat.one_mul, JSNum.round, hneg, if_true, JSNum.lt, decide_eq_true_eq]
    have h0 : (0 : Int) ≤ ((fl (Int.natAbs ((D : Int) + -(N : Int))) D).num : Int) := by
      exact_mod_cast Nat.zero_le _
    have h1 : (0 : Int) < ((fl (Int.natAbs ((D : Int) + -(N : Int))) D).den : Int) := by
      exact_mod_cast hpos
    omega

/-- Unequal category sizes: the unrounded balance is below 1, for every number
of categories. -/
theorem unequal_balance_lt_one (total : Nat) (vals : List Nat) (hpos : 0 < total)
    (hsmall : total < 2 ^ 51) (hne : ∃ a ∈ vals, ∃ b ∈ vals, a ≠ b) :
    JSNum.lt (JSNum.sub (.ofNat 1) (workloadBalance vals total)) (.ofNat 1) = true := by
  obtain ⟨a, ha, b, hb, hab⟩ := hne
  have hlen : 0 < vals.length := List.length_pos_of_mem ha
  unfold workloadBalance
  rw [JSNum.div_ofNat _ _ hlen]
  have hq := fl_den_pos total vals.length
  generalize (fl total vals.length).num = p at *
  generalize (fl total vals.length).den = q at *
  have hex : ∃ v ∈ vals, q ≤ 2 * Int.natAbs ((v : Int) * q - p) := by
    rcases distance_half a b p q hq hab with h | h
    · exact ⟨a, ha, h⟩
    · exact ⟨b, hb, h⟩
  obtain ⟨N, D, hfold, hD, hN⟩ := fold_reaches_half p q hq vals 0 1 Nat.one_pos hex
  have hzero : JSNum.ofNat 0 = .fin ((0 : Nat) : Int) 1 := rfl
  rw [hzero, hfold]
  have hne0 : ¬ (((2 * total : Nat) : Int) = 0) := by omega
  have hnn : ¬ (((2 * total : Nat) : Int) < 0) := by omega
  simp only [JSNum.div, JSNum.ofNat, hne0, hnn, if_false, Nat.cast_one, Int.mul_one,
    Int.natAbs_ofNat]
  rw [JSNum.round_natCast]
  apply one_sub_lt_one _ _ (fl_den_pos _ _)
  apply fl_ge_tiny _ _ (Nat.mul_pos hD (by omega))
  calc D * (2 * total) ≤ 2 * N * (2 * total) := Nat.mul_le_mul_right _ hN
    _ = N * (4 * total) := by ring
    _ ≤ N * 2 ^ 53 := Nat.mul_le_mul_left _ (by omega)

/-! ## Lemmas: the date string of the concrete hosts -/

theorem digitChar_val (d : Nat) (hd : d < 10) : (Nat.digitChar d).toNat - 48 = d := by
  interval_cases d <;> decide

theorem digitChar_ne_minus (d : Nat) (hd : d < 10) : Nat.digitChar d ≠ '-' := by
  interval_cases d <;> decide

/-- Reading the decimal digits written by `Nat.toDigitsCore` gives the number back. -/
theorem toDigitsCore_val : ∀ (fuel n a : Nat) (ds : List Char), n < fuel →
    ∃ k, (Nat.toDigitsCore 10 fuel n ds).foldl (fun acc c => acc * 10 + (c.toNat - 48)) a =
      ds.foldl (fun acc c => acc * 10 + (c.toNat - 48)) (a * 10 ^ k + n) := by
  intro fuel
  induction fuel with
  | zero => intro n a ds hn; omega
  | succ fuel ih =>
    intro n a ds hn
    have hmod : n % 10 < 10 := Nat.mod_lt _ (by decide)
    by_cases h0 : n / 10 = 0
    · refine ⟨1, ?_⟩
      have hn10 : n % 10 = n := by omega
      have hv := digitChar_val _ hmod
      rw [hn10] at hv
      simp only [Nat.toDigitsCore, h0, if_true, List.foldl_cons, hn10, hv, Nat.pow_one]
    · have hlt : n / 10 < fuel := by omega
      obtain ⟨k, hk⟩ := ih (n / 10) a (Nat.digitChar (n % 10) :: ds) hlt
      refine ⟨k + 1, ?_⟩
      simp only [Nat.toDigitsCore, h0, if_false]
      rw [hk, List.foldl_cons, digitChar_val _ hmod]
      congr 1
      rw [Nat.pow_succ]
      have := Nat.div_add_mod n 10
      have e : a * (10 ^ k * 10) = a * 10 ^ k * 10 := by ring
      omega

theorem toDigitsCore_no_minus : ∀ (fuel n : Nat) (ds : List Char), '-' ∉ ds →
    '-' ∉ Nat.toDigitsCore 10 fuel n ds := by
  intro fuel
  induction fuel with
  | zero => intro n ds hds; simpa [Nat.toDigitsCore] using hds
  | succ fuel ih =>
    intro n ds hds
    have hmod : n % 10 < 10 := Nat.mod_lt _ (by decide)
    have hcons : '-' ∉ Nat.digitChar (n % 10) :: ds := by
      simp only [List.mem_cons, not_or]
      exact ⟨fun h => digitChar_ne_minus _ hmod h.symm, hds⟩
    simp only [Nat.toDigitsCore]
    split_ifs
    · exact hcons
    · exact ih _ _ hcons

theorem natRepr_injective (m n : Nat) (h : Nat.repr m = Nat.repr n) : m = n := by
  have hdata : Nat.toDigits 10 m = Nat.toDigits 10 n := by
    have := congrArg String.data h
    simpa [Nat.repr, List.asString] using this
  obtain ⟨k1, h1⟩ := toDigitsCore_val (m + 1) m 0 [] (by omega)
  obtain ⟨k2, h2⟩ := toDigitsCore_val (n + 1) n 0 [] (by omega)
  simp only [List.foldl_nil, Nat.zero_mul, Nat.zero_add] at h1 h2
  unfold Nat.toDigits at hdata
  rw [hdata, h2] at h1
  exact h1.symm

/-- The decimal text of an integer determines the integer. -/
theorem intToString_injective (a b : Int) (h : toString a = toString b) : a = b := by
  cases a with
  | ofNat m =>
    cases b with
    | ofNat n =>
      have : Nat.repr m = Nat.repr n := h
      rw [natRepr_injective m n this]
    | negSucc n =>
      exfalso
      have h1 : Nat.repr m = "-" ++ Nat.repr (n + 1) := h
      have h2 := congrArg String.data h1
      have hno := toDigitsCore_no_minus (m + 1) m [] (by simp)
      apply hno
      have : (Nat.repr m).data = Nat.toDigitsCore 10 (m + 1) m [] := rfl
      rw [← this, h2]
      simp [String.data_append]
  | negSucc m =>
    cases b with
    | ofNat n =>
      exfalso
      have h1 : "-" ++ Nat.repr (m + 1) = Nat.repr n := h
      have h2 := congrArg String.data h1
      have hno := toDigitsCore_no_minus (n + 1) n [] (by simp)
      apply hno
      have : (Nat.repr n).data = Nat.toDigitsCore 10 (n + 1) n [] := rfl
      rw [← this, ← h2]
      simp [String.data_append]
    | negSucc n =>
      have h1 : "-" ++ Nat.repr (m + 1) = "-" ++ Nat.repr (n + 1) := h
      have h2 := congrArg String.data h1
      simp only [String.data_append, List.append_cancel_left_eq] at h2
      have h3 : Nat.repr (m + 1) = Nat.repr (n + 1) := String.ext h2
      have := natRepr_injective _ _ h3
      have hmn : m = n := by omega
      rw [hmn]

/-- In a zone at a fixed offset from UTC, two instants with the same date
string have the same local midnight: the law `sameDayLaw` holds at every date. -/
theorem zoneHost_sameDayLaw (offset now : Int) (d : JSVal) :
    sameDayLaw (zoneHost offset now) d = true := by
  unfold sameDayLaw
  cases hp : parseDate (zoneHost offset now) d with
  | none => rfl
  | some t =>
    simp only [Bool.or_eq_true, Bool.not_eq_true', decide_eq_true_eq]
    by_cases hs : ((zoneHost offset now).toDateString t ==
        (zoneHost offset now).toDateString (zoneHost offset now).now) = true
    · right
      have heq := intToString_injective _ _ (eq_of_beq hs)
      show t - (t + offset) % msPerDay = now - (now + offset) % msPerDay
      have heq2 : (t + offset) / msPerDay = (now + offset) / msPerDay := heq
      have e1 := Int.emod_add_ediv (t + offset) msPerDay
      have e2 := Int.emod_add_ediv (now + offset) msPerDay
      rw [heq2] at e1
      omega
    · left
      simpa using hs

theorem utcHost_sameDayLaw (now : Int) (d : JSVal) : sameDayLaw (utcHost now) d = true := by
  unfold sameDayLaw
  cases hp : parseDate (utcHost now) d with
  | none => rfl
  | some t =>
    simp only [Bool.or_eq_true, Bool.not_eq_true', decide_eq_true_eq]
    by_cases hs : ((utcHost now).toDateString t ==
        (utcHost now).toDateString (utcHost now).now) = true
    · right
      have heq := intToString_injective _ _ (eq_of_beq hs)
      show t - t % msPerDay = now - now % msPerDay
      have heq2 : t / msPerDay = now / msPerDay := heq
      have e1 := Int.emod_add_ediv t msPerDay
      have e2 := Int.emod_add_ediv now msPerDay
      rw [heq2] at e1
      omega
    · left
      simpa using hs

theorem zoneHost_taskDayLaw (offset now : Int) (task : Task) :
    taskDayLaw (zoneHost offset now) task = true := by
  unfold taskDayLaw
  cases extractTaskDate task.text with
  | error e => rfl
  | ok d => exact zoneHost_sameDayLaw offset now _

/-! ## Lemmas: whole tags after the removal -/

theorem plain_not_space (c : Char)
    (hc : (c.isAlphanum || c == '_' || c == '-' || c == '/') = true) :
    isJSSpace c = false ∧ c ≠ '#' := by
  simp only [Bool.or_eq_true, beq_iff_eq] at hc
  rcases hc with ((h | h) | h) | h
  · simp only [Char.isAlphanum, Char.isAlpha, Char.isUpper, Char.isLower, Char.isDigit,
      Bool.or_eq_true, Bool.and_eq_true, decide_eq_true_eq] at h
    have hn : (65 ≤ c.toNat ∧ c.toNat ≤ 90) ∨ (97 ≤ c.toNat ∧ c.toNat ≤ 122) ∨
        (48 ≤ c.toNat ∧ c.toNat ≤ 57) := by
      rcases h with (⟨h1, h2⟩ | ⟨h1, h2⟩) | ⟨h1, h2⟩
      · exact Or.inl ⟨h1, h2⟩
      · exact Or.inr (Or.inl ⟨h1, h2⟩)
      · exact Or.inr (Or.inr ⟨h1, h2⟩)
    constructor
    · unfold isJSSpace
      simp only [Bool.or_eq_false_iff, Bool.and_eq_false_iff, beq_eq_false_iff_ne, ne_eq,
        decide_eq_false_iff_not]
      omega
    · intro heq
      subst heq
      revert hn
      decide
  · subst h; exact ⟨by decide, by decide⟩
  · subst h; exact ⟨by decide, by decide⟩
  · subst h; exact ⟨by decide, by decide⟩

theorem space_not_word (c : Char) (hc : isJSSpace c = true) : isWordChar c = false := by
  cases hw : isWordChar c with
  | false => rfl
  | true =>
    unfold isWordChar at hw
    have := (plain_not_space c (by rw [hw]; rfl)).1
    rw [this] at hc
    cases hc

theorem space_ne_hash (c : Char) (hc : isJSSpace c = true) : c ≠ '#' := by
  intro h
  subst h
  revert hc
  decide

theorem plainTagName_chars (tag : String) (h : plainTagName tag = true) :
    ∀ c ∈ tag.data, isJSSpace c = false ∧ c ≠ '#' := by
  intro c hc
  unfold plainTagName at h
  rw [List.all_eq_true] at h
  exact plain_not_space c (h c hc)

theorem removeTagAux_skip (pat : List Char) :
    ∀ (cs : List Char) (k : Nat), removeTagAux pat k cs = removeTagAux pat 0 (cs.drop k) := by
  intro cs
  induction cs with
  | nil => intro k; cases k <;> simp [removeTagAux]
  | cons c cs ih =>
    intro k
    cases k with
    | zero => rfl
    | succ k =>
      simp only [removeTagAux, List.drop_succ_cons]
      exact ih k

theorem removeTagAux_match (pat cs : List Char) (c : Char)
    (h : tagMatchAt ('#' :: pat) (c :: cs) = true) :
    removeTagAux ('#' :: pat) 0 (c :: cs) = removeTagAux ('#' :: pat) 0 (cs.drop pat.length) := by
  simp only [removeTagAux, h, if_true, List.length_cons, Nat.add_sub_cancel]
  exact removeTagAux_skip _ _ _

theorem removeTagAux_no_match (pat cs : List Char) (c : Char)
    (h : tagMatchAt pat (c :: cs) = false) :
    removeTagAux pat 0 (c :: cs) = c :: removeTagAux pat 0 cs := by
  simp [removeTagAux, h]

theorem hashesApart_weaken : ∀ (cs : List Char) (b : Bool), hashesApart b cs = true →
    hashesApart true cs = true := by
  intro cs b h
  cases cs with
  | nil => rfl
  | cons c cs =>
    simp only [hashesApart, Bool.and_eq_true, Bool.or_eq_true] at h ⊢
    exact ⟨Or.inr trivial, h.2⟩

theorem hashesApart_drop : ∀ (n : Nat) (cs : List Char) (b : Bool), hashesApart b cs = true →
    hashesApart true (cs.drop n) = true := by
  intro n
  induction n with
  | zero => intro cs b h; exact hashesApart_weaken cs b h
  | succ n ih =>
    intro cs b h
    cases cs with
    | nil => rfl
    | cons c cs =>
      simp only [hashesApart, Bool.and_eq_true] at h
      exact ih cs _ h.2

/-- The removal keeps the tags of the text set apart by blanks. -/
theorem removeTagAux_apart (pat : List Char) : ∀ (n : Nat) (cs : List Char) (b : Bool),
    cs.length ≤ n → hashesApart b cs = true →
    hashesApart b (removeTagAux ('#' :: pat) 0 cs) = true := by
  intro n
  induction n with
  | zero =>
    intro cs b hlen _
    have : cs = [] := List.eq_nil_of_length_eq_zero (by omega)
    subst this
    rfl
  | succ n ih =>
    intro cs b hlen h
    cases cs with
    | nil => rfl
    | cons c cs =>
      simp only [List.length_cons] at hlen
      by_cases hm : tagMatchAt ('#' :: pat) (c :: cs) = true
      · rw [removeTagAux_match pat cs c hm]
        have hc : c = '#' := by
          by_contra hne
          rw [tagMatchAt_hash pat cs c hne] at hm
          cases hm
        have hb : b = true := by
          simp only [hashesApart, Bool.and_eq_true, Bool.or_eq_true, bne_iff_ne] at h
          rcases h.1 with h1 | h1
          · exact absurd hc h1
          · exact h1
        rw [hb]
        simp only [hashesApart, Bool.and_eq_true] at h
        exact ih _ true (by rw [List.length_drop]; omega) (hashesApart_drop _ cs _ h.2)
      · have hm2 : tagMatchAt ('#' :: pat) (c :: cs) = false := by simpa using hm
        rw [removeTagAux_no_match _ cs c hm2]
        simp only [hashesApart, Bool.and_eq_true] at h ⊢
        exact ⟨h.1, ih cs _ (by omega) h.2⟩

theorem startsWithChars_iff (pat : List Char) : ∀ (cs : List Char),
    startsWithChars pat cs = true ↔ ∃ tail, cs = pat ++ tail := by
  induction pat with
  | nil => intro cs; simp [startsWithChars]
  | cons p ps ih =>
    intro cs
    cases cs with
    | nil => simp [startsWithChars]
    | cons c cs =>
      simp only [startsWithChars, Bool.and_eq_true, beq_iff_eq, ih cs, List.cons_append,
        List.cons.injEq]
      constructor
      · rintro ⟨h1, tail, h2⟩
        exact ⟨tail, h1.symm, h2⟩
      · rintro ⟨tail, h1, h2⟩
        exact ⟨h1.symm, tail, h2⟩

theorem opensWithTag_iff (tag cs : List Char) :
    opensWithTag tag cs = true ↔ ∃ tail, cs = '#' :: tag ++ tail ∧ TagEnd tail := by
  unfold opensWithTag TagEnd
  rw [Bool.and_eq_true, startsWithChars_iff]
  constructor
  · rintro ⟨⟨tail, hcs⟩, hend⟩
    refine ⟨tail, hcs, ?_⟩
    subst hcs
    have hdrop : ('#' :: tag ++ tail).drop (tag.length + 1) = tail := by
      have := List.drop_left ('#' :: tag) tail
      simp at this ⊢
    rw [hdrop] at hend
    cases tail with
    | nil => exact Or.inl rfl
    | cons s r => exact Or.inr ⟨s, r, rfl, hend⟩
  · rintro ⟨tail, hcs, hend⟩
    refine ⟨⟨tail, hcs⟩, ?_⟩
    subst hcs
    have hdrop : ('#' :: tag ++ tail).drop (tag.length + 1) = tail := by
      have := List.drop_left ('#' :: tag) tail
      simp at this ⊢
    rw [hdrop]
    rcases hend with h | ⟨s, r, h, hs⟩
    · subst h; rfl
    · subst h; exact hs

/-- Behind a character that is not a blank, a run without blanks and `#` that
the removal leaves in front of a tag end stood in front of a tag end before. -/
theorem removeTagAux_prefix (pat : List Char) : ∀ (w cs tail : List Char),
    (∀ x ∈ w, isJSSpace x = false ∧ x ≠ '#') → hashesApart false cs = true →
    removeTagAux ('#' :: pat) 0 cs = w ++ tail → TagEnd tail →
    ∃ tail2, cs = w ++ tail2 ∧ TagEnd tail2 := by
  intro w
  induction w with
  | nil =>
    intro cs tail _ hap hf hend
    cases cs with
    | nil => exact ⟨[], rfl, Or.inl rfl⟩
    | cons y cs =>
      refine ⟨y :: cs, rfl, ?_⟩
      simp only [hashesApart, Bool.and_eq_true, Bool.or_eq_true, bne_iff_ne, Bool.false_eq_true,
        or_false] at hap
      rw [removeTagAux_no_match _ cs y (tagMatchAt_hash pat cs y hap.1), List.nil_append] at hf
      rcases hend with h | ⟨s, r, h, hs⟩
      · rw [h] at hf; cases hf
      · rw [h] at hf
        obtain ⟨hy, _⟩ := List.cons.inj hf
        exact Or.inr ⟨y, cs, rfl, by rw [hy]; exact hs⟩
  | cons x w ih =>
    intro cs tail hw hap hf hend
    cases cs with
    | nil => simp [removeTagAux] at hf
    | cons y cs =>
      simp only [hashesApart, Bool.and_eq_true, Bool.or_eq_true, bne_iff_ne, Bool.false_eq_true,
        or_false] at hap
      rw [removeTagAux_no_match _ cs y (tagMatchAt_hash pat cs y hap.1), List.cons_append] at hf
      obtain ⟨hy, hrest⟩ := List.cons.inj hf
      have hx := hw x (List.mem_cons_self _ _)
      have hap2 : hashesApart false cs = true := by
        rw [← hx.1, ← hy]
        exact hap.2
      obtain ⟨tail2, hcs, hend2⟩ := ih cs tail
        (fun z hz => hw z (List.mem_cons_of_mem _ hz)) hap2 hrest hend
      exact ⟨tail2, by rw [hy, hcs, List.cons_append], hend2⟩

theorem carriesTag_cons (t : String) (c : Char) (cs : List Char)
    (h : carriesTag t cs = true) : carriesTag t (c :: cs) = true := by
  simp [carriesTag, h]

theorem carriesTag_drop (t : String) : ∀ (n : Nat) (cs : List Char),
    carriesTag t (cs.drop n) = true → carriesTag t cs = true := by
  intro n
  induction n with
  | zero => intro cs h; simpa using h
  | succ n ih =>
    intro cs h
    cases cs with
    | nil => simpa using h
    | cons c cs =>
      rw [List.drop_succ_cons] at h
      exact carriesTag_cons t c cs (ih cs h)

/-- A whole tag that the text carries after the removal of another tag was
there before. -/
theorem carriesTag_removeTagAux (pat : List Char) (t : String)
    (ht : ∀ x ∈ t.data, isJSSpace x = false ∧ x ≠ '#') :
    ∀ (n : Nat) (cs : List Char) (b : Bool), cs.length ≤ n → hashesApart b cs = true →
      carriesTag t (removeTagAux ('#' :: pat) 0 cs) = true → carriesTag t cs = true := by
  intro n
  induction n with
  | zero =>
    intro cs b hlen _ h
    have : cs = [] := List.eq_nil_of_length_eq_zero (by omega)
    subst this
    simp [removeTagAux, carriesTag] at h
  | succ n ih =>
    intro cs b hlen hap h
    cases cs with
    | nil => simp [removeTagAux, carriesTag] at h
    | cons c cs =>
      simp only [List.length_cons] at hlen
      have hap2 := hap
      simp only [hashesApart, Bool.and_eq_true] at hap2
      by_cases hm : tagMatchAt ('#' :: pat) (c :: cs) = true
      · rw [removeTagAux_match pat cs c hm] at h
        have := ih _ true (by rw [List.length_drop]; omega) (hashesApart_drop _ cs _ hap2.2) h
        exact carriesTag_cons t c cs (carriesTag_drop t _ cs this)
      · have hm2 : tagMatchAt ('#' :: pat) (c :: cs) = false := by simpa using hm
        rw [removeTagAux_no_match _ cs c hm2] at h
        simp only [carriesTag, Bool.or_eq_true] at h ⊢
        rcases h with hopen | hrest
        · left
          rw [opensWithTag_iff] at hopen ⊢
          obtain ⟨tail, hcs, hend⟩ := hopen
          rw [List.cons_append] at hcs
          obtain ⟨hc, hf⟩ := List.cons.inj hcs
          have hap3 : hashesApart false cs = true := by
            have : isJSSpace c = false := by rw [hc]; decide
            rw [← this]
            exact hap2.2
          obtain ⟨tail2, hcs2, hend2⟩ := removeTagAux_prefix pat t.data cs tail ht hap3 hf hend
          exact ⟨tail2, by rw [hc, hcs2, List.cons_append], hend2⟩
        · right
          exact ih cs _ (by omega) hap2.2 hrest

theorem sameLetter_self (a : Char) : sameLetter a a = true := by
  simp [sameLetter]

theorem dropLetters_self : ∀ (p tail : List Char), dropLetters p (p ++ tail) = some tail := by
  intro p
  induction p with
  | nil => intro tail; cases tail <;> rfl
  | cons a p ih =>
    intro tail
    simp only [List.cons_append, dropLetters, sameLetter_self, if_true]
    exact ih tail

/-- The pattern `#tag\b` matches where the text opens with the whole tag. -/
theorem tagMatchAt_of_opens (u : String) (hu : wholeTagName u = true) (cs : List Char)
    (h : opensWithTag u.data cs = true) : tagMatchAt ('#' :: u.data) cs = true := by
  rw [opensWithTag_iff] at h
  obtain ⟨tail, hcs, hend⟩ := h
  unfold wholeTagName at hu
  rw [Bool.and_eq_true] at hu
  cases hlast : u.data.getLast? with
  | none => rw [hlast] at hu; simp at hu
  | some last =>
    rw [hlast] at hu
    have hword : isWordChar last = true := hu.2
    have hne : u.data ≠ [] := by
      intro hnil
      rw [hnil] at hlast
      simp at hlast
    have hlast2 : ('#' :: u.data).getLast? = some last := by
      cases hd : u.data with
      | nil => exact absurd hd hne
      | cons a r =>
        rw [hd] at hlast
        rw [List.getLast?_cons_cons]
        exact hlast
    unfold tagMatchAt
    rw [hcs, dropLetters_self]
    simp only [List.take_left', hlast2, Option.getD_some]
    simp only [wordBoundary, hword]
    rcases hend with ht | ⟨s, r, ht, hs⟩
    · subst ht; rfl
    · subst ht
      simp [space_not_word s hs]

/-- After the removal of a tag the text does not carry it as a whole tag. -/
theorem not_carriesTag_removeTag (u : String) (hu : wholeTagName u = true) :
    ∀ (n : Nat) (cs : List Char) (b : Bool), cs.length ≤ n → hashesApart b cs = true →
      carriesTag u (removeTagAux ('#' :: u.data) 0 cs) = false := by
  have hplain : ∀ x ∈ u.data, isJSSpace x = false ∧ x ≠ '#' := by
    unfold wholeTagName at hu
    rw [Bool.and_eq_true] at hu
    exact plainTagName_chars u hu.1
  intro n
  induction n with
  | zero =>
    intro cs b hlen _
    have : cs = [] := List.eq_nil_of_length_eq_zero (by omega)
    subst this
    rfl
  | succ n ih =>
    intro cs b hlen hap
    cases cs with
    | nil => rfl
    | cons c cs =>
      simp only [List.length_cons] at hlen
      have hap2 := hap
      simp only [hashesApart, Bool.and_eq_true] at hap2
      by_cases hm : tagMatchAt ('#' :: u.data) (c :: cs) = true
      · rw [removeTagAux_match u.data cs c hm]
        exact ih _ true (by rw [List.length_drop]; omega) (hashesApart_drop _ cs _ hap2.2)
      · have hm2 : tagMatchAt ('#' :: u.data) (c :: cs) = false := by simpa using hm
        rw [removeTagAux_no_match _ cs c hm2]
        simp only [carriesTag, Bool.or_eq_false_iff]
        refine ⟨?_, ih cs _ (by omega) hap2.2⟩
        cases hopen : opensWithTag u.data (c :: removeTagAux ('#' :: u.data) 0 cs) with
        | false => rfl
        | true =>
          exfalso
          rw [opensWithTag_iff] at hopen
          obtain ⟨tail, hcs, hend⟩ := hopen
          rw [List.cons_append] at hcs
          obtain ⟨hc, hf⟩ := List.cons.inj hcs
          have hap3 : hashesApart false cs = true := by
            have : isJSSpace c = false := by rw [hc]; decide
            rw [← this]
            exact hap2.2
          obtain ⟨tail2, hcs2, hend2⟩ :=
            removeTagAux_prefix u.data u.data cs tail hplain hap3 hf hend
          have hop : opensWithTag u.data (c :: cs) = true := by
            rw [opensWithTag_iff]
            exact ⟨tail2, by rw [hc, hcs2, List.cons_append], hend2⟩
          rw [tagMatchAt_of_opens u hu _ hop] at hm2
          cases hm2

theorem wholeTagName_chars (tag : String) (h : wholeTagName tag = true) :
    ∀ c ∈ tag.data, isJSSpace c = false ∧ c ≠ '#' := by
  unfold wholeTagName at h
  rw [Bool.and_eq_true] at h
  exact plainTagName_chars tag h.1

/-- After the removal of the tags of a list, the text carries none of them as a
whole tag, when its tags were set apart by blanks. -/
theorem foldl_removeTag_free : ∀ (tags done : List String) (line : List Char),
    hashesApart true line = true →
    (∀ t ∈ done ++ tags, wholeTagName t = true) →
    (∀ t ∈ done, carriesTag t line = false) →
    hashesApart true (tags.foldl (fun l tag => removeTag tag l) line) = true ∧
      ∀ t ∈ done ++ tags, carriesTag t (tags.foldl (fun l tag => removeTag tag l) line) = false := by
  intro tags
  induction tags with
  | nil =>
    intro done line hap _ hdone
    simp only [List.foldl_nil, List.append_nil]
    exact ⟨hap, hdone⟩
  | cons u rest ih =>
    intro done line hap hwhole hdone
    simp only [List.foldl_cons]
    have hu : wholeTagName u = true := hwhole u (by simp)
    have hap2 : hashesApart true (removeTag u line) = true :=
      removeTagAux_apart u.data line.length line true (Nat.le_refl _) hap
    have hdone2 : ∀ t ∈ done ++ [u], carriesTag t (removeTag u line) = false := by
      intro t ht
      rcases List.mem_append.mp ht with h | h
      · cases hc : carriesTag t (removeTag u line) with
        | false => rfl
        | true =>
          have := carriesTag_removeTagAux u.data t
            (wholeTagName_chars t (hwhole t (List.mem_append_left _ h)))
            line.length line true (Nat.le_refl _) hap hc
          rw [hdone t h] at this
          cases this
      · have htu : t = u := by simpa using h
        rw [htu]
        exact not_carriesTag_removeTag u hu line.length line true (Nat.le_refl _) hap
    have := ih (done ++ [u]) (removeTag u line) hap2
      (by simpa using hwhole) hdone2
    simpa using this

theorem carriesTag_append_spaces (t : String) : ∀ (cs spaces : List Char),
    (∀ s ∈ spaces, isJSSpace s = true) → carriesTag t cs = true →
    carriesTag t (cs ++ spaces) = true := by
  intro cs
  induction cs with
  | nil => intro spaces _ h; simp [carriesTag] at h
  | cons c cs ih =>
    intro spaces hsp h
    simp only [carriesTag, Bool.or_eq_true, List.cons_append] at h ⊢
    rcases h with hopen | hrest
    · left
      rw [opensWithTag_iff] at hopen ⊢
      obtain ⟨tail, hcs, hend⟩ := hopen
      have happ : c :: (cs ++ spaces) = '#' :: t.data ++ (tail ++ spaces) := by
        rw [← List.cons_append, hcs]
        simp
      refine ⟨tail ++ spaces, happ, ?_⟩
      rcases hend with ht | ⟨s, r, ht, hs⟩
      · subst ht
        cases spaces with
        | nil => exact Or.inl rfl
        | cons s r => exact Or.inr ⟨s, r, rfl, hsp s (List.mem_cons_self _ _)⟩
      · subst ht
        exact Or.inr ⟨s, r ++ spaces, rfl, hs⟩
    · right
      exact ih spaces hsp hrest

theorem carriesTag_of_suffix (t : String) (cs full : List Char) (h : cs <:+ full)
    (hc : carriesTag t cs = true) : carriesTag t full = true := by
  obtain ⟨pre, hpre⟩ := h
  subst hpre
  induction pre with
  | nil => simpa using hc
  | cons c pre ih => exact carriesTag_cons t c _ ih

/-- A whole tag of the trimmed text is a whole tag of the text. -/
theorem carriesTag_jsTrim (t : String) (s : String)
    (h : carriesTag t (jsTrim s).data = true) : carriesTag t s.data = true := by
  unfold jsTrim at h
  simp only at h
  have hsplit := List.takeWhile_append_dropWhile isJSSpace (s.data.dropWhile isJSSpace).reverse
  have hrev : s.data.dropWhile isJSSpace =
      ((s.data.dropWhile isJSSpace).reverse.dropWhile isJSSpace).reverse ++
        ((s.data.dropWhile isJSSpace).reverse.takeWhile isJSSpace).reverse := by
    have := congrArg List.reverse hsplit
    rw [List.reverse_append, List.reverse_reverse] at this
    exact this.symm
  have h2 := carriesTag_append_spaces t _
    ((s.data.dropWhile isJSSpace).reverse.takeWhile isJSSpace).reverse
    (fun c hc => by
      have := List.mem_takeWhile_imp (List.mem_reverse.mp hc)
      exact this) h
  rw [← hrev] at h2
  exact carriesTag_of_suffix t _ _ (List.dropWhile_suffix _) h2

/-- The line found by `findIndex` is the first one that the predicate accepts. -/
theorem findTaskLine_first (task : Task) :
    ∀ (lines : List String) (k i : Nat), findTaskLine task lines k = .ok (some i) →
      ∀ (j : Nat) (line2 : String), j < i - k → lines[j]? = some line2 →
        isTaskLine task line2 = .ok false := by
  intro lines
  induction lines with
  | nil => intro k i hrun; simp [findTaskLine] at hrun
  | cons line rest ih =>
    intro k i hrun j line2 hj hget
    unfold findTaskLine at hrun
    cases hp : isTaskLine task line with
    | error e => simp [hp] at hrun
    | ok b =>
      cases b with
      | true =>
        simp only [hp, Except.ok.injEq, Option.some.injEq] at hrun
        omega
      | false =>
        simp only [hp] at hrun
        cases j with
        | zero =>
          simp only [List.getElem?_cons_zero, Option.some.injEq] at hget
          rw [← hget]
          exact hp
        | succ j =>
          simp only [List.getElem?_cons_succ] at hget
          have hk := (findTaskLine_some task rest (k + 1) i hrun).1
          exact ih (k + 1) i hrun j line2 (by omega) hget

theorem mem_of_getElem?_some {α : Type} (l : List α) (i : Nat) (a : α) (h : l[i]? = some a) :
    a ∈ l := by
  obtain ⟨hi, heq⟩ := List.getElem?_eq_some.mp h
  rw [← heq]
  exact List.getElem_mem _

theorem opensWithTag_hash (tag cs : List Char) (c : Char) (h : c ≠ '#') :
    opensWithTag tag (c :: cs) = false := by
  cases ho : opensWithTag tag (c :: cs) with
  | false => rfl
  | true =>
    rw [opensWithTag_iff] at ho
    obtain ⟨tail, hcs, _⟩ := ho
    rw [List.cons_append] at hcs
    exact absurd (List.cons.inj hcs).1 h

theorem countTag_no_hash (t : String) : ∀ (cs : List Char), (∀ c ∈ cs, c ≠ '#') →
    countTag t cs = 0 := by
  intro cs
  induction cs with
  | nil => intro _; rfl
  | cons c cs ih =>
    intro h
    simp only [countTag, opensWithTag_hash t.data cs c (h c (List.mem_cons_self _ _)),
      Bool.false_eq_true, if_false, Nat.zero_add]
    exact ih (fun x hx => h x (List.mem_cons_of_mem _ hx))

/-- A whole tag that opens the text followed by a blank and more text opens the
text itself. -/
theorem opensWithTag_of_append (t : String)
    (ht : ∀ x ∈ t.data, isJSSpace x = false ∧ x ≠ '#') (cs u : List Char)
    (h : opensWithTag t.data (cs ++ ' ' :: u) = true) : opensWithTag t.data cs = true := by
  rw [opensWithTag_iff] at h ⊢
  obtain ⟨tail, hcs, hend⟩ := h
  rcases List.append_eq_append_iff.mp hcs with ⟨a, h1, h2⟩ | ⟨b, h1, h2⟩
  · cases a with
    | nil =>
      refine ⟨[], ?_, Or.inl rfl⟩
      simpa using h1.symm
    | cons x a =>
      exfalso
      rw [List.cons_append] at h2
      have hx : x = ' ' := (List.cons.inj h2).1.symm
      have hmem : x ∈ '#' :: t.data := by
        rw [h1]
        simp
      rw [hx] at hmem
      rcases List.mem_cons.mp hmem with h3 | h3
      · revert h3; decide
      · have := (ht ' ' h3).1
        revert this
        decide
  · cases b with
    | nil =>
      refine ⟨[], ?_, Or.inl rfl⟩
      simpa using h1
    | cons s r =>
      refine ⟨s :: r, h1, Or.inr ⟨s, r, rfl, ?_⟩⟩
      rcases hend with h3 | ⟨s2, r2, h3, hs⟩
      · rw [h3] at h2; cases h2
      · rw [h3, List.cons_append] at h2
        rw [← (List.cons.inj h2).1]
        exact hs

/-- The number of whole tags `#tag` on a text that carries none, followed by a
blank and the tag `#new`: one when `new` is the tag, none otherwise. -/
theorem countTag_append_tag (t new : String)
    (ht : ∀ x ∈ t.data, isJSSpace x = false ∧ x ≠ '#')
    (hnew : ∀ x ∈ new.data, isJSSpace x = false ∧ x ≠ '#') :
    ∀ (kept : List Char), carriesTag t kept = false →
      countTag t (kept ++ ' ' :: '#' :: new.data) = if t = new then 1 else 0 := by
  intro kept
  induction kept with
  | nil =>
    intro _
    have h0 : countTag t new.data = 0 := countTag_no_hash t _ (fun c hc => (hnew c hc).2)
    simp only [List.nil_append, countTag, opensWithTag_hash t.data _ ' ' (by decide),
      Bool.false_eq_true, if_false, Nat.zero_add, h0, Nat.add_zero]
    by_cases htn : t = new
    · subst htn
      have : opensWithTag t.data ('#' :: t.data) = true := by
        rw [opensWithTag_iff]
        exact ⟨[], by simp, Or.inl rfl⟩
      simp [this]
    · have : opensWithTag t.data ('#' :: new.data) = false := by
        cases ho : opensWithTag t.data ('#' :: new.data) with
        | false => rfl
        | true =>
          exfalso
          rw [opensWithTag_iff] at ho
          obtain ⟨tail, hcs, hend⟩ := ho
          rw [List.cons_append] at hcs
          have hd : new.data = t.data ++ tail := (List.cons.inj hcs).2
          rcases hend with h3 | ⟨s, r, h3, hs⟩
          · subst h3
            rw [List.append_nil] at hd
            apply htn
            cases t
            cases new
            simp only at hd
            rw [hd]
          · have hmem : s ∈ new.data := by
              rw [hd, h3]
              simp
            rw [(hnew s hmem).1] at hs
            cases hs
      simp [this, htn]
  | cons c kept ih =>
    intro h
    simp only [carriesTag, Bool.or_eq_false_iff] at h
    have hopen : opensWithTag t.data (c :: (kept ++ ' ' :: '#' :: new.data)) = false := by
      cases ho : opensWithTag t.data (c :: (kept ++ ' ' :: '#' :: new.data)) with
      | false => rfl
      | true =>
        rw [← List.cons_append] at ho
        rw [opensWithTag_of_append t ht (c :: kept) _ ho] at h
        cases h.1
    have hstep : countTag t (c :: kept ++ ' ' :: '#' :: new.data) =
        countTag t (kept ++ ' ' :: '#' :: new.data) := by
      rw [List.cons_append]
      show (if opensWithTag t.data (c :: (kept ++ ' ' :: '#' :: new.data)) = true then 1 else 0) +
        countTag t (kept ++ ' ' :: '#' :: new.data) = _
      rw [hopen]
      simp
    rw [hstep]
    exact ih h.2

/-! ## Theorems -/

/-- C1. With note display on, the category's property rule enabled, no search
query, filter `'all'` and no cap in effect, a note of the collection that has
frontmatter is in the category's notes list if and only if
`extractFrontmatterValue(note.$frontmatter[rule.propertyName]) === rule.propertyValue`. -/
theorem note_listed_iff_property_equal (h : Host) (cfg : Config) (notes : List Note)
    (tasks : List Task) (key : String) (d : SectionData) (rule : PropertyRules) (note : Note)
    (bag : List (String × JSVal))
    (hd : (key, d) ∈ sectionData h cfg notes tasks)
    (hshow : cfg.display.showNotes = true)
    (hrule : d.sect.propertyRules = some rule) (hen : rule.enabled = true)
    (hq : searchQueryOf h cfg = "") (hf : cfg.display.filterBy = "all")
    (hcap : cfg.display.maxItemsPerSection ≤ 0 ∨
      (((processNotes h cfg d.sect notes).1.length +
        (processTasks h cfg d.sect tasks).1.length : Nat) : Int)
          ≤ cfg.display.maxItemsPerSection)
    (hmem : note ∈ notes) (hfm : note.frontmatter = some bag) :
    note ∈ d.notes ↔
      strictEq (extractFrontmatterValue (getProp bag rule.propertyName)) rule.propertyValue
        = true := by
  have hdeq := (sectionData_entry h cfg notes tasks key d hd).2
  have hnotes : d.notes = (processNotes h cfg d.sect notes).1 := by
    conv_lhs => rw [hdeq]
    show (applyLimit _ _ _).1 = _
    rw [applyLimit_no_cap _ _ _ hcap]
  rw [hnotes]
  unfold processNotes
  simp only [hrule, hshow, hen, Bool.and_self, if_true]
  rw [mem_runTry_iff _ _ _ _ (fun x => noteStep_plain h cfg rule x hq hf)]
  simp [hmem, hfm]

/-- C1, on the scenario of the specification: under the default configuration
the note with status `urgent_important` is listed in the first category and the
note with status `not_urgent_important` is not. -/
theorem note_listed_iff_property_equal_witness :
    noteUrgent ∈ (processSection exHost defaultConfig [noteUrgent, noteLater] []
        sectionDoFirst).notes ∧
      noteLater ∉ (processSection exHost defaultConfig [noteUrgent, noteLater] []
        sectionDoFirst).notes :=
  ⟨(note_listed_iff_property_equal exHost defaultConfig [noteUrgent, noteLater] [] "doFirst"
      (processSection exHost defaultConfig [noteUrgent, noteLater] [] sectionDoFirst)
      ⟨true, "eisenhower_status", .str "urgent_important"⟩ noteUrgent
      [("eisenhower_status", .str "urgent_important")]
      (by decide) rfl rfl rfl (by decide) rfl (Or.inr (by decide)) (by decide) rfl).mpr
      (by decide),
    fun hmem =>
      absurd ((note_listed_iff_property_equal exHost defaultConfig [noteUrgent, noteLater] []
        "doFirst" (processSection exHost defaultConfig [noteUrgent, noteLater] [] sectionDoFirst)
        ⟨true, "eisenhower_status", .str "urgent_important"⟩ noteLater
        [("eisenhower_status", .str "not_urgent_important")]
        (by decide) rfl rfl rfl (by decide) rfl (Or.inr (by decide)) (by decide) rfl).mp hmem)
        (by decide)⟩

/-- C2. With task display on, show-completed on, the category's task rule
enabled, no search query, filter `'all'` and no cap in effect, a task of the
collection that has a tag array is in the category's tasks list if and only if
some tag, unwrapped by `extractTagValue`, is the rule's `tagName`; and
`extractTagValue` strips exactly one leading `#` from a string tag. -/
theorem task_listed_iff_tag_equal (h : Host) (cfg : Config) (notes : List Note)
    (tasks : List Task) (key : String) (d : SectionData) (rule : TaskRules) (task : Task)
    (tags : List JSVal)
    (hd : (key, d) ∈ sectionData h cfg notes tasks)
    (hshow : cfg.display.showTasks = true) (hc : cfg.display.showCompleted = true)
    (hrule : d.sect.taskRules = some rule) (hen : rule.enabled = true)
    (hq : searchQueryOf h cfg = "") (hf : cfg.display.filterBy = "all")
    (hcap : cfg.display.maxItemsPerSection ≤ 0 ∨
      (((processNotes h cfg d.sect notes).1.length +
        (processTasks h cfg d.sect tasks).1.length : Nat) : Int)
          ≤ cfg.display.maxItemsPerSection)
    (hmem : task ∈ tasks) (htags : task.tags = some tags) :
    (task ∈ d.tasks ↔ ∃ tag ∈ tags, JSVal.str (extractTagValue tag) = rule.tagName) ∧
      (∀ cs : List Char, extractTagValue (.str (String.mk ('#' :: cs))) = String.mk cs) := by
  constructor
  · have hdeq := (sectionData_entry h cfg notes tasks key d hd).2
    have htasks : d.tasks = (processTasks h cfg d.sect tasks).1 := by
      conv_lhs => rw [hdeq]
      show (applyLimit _ _ _).2 = _
      rw [applyLimit_no_cap _ _ _ hcap]
    rw [htasks]
    unfold processTasks
    simp only [hrule, hshow, hen, Bool.and_self, if_true]
    rw [mem_runTry_iff _ _ _ _ (fun x => taskStep_plain h cfg rule x hc hq hf)]
    simp [hmem, htags, hasTag_iff]
  · intro cs
    have hne : String.mk ('#' :: cs) ≠ "" := by
      intro heq
      have hdata := congrArg String.data heq
      simp at hdata
    simp [extractTagValue, JSVal.truthy, hne]

/-- C2, on the scenario of the specification: the task tagged `#urgent-important`
is listed under the rule `urgent-important`, the task tagged `#Urgent-Important`
is not. -/
theorem task_listed_iff_tag_equal_witness :
    taskReport ∈ (processSection exHost defaultConfig [] [taskReport, taskUpper]
        sectionDoFirst).tasks ∧
      taskUpper ∉ (processSection exHost defaultConfig [] [taskReport, taskUpper]
        sectionDoFirst).tasks :=
  ⟨((task_listed_iff_tag_equal exHost defaultConfig [] [taskReport, taskUpper] "doFirst"
      (processSection exHost defaultConfig [] [taskReport, taskUpper] sectionDoFirst)
      ⟨true, .str "urgent-important"⟩ taskReport [.str "#urgent-important"]
      (by decide) rfl rfl rfl rfl (by decide) rfl (Or.inr (by decide)) (by decide) rfl).1).mpr
      (by decide),
    fun hmem =>
      absurd (((task_listed_iff_tag_equal exHost defaultConfig [] [taskReport, taskUpper]
        "doFirst" (processSection exHost defaultConfig [] [taskReport, taskUpper] sectionDoFirst)
        ⟨true, .str "urgent-important"⟩ taskUpper [.str "#Urgent-Important"]
        (by decide) rfl rfl rfl rfl (by decide) rfl (Or.inr (by decide)) (by decide) rfl).1).mp
        hmem)
        (by decide)⟩

/-- C8. When show-completed is off, no completed task is in any category's
tasks list, whatever the collections, the categories, the query and the filter. -/
theorem completed_hidden (h : Host) (cfg : Config) (notes : List Note) (tasks : List Task)
    (hc : cfg.display.showCompleted = false) (key : String) (d : SectionData)
    (hd : (key, d) ∈ sectionData h cfg notes tasks) (task : Task) (hmem : task ∈ d.tasks) :
    task.completed = false := by
  have hdeq := (sectionData_entry h cfg notes tasks key d hd).2
  rw [hdeq] at hmem
  obtain ⟨rule, _, _, _, _, hstep⟩ := mem_tasks_step h cfg notes tasks d.sect task hmem
  obtain ⟨tags, _, _, hcomp⟩ := taskStep_true h cfg rule task hstep
  exact hcomp hc

/-- C8, on an example: with show-completed off the open task of the first
category is listed and the completed one is not. -/
theorem completed_hidden_witness :
    configHideCompleted.display.showCompleted = false ∧
      taskReport ∈ (processSection exHost configHideCompleted [] [taskDone, taskReport]
        sectionDoFirst).tasks ∧
      taskReport.completed = false ∧
      taskDone ∉ (processSection exHost configHideCompleted [] [taskDone, taskReport]
        sectionDoFirst).tasks :=
  ⟨rfl, by decide,
    completed_hidden exHost configHideCompleted [] [taskDone, taskReport] rfl "doFirst"
      (processSection exHost configHideCompleted [] [taskDone, taskReport] sectionDoFirst)
      (by decide) taskReport (by decide),
    fun hmem =>
      absurd (completed_hidden exHost configHideCompleted [] [taskDone, taskReport] rfl "doFirst"
        (processSection exHost configHideCompleted [] [taskDone, taskReport] sectionDoFirst)
        (by decide) taskDone hmem) (by decide)⟩

/-- C6. In sort mode `'date'` no exception is caught when every `$name` and
`$text` is a string or absent; and whenever no exception is caught, a
category's notes list and its tasks list before the cap are permutations of the
matched items in which a dateless item is followed only by dateless items and
dated items are in ascending order of their resolved instants
(`cachedParseDate(date)?.getTime() || 0`). The comparator returns 0 on two
dateless items. -/
theorem date_sort_ascending (h : Host) (cfg : Config) (sect : SectionConfig)
    (notes : List Note) (tasks : List Task) (hs : cfg.display.sortBy = "date") :
    ((∀ x ∈ notes, x.name.isText = true) → (processNotes h cfg sect notes).2 = none) ∧
    ((∀ x ∈ tasks, x.text.isText = true) → (processTasks h cfg sect tasks).2 = none) ∧
    ((processNotes h cfg sect notes).2 = none →
      (processNotes h cfg sect notes).1.Pairwise
          (fun a b => DateOrdered h (dateOfD (noteKind cfg) a) (dateOfD (noteKind cfg) b)) ∧
        (processNotes h cfg sect notes).1.Perm (matchedNotes h cfg sect notes)) ∧
    ((processTasks h cfg sect tasks).2 = none →
      (processTasks h cfg sect tasks).1.Pairwise
          (fun a b => DateOrdered h (dateOfD taskKind a) (dateOfD taskKind b)) ∧
        (processTasks h cfg sect tasks).1.Perm (matchedTasks h cfg sect tasks)) ∧
    (∀ (a b : Note), (dateOfD (noteKind cfg) a).truthy = false →
      (dateOfD (noteKind cfg) b).truthy = false →
      createSortComparator h cfg (noteKind cfg) a b = .ok 0) ∧
    (∀ (a b : Task) (da db : JSVal), taskKind.dateOf a = .ok da → taskKind.dateOf b = .ok db →
      da.truthy = false → db.truthy = false →
      createSortComparator h cfg taskKind a b = .ok 0) := by
  have hmode : cfg.display.sortBy ≠ "name" := by
    rw [hs]
    decide
  refine ⟨?_, ?_, ?_, ?_, ?_, ?_⟩
  · exact processNotes_no_exception h cfg sect notes hmode
  · exact processTasks_no_exception h cfg sect tasks hmode
  · intro he
    have hsort := processNotes_ok h cfg sect notes he
    rw [createSortComparator_date h cfg _ hs] at hsort
    exact sortE_date_sorted h _ _ _ hsort
  · intro he
    have hsort := processTasks_ok h cfg sect tasks he
    rw [createSortComparator_date h cfg _ hs] at hsort
    exact sortE_date_sorted h _ _ _ hsort
  · intro a b ha hb
    rw [createSortComparator_date h cfg _ hs]
    simp only [dateOfD, noteKind] at ha hb
    simp [compareDate, noteKind, ha, hb]
  · intro a b da db hda hdb ha hb
    rw [createSortComparator_date h cfg _ hs]
    simp [compareDate, hda, hdb, ha, hb]

/-- C6, on an example: three notes given as dateless, due 2030, due 2024 come
out as due 2024, due 2030, dateless; three tasks likewise. -/
theorem date_sort_ascending_witness :
    (processNotes exHost configByDate sectionDoFirst [noteUrgent, noteDue2030, noteDue2024]).1
        = [noteDue2024, noteDue2030, noteUrgent] ∧
      (processNotes exHost configByDate sectionDoFirst
          [noteUrgent, noteDue2030, noteDue2024]).1.Pairwise
        (fun a b => DateOrdered exHost (dateOfD (noteKind configByDate) a)
          (dateOfD (noteKind configByDate) b)) ∧
      (processTasks exHost configByDate sectionDoFirst [taskDone, taskDue2031, taskReport]).1
        = [taskReport, taskDue2031, taskDone] ∧
      (processTasks exHost configByDate sectionDoFirst
          [taskDone, taskDue2031, taskReport]).1.Pairwise
        (fun a b => DateOrdered exHost (dateOfD taskKind a) (dateOfD taskKind b)) :=
  ⟨by decide,
    ((date_sort_ascending exHost configByDate sectionDoFirst
      [noteUrgent, noteDue2030, noteDue2024] [taskDone, taskDue2031, taskReport] rfl).2.2.1
      ((date_sort_ascending exHost configByDate sectionDoFirst
        [noteUrgent, noteDue2030, noteDue2024] [taskDone, taskDue2031, taskReport] rfl).1
        (by decide))).1,
    by decide,
    ((date_sort_ascending exHost configByDate sectionDoFirst
      [noteUrgent, noteDue2030, noteDue2024] [taskDone, taskDue2031, taskReport] rfl).2.2.2.1
      ((date_sort_ascending exHost configByDate sectionDoFirst
        [noteUrgent, noteDue2030, noteDue2024] [taskDone, taskDue2031, taskReport] rfl).2.1
        (by decide))).1⟩

/-- C7. In sort mode `'priority'`, and in every mode other than `'name'` and
`'date'`, no exception is caught when every `$name` and `$text` is a string or
absent; and whenever no exception is caught, a category's notes list and its
tasks list before the cap are exactly the overdue matched items followed by
the other matched items, each group in the order of the input collection. -/
theorem priority_sort_stable_partition (h : Host) (cfg : Config) (sect : SectionConfig)
    (notes : List Note) (tasks : List Task)
    (hn : cfg.display.sortBy ≠ "name") (hd : cfg.display.sortBy ≠ "date") :
    ((∀ x ∈ notes, x.name.isText = true) → (processNotes h cfg sect notes).2 = none) ∧
    ((∀ x ∈ tasks, x.text.isText = true) → (processTasks h cfg sect tasks).2 = none) ∧
    ((processNotes h cfg sect notes).2 = none →
      (processNotes h cfg sect notes).1 =
        (matchedNotes h cfg sect notes).filter (fun a => noteOverdue h cfg a) ++
          (matchedNotes h cfg sect notes).filter (fun a => !noteOverdue h cfg a)) ∧
    ((processTasks h cfg sect tasks).2 = none →
      (processTasks h cfg sect tasks).1 =
        (matchedTasks h cfg sect tasks).filter (fun a => taskOverdue h a) ++
          (matchedTasks h cfg sect tasks).filter (fun a => !taskOverdue h a)) := by
  refine ⟨?_, ?_, ?_, ?_⟩
  · exact processNotes_no_exception h cfg sect notes hn
  · exact processTasks_no_exception h cfg sect tasks hn
  · intro he
    have hsort := processNotes_ok h cfg sect notes he
    rw [createSortComparator_priority h cfg _ hn hd] at hsort
    exact sortE_priority_partition h _ _ _ hsort
  · intro he
    have hsort := processTasks_ok h cfg sect tasks he
    rw [createSortComparator_priority h cfg _ hn hd] at hsort
    exact sortE_priority_partition h _ _ _ hsort

/-- C7, on an example: on 15 June 2025 the notes given as dateless, due 2030,
due 2024 come out as due 2024 (overdue), dateless, due 2030; the tasks given as
undated, due 2031, due 2024 come out as due 2024, undated, due 2031. -/
theorem priority_sort_stable_partition_witness :
    (processNotes exHost defaultConfig sectionDoFirst [noteUrgent, noteDue2030, noteDue2024]).1
        = [noteDue2024, noteUrgent, noteDue2030] ∧
      (processTasks exHost defaultConfig sectionDoFirst [taskDone, taskDue2031, taskReport]).1
        = [taskReport, taskDone, taskDue2031] :=
  ⟨((priority_sort_stable_partition exHost defaultConfig sectionDoFirst
      [noteUrgent, noteDue2030, noteDue2024] [taskDone, taskDue2031, taskReport]
      (by decide) (by decide)).2.2.1
      ((priority_sort_stable_partition exHost defaultConfig sectionDoFirst
        [noteUrgent, noteDue2030, noteDue2024] [taskDone, taskDue2031, taskReport]
        (by decide) (by decide)).1 (by decide))).trans (by decide),
    ((priority_sort_stable_partition exHost defaultConfig sectionDoFirst
      [noteUrgent, noteDue2030, noteDue2024] [taskDone, taskDue2031, taskReport]
      (by decide) (by decide)).2.2.2
      ((priority_sort_stable_partition exHost defaultConfig sectionDoFirst
        [noteUrgent, noteDue2030, noteDue2024] [taskDone, taskDue2031, taskReport]
        (by decide) (by decide)).2.1 (by decide))).trans (by decide)⟩

/-- C9, counterexample: with the query `la`, the first category matches the
note "Launch" and then a note whose `$name` is a number; the second iteration
throws, the exception is caught, and the category's notes list is not empty: it
holds the note pushed before the exception. -/
theorem exception_list_not_empty :
    (processNotes exHost configSearch sectionDoFirst [noteUrgent, noteBadName, noteDue2030]).2
        = some "TypeError: toLowerCase is not a function" ∧
      (processSection exHost configSearch [noteUrgent, noteBadName, noteDue2030] []
        sectionDoFirst).notes = [noteUrgent] := by
  decide

/-- C9, amended. If processing the notes (the tasks) of a category throws, the
category's list before the cap holds, in input order and unsorted, the items
the loop had pushed before the exception: the matched items that precede the
first item whose iteration throws, or all matched items when the sort throws.
The result lists are the cap of those lists, and the entry of a category in the
result depends only on that category's own rules: it is the same under every
configuration that differs in the other categories only. -/
theorem exception_keeps_pushed_items (h : Host) (cfg : Config) (sect : SectionConfig)
    (notes : List Note) (tasks : List Task) :
    (∀ e, (processNotes h cfg sect notes).2 = some e →
      ∃ rule, sect.propertyRules = some rule ∧
        (processNotes h cfg sect notes).1 =
          (notes.takeWhile (stepOk (noteStep h cfg rule))).filter
            (accepts (noteStep h cfg rule))) ∧
    (∀ e, (processTasks h cfg sect tasks).2 = some e →
      ∃ rule, sect.taskRules = some rule ∧
        (processTasks h cfg sect tasks).1 =
          (tasks.takeWhile (stepOk (taskStep h cfg rule))).filter
            (accepts (taskStep h cfg rule))) ∧
    ((processSection h cfg notes tasks sect).notes =
        (applyLimit cfg.display.maxItemsPerSection (processNotes h cfg sect notes).1
          (processTasks h cfg sect tasks).1).1 ∧
      (processSection h cfg notes tasks sect).tasks =
        (applyLimit cfg.display.maxItemsPerSection (processNotes h cfg sect notes).1
          (processTasks h cfg sect tasks).1).2) ∧
    (∀ (others : List (String × SectionConfig)) (key : String) (d1 d2 : SectionData),
      (key, d1) ∈ sectionData h cfg notes tasks →
      (key, d2) ∈ sectionData h
        ⟨others, cfg.display, cfg.searchQuery, cfg.datePropertyName⟩ notes tasks →
      d1.sect = d2.sect → d1 = d2) := by
  refine ⟨?_, ?_, ⟨rfl, rfl⟩, ?_⟩
  · intro e he
    unfold processNotes at he ⊢
    cases hr : sect.propertyRules with
    | none => simp [hr] at he
    | some rule =>
      simp only [hr] at he ⊢
      by_cases hc : (cfg.display.showNotes && rule.enabled) = true
      · simp only [hc, if_true] at he ⊢
        exact ⟨rule, rfl, runTry_error _ _ _ e he⟩
      · simp [hc] at he
  · intro e he
    unfold processTasks at he ⊢
    cases hr : sect.taskRules with
    | none => simp [hr] at he
    | some rule =>
      simp only [hr] at he ⊢
      by_cases hc : (cfg.display.showTasks && rule.enabled) = true
      · simp only [hc, if_true] at he ⊢
        exact ⟨rule, rfl, runTry_error _ _ _ e he⟩
      · simp [hc] at he
  · intro others key d1 d2 h1 h2 hsect
    have e1 := (sectionData_entry h cfg notes tasks key d1 h1).2
    have e2 := (sectionData_entry h _ notes tasks key d2 h2).2
    rw [e1, e2, hsect]
    rfl

/-- C9, amended, on examples. On the counterexample's input the list left after
the exception is the matched prefix `[noteUrgent]`. In sort mode `'name'` the
comparator is called with the later note first and throws when that note's
`$name` is not a string: with the note named `5` last the sort throws and the
list stays as the loop left it, `Launch`, `Later`, `Late`, `5`; with that note
first the sort ends and the list is `5`, `Late`, `Later`, `Launch`. -/
theorem exception_keeps_pushed_items_witness :
    (∃ rule, sectionDoFirst.propertyRules = some rule ∧
      (processNotes exHost configSearch sectionDoFirst [noteUrgent, noteBadName, noteDue2030]).1 =
        ([noteUrgent, noteBadName, noteDue2030].takeWhile
          (stepOk (noteStep exHost configSearch rule))).filter
            (accepts (noteStep exHost configSearch rule))) ∧
      (processNotes exHost configByName sectionDoFirst
          [noteUrgent, noteDue2030, noteDue2024, noteBadName]).2 =
        some "TypeError: nameA.localeCompare is not a function" ∧
      (processNotes exHost configByName sectionDoFirst
          [noteUrgent, noteDue2030, noteDue2024, noteBadName]).1 =
        [noteUrgent, noteDue2030, noteDue2024, noteBadName] ∧
      processNotes exHost configByName sectionDoFirst
          [noteBadName, noteUrgent, noteDue2030, noteDue2024] =
        ([noteBadName, noteDue2024, noteDue2030, noteUrgent], none) :=
  ⟨(exception_keeps_pushed_items exHost configSearch sectionDoFirst
      [noteUrgent, noteBadName, noteDue2030] []).1 "TypeError: toLowerCase is not a function"
      (by decide),
    by decide,
    (Exists.elim ((exception_keeps_pushed_items exHost configByName sectionDoFirst
      [noteUrgent, noteDue2030, noteDue2024, noteBadName] []).1
        "TypeError: nameA.localeCompare is not a function" (by decide))
      (fun _ hrule => hrule.2.trans (by
        have hr := hrule.1
        simp only [sectionDoFirst, Option.some.injEq] at hr
        subst hr
        decide))),
    by decide⟩

/-- C10, counterexample: under the default configuration a task tagged
`#schedule` and `#delegate` is in the tasks lists of two categories. -/
theorem task_in_two_categories :
    ("schedule", processSection exHost defaultConfig [] [taskTwoTags] sectionSchedule)
        ∈ sectionData exHost defaultConfig [] [taskTwoTags] ∧
      ("delegate", processSection exHost defaultConfig [] [taskTwoTags] sectionDelegate)
        ∈ sectionData exHost defaultConfig [] [taskTwoTags] ∧
      taskTwoTags ∈ (processSection exHost defaultConfig [] [taskTwoTags] sectionSchedule).tasks ∧
      taskTwoTags ∈ (processSection exHost defaultConfig [] [taskTwoTags] sectionDelegate).tasks := by
  decide

theorem default_section_cases (key : String) (sect : SectionConfig)
    (hmem : (key, sect) ∈ defaultSections) :
    (key = "doFirst" ∧ sect = sectionDoFirst) ∨ (key = "schedule" ∧ sect = sectionSchedule) ∨
      (key = "delegate" ∧ sect = sectionDelegate) ∨
      (key = "eliminate" ∧ sect = sectionEliminate) := by
  simp only [defaultSections, List.mem_cons, Prod.mk.injEq, List.mem_nil_iff, or_false] at hmem
  exact hmem

/-- C10, amended. Under the default four categories every note is in at most
one category's notes list, and a task is in the tasks lists of two categories
only if it carries the tags of both: a task whose tags name at most one of the
rule tags is in at most one category's tasks list. -/
theorem default_sections_exclusive (h : Host) (cfg : Config) (notes : List Note)
    (tasks : List Task) (hcfg : cfg.sections = defaultSections)
    (k1 k2 : String) (d1 d2 : SectionData)
    (h1 : (k1, d1) ∈ sectionData h cfg notes tasks)
    (h2 : (k2, d2) ∈ sectionData h cfg notes tasks) :
    (∀ note, note ∈ d1.notes → note ∈ d2.notes → k1 = k2) ∧
    (∀ task tags, task.tags = some tags → task ∈ d1.tasks → task ∈ d2.tasks →
      (∀ a ∈ tags, ∀ b ∈ tags,
        JSVal.str (extractTagValue a) ∈ ruleTagNames defaultSections →
        JSVal.str (extractTagValue b) ∈ ruleTagNames defaultSections →
        extractTagValue a = extractTagValue b) →
      k1 = k2) := by
  obtain ⟨hs1, e1⟩ := sectionData_entry h cfg notes tasks k1 d1 h1
  obtain ⟨hs2, e2⟩ := sectionData_entry h cfg notes tasks k2 d2 h2
  rw [hcfg] at hs1 hs2
  have c1 := default_section_cases k1 d1.sect hs1
  have c2 := default_section_cases k2 d2.sect hs2
  constructor
  · intro note hn1 hn2
    rw [e1] at hn1
    rw [e2] at hn2
    obtain ⟨r1, hr1, _, _, _, hst1⟩ := mem_notes_step h cfg notes tasks d1.sect note hn1
    obtain ⟨r2, hr2, _, _, _, hst2⟩ := mem_notes_step h cfg notes tasks d2.sect note hn2
    obtain ⟨bag1, hb1, heq1⟩ := noteStep_true h cfg r1 note hst1
    obtain ⟨bag2, hb2, heq2⟩ := noteStep_true h cfg r2 note hst2
    have hbag : bag1 = bag2 := Option.some.inj (hb1.symm.trans hb2)
    subst hbag
    rcases c1 with ⟨hk1, hd1⟩ | ⟨hk1, hd1⟩ | ⟨hk1, hd1⟩ | ⟨hk1, hd1⟩ <;>
      rcases c2 with ⟨hk2, hd2⟩ | ⟨hk2, hd2⟩ | ⟨hk2, hd2⟩ | ⟨hk2, hd2⟩ <;>
      rw [hd1] at hr1 <;> rw [hd2] at hr2 <;>
      simp only [sectionDoFirst, sectionSchedule, sectionDelegate, sectionEliminate,
        Option.some.injEq] at hr1 hr2 <;>
      subst hr1 <;> subst hr2 <;>
      simp only [strictEq_to_str_iff] at heq1 heq2 <;>
      first
        | (exfalso; rw [heq1] at heq2; revert heq2; decide)
        | (rw [hk1, hk2])
  · intro task tags htags ht1 ht2 hone
    rw [e1] at ht1
    rw [e2] at ht2
    obtain ⟨r1, hr1, _, _, _, hst1⟩ := mem_tasks_step h cfg notes tasks d1.sect task ht1
    obtain ⟨r2, hr2, _, _, _, hst2⟩ := mem_tasks_step h cfg notes tasks d2.sect task ht2
    obtain ⟨tags1, hb1, heq1, _⟩ := taskStep_true h cfg r1 task hst1
    obtain ⟨tags2, hb2, heq2, _⟩ := taskStep_true h cfg r2 task hst2
    have ht1 : tags1 = tags := Option.some.inj (hb1.symm.trans htags)
    have ht2 : tags2 = tags := Option.some.inj (hb2.symm.trans htags)
    subst ht1
    subst ht2
    obtain ⟨a, ha, hta⟩ := (hasTag_iff _ _).mp heq1
    obtain ⟨b, hb, htb⟩ := (hasTag_iff _ _).mp heq2
    have hab := hone a ha b hb
    rcases c1 with ⟨hk1, hd1⟩ | ⟨hk1, hd1⟩ | ⟨hk1, hd1⟩ | ⟨hk1, hd1⟩ <;>
      rcases c2 with ⟨hk2, hd2⟩ | ⟨hk2, hd2⟩ | ⟨hk2, hd2⟩ | ⟨hk2, hd2⟩ <;>
      rw [hd1] at hr1 <;> rw [hd2] at hr2 <;>
      simp only [sectionDoFirst, sectionSchedule, sectionDelegate, sectionEliminate,
        Option.some.injEq] at hr1 hr2 <;>
      subst hr1 <;> subst hr2 <;>
      simp only at hta htb <;>
      first
        | (exfalso
           have hab1 := hab (by rw [hta]; decide) (by rw [htb]; decide)
           rw [hab1] at hta
           rw [hta] at htb
           revert htb
           decide)
        | (rw [hk1, hk2])

/-- C10, amended, on an example: the task of the scenario carries one rule tag
and is listed in the first category only. -/
theorem default_sections_exclusive_witness :
    taskReport ∈ (processSection exHost defaultConfig [noteUrgent] [taskReport, taskTwoTags]
        sectionDoFirst).tasks ∧
      ∀ k2 d2, (k2, d2) ∈ sectionData exHost defaultConfig [noteUrgent] [taskReport, taskTwoTags] →
        taskReport ∈ d2.tasks → "doFirst" = k2 :=
  ⟨by decide, fun k2 d2 h2 hmem =>
    (default_sections_exclusive exHost defaultConfig [noteUrgent] [taskReport, taskTwoTags] rfl
      "doFirst" k2
      (processSection exHost defaultConfig [noteUrgent] [taskReport, taskTwoTags] sectionDoFirst)
      d2 (by decide) h2).2 taskReport [.str "#urgent-important"] rfl (by decide) hmem
      (by decide)⟩

/-- C3, counterexample: with `maxItemsPerSection = 1`, one matched note and one
matched task, the cap keeps both: two items, more than the maximum. -/
theorem cap_exceeds_max :
    configMaxOne.display.maxItemsPerSection = 1 ∧
      ("doFirst", processSection exHost configMaxOne [noteUrgent] [taskReport] sectionDoFirst)
        ∈ sectionData exHost configMaxOne [noteUrgent] [taskReport] ∧
      (processSection exHost configMaxOne [noteUrgent] [taskReport] sectionDoFirst).notes.length +
        (processSection exHost configMaxOne [noteUrgent] [taskReport] sectionDoFirst).tasks.length
          = 2 := by
  decide

/-- C3, amended. For every positive integer `maxItemsPerSection`, after the cap
a category's kept notes plus kept tasks number at most `maxItemsPerSection + 1`;
they number at most `maxItemsPerSection` when only one kind matched, and when
both matched and the notes' share
`Math.max(1, Math.round(maxItems * noteRatio))` is below `maxItemsPerSection`.
(The collections are JavaScript arrays: fewer than `2^32` elements.) -/
theorem cap_total_at_most_max_plus_one (h : Host) (cfg : Config) (sect : SectionConfig)
    (notes : List Note) (tasks : List Task)
    (hpos : 0 < cfg.display.maxItemsPerSection)
    (hn32 : notes.length < 2 ^ 32) (ht32 : tasks.length < 2 ^ 32) :
    ((((processSection h cfg notes tasks sect).notes.length +
        (processSection h cfg notes tasks sect).tasks.length : Nat) : Int)
          ≤ cfg.display.maxItemsPerSection + 1) ∧
      ((processNotes h cfg sect notes).1 = [] ∨ (processTasks h cfg sect tasks).1 = [] →
        (((processSection h cfg notes tasks sect).notes.length +
          (processSection h cfg notes tasks sect).tasks.length : Nat) : Int)
            ≤ cfg.display.maxItemsPerSection) ∧
      (notesLimit cfg.display.maxItemsPerSection.toNat (processNotes h cfg sect notes).1.length
          (processTasks h cfg sect tasks).1.length < cfg.display.maxItemsPerSection.toNat →
        (((processSection h cfg notes tasks sect).notes.length +
          (processSection h cfg notes tasks sect).tasks.length : Nat) : Int)
            ≤ cfg.display.maxItemsPerSection) := by
  have hnl := processNotes_length_le h cfg sect notes
  have htl := processTasks_length_le h cfg sect tasks
  show ((((applyLimit _ _ _).1.length + (applyLimit _ _ _).2.length : Nat) : Int) ≤ _) ∧
    (_ → (((applyLimit _ _ _).1.length + (applyLimit _ _ _).2.length : Nat) : Int) ≤ _) ∧
    (_ → (((applyLimit _ _ _).1.length + (applyLimit _ _ _).2.length : Nat) : Int) ≤ _)
  generalize (processNotes h cfg sect notes).1 = ns at hnl ⊢
  generalize (processTasks h cfg sect tasks).1 = ts at htl ⊢
  generalize cfg.display.maxItemsPerSection = m at hpos ⊢
  have hM : ((m.toNat : Nat) : Int) = m := Int.toNat_of_nonneg (le_of_lt hpos)
  rcases applyLimit_cases m ns ts with ⟨hcap, heq⟩ | ⟨_, hgt, hcase⟩
  · rw [heq]
    have : ((ns.length + ts.length : Nat) : Int) ≤ m := by omega
    refine ⟨by simp only; omega, fun _ => by simp only; omega, fun _ => by simp only; omega⟩
  · rcases hcase with ⟨hn, ht, heq⟩ | ⟨hn, hts, heq⟩ | ⟨hns, ht, heq⟩
    · obtain ⟨hrM, _, _⟩ := proportional_lengths m ns ts hpos hgt hn ht (by omega) (by omega)
      rw [heq]
      simp only [List.length_take]
      have htl := tasksLimit_eq m.toNat ns.length ts.length
      have hnl1 : notesLimit m.toNat ns.length ts.length =
          max 1 (mathRound (fmul m.toNat (fdiv ns.length (ns.length + ts.length)))) := rfl
      generalize mathRound (fmul m.toNat (fdiv ns.length (ns.length + ts.length))) = r at *
      generalize notesLimit m.toNat ns.length ts.length = NL at *
      generalize tasksLimit m.toNat ns.length ts.length = TL at *
      refine ⟨by omega, ?_, by omega⟩
      intro hempty
      rcases hempty with h0 | h0
      · rw [h0] at hn; simp at hn
      · rw [h0] at ht; simp at ht
    · rw [heq, hts]
      simp only [List.length_take, List.length_nil]
      refine ⟨by omega, fun _ => by omega, fun _ => by omega⟩
    · rw [heq, hns]
      simp only [List.length_take, List.length_nil]
      refine ⟨by omega, fun _ => by omega, fun _ => by omega⟩

/-- C3, amended, on the counterexample's input: two items are kept, one more
than the maximum of one. -/
theorem cap_total_at_most_max_plus_one_witness :
    (((processSection exHost configMaxOne [noteUrgent] [taskReport] sectionDoFirst).notes.length +
      (processSection exHost configMaxOne [noteUrgent] [taskReport] sectionDoFirst).tasks.length
        : Nat) : Int) ≤ configMaxOne.display.maxItemsPerSection + 1 :=
  (cap_total_at_most_max_plus_one exHost configMaxOne sectionDoFirst [noteUrgent] [taskReport]
    (by decide) (by decide) (by decide)).1

/-- C4. For every `maxItemsPerSection` (in particular every positive one) the
cap never empties a kind: if at least one note matched, at least one note is
kept, and if at least one task matched, at least one task is kept. -/
theorem cap_keeps_each_kind (h : Host) (cfg : Config) (sect : SectionConfig)
    (notes : List Note) (tasks : List Task) :
    ((processNotes h cfg sect notes).1 ≠ [] →
        (processSection h cfg notes tasks sect).notes ≠ []) ∧
      ((processTasks h cfg sect tasks).1 ≠ [] →
        (processSection h cfg notes tasks sect).tasks ≠ []) := by
  show (_ → (applyLimit _ _ _).1 ≠ []) ∧ (_ → (applyLimit _ _ _).2 ≠ [])
  generalize (processNotes h cfg sect notes).1 = ns
  generalize (processTasks h cfg sect tasks).1 = ts
  generalize cfg.display.maxItemsPerSection = m
  have hlen : ∀ {γ : Type} (l : List γ), l ≠ [] ↔ 0 < l.length := fun l =>
    ⟨fun hne => List.length_pos.mpr hne, fun hpos => List.length_pos.mp hpos⟩
  rcases applyLimit_cases m ns ts with ⟨_, heq⟩ | ⟨hpos, _, hcase⟩
  · rw [heq]
    exact ⟨fun hne => hne, fun hne => hne⟩
  · have hM : 1 ≤ m.toNat := by omega
    rcases hcase with ⟨hn, ht, heq⟩ | ⟨hn, hts, heq⟩ | ⟨hns, ht, heq⟩
    · rw [heq]
      have h1 := one_le_notesLimit m.toNat ns.length ts.length
      have h2 := one_le_tasksLimit m.toNat ns.length ts.length
      constructor
      · intro _
        rw [hlen, List.length_take]
        omega
      · intro _
        rw [hlen, List.length_take]
        omega
    · rw [heq]
      constructor
      · intro _
        rw [hlen, List.length_take]
        omega
      · intro hne
        exact hne
    · rw [heq]
      constructor
      · intro hne
        exact hne
      · intro _
        rw [hlen, List.length_take]
        omega

/-- C4, on an example: with a maximum of one, a matched note and a matched task
are both kept. -/
theorem cap_keeps_each_kind_witness :
    (processSection exHost configMaxOne [noteUrgent] [taskReport] sectionDoFirst).notes ≠ [] ∧
      (processSection exHost configMaxOne [noteUrgent] [taskReport] sectionDoFirst).tasks ≠ [] :=
  ⟨(cap_keeps_each_kind exHost configMaxOne sectionDoFirst [noteUrgent] [taskReport]).1
      (by decide),
    (cap_keeps_each_kind exHost configMaxOne sectionDoFirst [noteUrgent] [taskReport]).2
      (by decide)⟩

/-- C5, counterexample: with `maxItemsPerSection = 11`, 15 matched notes and 7
matched tasks the exact share `11 * 15 / 22 = 7.5` rounds half up to 8, within
`1 .. 10`, but the cap keeps 7 notes and 4 tasks: the double
`11 * (15 / 22)` is just below 7.5. -/
theorem share_tie_rounds_down :
    exactShare 11 15 7 = 8 ∧ configMaxEleven.display.maxItemsPerSection = 11 ∧
      (processNotes exHost configMaxEleven sectionDoFirst (List.replicate 15 noteUrgent)).1.length
        = 15 ∧
      (processTasks exHost configMaxEleven sectionDoFirst (List.replicate 7 taskPlain)).1.length
        = 7 ∧
      (processSection exHost configMaxEleven (List.replicate 15 noteUrgent)
        (List.replicate 7 taskPlain) sectionDoFirst).notes.length = 7 ∧
      (processSection exHost configMaxEleven (List.replicate 15 noteUrgent)
        (List.replicate 7 taskPlain) sectionDoFirst).tasks.length = 4 := by
  decide

/-- C5, amended. Let a category have the matched lists `ns` (`n ≥ 1` notes) and
`ts` (`t ≥ 1` tasks) with `n + t > m = maxItemsPerSection`, and let
`r = Math.round(m * (n / (n + t)))` be computed in double precision. If
`1 ≤ r ≤ m - 1` the cap keeps exactly the first `r` notes and the first `m - r`
tasks. `r` is the exact quotient `m * n / (n + t)` rounded half up, except that
an exact tie may be rounded down (for `6 * m * (n + t) < 2^53`); for `m = 10`,
`n = 15`, `t = 5` the cap keeps 8 notes and 2 tasks. When only one kind is
present it keeps its first `m` items. -/
theorem cap_proportional_share (h : Host) (cfg : Config) (sect : SectionConfig)
    (notes : List Note) (tasks : List Task) (ns : List Note) (ts : List Task) (m : Nat)
    (hN : (processNotes h cfg sect notes).1 = ns) (hT : (processTasks h cfg sect tasks).1 = ts)
    (hm : cfg.display.maxItemsPerSection = (m : Int)) (hpos : 0 < m)
    (hn32 : notes.length < 2 ^ 32) (ht32 : tasks.length < 2 ^ 32) :
    (ns ≠ [] → ts ≠ [] → m < ns.length + ts.length →
        1 ≤ proportionalShare m ns.length ts.length →
        proportionalShare m ns.length ts.length + 1 ≤ m →
        (processSection h cfg notes tasks sect).notes
            = ns.take (proportionalShare m ns.length ts.length) ∧
          (processSection h cfg notes tasks sect).notes.length
            = proportionalShare m ns.length ts.length ∧
          (processSection h cfg notes tasks sect).tasks
            = ts.take (m - proportionalShare m ns.length ts.length) ∧
          (processSection h cfg notes tasks sect).tasks.length
            = m - proportionalShare m ns.length ts.length) ∧
      (ns ≠ [] → 6 * m * (ns.length + ts.length) < 2 ^ 53 →
        ((2 * m * ns.length + (ns.length + ts.length)) % (2 * (ns.length + ts.length)) ≠ 0 →
            proportionalShare m ns.length ts.length = exactShare m ns.length ts.length) ∧
          (proportionalShare m ns.length ts.length = exactShare m ns.length ts.length ∨
            proportionalShare m ns.length ts.length + 1 = exactShare m ns.length ts.length)) ∧
      (m = 10 → ns.length = 15 → ts.length = 5 →
        (processSection h cfg notes tasks sect).notes = ns.take 8 ∧
          (processSection h cfg notes tasks sect).tasks = ts.take 2) ∧
      (ts = [] → m < ns.length →
        (processSection h cfg notes tasks sect).notes = ns.take m ∧
          (processSection h cfg notes tasks sect).notes.length = m ∧
          (processSection h cfg notes tasks sect).tasks = []) ∧
      (ns = [] → m < ts.length →
        (processSection h cfg notes tasks sect).tasks = ts.take m ∧
          (processSection h cfg notes tasks sect).tasks.length = m ∧
          (processSection h cfg notes tasks sect).notes = []) := by
  have hnl := processNotes_length_le h cfg sect notes
  have htl := processTasks_length_le h cfg sect tasks
  rw [hN] at hnl
  rw [hT] at htl
  have hd : (processSection h cfg notes tasks sect).notes = (applyLimit (m : Int) ns ts).1 ∧
      (processSection h cfg notes tasks sect).tasks = (applyLimit (m : Int) ns ts).2 := by
    rw [← hN, ← hT, ← hm]
    exact ⟨rfl, rfl⟩
  rw [hd.1, hd.2]
  have hposI : (0 : Int) < (m : Int) := by exact_mod_cast hpos
  have hlen : ∀ {γ : Type} (l : List γ), l ≠ [] → 0 < l.length := fun l hne =>
    List.length_pos.mpr hne
  have hboth : ns ≠ [] → ts ≠ [] → m < ns.length + ts.length →
      applyLimit (m : Int) ns ts =
        (ns.take (notesLimit m ns.length ts.length),
          ts.take (tasksLimit m ns.length ts.length)) ∧
      proportionalShare m ns.length ts.length ≤ ns.length ∧
      m ≤ proportionalShare m ns.length ts.length + ts.length := by
    intro hne hte hgt
    have hgtI : (m : Int) < ((ns.length + ts.length : Nat) : Int) := by exact_mod_cast hgt
    obtain ⟨_, hrn, hrt⟩ := proportional_lengths (m : Int) ns ts hposI hgtI (hlen ns hne)
      (hlen ts hte) (by omega) (by omega)
    simp only [Int.toNat_ofNat] at hrn hrt
    refine ⟨?_, hrn, hrt⟩
    rcases applyLimit_cases (m : Int) ns ts with ⟨hcap, _⟩ | ⟨_, _, hcase⟩
    · omega
    · rcases hcase with ⟨_, _, heq⟩ | ⟨_, hts, _⟩ | ⟨hns, _, _⟩
      · simpa using heq
      · exact absurd hts hte
      · exact absurd hns hne
  have hshare : ns ≠ [] → ts ≠ [] → m < ns.length + ts.length →
      1 ≤ proportionalShare m ns.length ts.length →
      proportionalShare m ns.length ts.length + 1 ≤ m →
      (applyLimit (m : Int) ns ts).1 = ns.take (proportionalShare m ns.length ts.length) ∧
        (applyLimit (m : Int) ns ts).1.length = proportionalShare m ns.length ts.length ∧
        (applyLimit (m : Int) ns ts).2 = ts.take (m - proportionalShare m ns.length ts.length) ∧
        (applyLimit (m : Int) ns ts).2.length = m - proportionalShare m ns.length ts.length := by
    intro hne hte hgt hr1 hrm
    obtain ⟨heq, hrn, hrt⟩ := hboth hne hte hgt
    have hNL : notesLimit m ns.length ts.length = proportionalShare m ns.length ts.length := by
      unfold notesLimit
      omega
    have hTL : tasksLimit m ns.length ts.length = m - proportionalShare m ns.length ts.length := by
      rw [tasksLimit_eq, hNL]
      omega
    rw [heq, hNL, hTL]
    simp only [List.length_take]
    refine ⟨trivial, by omega, trivial, by omega⟩
  refine ⟨hshare, ?_, ?_, ?_, ?_⟩
  · intro hne hsmall
    exact share_exact m ns.length ts.length (hlen ns hne) hsmall
  · intro hm10 hn15 ht5
    subst hm10
    have hr : proportionalShare 10 ns.length ts.length = 8 := by
      rw [hn15, ht5]
      decide
    have hne : ns ≠ [] := by
      intro h0
      rw [h0] at hn15
      simp at hn15
    have hte : ts ≠ [] := by
      intro h0
      rw [h0] at ht5
      simp at ht5
    obtain ⟨h1, _, h3, _⟩ := hshare hne hte (by omega) (by omega) (by omega)
    rw [hr] at h1 h3
    exact ⟨h1, h3⟩
  · intro hts hgt
    have hgtI : (m : Int) < ((ns.length + ts.length : Nat) : Int) := by
      rw [hts]
      simp only [List.length_nil, Nat.add_zero]
      exact_mod_cast hgt
    rcases applyLimit_cases (m : Int) ns ts with ⟨hcap, _⟩ | ⟨_, _, hcase⟩
    · omega
    · rcases hcase with ⟨_, ht0, _⟩ | ⟨_, _, heq⟩ | ⟨hns, _, _⟩
      · rw [hts] at ht0
        simp at ht0
      · rw [heq]
        simp only [Int.toNat_ofNat, List.length_take]
        exact ⟨trivial, by omega, hts⟩
      · rw [hns] at hgt
        simp at hgt
  · intro hns hgt
    have hgtI : (m : Int) < ((ns.length + ts.length : Nat) : Int) := by
      rw [hns]
      simp only [List.length_nil, Nat.zero_add]
      exact_mod_cast hgt
    rcases applyLimit_cases (m : Int) ns ts with ⟨hcap, _⟩ | ⟨_, _, hcase⟩
    · omega
    · rcases hcase with ⟨hn0, _, _⟩ | ⟨hn0, _, _⟩ | ⟨_, _, heq⟩
      · rw [hns] at hn0
        simp at hn0
      · rw [hns] at hn0
        simp at hn0
      · rw [heq]
        simp only [Int.toNat_ofNat, List.length_take]
        exact ⟨trivial, by omega, hns⟩

/-- C5, amended, on the scenario of the specification: with the default maximum
of 10, 15 matched notes and 5 matched tasks, the cap keeps the first 8 notes and
the first 2 tasks. -/
theorem cap_proportional_share_witness :
    (processSection exHost defaultConfig (List.replicate 15 noteUrgent)
        (List.replicate 5 taskPlain) sectionDoFirst).notes =
        (processNotes exHost defaultConfig sectionDoFirst (List.replicate 15 noteUrgent)).1.take 8 ∧
      (processSection exHost defaultConfig (List.replicate 15 noteUrgent)
        (List.replicate 5 taskPlain) sectionDoFirst).tasks =
        (processTasks exHost defaultConfig sectionDoFirst (List.replicate 5 taskPlain)).1.take 2 :=
  (cap_proportional_share exHost defaultConfig sectionDoFirst (List.replicate 15 noteUrgent)
    (List.replicate 5 taskPlain)
    (processNotes exHost defaultConfig sectionDoFirst (List.replicate 15 noteUrgent)).1
    (processTasks exHost defaultConfig sectionDoFirst (List.replicate 5 taskPlain)).1
    10 rfl rfl rfl (by decide) (by decide) (by decide)).2.2.1 rfl (by decide) (by decide)

/-- C11. `cachedParseDate` is a pure function of its input: from every memo
table reachable from the empty one through earlier calls (evictions included)
and cleanup ticks, it returns the value it returns from the empty table, which
is the value `parseDate` computes from the input alone; and an entry that holds
`null` is returned as `null`. -/
theorem parse_date_pure (h : Host) (events : List ParseDateEvent) (dateInput : JSVal) :
    (cachedParseDate h (parseDateCacheAfter h events) dateInput).1 =
        (cachedParseDate h [] dateInput).1 ∧
      (cachedParseDate h [] dateInput).1 = parseDate h dateInput ∧
      (∀ cache : ParseDateCache, dateInput.truthy = true →
        cache.lookup (toJSString dateInput) = some none →
        (cachedParseDate h cache dateInput).1 = none) := by
  have hempty : ParseDateCache.Sound h [] := fun _ hkv => absurd hkv (List.not_mem_nil _)
  refine ⟨?_, cachedParseDate_fst h [] dateInput hempty, ?_⟩
  · rw [cachedParseDate_fst h _ dateInput (parseDateCacheAfter_sound h events),
      cachedParseDate_fst h [] dateInput hempty]
  · intro cache ht hl
    unfold cachedParseDate
    simp [ht, hl]

/-- C11, on an example: after the unparseable text `soon` and the date
`2024-12-25` have been parsed, both are answered from the table with the values
of the empty table: `null` and midnight of 25 December 2024. -/
theorem parse_date_pure_witness :
    (cachedParseDate exHost
        (parseDateCacheAfter exHost [.call (.str "soon"), .call (.str "2024-12-25")])
        (.str "soon")).1 = none ∧
      (cachedParseDate exHost
        (parseDateCacheAfter exHost [.call (.str "soon"), .call (.str "2024-12-25")])
        (.str "2024-12-25")).1 = some 1735084800000 :=
  ⟨(parse_date_pure exHost [.call (.str "soon"), .call (.str "2024-12-25")] (.str "soon")).2.2
      (parseDateCacheAfter exHost [.call (.str "soon"), .call (.str "2024-12-25")])
      (by decide) (by decide),
    ((parse_date_pure exHost [.call (.str "soon"), .call (.str "2024-12-25")]
      (.str "2024-12-25")).1).trans (by decide)⟩

/-- C15. Starting from the empty table, after every sequence of calls of
`cachedParseDate` (and cleanup ticks) the memo table holds at most 1000 entries;
and a call that inserts into a table of 1000 entries evicts the oldest entry in
the same call. -/
theorem parse_date_cache_bounded (h : Host) (events : List ParseDateEvent) :
    (parseDateCacheAfter h events).length ≤ 1000 ∧
      (∀ (cache : ParseDateCache) (dateInput : JSVal), cache.length = 1000 →
        dateInput.truthy = true → cache.lookup (toJSString dateInput) = none →
        (cachedParseDate h cache dateInput).2 =
          cache.tail ++ [(toJSString dateInput, parseDateCompute h (toJSString dateInput))]) := by
  constructor
  · exact foldl_events_length h events [] (by simp [CACHE_LIMIT_parseDate])
  · intro cache dateInput hlen ht hl
    unfold cachedParseDate
    simp only [ht, hl, Bool.not_true, Bool.false_eq_true, if_false, List.length_append,
      List.length_singleton, hlen, CACHE_LIMIT_parseDate]
    cases cache with
    | nil => simp at hlen
    | cons kv rest => simp

/-- C16, the code at the failing input: after `getCachedTaskDate` has been
called on 501 distinct task texts the task-date memo table holds 501 entries,
more than `CACHE_LIMITS.taskDate = 500`. -/
theorem task_date_cache_exceeds_limit :
    (taskDateCacheAfter manyTaskTexts).length = 501 ∧ CACHE_LIMIT_taskDate = 500 := by
  refine ⟨?_, rfl⟩
  have hmap : manyTaskTexts =
      ((List.range 501).map (fun i => String.mk (List.replicate (i + 1) 'x'))).map JSVal.str := by
    simp [manyTaskTexts, List.map_map, Function.comp_def]
  rw [hmap, taskDateCacheAfter_length]
  · simp
  · apply List.Nodup.map _ (List.nodup_range 501)
    intro i j hij
    have hlen := congrArg (fun s => s.data.length) hij
    simp only [List.length_replicate] at hlen
    omega
  · intro hmem
    obtain ⟨i, _, hi⟩ := List.mem_map.mp hmem
    have hlen := congrArg (fun s => s.data.length) hi
    simp at hlen

/-- C19, counterexample: the value object of a property written `0` has the
`.value` field `0` and the `.raw` field `"0"`; `extractFrontmatterValue`
returns the `.raw` field, not the `.value` field the object has. -/
theorem falsy_value_field_skipped :
    extractFrontmatterValue (.obj (.num 0) (.str "0") .undefined) = .str "0" ∧
      extractFrontmatterValue (.obj (.num 0) (.str "0") .undefined) ≠ .num 0 := by
  decide

/-- C19, amended. `extractFrontmatterValue(v)` returns `v` unchanged when `v`
is falsy or is not an object; for an object it returns the `.value` field when
that field is truthy, otherwise the `.raw` field when that field is truthy,
otherwise the object itself. -/
theorem extractFrontmatterValue_spec :
    (∀ v : JSVal, v.truthy = false → extractFrontmatterValue v = v) ∧
      (∀ v : JSVal, (∀ a b c, v ≠ .obj a b c) → extractFrontmatterValue v = v) ∧
      (∀ value raw tag : JSVal, extractFrontmatterValue (.obj value raw tag) =
        if value.truthy then value else if raw.truthy then raw else .obj value raw tag) := by
  refine ⟨?_, ?_, ?_⟩
  · intro v hv
    simp [extractFrontmatterValue, hv]
  · intro v hv
    cases v with
    | obj a b c => exact absurd rfl (hv a b c)
    | _ => simp [extractFrontmatterValue]
  · intro value raw tag
    simp [extractFrontmatterValue, JSVal.truthy, jsOr]

/-- C19, amended, on examples: the empty string and the number 7 come back
unchanged. -/
theorem extractFrontmatterValue_spec_witness :
    extractFrontmatterValue (.str "") = .str "" ∧ extractFrontmatterValue (.num 7) = .num 7 :=
  ⟨extractFrontmatterValue_spec.1 (.str "") (by decide),
    extractFrontmatterValue_spec.2.1 (.num 7) (fun _ _ _ hne => by cases hne)⟩

/-- C13. For every input whose trimmed text opens with one or two digits, a
separator (`/` or `-`), one or two digits, a separator and four digits, and
splits on the separators into three parts that `parseInt` reads as `p1`, `p2`,
`p3`, `parseDate` (from every reachable memo table) builds the local date of
year `p3` with day `p1` of month `p2` when `p1 > 12` and `p2 <= 12`, and with
month `p1`, day `p2` in every other case; `25/12/2024` is read as
`new Date(2024, 11, 25)` and `03/04/2024` as `new Date(2024, 2, 4)`. -/
theorem slash_date_day_month_heuristic (h : Host) (events : List ParseDateEvent) :
    (∀ (s : String) (a b c : List Char) (p1 p2 p3 : Int),
      slashHead.test (jsTrim s).data = true →
      splitDateSeparators (jsTrim s).data = [a, b, c] →
      parseInt10 a = some p1 → parseInt10 b = some p2 → parseInt10 c = some p3 →
      (cachedParseDate h (parseDateCacheAfter h events) (.str s)).1 =
          (if (decide (p1 > 12) && decide (p2 ≤ 12)) = true then h.dateLocal p3 (p2 - 1) p1
            else h.dateLocal p3 (p1 - 1) p2) ∧
        parseDate h (.str s) =
          (if (decide (p1 > 12) && decide (p2 ≤ 12)) = true then h.dateLocal p3 (p2 - 1) p1
            else h.dateLocal p3 (p1 - 1) p2)) ∧
      parseDate h (.str "25/12/2024") = h.dateLocal 2024 11 25 ∧
      parseDate h (.str "03/04/2024") = h.dateLocal 2024 2 4 := by
  have hmain : ∀ (s : String) (a b c : List Char) (p1 p2 p3 : Int),
      slashHead.test (jsTrim s).data = true →
      splitDateSeparators (jsTrim s).data = [a, b, c] →
      parseInt10 a = some p1 → parseInt10 b = some p2 → parseInt10 c = some p3 →
      parseDate h (.str s) =
        (if (decide (p1 > 12) && decide (p2 ≤ 12)) = true then h.dateLocal p3 (p2 - 1) p1
          else h.dateLocal p3 (p1 - 1) p2) := by
    intro s a b c p1 p2 p3 hhead hsplit h1 h2 h3
    have hne := ne_empty_of_slashHead s hhead
    have htruthy : (JSVal.str s).truthy = true := by simp [JSVal.truthy, hne]
    unfold parseDate
    rw [htruthy]
    simp only [Bool.not_true, Bool.false_eq_true, if_false, toJSString]
    exact parseDateCompute_slash h s a b c p1 p2 p3 hhead hsplit h1 h2 h3
  refine ⟨?_, ?_, ?_⟩
  · intro s a b c p1 p2 p3 hhead hsplit h1 h2 h3
    refine ⟨?_, hmain s a b c p1 p2 p3 hhead hsplit h1 h2 h3⟩
    rw [cachedParseDate_fst h _ _ (parseDateCacheAfter_sound h events)]
    exact hmain s a b c p1 p2 p3 hhead hsplit h1 h2 h3
  · exact hmain "25/12/2024" "25".data "12".data "2024".data 25 12 2024
      (by decide) (by decide) (by decide) (by decide) (by decide)
  · exact hmain "03/04/2024" "03".data "04".data "2024".data 3 4 2024
      (by decide) (by decide) (by decide) (by decide) (by decide)

/-- C13, on examples in the UTC host: `25/12/2024` is 25 December 2024 and
`03/04/2024` is 4 March 2024, also from a memo table that already holds them. -/
theorem slash_date_day_month_heuristic_witness :
    parseDate exHost (.str "25/12/2024") = some (daysFromCivil 2024 12 25 * msPerDay) ∧
      (cachedParseDate exHost
        (parseDateCacheAfter exHost [.call (.str "03/04/2024"), .call (.str "25/12/2024")])
        (.str " 03-04-2024 ")).1 = some (daysFromCivil 2024 3 4 * msPerDay) :=
  ⟨((slash_date_day_month_heuristic exHost []).1 "25/12/2024" "25".data "12".data "2024".data
      25 12 2024 (by decide) (by decide) (by decide) (by decide) (by decide)).2.trans (by decide),
    ((slash_date_day_month_heuristic exHost
      [.call (.str "03/04/2024"), .call (.str "25/12/2024")]).1 " 03-04-2024 " "03".data
      "04".data "2024".data 3 4 2024 (by decide) (by decide) (by decide) (by decide)
      (by decide)).1.trans (by decide)⟩

/-- C15, on examples: after a call and a cleanup tick the table is within the
bound, and a call on a full table of 1000 entries drops the oldest entry and
appends the new one. -/
theorem parse_date_cache_bounded_witness :
    (parseDateCacheAfter exHost [.call (.str "soon"), .cleanup]).length ≤ 1000 ∧
      (cachedParseDate exHost (List.replicate 1000 ("k", none)) (.str "soon")).2 =
        (List.replicate 1000 ("k", none)).tail ++ [("soon", parseDateCompute exHost "soon")] :=
  ⟨(parse_date_cache_bounded exHost [.call (.str "soon"), .cleanup]).1,
    (parse_date_cache_bounded exHost []).2 (List.replicate 1000 ("k", none)) (.str "soon")
      (List.length_replicate 1000 _) (by decide)
      (List.lookup_replicate_ne (by decide))⟩

/-- C12, the code at the failing input: in a host five hours west of UTC the
instant parsed from the valid ISO date `2025-06-15` has the local day of the
month 14 (`getDate`), not the 15 written in the text, also when it comes from
the memo table; the same day written with slashes, `06/15/2025`, goes through
the other branch, which builds local midnight, and has the local day 15. -/
theorem iso_date_local_day_before :
    (parseDate westHost (.str "2025-06-15")).map westHost.getDate = some 14 ∧
      (cachedParseDate westHost (parseDateCacheAfter westHost [.call (.str "2025-06-15")])
        (.str "2025-06-15")).1.map westHost.getDate = some 14 ∧
      (parseDate westHost (.str "06/15/2025")).map westHost.getDate = some 15 := by
  decide

/-- C14, the code at the failing input: in a host five hours west of UTC, at
10:00 local time on 15 June 2025, `isOverdue` holds of today's date written in
ISO form, while it does not hold of the same day written with slashes; the
local day of the clock is 15 June 2025 and the ISO text parses to an instant
whose local day is the 14th. -/
theorem today_iso_text_overdue_west_of_utc :
    isOverdue westHost (.str "2025-06-15") = true ∧
      isOverdue westHost (.str "06/15/2025") = false ∧
      westHost.toDateString westHost.now = toString (daysFromCivil 2025 6 15) ∧
      (parseDate westHost (.str "2025-06-15")).map westHost.toDateString =
        some (toString (daysFromCivil 2025 6 14)) := by
  decide

/-- C17. For every non-empty task text and every memo table reachable through
earlier calls, `getCachedTaskDate` returns without an exception the group
captured by the leftmost match of the first of the ISO, slash-date and
dash-date patterns (in that order) that matches somewhere in the text, and
`null` when none matches; every pattern is the optional calendar mark followed
by its capturing group, and what it captures is what a search for the group
alone captures, so the mark is not part of the result; for
`Finish report #urgent-important 2024-12-25` the result is `2024-12-25`. -/
theorem task_date_first_matching_pattern (texts : List JSVal) :
    DATE_PATTERNS = [.seq Re.calendarMark (.cap Re.isoDate),
        .seq Re.calendarMark (.cap Re.slashDate), .seq Re.calendarMark (.cap Re.dashDate)] ∧
      (∀ text : String, text ≠ "" →
        ∃ cache, getCachedTaskDate (taskDateCacheAfter texts) (.str text) =
          .ok ((((Re.seq Re.calendarMark (.cap Re.isoDate)).search text.data).orElse (fun _ =>
            ((Re.seq Re.calendarMark (.cap Re.slashDate)).search text.data).orElse (fun _ =>
              (Re.seq Re.calendarMark (.cap Re.dashDate)).search text.data))).map String.mk,
            cache)) ∧
      (∀ cs : List Char,
        (Re.seq Re.calendarMark (.cap Re.isoDate)).search cs = (Re.cap Re.isoDate).search cs ∧
        (Re.seq Re.calendarMark (.cap Re.slashDate)).search cs =
          (Re.cap Re.slashDate).search cs ∧
        (Re.seq Re.calendarMark (.cap Re.dashDate)).search cs =
          (Re.cap Re.dashDate).search cs) ∧
      (∃ cache, getCachedTaskDate (taskDateCacheAfter texts)
          (.str "Finish report #urgent-important 2024-12-25") =
        .ok (some "2024-12-25", cache)) := by
  refine ⟨rfl, ?_, ?_, ?_⟩
  · intro text hne
    obtain ⟨cache, hc⟩ := getCachedTaskDate_scan _ text hne (taskDateCacheAfter_sound texts)
    refine ⟨cache, hc.trans ?_⟩
    rw [taskDateScan_eq]
  · intro cs
    exact ⟨search_mark _ isoDate_needs_digit cs, search_mark _ slashDate_needs_digit cs,
      search_mark _ dashDate_needs_digit cs⟩
  · obtain ⟨cache, hc⟩ := getCachedTaskDate_scan _ "Finish report #urgent-important 2024-12-25"
      (by decide) (taskDateCacheAfter_sound texts)
    refine ⟨cache, hc.trans ?_⟩
    rw [show taskDateScan "Finish report #urgent-important 2024-12-25" = some "2024-12-25" from
      by decide]

/-- C17, on examples: a slash date is found when no ISO date is present, the
calendar mark is left out of the result, and a text without a date gives
`null`. -/
theorem task_date_first_matching_pattern_witness :
    (∃ cache, getCachedTaskDate (taskDateCacheAfter [.str "call 📅 3/4/2025"])
        (.str "call 📅 3/4/2025") = .ok (some "3/4/2025", cache)) ∧
      (∃ cache, getCachedTaskDate (taskDateCacheAfter []) (.str "no date here") =
        .ok (none, cache)) :=
  ⟨Exists.imp (fun cache hc => hc.trans (congrArg (fun v => Except.ok (v, cache)) (by decide)))
      ((task_date_first_matching_pattern [.str "call 📅 3/4/2025"]).2.1 "call 📅 3/4/2025"
        (by decide)),
    Exists.imp (fun cache hc => hc.trans (congrArg (fun v => Except.ok (v, cache)) (by decide)))
      ((task_date_first_matching_pattern []).2.1 "no date here" (by decide))⟩

/-- C26. The cap never under-fills a category. When the matched notes plus the
matched tasks exceed a positive `maxItemsPerSection = m`, the kept notes plus
the kept tasks number exactly `m`, or `m + 1`, and `m + 1` only when the floor
of one item is applied to the tasks (`m - notesLimit < 1`, both kinds present);
when the matched total is at most `m`, or `m` is not positive, both lists are
left unchanged. (The collections are JavaScript arrays: fewer than `2^32`
elements.) -/
theorem cap_never_under_fills (h : Host) (cfg : Config) (sect : SectionConfig)
    (notes : List Note) (tasks : List Task)
    (hn32 : notes.length < 2 ^ 32) (ht32 : tasks.length < 2 ^ 32) :
    (0 < cfg.display.maxItemsPerSection →
      cfg.display.maxItemsPerSection <
        (((processNotes h cfg sect notes).1.length +
          (processTasks h cfg sect tasks).1.length : Nat) : Int) →
      ((((processSection h cfg notes tasks sect).notes.length +
          (processSection h cfg notes tasks sect).tasks.length : Nat) : Int)
            = cfg.display.maxItemsPerSection ∨
        ((((processSection h cfg notes tasks sect).notes.length +
          (processSection h cfg notes tasks sect).tasks.length : Nat) : Int)
            = cfg.display.maxItemsPerSection + 1 ∧
          (processNotes h cfg sect notes).1 ≠ [] ∧ (processTasks h cfg sect tasks).1 ≠ [] ∧
          cfg.display.maxItemsPerSection -
            (notesLimit cfg.display.maxItemsPerSection.toNat
              (processNotes h cfg sect notes).1.length
              (processTasks h cfg sect tasks).1.length : Nat) < 1))) ∧
      (cfg.display.maxItemsPerSection ≤ 0 ∨
        (((processNotes h cfg sect notes).1.length +
          (processTasks h cfg sect tasks).1.length : Nat) : Int)
            ≤ cfg.display.maxItemsPerSection →
        (processSection h cfg notes tasks sect).notes = (processNotes h cfg sect notes).1 ∧
          (processSection h cfg notes tasks sect).tasks = (processTasks h cfg sect tasks).1) := by
  have hnl := processNotes_length_le h cfg sect notes
  have htl := processTasks_length_le h cfg sect tasks
  show (_ → _ → ((((applyLimit _ _ _).1.length + (applyLimit _ _ _).2.length : Nat) : Int) = _ ∨
      ((((applyLimit _ _ _).1.length + (applyLimit _ _ _).2.length : Nat) : Int) = _ ∧ _))) ∧
    (_ → (applyLimit _ _ _).1 = _ ∧ (applyLimit _ _ _).2 = _)
  generalize (processNotes h cfg sect notes).1 = ns at hnl ⊢
  generalize (processTasks h cfg sect tasks).1 = ts at htl ⊢
  generalize cfg.display.maxItemsPerSection = m
  constructor
  · intro hpos hgt
    have hM : ((m.toNat : Nat) : Int) = m := Int.toNat_of_nonneg (le_of_lt hpos)
    rcases applyLimit_cases m ns ts with ⟨hcap, _⟩ | ⟨_, _, hcase⟩
    · omega
    · rcases hcase with ⟨hn, ht, heq⟩ | ⟨hn, hts, heq⟩ | ⟨hns, ht, heq⟩
      · obtain ⟨hrM, hrn, hrt⟩ :=
          proportional_lengths m ns ts hpos hgt hn ht (by omega) (by omega)
        rw [heq]
        simp only [List.length_take]
        have hne1 : ns ≠ [] := List.length_pos.mp hn
        have hne2 : ts ≠ [] := List.length_pos.mp ht
        have htl := tasksLimit_eq m.toNat ns.length ts.length
        have hnl1 : notesLimit m.toNat ns.length ts.length =
            max 1 (mathRound (fmul m.toNat (fdiv ns.length (ns.length + ts.length)))) := rfl
        generalize mathRound (fmul m.toNat (fdiv ns.length (ns.length + ts.length))) = r at *
        generalize notesLimit m.toNat ns.length ts.length = NL at *
        generalize tasksLimit m.toNat ns.length ts.length = TL at *
        by_cases hfull : (m : Int) - (NL : Int) < 1
        · right
          exact ⟨by omega, hne1, hne2, hfull⟩
        · left
          omega
      · left
        rw [heq, hts]
        simp only [List.length_take, List.length_nil]
        simp only [hts, List.length_nil] at hgt
        omega
      · left
        rw [heq, hns]
        simp only [List.length_take, List.length_nil]
        simp only [hns, List.length_nil] at hgt
        omega
  · intro hcap
    rw [applyLimit_no_cap m ns ts hcap]
    exact ⟨rfl, rfl⟩

/-- C26, on an example: with a maximum of 10, 15 matched notes and 5 matched
tasks, exactly 10 items are kept. -/
theorem cap_never_under_fills_witness :
    (((processSection exHost defaultConfig (List.replicate 15 noteUrgent)
          (List.replicate 5 taskPlain) sectionDoFirst).notes.length +
        (processSection exHost defaultConfig (List.replicate 15 noteUrgent)
          (List.replicate 5 taskPlain) sectionDoFirst).tasks.length : Nat) : Int) = 10 :=
  ((cap_never_under_fills exHost defaultConfig sectionDoFirst (List.replicate 15 noteUrgent)
    (List.replicate 5 taskPlain) (by decide) (by decide)).1 (by decide) (by decide)).elim
    (fun heq => heq) (fun hplus => absurd hplus.2.2.2 (by decide))

/-- C29. In sort mode `'date'` an item whose date is present but cannot be
parsed is compared as instant 0: against a dated item the comparator returns
`0 - instant`, so it precedes every item dated after the epoch, and against a
dateless item it returns `-1`. The comparator is a consistent ordering: the
signs of `cmp(a, b)` and `cmp(b, a)` are opposite, and it is transitive.
Whenever no exception is caught, in a category's notes list and tasks list
before the cap everything listed before an item with an unparseable date is
dated and resolves to an instant that is not after the epoch, so no dateless
item and no item dated after 1970 precedes it. -/
theorem unparseable_date_sorts_as_epoch (h : Host) (cfg : Config) (sect : SectionConfig)
    (notes : List Note) (tasks : List Task) (hs : cfg.display.sortBy = "date") :
    (∀ {α : Type} (kind : ItemKind α) (a b : α) (da db : JSVal),
      kind.dateOf a = .ok da → kind.dateOf b = .ok db → unparseable h da = true →
      (db.truthy = true →
        createSortComparator h cfg kind a b = .ok (0 - dateInstant h db) ∧
        createSortComparator h cfg kind b a = .ok (dateInstant h db - 0)) ∧
      (db.truthy = false →
        createSortComparator h cfg kind a b = .ok (-1) ∧
        createSortComparator h cfg kind b a = .ok 1)) ∧
    (∀ {α : Type} (kind : ItemKind α) (a b : α) (cab cba : Int),
      createSortComparator h cfg kind a b = .ok cab →
      createSortComparator h cfg kind b a = .ok cba →
      (cab < 0 ↔ 0 < cba) ∧ (cab = 0 ↔ cba = 0)) ∧
    (∀ {α : Type} (kind : ItemKind α) (a b c : α) (cab cbc : Int),
      createSortComparator h cfg kind a b = .ok cab →
      createSortComparator h cfg kind b c = .ok cbc → cab ≤ 0 → cbc ≤ 0 →
      ∃ cac, createSortComparator h cfg kind a c = .ok cac ∧ cac ≤ 0) ∧
    ((processNotes h cfg sect notes).2 = none →
      (processNotes h cfg sect notes).1.Pairwise (fun a b =>
        unparseable h (dateOfD (noteKind cfg) b) = true →
          (dateOfD (noteKind cfg) a).truthy = true ∧
            dateInstant h (dateOfD (noteKind cfg) a) ≤ 0)) ∧
    ((processTasks h cfg sect tasks).2 = none →
      (processTasks h cfg sect tasks).1.Pairwise (fun a b =>
        unparseable h (dateOfD taskKind b) = true →
          (dateOfD taskKind a).truthy = true ∧ dateInstant h (dateOfD taskKind a) ≤ 0)) := by
  refine ⟨?_, ?_, ?_, ?_, ?_⟩
  · intro α kind a b da db hda hdb hu
    obtain ⟨hta, hia⟩ := dateInstant_unparseable h da hu
    rw [createSortComparator_date h cfg kind hs]
    constructor
    · intro htb
      simp [compareDate, hda, hdb, hta, htb, hia]
    · intro htb
      simp [compareDate, hda, hdb, hta, htb]
  · intro α kind a b cab cba h1 h2
    rw [createSortComparator_date h cfg kind hs] at h1 h2
    exact compareDate_antisymm h kind a b cab cba h1 h2
  · intro α kind a b c cab cbc h1 h2 hab hbc
    rw [createSortComparator_date h cfg kind hs] at h1 h2 ⊢
    exact compareDate_trans h kind a b c cab cbc h1 h2 hab hbc
  · intro he
    have hsort := processNotes_ok h cfg sect notes he
    rw [createSortComparator_date h cfg _ hs] at hsort
    exact List.Pairwise.imp (fun ho hu => dateOrdered_before_unparseable h _ _ ho hu)
      (sortE_date_sorted h _ _ _ hsort).1
  · intro he
    have hsort := processTasks_ok h cfg sect tasks he
    rw [createSortComparator_date h cfg _ hs] at hsort
    exact List.Pairwise.imp (fun ho hu => dateOrdered_before_unparseable h _ _ ho hu)
      (sortE_date_sorted h _ _ _ hsort).1

/-- C29, on an example: a note due `soon` is listed before the notes due in
2024 and 2030 and before the dateless note, and the comparator puts it before
the note due in 2030 with the result `0 - instant`. -/
theorem unparseable_date_sorts_as_epoch_witness :
    (processNotes exHost configByDate sectionDoFirst
        [noteUrgent, noteDue2030, noteDueSoon, noteDue2024]).1
        = [noteDueSoon, noteDue2024, noteDue2030, noteUrgent] ∧
      createSortComparator exHost configByDate (noteKind configByDate) noteDueSoon noteDue2030
        = .ok (0 - dateInstant exHost (.str "2030-01-05")) ∧
      (processNotes exHost configByDate sectionDoFirst
          [noteUrgent, noteDue2030, noteDueSoon, noteDue2024]).1.Pairwise (fun a b =>
        unparseable exHost (dateOfD (noteKind configByDate) b) = true →
          (dateOfD (noteKind configByDate) a).truthy = true ∧
            dateInstant exHost (dateOfD (noteKind configByDate) a) ≤ 0) :=
  ⟨by decide,
    (((unparseable_date_sorts_as_epoch exHost configByDate sectionDoFirst [] [] rfl).1
      (noteKind configByDate) noteDueSoon noteDue2030 (.str "soon") (.str "2030-01-05")
      rfl rfl (by decide)).1 (by decide)).1,
    (unparseable_date_sorts_as_epoch exHost configByDate sectionDoFirst
      [noteUrgent, noteDue2030, noteDueSoon, noteDue2024] [] rfl).2.2.2.1 (by decide)⟩

/-- C18, counterexample: the task `Finish report #urgent-important 2024-12-25`
is listed in the category of the tag `urgent-important`, and neither the title
of `OptimizedItem` nor `cleanedTaskText` of `HoverableTaskItem` is
`Finish report`. -/
theorem title_is_not_finish_report :
    ("doFirst", processSection exHost defaultConfig [] [taskReport] sectionDoFirst)
        ∈ sectionData exHost defaultConfig [] [taskReport] ∧
      taskReport ∈ (processSection exHost defaultConfig [] [taskReport] sectionDoFirst).tasks ∧
      taskReport.text = .str "Finish report #urgent-important 2024-12-25" ∧
      (optimizedItemTaskTitle taskReport.text).toOption ≠ some (.str "Finish report") ∧
      (cleanedTaskText taskReport.text).toOption ≠ some "Finish report" := by
  decide

/-- C18, amended. For the task text `Finish report #urgent-important 2024-12-25`
matched by the rule tag `urgent-important`, the extracted date is `2024-12-25`
and the title of `OptimizedItem` and `cleanedTaskText` of `HoverableTaskItem`
are both `Finish report #urgent-important`: the date is removed and the text
trimmed, the tag stays. -/
theorem title_keeps_tag :
    taskReport ∈ (processSection exHost defaultConfig [] [taskReport] sectionDoFirst).tasks ∧
      (extractTaskDate (.str "Finish report #urgent-important 2024-12-25")).toOption =
        some (some "2024-12-25") ∧
      (optimizedItemTaskTitle (.str "Finish report #urgent-important 2024-12-25")).toOption =
        some (.str "Finish report #urgent-important") ∧
      (cleanedTaskText (.str "Finish report #urgent-important 2024-12-25")).toOption =
        some "Finish report #urgent-important" := by
  decide

/-- C20, the code at the failing input: for an empty vault under the default
configuration the classification result has four empty categories and the
summary's `workloadBalance` is the text `NaN` (`0 / (2 * 0)`), while the
guarded metrics are finite (`productivityScore` 100, `urgencyIndex` 0,
`focusScore` `0.00`). -/
theorem summary_nan_without_items :
    (sectionData exHost defaultConfig [] []).map
        (fun entry => (entry.1, entry.2.notes.length + entry.2.tasks.length)) =
        [("doFirst", 0), ("schedule", 0), ("delegate", 0), ("eliminate", 0)] ∧
      (calculatedStats exHost defaultConfig (sectionData exHost defaultConfig [] [])).toOption.map
        (fun s => (s.totals.totalItems, s.workloadBalance, s.productivityScore, s.urgencyIndex,
          s.focusScore)) = some (0, "NaN", .fin 100 1, .fin 0 1, "0.00") ∧
      workloadBalance [0, 0, 0, 0] 0 = .nan := by
  decide

/-- C21, the code on categories of equal size. When the statistics are computed
for at least one category and every category holds `c` items, the summary's
`workloadBalance` is `1.00` if `c` is positive, and the text `NaN` if `c = 0`
(the failing input: no items at all). -/
theorem equal_categories_balance (h : Host) (cfg : Config)
    (data : List (String × SectionData)) (s : Summary) (c : Nat)
    (hstats : calculatedStats h cfg data = .ok s) (hne : data ≠ [])
    (heq : ∀ entry ∈ data, entry.2.notes.length + entry.2.tasks.length = c)
    (hc53 : c < 2 ^ 53) :
    (c = 0 → s.workloadBalance = "NaN") ∧ (0 < c → s.workloadBalance = "1.00") := by
  unfold calculatedStats at hstats
  cases hloop : statsLoop h cfg ⟨0, 0, 0, 0, 0, 0, 0, 0⟩ data with
  | error e => simp [hloop] at hstats
  | ok t =>
    simp only [hloop, Except.ok.injEq] at hstats
    have hvals : (quadrantBalance data).map Prod.snd = List.replicate data.length c := by
      rw [List.eq_replicate_iff]
      refine ⟨by simp [quadrantBalance], ?_⟩
      intro v hv
      simp only [quadrantBalance, List.map_map, List.mem_map, Function.comp] at hv
      obtain ⟨entry, hmem, hentry⟩ := hv
      rw [← hentry]
      exact heq entry hmem
    have htotal : t.totalItems = data.length * c := by
      have := statsLoop_totalItems h cfg data _ t hloop
      rw [hvals] at this
      simpa using this
    have hk : 0 < data.length := List.length_pos.mpr hne
    have hwb := workloadBalance_equal data.length c hk hc53
    rw [← hstats]
    simp only [hvals, htotal, hwb]
    constructor
    · intro h0
      simp [h0, JSNum.sub, JSNum.neg, JSNum.add, JSNum.toFixed]
    · intro hpos
      have hc0 : c ≠ 0 := by omega
      simp only [hc0, if_false]
      decide

/-- C21, on examples: with no items in the four default categories the field is
`NaN`; with one note in each of two categories it is `1.00`. -/
theorem equal_categories_balance_witness :
    (∀ s, calculatedStats exHost defaultConfig (sectionData exHost defaultConfig [] []) = .ok s →
        s.workloadBalance = "NaN") ∧
      (∀ s, calculatedStats exHost defaultConfig
          [("doFirst", ⟨sectionDoFirst, [noteUrgent], []⟩),
            ("schedule", ⟨sectionSchedule, [noteLater], []⟩)] = .ok s →
        s.workloadBalance = "1.00") :=
  ⟨fun s hs => (equal_categories_balance exHost defaultConfig _ s 0 hs (by decide) (by decide)
      (by decide)).1 rfl,
    fun s hs => (equal_categories_balance exHost defaultConfig _ s 1 hs (by decide) (by decide)
      (by decide)).2 (by decide)⟩

/-- C23, the code at the failing input: under the default configuration the
classification result is keyed by `doFirst`, `schedule`, `delegate`,
`eliminate`, none of which is a key of `quadrantPriorities`, so every category
is weighted 2.5: with one note in `Do First` the `focusScore` is `2.50`, not
`4.00`, and with one note in `Don't Do` it is `2.50`, not `1.00`. -/
theorem focus_score_ignores_roles :
    (sectionData exHost defaultConfig [noteUrgent] []).map
        (fun entry => (entry.1, entry.2.notes.length, quadrantPriorities.lookup entry.1)) =
        [("doFirst", 1, none), ("schedule", 0, none), ("delegate", 0, none),
          ("eliminate", 0, none)] ∧
      (calculatedStats exHost defaultConfig
        (sectionData exHost defaultConfig [noteUrgent] [])).toOption.map
          (fun s => s.focusScore) = some "2.50" ∧
      (sectionData exHost defaultConfig [noteTrivia] []).map
        (fun entry => (entry.1, entry.2.notes.length)) =
        [("doFirst", 0), ("schedule", 0), ("delegate", 0), ("eliminate", 1)] ∧
      (calculatedStats exHost defaultConfig
        (sectionData exHost defaultConfig [noteTrivia] [])).toOption.map
          (fun s => s.focusScore) = some "2.50" := by
  decide

/-- C28, the code at the failing input: with two overdue notes and no task in
the classification result, `overdueTasks` is 2 and `totalTasks` is 0, and the
`productivityScore` is `Math.round(100 - (2 / 1) * 100) = -100`. -/
theorem productivity_score_negative :
    (calculatedStats exHost defaultConfig
        (sectionData exHost defaultConfig [noteDue2024, noteDue2023] [])).toOption.map
          (fun s => (s.totals.overdueTasks, s.totals.totalTasks, s.totals.totalItems,
            s.productivityScore)) = some (2, 0, 2, .fin (-100) 1) ∧
      JSNum.lt (.fin (-100) 1) (.ofNat 0) = true := by
  decide

/-- C27. In every zone at a fixed offset from UTC and at every reading of the
clock, no date is both overdue and today: `isToday` compares the local calendar
days and `isOverdue` the local midnights of the same two instants. The
statistics are computed without an exception when every `$text` is a string or
absent, and in every summary `overdueTasks + todayTasks <= totalItems` and
`urgencyIndex` is an integer from 0 to 100. -/
theorem overdue_and_today_exclusive (offset now : Int) (cfg : Config)
    (data : List (String × SectionData)) :
    (∀ d : JSVal, ¬ (isOverdue (zoneHost offset now) d = true ∧
        isToday (zoneHost offset now) d = true)) ∧
      ((∀ entry ∈ data, ∀ task ∈ entry.2.tasks, task.text.isText = true) →
        ∃ s, calculatedStats (zoneHost offset now) cfg data = .ok s) ∧
      (∀ s : Summary, calculatedStats (zoneHost offset now) cfg data = .ok s →
        s.totals.overdueTasks + s.totals.todayTasks ≤ s.totals.totalItems ∧
          ∃ n : Nat, s.urgencyIndex = .fin n 1 ∧ n ≤ 100) := by
  refine ⟨?_, ?_, ?_⟩
  · intro d hboth
    have hone := overdue_today_le_one _ d (zoneHost_sameDayLaw offset now d)
    rw [hboth.1, hboth.2] at hone
    simp at hone
  · intro htext
    obtain ⟨t, ht⟩ := statsLoop_ok (zoneHost offset now) cfg data ⟨0, 0, 0, 0, 0, 0, 0, 0⟩ htext
    refine ⟨⟨t, productivityScore t.overdueTasks t.totalTasks,
      JSNum.toFixed 2 (JSNum.sub (.ofNat 1)
        (workloadBalance ((quadrantBalance data).map Prod.snd) t.totalItems)),
      urgencyIndex t.overdueTasks t.todayTasks t.totalItems,
      JSNum.toFixed 2 (focusScore (quadrantBalance data) t.totalItems)⟩, ?_⟩
    simp only [calculatedStats, ht]
  · intro s hstats
    unfold calculatedStats at hstats
    cases hloop : statsLoop (zoneHost offset now) cfg ⟨0, 0, 0, 0, 0, 0, 0, 0⟩ data with
    | error e => simp [hloop] at hstats
    | ok t =>
      simp only [hloop, Except.ok.injEq] at hstats
      have hb := statsLoop_bound (zoneHost offset now) cfg data _ t
        (fun entry _ => ⟨fun task _ => zoneHost_taskDayLaw offset now task,
          fun note _ => zoneHost_sameDayLaw offset now _⟩) hloop
      simp only at hb
      have hle : t.overdueTasks + t.todayTasks ≤ t.totalItems := by omega
      rw [← hstats]
      refine ⟨hle, ?_⟩
      exact percent_le _ _ (by omega) (le_trans hle (le_max_left _ _))

/-- C27, on an example: five hours west of UTC, at 10:00 on 15 June 2025, the
date `06/15/2025` is today and not overdue, and `2025-06-15` is overdue and not
today; with an overdue note, an undated note and an overdue task, two of the
three items are overdue or today and the `urgencyIndex` is at most 100. -/
theorem overdue_and_today_exclusive_witness :
    ¬ (isOverdue westHost (.str "06/15/2025") = true ∧
        isToday westHost (.str "06/15/2025") = true) ∧
      isToday westHost (.str "06/15/2025") = true ∧
      isOverdue westHost (.str "2025-06-15") = true ∧
      (∃ s, calculatedStats westHost defaultConfig
        (sectionData westHost defaultConfig [noteDue2024, noteLater] [taskReport]) = .ok s) ∧
      (∀ s, calculatedStats westHost defaultConfig
          (sectionData westHost defaultConfig [noteDue2024, noteLater] [taskReport]) = .ok s →
        s.totals.overdueTasks + s.totals.todayTasks ≤ s.totals.totalItems ∧
          ∃ n : Nat, s.urgencyIndex = .fin n 1 ∧ n ≤ 100) :=
  ⟨(overdue_and_today_exclusive (-18000000) (daysFromCivil 2025 6 15 * msPerDay + 54000000)
      defaultConfig []).1 (.str "06/15/2025"),
    by decide, by decide,
    (overdue_and_today_exclusive (-18000000) (daysFromCivil 2025 6 15 * msPerDay + 54000000)
      defaultConfig
      (sectionData westHost defaultConfig [noteDue2024, noteLater] [taskReport])).2.1 (by decide),
    (overdue_and_today_exclusive (-18000000) (daysFromCivil 2025 6 15 * msPerDay + 54000000)
      defaultConfig
      (sectionData westHost defaultConfig [noteDue2024, noteLater] [taskReport])).2.2⟩

/-- C24, counterexample: when the task rule of `schedule` is switched off, moving
the task `Call the bank #schedule #delegate` to the category of the tag
`eliminate` leaves `#schedule`, the tag named by the task rule of another
category, on the line. -/
theorem disabled_rule_tag_stays :
    .str "schedule" ∈ ruleTagNames configScheduleOff.sections ∧
      (updateTaskTag configScheduleOff (some "- [ ] Call the bank #schedule #delegate")
        taskTwoTags (.str "eliminate")).toOption =
        some (some "- [ ] Call the bank #schedule #eliminate") := by
  decide

/-- C24, amended. When `updateTaskTag` writes (tag names without metacharacters
of regular expressions), one line of the file changes: the first line that
holds the task's text and one of its tags; every other line is unchanged. The
new line ends with ` #newTag`, and what stands before that is the old line with
characters deleted, nothing added. When the tags of the old line are set apart
by blanks and the tag names of the enabled task rules end in a letter, a digit
or `_`, the part before ` #newTag` carries no whole tag named by a category
whose task rule is enabled; and when `newTag` is itself one of these names, the
new line carries the whole tag `#newTag` exactly once and no other whole tag
named by such a category. Under the default categories, a line `body #oldTag`
whose `body` holds no `#` and no blank at either end, `oldTag` being one of the
four default tags, becomes `body #newTag`. -/
theorem retag_spec (cfg : Config) (text : String) (task : Task) (newTag : JSVal)
    (out : String) (_hplain : ∀ tag ∈ enabledTagNames cfg, plainTagName tag = true)
    (hrun : updateTaskTag cfg (some text) task newTag = .ok (some out)) :
    ∃ (i : Nat) (line kept : String),
      (splitLines text)[i]? = some line ∧ isTaskLine task line = .ok true ∧
      (∀ (j : Nat) (line2 : String), j < i → (splitLines text)[j]? = some line2 →
        isTaskLine task line2 = .ok false) ∧
      out = joinLines ((splitLines text).set i (kept ++ " #" ++ toJSString newTag)) ∧
      (∀ j, j ≠ i →
        ((splitLines text).set i (kept ++ " #" ++ toJSString newTag))[j]? =
          (splitLines text)[j]?) ∧
      kept.data.Sublist line.data ∧
      ((∀ tag ∈ enabledTagNames cfg, wholeTagName tag = true) →
        hashesApart true line.data = true →
        ∀ tag ∈ enabledTagNames cfg, carriesTag tag kept.data = false) ∧
      ((∀ tag ∈ enabledTagNames cfg, wholeTagName tag = true) →
        hashesApart true line.data = true → toJSString newTag ∈ enabledTagNames cfg →
        ∀ tag ∈ enabledTagNames cfg,
          countTag tag (kept ++ " #" ++ toJSString newTag).data =
            if tag = toJSString newTag then 1 else 0) ∧
      (cfg.sections = defaultSections →
        ∀ (body : List Char) (old : String), (∀ c ∈ body, c ≠ '#') →
          jsTrim (String.mk body) = String.mk body →
          old ∈ ["urgent-important", "schedule", "delegate", "eliminate"] →
          line = String.mk (body ++ ' ' :: '#' :: old.data) → kept = String.mk body) := by
  simp only [updateTaskTag] at hrun
  cases hfind : findTaskLine task (splitLines text) 0 with
  | error e => simp [hfind] at hrun
  | ok r =>
    cases r with
    | none => simp [hfind] at hrun
    | some i =>
      simp only [hfind, Except.ok.injEq, Option.some.injEq] at hrun
      obtain ⟨_, line, hline, hpred⟩ := findTaskLine_some task _ 0 i hfind
      have hfirst := findTaskLine_first task _ 0 i hfind
      simp only [Nat.sub_zero] at hline hfirst
      have hget : (splitLines text).getD i "" = line := by
        simp [List.getD, hline]
      rw [hget] at hrun
      refine ⟨i, line, jsTrim (String.mk ((enabledTagNames cfg).foldl
        (fun l tag => removeTag tag l) line.data)), hline, hpred, hfirst, hrun.symm, ?_, ?_, ?_, ?_,
        ?_⟩
      · intro j hj
        exact List.getElem?_set_ne (fun h => hj h.symm)
      · exact (jsTrim_sublist _).trans (foldl_removeTag_sublist _ _)
      · intro hwhole hap tag htag
        have hfree := (foldl_removeTag_free (enabledTagNames cfg) [] line.data hap
          (by simpa using hwhole) (fun t ht => by cases ht)).2 tag (by simpa using htag)
        cases hc : carriesTag tag (jsTrim (String.mk ((enabledTagNames cfg).foldl
            (fun l tag => removeTag tag l) line.data))).data with
        | false => rfl
        | true =>
          have := carriesTag_jsTrim tag _ hc
          rw [hfree] at this
          cases this
      · intro hwhole hap hnew tag htag
        have hfree := (foldl_removeTag_free (enabledTagNames cfg) [] line.data hap
          (by simpa using hwhole) (fun t ht => by cases ht)).2 tag (by simpa using htag)
        have hkept : carriesTag tag (jsTrim (String.mk ((enabledTagNames cfg).foldl
            (fun l tag => removeTag tag l) line.data))).data = false := by
          cases hc : carriesTag tag (jsTrim (String.mk ((enabledTagNames cfg).foldl
              (fun l tag => removeTag tag l) line.data))).data with
          | false => rfl
          | true =>
            have := carriesTag_jsTrim tag _ hc
            rw [hfree] at this
            cases this
        have hdata : (jsTrim (String.mk ((enabledTagNames cfg).foldl
              (fun l tag => removeTag tag l) line.data)) ++ " #" ++ toJSString newTag).data =
            (jsTrim (String.mk ((enabledTagNames cfg).foldl
              (fun l tag => removeTag tag l) line.data))).data ++
              ' ' :: '#' :: (toJSString newTag).data := by
          simp [String.data_append]
        rw [hdata]
        exact countTag_append_tag tag (toJSString newTag)
          (wholeTagName_chars tag (hwhole tag htag))
          (wholeTagName_chars _ (hwhole _ hnew)) _ hkept
      · intro hsect body old hbody htrim hold hl
        have htags : enabledTagNames cfg =
            ["urgent-important", "schedule", "delegate", "eliminate"] := by
          unfold enabledTagNames
          rw [hsect]
          decide
        have hf : ∀ t ∈ ["urgent-important", "schedule", "delegate", "eliminate"],
            removeTagAux ('#' :: t.data) 0 ('#' :: old.data) =
              if t = old then [] else '#' :: old.data := by
          simp only [List.mem_cons, List.mem_singleton, List.not_mem_nil, or_false] at hold
          rcases hold with h | h | h | h <;> subst h <;> decide
        rw [htags, hl]
        simp only []
        rw [foldl_removeTag_tagged body old hbody _ hf, if_pos hold, jsTrim_append_space, htrim]

/-- C24, amended, on an example: under the default configuration the task
`Call the bank #schedule #delegate`, on the second line of its file, moved to
`eliminate`: the second line is the first that holds the task, it becomes
`- [ ] Call the bank #eliminate`, the part before ` #eliminate` carries none of
the four category tags, and the new line carries `#eliminate` once and none of
the three other category tags. -/
theorem retag_spec_witness :
    ∃ (i : Nat) (line kept : String),
      (splitLines "# Inbox\n- [ ] Call the bank #schedule #delegate")[i]? = some line ∧
      isTaskLine taskTwoTags line = .ok true ∧
      (∀ (j : Nat) (line2 : String), j < i →
        (splitLines "# Inbox\n- [ ] Call the bank #schedule #delegate")[j]? = some line2 →
        isTaskLine taskTwoTags line2 = .ok false) ∧
      "# Inbox\n- [ ] Call the bank #eliminate" =
        joinLines ((splitLines "# Inbox\n- [ ] Call the bank #schedule #delegate").set i
          (kept ++ " #" ++ "eliminate")) ∧
      kept.data.Sublist line.data ∧
      (∀ tag ∈ enabledTagNames defaultConfig, carriesTag tag kept.data = false) ∧
      ∀ tag ∈ enabledTagNames defaultConfig,
        countTag tag (kept ++ " #" ++ "eliminate").data = if tag = "eliminate" then 1 else 0 :=
  (retag_spec defaultConfig "# Inbox\n- [ ] Call the bank #schedule #delegate" taskTwoTags
    (.str "eliminate") "# Inbox\n- [ ] Call the bank #eliminate" (by decide)
    (eq_ok_of_toOption _ _ (by decide))).imp fun _ hline => hline.imp fun line hkept =>
      hkept.imp fun _ hall =>
        have hapart : hashesApart true line.data = true := by
          have hmem := mem_of_getElem?_some _ _ _ hall.1
          have hlines : ∀ l ∈ splitLines "# Inbox\n- [ ] Call the bank #schedule #delegate",
              hashesApart true l.data = true := by decide
          exact hlines line hmem
        ⟨hall.1, hall.2.1, hall.2.2.1, hall.2.2.2.1, hall.2.2.2.2.2.1,
          hall.2.2.2.2.2.2.1 (by decide) hapart,
          hall.2.2.2.2.2.2.2.1 (by decide) hapart (by decide)⟩

/-- C30, the code at the failing inputs: moving the nested task
`Order flyers #delegate` to `schedule` rewrites its line, indented by four
blanks, without the indentation; and moving the task
`Pay #delegate-team #urgent-important` to `schedule` turns the user's tag
`#delegate-team` into `-team`. The other lines are unchanged. -/
theorem retag_drops_indentation :
    (updateTaskTag defaultConfig
        (some "# Launch\n- [ ] Print\n    - [ ] Order flyers #delegate\nend")
        taskNested (.str "schedule")).toOption =
        some (some "# Launch\n- [ ] Print\n- [ ] Order flyers #schedule\nend") ∧
      (updateTaskTag defaultConfig (some "- [ ] Pay #delegate-team #urgent-important")
        taskTeam (.str "schedule")).toOption = some (some "- [ ] Pay -team #schedule") := by
  decide

set_option maxRecDepth 100000 in
/-- C22, a counterexample in doubles. With five categories of sizes 0, 0, 6, 1, 5
(twelve items), moving one item out of the category of five into the category
of six is a move into a category that holds at least as many items, and it
raises the unrounded balance `1 - workloadBalance`: the mean 12 / 5 is not a
double, and the rounding errors of the five distances add up differently. -/
theorem skewing_move_raises_balance :
    IsSkewingMove [0, 0, 6, 1, 5] [0, 0, 7, 1, 4] ∧
      [0, 0, 6, 1, 5].sum = 12 ∧ [0, 0, 7, 1, 4].sum = 12 ∧
      JSNum.lt (JSNum.sub (.ofNat 1) (workloadBalance [0, 0, 6, 1, 5] 12))
        (JSNum.sub (.ofNat 1) (workloadBalance [0, 0, 7, 1, 4] 12)) = true :=
  ⟨⟨[0, 0], [1], [], 5, 6, by decide, by decide, Or.inr ⟨rfl, rfl⟩⟩, by decide, by decide,
    by decide⟩

/-- C22, amended. For categories that hold `total > 0` items, `total < 2^51`:
when two categories differ in size the unrounded balance `1 - workloadBalance`
is strictly below 1, whatever the number of categories; and when the number of
categories is a power of two (the four default categories among them, so that
the mean is computed exactly), with `2^j * total < 2^52`, moving one item out
of a category into another one that holds at least as many never raises the
unrounded balance. -/
theorem balance_below_one_and_monotone (total : Nat) (vals : List Nat)
    (hsum : vals.sum = total) (hpos : 0 < total) (hsmall : total < 2 ^ 51) :
    ((∃ a ∈ vals, ∃ b ∈ vals, a ≠ b) →
        JSNum.lt (JSNum.sub (.ofNat 1) (workloadBalance vals total)) (.ofNat 1) = true) ∧
      (∀ (j : Nat) (vals2 : List Nat), vals.length = 2 ^ j → 2 ^ j * total < 2 ^ 52 →
        IsSkewingMove vals vals2 →
        JSNum.le (JSNum.sub (.ofNat 1) (workloadBalance vals2 total))
          (JSNum.sub (.ofNat 1) (workloadBalance vals total)) = true) := by
  refine ⟨unequal_balance_lt_one total vals hpos hsmall, ?_⟩
  intro j vals2 hlen hsmall2 hmove
  have hpow : 0 < 2 ^ j := Nat.two_pow_pos _
  have hK : 0 < 2 ^ j * (2 * total) := Nat.mul_pos hpow (by omega)
  obtain ⟨A, B, hB, hAB, hval, hform⟩ := balance_of_spread j total vals hlen hsum hpos hsmall2
  obtain ⟨hspread, hsum2, hlen2⟩ := spread_move (2 ^ j) total vals vals2 hmove
  obtain ⟨A2, B2, hB2, hAB2, hval2, hform2⟩ :=
    balance_of_spread j total vals2 (hlen2.trans hlen) (hsum2.trans hsum) hpos hsmall2
  rw [hform, hform2]
  apply balance_le_of_cross A B A2 B2 hB hB2 hAB hAB2
  apply Nat.le_of_mul_le_mul_right _ hK
  calc A * B2 * (2 ^ j * (2 * total)) = A * (2 ^ j * (2 * total)) * B2 := by ring
    _ = spread (2 ^ j) total vals * B * B2 := by rw [hval]
    _ ≤ spread (2 ^ j) total vals2 * B * B2 :=
      Nat.mul_le_mul_right _ (Nat.mul_le_mul_right _ hspread)
    _ = spread (2 ^ j) total vals2 * B2 * B := by ring
    _ = A2 * (2 ^ j * (2 * total)) * B := by rw [hval2]
    _ = A2 * B * (2 ^ j * (2 * total)) := by ring

/-- C22, on examples: the five categories of sizes 0, 0, 6, 1, 5 have an
unrounded balance below 1; with the four categories of sizes 2, 1, 0, 0, moving
the single item of the second category into the first does not raise the
unrounded balance. -/
theorem balance_below_one_and_monotone_witness :
    JSNum.lt (JSNum.sub (.ofNat 1) (workloadBalance [0, 0, 6, 1, 5] 12)) (.ofNat 1) = true ∧
      JSNum.le (JSNum.sub (.ofNat 1) (workloadBalance [3, 0, 0, 0] 3))
        (JSNum.sub (.ofNat 1) (workloadBalance [2, 1, 0, 0] 3)) = true :=
  ⟨(balance_below_one_and_monotone 12 [0, 0, 6, 1, 5] rfl (by decide) (by norm_num)).1
      ⟨0, by simp, 6, by simp, by decide⟩,
    (balance_below_one_and_monotone 3 [2, 1, 0, 0] rfl (by decide) (by norm_num)).2 2
      [3, 0, 0, 0] rfl (by norm_num)
      ⟨[], [], [0, 0], 1, 2, by decide, by decide, Or.inr ⟨rfl, rfl⟩⟩⟩

end PriorityMatrix
